import Mathlib

/-!
# RISC-V pseudo instruction expansion pass

A shallow embedding of `llvm/lib/Target/RISCV/RISCVExpandPseudoInsts.cpp`:
the opcode selection tables, the expanders that build the LR/SC retry loops
and the address pairs, and the pass driver, followed by theorems about them.

Conventions of the embedding:
* `llvm_unreachable` and a failing `assert` end the compilation; both are a
  value of `Fatal` returned through `Except`.
* a block iterator is an index into the instruction list of its block, the
  `end()` iterator being the length of the list;
* a block is identified by a number (its address in the C++ program), and the
  function keeps its blocks in layout order.
-/

namespace RISCVExpandPseudo

/-! ## Fatal errors -/

/-- The ways the pass stops: one constructor per `llvm_unreachable` or `assert`
of the source file, one for an operand access of the wrong kind or out of
range, and one for the fuel of the embedded loops. -/
inductive Fatal
  | UnexpectedAtomicOrdering
  | UnexpectedLRWidth
  | UnexpectedSCWidth
  | UnexpectedAtomicRMWBinOp
  | AssertPtrIsCap
  | AssertOldValScratchUnique
  | AssertOldValMaskUnique
  | AssertScratchMaskUnique
  | AssertMaskedWidth32
  | AssertMaskedNotCap
  | BadOperand
  | UnhandledOperandInAddDisp
  | OutOfFuel
  deriving DecidableEq, Repr

/-! ## Memory orderings and read-modify-write operators -/

/-- The enumeration `llvm::AtomicOrdering`; `Unnamed v` is a value of the type
that names no enumerator, as a `static_cast` of another integer gives. -/
inductive AtomicOrdering
  | NotAtomic
  | Unordered
  | Monotonic
  | Acquire
  | Release
  | AcquireRelease
  | SequentiallyConsistent
  | Unnamed (v : Int)
  deriving DecidableEq, Repr

/-- The ordering operand is an immediate that the expanders convert with
`static_cast<AtomicOrdering>`; the enumerators have the values 0, 1, 2, 4, 5,
6 and 7, and any other value names no enumerator. -/
def AtomicOrdering.ofImm (v : Int) : AtomicOrdering :=
  if v = 0 then .NotAtomic
  else if v = 1 then .Unordered
  else if v = 2 then .Monotonic
  else if v = 4 then .Acquire
  else if v = 5 then .Release
  else if v = 6 then .AcquireRelease
  else if v = 7 then .SequentiallyConsistent
  else .Unnamed v

/-- The value of an enumerator of `llvm::AtomicOrdering`. -/
def AtomicOrdering.toImm : AtomicOrdering → Int
  | .NotAtomic => 0
  | .Unordered => 1
  | .Monotonic => 2
  | .Acquire => 4
  | .Release => 5
  | .AcquireRelease => 6
  | .SequentiallyConsistent => 7
  | .Unnamed v => v

/-- The five orderings an atomic pseudo operation may carry. -/
def AtomicOrdering.isLegal : AtomicOrdering → Bool
  | .Monotonic | .Acquire | .Release | .AcquireRelease
  | .SequentiallyConsistent => true
  | _ => false

/-- The enumeration `llvm::AtomicRMWInst::BinOp`. -/
inductive BinOp
  | Xchg | Add | Sub | And | Nand | Or | Xor | Max | Min | UMax | UMin
  | FAdd | FSub
  deriving DecidableEq, Repr

/-! ## Target opcodes -/

/-- The opcodes of the `RISCV::` enumeration that the source file names: the
pseudo opcodes of the `switch` in `expandMI` and the concrete opcodes the
expanders emit. -/
inductive RISCV
  -- pseudo opcodes
  | PseudoAtomicLoadNand32 | PseudoAtomicLoadNand64
  | PseudoMaskedAtomicSwap32 | PseudoMaskedAtomicLoadAdd32
  | PseudoMaskedAtomicLoadSub32 | PseudoMaskedAtomicLoadNand32
  | PseudoMaskedAtomicLoadMax32 | PseudoMaskedAtomicLoadMin32
  | PseudoMaskedAtomicLoadUMax32 | PseudoMaskedAtomicLoadUMin32
  | PseudoCmpXchg32 | PseudoCmpXchg64 | PseudoMaskedCmpXchg32
  | PseudoLLA | PseudoLA | PseudoLA_TLS_IE | PseudoLA_TLS_GD
  | PseudoCLGC | PseudoCLA_TLS_IE | PseudoCLC_TLS_GD
  | PseudoCmpXchgCap
  | PseudoCheriAtomicSwap8 | PseudoCheriAtomicSwap16
  | PseudoCheriAtomicLoadAdd8 | PseudoCheriAtomicLoadAdd16
  | PseudoCheriAtomicLoadAnd8 | PseudoCheriAtomicLoadAnd16
  | PseudoCheriAtomicLoadOr8 | PseudoCheriAtomicLoadOr16
  | PseudoCheriAtomicLoadXor8 | PseudoCheriAtomicLoadXor16
  | PseudoCheriAtomicLoadNand8 | PseudoCheriAtomicLoadNand16
  | PseudoCheriAtomicLoadSub8 | PseudoCheriAtomicLoadSub16
  | PseudoCheriAtomicLoadNand32 | PseudoCheriAtomicLoadNand64
  | PseudoCheriAtomicLoadMax8 | PseudoCheriAtomicLoadMax16
  | PseudoCheriAtomicLoadMin8 | PseudoCheriAtomicLoadMin16
  | PseudoCheriAtomicLoadUMax8 | PseudoCheriAtomicLoadUMax16
  | PseudoCheriAtomicLoadUMin8 | PseudoCheriAtomicLoadUMin16
  | PseudoCheriCmpXchg8 | PseudoCheriCmpXchg16
  | PseudoCheriCmpXchg32 | PseudoCheriCmpXchg64
  | PseudoCheriCmpXchgCap
  -- load-reserved, integer
  | CLR_B | CLR_B_AQ | CLR_B_AQ_RL
  | CLR_H | CLR_H_AQ | CLR_H_AQ_RL
  | CLR_W | CLR_W_AQ | CLR_W_AQ_RL
  | CLR_D | CLR_D_AQ | CLR_D_AQ_RL
  | LR_W | LR_W_AQ | LR_W_AQ_RL
  | LR_D | LR_D_AQ | LR_D_AQ_RL
  -- store-conditional, integer
  | CSC_B | CSC_B_RL | CSC_B_AQ_RL
  | CSC_H | CSC_H_RL | CSC_H_AQ_RL
  | CSC_W | CSC_W_RL | CSC_W_AQ_RL
  | CSC_D | CSC_D_RL | CSC_D_AQ_RL
  | SC_W | SC_W_RL | SC_W_AQ_RL
  | SC_D | SC_D_RL | SC_D_AQ_RL
  -- load-reserved, capability value
  | CLR_C_64 | CLR_C_AQ_64 | CLR_C_AQ_RL_64
  | CLR_C_128 | CLR_C_AQ_128 | CLR_C_AQ_RL_128
  | LR_C_64 | LR_C_AQ_64 | LR_C_AQ_RL_64
  | LR_C_128 | LR_C_AQ_128 | LR_C_AQ_RL_128
  -- store-conditional, capability value
  | CSC_C_64 | CSC_C_AQ_64 | CSC_C_AQ_RL_64
  | CSC_C_128 | CSC_C_AQ_128 | CSC_C_AQ_RL_128
  | SC_C_64 | SC_C_AQ_64 | SC_C_AQ_RL_64
  | SC_C_128 | SC_C_AQ_128 | SC_C_AQ_RL_128
  -- arithmetic, branches, address formation
  | ADD | SUB | AND | OR | XOR | XORI | ADDI | SLL | SRA
  | BNE | BGE | BGEU
  | AUIPC | AUIPCC | LD | LW | CLC_128 | CLC_64 | CLD | CLW | CIncOffsetImm
  deriving DecidableEq, Repr

/-- The opcode of an operation: one of the opcodes the source file names, or
any other opcode of the target, which the pass leaves alone. -/
inductive Opcode
  | target (o : RISCV)
  | generic (n : Nat)
  deriving DecidableEq, Repr

instance : Coe RISCV Opcode := ⟨Opcode.target⟩

/-- Whether an access is the load-reserved or the store-conditional half. -/
inductive AccessKind
  | LoadReserved
  | StoreConditional
  deriving DecidableEq, Repr

/-- What the name of a load-reserved or store-conditional opcode says: the
half, the family (`capMode`: the `C` in front, the address is a capability),
whether the value is a whole capability (`_C_`), the width in bits of the value
(for a capability value the native capability width), and the `_AQ` and `_RL`
annotations. -/
structure AtomicInfo where
  kind : AccessKind
  capMode : Bool
  capValue : Bool
  bits : Int
  aq : Bool
  rl : Bool
  deriving DecidableEq, Repr

/-- Reading of the names of the load-reserved and store-conditional opcodes. -/
def RISCV.atomicInfo : RISCV → Option AtomicInfo
  | .CLR_B => some ⟨.LoadReserved, true, false, 8, false, false⟩
  | .CLR_B_AQ => some ⟨.LoadReserved, true, false, 8, true, false⟩
  | .CLR_B_AQ_RL => some ⟨.LoadReserved, true, false, 8, true, true⟩
  | .CLR_H => some ⟨.LoadReserved, true, false, 16, false, false⟩
  | .CLR_H_AQ => some ⟨.LoadReserved, true, false, 16, true, false⟩
  | .CLR_H_AQ_RL => some ⟨.LoadReserved, true, false, 16, true, true⟩
  | .CLR_W => some ⟨.LoadReserved, true, false, 32, false, false⟩
  | .CLR_W_AQ => some ⟨.LoadReserved, true, false, 32, true, false⟩
  | .CLR_W_AQ_RL => some ⟨.LoadReserved, true, false, 32, true, true⟩
  | .CLR_D => some ⟨.LoadReserved, true, false, 64, false, false⟩
  | .CLR_D_AQ => some ⟨.LoadReserved, true, false, 64, true, false⟩
  | .CLR_D_AQ_RL => some ⟨.LoadReserved, true, false, 64, true, true⟩
  | .LR_W => some ⟨.LoadReserved, false, false, 32, false, false⟩
  | .LR_W_AQ => some ⟨.LoadReserved, false, false, 32, true, false⟩
  | .LR_W_AQ_RL => some ⟨.LoadReserved, false, false, 32, true, true⟩
  | .LR_D => some ⟨.LoadReserved, false, false, 64, false, false⟩
  | .LR_D_AQ => some ⟨.LoadReserved, false, false, 64, true, false⟩
  | .LR_D_AQ_RL => some ⟨.LoadReserved, false, false, 64, true, true⟩
  | .CSC_B => some ⟨.StoreConditional, true, false, 8, false, false⟩
  | .CSC_B_RL => some ⟨.StoreConditional, true, false, 8, false, true⟩
  | .CSC_B_AQ_RL => some ⟨.StoreConditional, true, false, 8, true, true⟩
  | .CSC_H => some ⟨.StoreConditional, true, false, 16, false, false⟩
  | .CSC_H_RL => some ⟨.StoreConditional, true, false, 16, false, true⟩
  | .CSC_H_AQ_RL => some ⟨.StoreConditional, true, false, 16, true, true⟩
  | .CSC_W => some ⟨.StoreConditional, true, false, 32, false, false⟩
  | .CSC_W_RL => some ⟨.StoreConditional, true, false, 32, false, true⟩
  | .CSC_W_AQ_RL => some ⟨.StoreConditional, true, false, 32, true, true⟩
  | .CSC_D => some ⟨.StoreConditional, true, false, 64, false, false⟩
  | .CSC_D_RL => some ⟨.StoreConditional, true, false, 64, false, true⟩
  | .CSC_D_AQ_RL => some ⟨.StoreConditional, true, false, 64, true, true⟩
  | .SC_W => some ⟨.StoreConditional, false, false, 32, false, false⟩
  | .SC_W_RL => some ⟨.StoreConditional, false, false, 32, false, true⟩
  | .SC_W_AQ_RL => some ⟨.StoreConditional, false, false, 32, true, true⟩
  | .SC_D => some ⟨.StoreConditional, false, false, 64, false, false⟩
  | .SC_D_RL => some ⟨.StoreConditional, false, false, 64, false, true⟩
  | .SC_D_AQ_RL => some ⟨.StoreConditional, false, false, 64, true, true⟩
  | .CLR_C_64 => some ⟨.LoadReserved, true, true, 64, false, false⟩
  | .CLR_C_AQ_64 => some ⟨.LoadReserved, true, true, 64, true, false⟩
  | .CLR_C_AQ_RL_64 => some ⟨.LoadReserved, true, true, 64, true, true⟩
  | .CLR_C_128 => some ⟨.LoadReserved, true, true, 128, false, false⟩
  | .CLR_C_AQ_128 => some ⟨.LoadReserved, true, true, 128, true, false⟩
  | .CLR_C_AQ_RL_128 => some ⟨.LoadReserved, true, true, 128, true, true⟩
  | .LR_C_64 => some ⟨.LoadReserved, false, true, 64, false, false⟩
  | .LR_C_AQ_64 => some ⟨.LoadReserved, false, true, 64, true, false⟩
  | .LR_C_AQ_RL_64 => some ⟨.LoadReserved, false, true, 64, true, true⟩
  | .LR_C_128 => some ⟨.LoadReserved, false, true, 128, false, false⟩
  | .LR_C_AQ_128 => some ⟨.LoadReserved, false, true, 128, true, false⟩
  | .LR_C_AQ_RL_128 => some ⟨.LoadReserved, false, true, 128, true, true⟩
  | .CSC_C_64 => some ⟨.StoreConditional, true, true, 64, false, false⟩
  | .CSC_C_AQ_64 => some ⟨.StoreConditional, true, true, 64, true, false⟩
  | .CSC_C_AQ_RL_64 => some ⟨.StoreConditional, true, true, 64, true, true⟩
  | .CSC_C_128 => some ⟨.StoreConditional, true, true, 128, false, false⟩
  | .CSC_C_AQ_128 => some ⟨.StoreConditional, true, true, 128, true, false⟩
  | .CSC_C_AQ_RL_128 => some ⟨.StoreConditional, true, true, 128, true, true⟩
  | .SC_C_64 => some ⟨.StoreConditional, false, true, 64, false, false⟩
  | .SC_C_AQ_64 => some ⟨.StoreConditional, false, true, 64, true, false⟩
  | .SC_C_AQ_RL_64 => some ⟨.StoreConditional, false, true, 64, true, true⟩
  | .SC_C_128 => some ⟨.StoreConditional, false, true, 128, false, false⟩
  | .SC_C_AQ_128 => some ⟨.StoreConditional, false, true, 128, true, false⟩
  | .SC_C_AQ_RL_128 => some ⟨.StoreConditional, false, true, 128, true, true⟩
  | _ => none

/-- The acquire annotation the selection rule puts on the load half. -/
def loadAcquire : AtomicOrdering → Bool
  | .Acquire | .AcquireRelease | .SequentiallyConsistent => true
  | _ => false

/-- The release annotation the selection rule puts on the load half. -/
def loadRelease : AtomicOrdering → Bool
  | .SequentiallyConsistent => true
  | _ => false

/-- The acquire annotation the selection rule puts on the store half. -/
def storeAcquire : AtomicOrdering → Bool
  | .SequentiallyConsistent => true
  | _ => false

/-- The release annotation the selection rule puts on the store half. -/
def storeRelease : AtomicOrdering → Bool
  | .Release | .AcquireRelease | .SequentiallyConsistent => true
  | _ => false

/-! ## Opcode selection tables -/

/-- `getLRForRMW8`. -/
def getLRForRMW8 (PtrIsCap : Bool) (Ordering : AtomicOrdering) :
    Except Fatal RISCV :=
  if !PtrIsCap then .error .AssertPtrIsCap else
  match Ordering with
  | .Monotonic => .ok .CLR_B
  | .Acquire => .ok .CLR_B_AQ
  | .Release => .ok .CLR_B
  | .AcquireRelease => .ok .CLR_B_AQ
  | .SequentiallyConsistent => .ok .CLR_B_AQ_RL
  | _ => .error .UnexpectedAtomicOrdering

/-- `getSCForRMW8`. -/
def getSCForRMW8 (PtrIsCap : Bool) (Ordering : AtomicOrdering) :
    Except Fatal RISCV :=
  if !PtrIsCap then .error .AssertPtrIsCap else
  match Ordering with
  | .Monotonic => .ok .CSC_B
  | .Acquire => .ok .CSC_B
  | .Release => .ok .CSC_B_RL
  | .AcquireRelease => .ok .CSC_B_RL
  | .SequentiallyConsistent => .ok .CSC_B_AQ_RL
  | _ => .error .UnexpectedAtomicOrdering

/-- `getLRForRMW16`. -/
def getLRForRMW16 (PtrIsCap : Bool) (Ordering : AtomicOrdering) :
    Except Fatal RISCV :=
  if !PtrIsCap then .error .AssertPtrIsCap else
  match Ordering with
  | .Monotonic => .ok .CLR_H
  | .Acquire => .ok .CLR_H_AQ
  | .Release => .ok .CLR_H
  | .AcquireRelease => .ok .CLR_H_AQ
  | .SequentiallyConsistent => .ok .CLR_H_AQ_RL
  | _ => .error .UnexpectedAtomicOrdering

/-- `getSCForRMW16`. -/
def getSCForRMW16 (PtrIsCap : Bool) (Ordering : AtomicOrdering) :
    Except Fatal RISCV :=
  if !PtrIsCap then .error .AssertPtrIsCap else
  match Ordering with
  | .Monotonic => .ok .CSC_H
  | .Acquire => .ok .CSC_H
  | .Release => .ok .CSC_H_RL
  | .AcquireRelease => .ok .CSC_H_RL
  | .SequentiallyConsistent => .ok .CSC_H_AQ_RL
  | _ => .error .UnexpectedAtomicOrdering

/-- `getLRForRMW32`. -/
def getLRForRMW32 (PtrIsCap : Bool) (Ordering : AtomicOrdering) :
    Except Fatal RISCV :=
  match Ordering with
  | .Monotonic => .ok (if PtrIsCap then .CLR_W else .LR_W)
  | .Acquire => .ok (if PtrIsCap then .CLR_W_AQ else .LR_W_AQ)
  | .Release => .ok (if PtrIsCap then .CLR_W else .LR_W)
  | .AcquireRelease => .ok (if PtrIsCap then .CLR_W_AQ else .LR_W_AQ)
  | .SequentiallyConsistent =>
    .ok (if PtrIsCap then .CLR_W_AQ_RL else .LR_W_AQ_RL)
  | _ => .error .UnexpectedAtomicOrdering

/-- `getSCForRMW32`. -/
def getSCForRMW32 (PtrIsCap : Bool) (Ordering : AtomicOrdering) :
    Except Fatal RISCV :=
  match Ordering with
  | .Monotonic => .ok (if PtrIsCap then .CSC_W else .SC_W)
  | .Acquire => .ok (if PtrIsCap then .CSC_W else .SC_W)
  | .Release => .ok (if PtrIsCap then .CSC_W_RL else .SC_W_RL)
  | .AcquireRelease => .ok (if PtrIsCap then .CSC_W_RL else .SC_W_RL)
  | .SequentiallyConsistent =>
    .ok (if PtrIsCap then .CSC_W_AQ_RL else .SC_W_AQ_RL)
  | _ => .error .UnexpectedAtomicOrdering

/-- `getLRForRMW64`. -/
def getLRForRMW64 (PtrIsCap : Bool) (Ordering : AtomicOrdering) :
    Except Fatal RISCV :=
  match Ordering with
  | .Monotonic => .ok (if PtrIsCap then .CLR_D else .LR_D)
  | .Acquire => .ok (if PtrIsCap then .CLR_D_AQ else .LR_D_AQ)
  | .Release => .ok (if PtrIsCap then .CLR_D else .LR_D)
  | .AcquireRelease => .ok (if PtrIsCap then .CLR_D_AQ else .LR_D_AQ)
  | .SequentiallyConsistent =>
    .ok (if PtrIsCap then .CLR_D_AQ_RL else .LR_D_AQ_RL)
  | _ => .error .UnexpectedAtomicOrdering

/-- `getSCForRMW64`. -/
def getSCForRMW64 (PtrIsCap : Bool) (Ordering : AtomicOrdering) :
    Except Fatal RISCV :=
  match Ordering with
  | .Monotonic => .ok (if PtrIsCap then .CSC_D else .SC_D)
  | .Acquire => .ok (if PtrIsCap then .CSC_D else .SC_D)
  | .Release => .ok (if PtrIsCap then .CSC_D_RL else .SC_D_RL)
  | .AcquireRelease => .ok (if PtrIsCap then .CSC_D_RL else .SC_D_RL)
  | .SequentiallyConsistent =>
    .ok (if PtrIsCap then .CSC_D_AQ_RL else .SC_D_AQ_RL)
  | _ => .error .UnexpectedAtomicOrdering

/-- `getLRForRMW`. -/
def getLRForRMW (PtrIsCap : Bool) (Ordering : AtomicOrdering) (Width : Int) :
    Except Fatal RISCV :=
  if Width = 8 then getLRForRMW8 PtrIsCap Ordering
  else if Width = 16 then getLRForRMW16 PtrIsCap Ordering
  else if Width = 32 then getLRForRMW32 PtrIsCap Ordering
  else if Width = 64 then getLRForRMW64 PtrIsCap Ordering
  else .error .UnexpectedLRWidth

/-- `getSCForRMW`. -/
def getSCForRMW (PtrIsCap : Bool) (Ordering : AtomicOrdering) (Width : Int) :
    Except Fatal RISCV :=
  if Width = 8 then getSCForRMW8 PtrIsCap Ordering
  else if Width = 16 then getSCForRMW16 PtrIsCap Ordering
  else if Width = 32 then getSCForRMW32 PtrIsCap Ordering
  else if Width = 64 then getSCForRMW64 PtrIsCap Ordering
  else .error .UnexpectedSCWidth

/-- `getLRForRMWCap`. -/
def getLRForRMWCap (PtrIsCap : Bool) (Ordering : AtomicOrdering) (CLen : Int) :
    Except Fatal RISCV :=
  match Ordering with
  | .Monotonic =>
    .ok (if CLen = 64 then (if PtrIsCap then .CLR_C_64 else .LR_C_64)
         else (if PtrIsCap then .CLR_C_128 else .LR_C_128))
  | .Acquire =>
    .ok (if CLen = 64 then (if PtrIsCap then .CLR_C_AQ_64 else .LR_C_AQ_64)
         else (if PtrIsCap then .CLR_C_AQ_128 else .LR_C_AQ_128))
  | .Release =>
    .ok (if CLen = 64 then (if PtrIsCap then .CLR_C_64 else .LR_C_64)
         else (if PtrIsCap then .CLR_C_128 else .LR_C_128))
  | .AcquireRelease =>
    .ok (if CLen = 64 then (if PtrIsCap then .CLR_C_AQ_64 else .LR_C_AQ_64)
         else (if PtrIsCap then .CLR_C_AQ_128 else .LR_C_AQ_128))
  | .SequentiallyConsistent =>
    .ok (if CLen = 64
         then (if PtrIsCap then .CLR_C_AQ_RL_64 else .LR_C_AQ_RL_64)
         else (if PtrIsCap then .CLR_C_AQ_RL_128 else .LR_C_AQ_RL_128))
  | _ => .error .UnexpectedAtomicOrdering

/-- `getSCForRMWCap`. -/
def getSCForRMWCap (PtrIsCap : Bool) (Ordering : AtomicOrdering) (CLen : Int) :
    Except Fatal RISCV :=
  match Ordering with
  | .Monotonic =>
    .ok (if CLen = 64 then (if PtrIsCap then .CSC_C_64 else .SC_C_64)
         else (if PtrIsCap then .CSC_C_128 else .SC_C_128))
  | .Acquire =>
    .ok (if CLen = 64 then (if PtrIsCap then .CSC_C_AQ_64 else .SC_C_AQ_64)
         else (if PtrIsCap then .CSC_C_AQ_128 else .SC_C_AQ_128))
  | .Release =>
    .ok (if CLen = 64 then (if PtrIsCap then .CSC_C_64 else .SC_C_64)
         else (if PtrIsCap then .CSC_C_128 else .SC_C_128))
  | .AcquireRelease =>
    .ok (if CLen = 64 then (if PtrIsCap then .CSC_C_AQ_64 else .SC_C_AQ_64)
         else (if PtrIsCap then .CSC_C_AQ_128 else .SC_C_AQ_128))
  | .SequentiallyConsistent =>
    .ok (if CLen = 64
         then (if PtrIsCap then .CSC_C_AQ_RL_64 else .SC_C_AQ_RL_64)
         else (if PtrIsCap then .CSC_C_AQ_RL_128 else .SC_C_AQ_RL_128))
  | _ => .error .UnexpectedAtomicOrdering

/-! ## Operations, blocks and functions -/

/-- A register: `NoRegister`, an integer register `X n`, or a capability
register `C n`. -/
inductive Register
  | NoRegister
  | X (n : Nat)
  | C (n : Nat)
  deriving DecidableEq, Repr

/-- The register `RISCV::X0`, which reads as zero. -/
def X0 : Register := .X 0

/-- The relocation classes of `RISCVII` that the source file names, `MO_None`
(no flag, the value 0), and any other flag of the target. -/
inductive TargetFlag
  | MO_None
  | MO_PCREL_LO
  | MO_PCREL_HI
  | MO_GOT_HI
  | MO_TLS_GOT_HI
  | MO_TLS_GD_HI
  | MO_CAPTAB_PCREL_HI
  | MO_TLS_IE_CAPTAB_PCREL_HI
  | MO_TLS_GD_CAPTAB_PCREL_HI
  | Other (n : Nat)
  deriving DecidableEq, Repr

/-- The kinds of symbolic address operand. -/
inductive SymKind
  | ConstantPoolIndex
  | GlobalAddress
  | BlockAddress
  | ExternalSymbol
  deriving DecidableEq, Repr

/-- An operand of an operation: a register, an immediate, a block reference
with its relocation class, or a symbolic address with offset and relocation
class. The flags of a register operand (def, kill, ...) are not part of the
model. -/
inductive MachineOperand
  | Reg (r : Register)
  | Imm (v : Int)
  | MBB (b : Nat) (flags : TargetFlag)
  | Sym (kind : SymKind) (ref : Nat) (offset : Int) (flags : TargetFlag)
  deriving DecidableEq, Repr

/-- An operation: opcode, operand list, debug location. -/
structure MachineInstr where
  opcode : Opcode
  operands : List MachineOperand
  DL : Nat
  deriving DecidableEq, Repr

/-- `MI.getOperand(i).getReg()`; both the index and the operand kind are
asserted by the accessors. -/
def MachineInstr.getReg (MI : MachineInstr) (i : Nat) : Except Fatal Register :=
  match MI.operands[i]? with
  | some (.Reg r) => .ok r
  | _ => .error .BadOperand

/-- `MI.getOperand(i).getImm()`. -/
def MachineInstr.getImm (MI : MachineInstr) (i : Nat) : Except Fatal Int :=
  match MI.operands[i]? with
  | some (.Imm v) => .ok v
  | _ => .error .BadOperand

/-- `MI.getOperand(i)`. -/
def MachineInstr.getOperand (MI : MachineInstr) (i : Nat) :
    Except Fatal MachineOperand :=
  match MI.operands[i]? with
  | some op => .ok op
  | none => .error .BadOperand

/-- `MI.getNumOperands()`. -/
def MachineInstr.getNumOperands (MI : MachineInstr) : Nat := MI.operands.length

/-- A basic block: its identity, the IR block it comes from, its operations in
order, its successor list, its live-in set and the flag that keeps its label. -/
structure MachineBasicBlock where
  id : Nat
  BasicBlock : Nat
  insts : List MachineInstr
  succs : List Nat
  LiveIns : List Register
  LabelMustBeEmitted : Bool
  deriving DecidableEq, Repr

/-- A function: its blocks in layout order, the identity the next created block
receives, and the properties of target and subtarget the expanders ask for. -/
structure MachineFunction where
  Blocks : List MachineBasicBlock
  nextBlock : Nat
  is64Bit : Bool
  isPositionIndependent : Bool
  CLen : Int
  deriving DecidableEq, Repr

/-- The liveness utility behind `computeAndAddLiveIns`, an external
collaborator: from the blocks of the function (for the live-in sets of the
successors) and the block, the registers live on entry to the block. The pass
is embedded for an arbitrary such function. -/
abbrev LiveInsOracle := List MachineBasicBlock → MachineBasicBlock → List Register

/-- Modelled from the spec: `MachineFunction::CreateMachineBasicBlock` is not in
src/ ("blocks supporting creation"); the new block has a fresh identity, no
operations, no successors and an empty live-in set ("New blocks created by an
expander start with empty live-in sets"). -/
def MachineFunction.CreateMachineBasicBlock (MF : MachineFunction) (BB : Nat) :
    MachineBasicBlock × MachineFunction :=
  (⟨MF.nextBlock, BB, [], [], [], false⟩, { MF with nextBlock := MF.nextBlock + 1 })

/-- Modelled from the spec: `MachineFunction::insert` is not in src/ ("ordered
insertion into the function"). The expanders insert their new blocks one after
the other behind the block at position `I`; here the block at `I` and the
blocks inserted behind it are put in place together, in their final state. -/
def MachineFunction.insert (MF : MachineFunction) (I : Nat)
    (Bs : List MachineBasicBlock) : MachineFunction :=
  { MF with Blocks := MF.Blocks.take I ++ Bs ++ MF.Blocks.drop (I + 1) }

/-- Modelled from the spec: `MachineBasicBlock::addSuccessor` is not in src/
("successor-list mutation"); the successor goes to the end of the list. -/
def MachineBasicBlock.addSuccessor (B : MachineBasicBlock) (Succ : Nat) :
    MachineBasicBlock :=
  { B with succs := B.succs ++ [Succ] }

/-- Modelled from the spec: `MachineBasicBlock::splice(end(), From, First,
From->end())` is not in src/ ("trailing operations of the original block moved
into the new terminal block"): the operations of `From` from position `First`
on move to the end of `To`. The result is the pair of `To` and `From`. -/
def MachineBasicBlock.splice (To From : MachineBasicBlock) (First : Nat) :
    MachineBasicBlock × MachineBasicBlock :=
  ({ To with insts := To.insts ++ From.insts.drop First },
   { From with insts := From.insts.take First })

/-- Modelled from the spec: `MachineBasicBlock::transferSuccessors` and
`transferSuccessorsAndUpdatePHIs` are not in src/ ("inherits its successor
edges"): every successor of `From` becomes a successor of `To`, in order, and
`From` is left without successors. At this stage of the pipeline no PHI
operation exists, so there is none to update. The result is the pair of `To`
and `From`. -/
def MachineBasicBlock.transferSuccessors (To From : MachineBasicBlock) :
    MachineBasicBlock × MachineBasicBlock :=
  ({ To with succs := To.succs ++ From.succs }, { From with succs := [] })

/-- Modelled from the spec: `MachineInstr::eraseFromParent` is not in src/
("operations supporting insertion/removal"): the operation at position `i` of
its block is removed. -/
def MachineBasicBlock.erase (B : MachineBasicBlock) (i : Nat) : MachineBasicBlock :=
  { B with insts := B.insts.eraseIdx i }

/-- `NewMBB->setLabelMustBeEmitted()`. -/
def MachineBasicBlock.setLabelMustBeEmitted (B : MachineBasicBlock) :
    MachineBasicBlock :=
  { B with LabelMustBeEmitted := true }

/-- Modelled from the spec: `computeAndAddLiveIns` is not in src/ ("a liveness
utility computeLiveIns(block) invoked once per newly created block"): the
registers the utility finds live are added to the live-in set of the block. -/
def computeAndAddLiveIns (LV : LiveInsOracle) (Blocks : List MachineBasicBlock)
    (B : MachineBasicBlock) : MachineBasicBlock :=
  { B with LiveIns := B.LiveIns ++ LV Blocks B }

/-- Modelled from the spec: `BuildMI(MBB, DL, TII->get(Opc), ...)` with its
chain of `.addReg`, `.addImm`, `.addMBB` is not in src/ ("operations supporting
insertion"): an operation with the given opcode, operands and debug location is
appended to the block. A destination register given to `BuildMI` is the first
operand. -/
def BuildMI (B : MachineBasicBlock) (DL : Nat) (Opc : RISCV)
    (ops : List MachineOperand) : MachineBasicBlock :=
  { B with insts := B.insts ++ [⟨Opc, ops, DL⟩] }

/-- Modelled from the spec: `MachineInstrBuilder::addDisp(Disp, off, Flags)` is
not in src/ ("symbol/relocation tagging on address operands, consumed
opaquely"): the displacement operand is copied with `off` added to its offset
and, unless `Flags` is 0, with `Flags` as its relocation class; an immediate
is copied with `off` added; other operand kinds are not handled. -/
def addDisp (Disp : MachineOperand) (off : Int) (TargetFlags : TargetFlag) :
    Except Fatal MachineOperand :=
  match Disp with
  | .Imm v => .ok (.Imm (v + off))
  | .Sym .ConstantPoolIndex r o f =>
    .ok (.Sym .ConstantPoolIndex r (o + off)
      (if TargetFlags = .MO_None then f else TargetFlags))
  | .Sym .GlobalAddress r o f =>
    .ok (.Sym .GlobalAddress r (o + off)
      (if TargetFlags = .MO_None then f else TargetFlags))
  | .Sym .BlockAddress r o f =>
    .ok (.Sym .BlockAddress r (o + off)
      (if TargetFlags = .MO_None then f else TargetFlags))
  | _ => .error .UnhandledOperandInAddDisp

/-- Modelled from the spec: `TRI->getSubReg(Reg, RISCV::sub_cap_addr)` is not in
src/ ("the address sub-field of the loaded capability"): the address
sub-register of the capability register `C n` is the integer register `X n`;
a register without that sub-register gives `NoRegister`. -/
def getSubReg_sub_cap_addr : Register → Register
  | .C n => .X n
  | _ => .NoRegister

/-- A failing `assert`. -/
def assert (cond : Bool) (e : Fatal) : Except Fatal Unit :=
  if cond then .ok () else .error e

/-! ## Read-modify-write expansion -/

/-- `doAtomicBinOpExpansion`: the body of the retry loop for an unmasked
read-modify-write, appended to `LoopMBB`. The parameters `ThisMBB` and
`DoneMBB` of the source are not used by it. -/
def doAtomicBinOpExpansion (MI : MachineInstr) (DL : Nat)
    (LoopMBB : MachineBasicBlock) (BinOp : BinOp) (Width : Int)
    (PtrIsCap : Bool) : Except Fatal MachineBasicBlock := do
  let DestReg ← MI.getReg 0
  let ScratchReg ← MI.getReg 1
  let AddrReg ← MI.getReg 2
  let IncrReg ← MI.getReg 3
  let Ordering := AtomicOrdering.ofImm (← MI.getImm 4)
  let LR ← getLRForRMW PtrIsCap Ordering Width
  let LoopMBB := BuildMI LoopMBB DL LR [.Reg DestReg, .Reg AddrReg]
  let LoopMBB ← match BinOp with
    | .Xchg =>
      .ok (BuildMI LoopMBB DL .ADD [.Reg ScratchReg, .Reg X0, .Reg IncrReg])
    | .Add =>
      .ok (BuildMI LoopMBB DL .ADD [.Reg ScratchReg, .Reg DestReg, .Reg IncrReg])
    | .Sub =>
      .ok (BuildMI LoopMBB DL .SUB [.Reg ScratchReg, .Reg DestReg, .Reg IncrReg])
    | .And =>
      .ok (BuildMI LoopMBB DL .AND [.Reg ScratchReg, .Reg DestReg, .Reg IncrReg])
    | .Or =>
      .ok (BuildMI LoopMBB DL .OR [.Reg ScratchReg, .Reg DestReg, .Reg IncrReg])
    | .Xor =>
      .ok (BuildMI LoopMBB DL .XOR [.Reg ScratchReg, .Reg DestReg, .Reg IncrReg])
    | .Nand =>
      .ok (BuildMI
        (BuildMI LoopMBB DL .AND [.Reg ScratchReg, .Reg DestReg, .Reg IncrReg])
        DL .XORI [.Reg ScratchReg, .Reg ScratchReg, .Imm (-1)])
    | _ => .error .UnexpectedAtomicRMWBinOp
  let SC ← getSCForRMW PtrIsCap Ordering Width
  let LoopMBB := BuildMI LoopMBB DL SC [.Reg ScratchReg, .Reg AddrReg, .Reg ScratchReg]
  .ok (BuildMI LoopMBB DL .BNE
    [.Reg ScratchReg, .Reg X0, .MBB LoopMBB.id .MO_None])

/-- `insertMaskedMerge`: `r = oldval ^ ((oldval ^ newval) & masktargetdata)`,
appended to `MBB`. -/
def insertMaskedMerge (DL : Nat) (MBB : MachineBasicBlock)
    (DestReg OldValReg NewValReg MaskReg ScratchReg : Register) :
    Except Fatal MachineBasicBlock := do
  assert (OldValReg != ScratchReg) .AssertOldValScratchUnique
  assert (OldValReg != MaskReg) .AssertOldValMaskUnique
  assert (ScratchReg != MaskReg) .AssertScratchMaskUnique
  let MBB := BuildMI MBB DL .XOR [.Reg ScratchReg, .Reg OldValReg, .Reg NewValReg]
  let MBB := BuildMI MBB DL .AND [.Reg ScratchReg, .Reg ScratchReg, .Reg MaskReg]
  .ok (BuildMI MBB DL .XOR [.Reg DestReg, .Reg OldValReg, .Reg ScratchReg])

/-- `doMaskedAtomicBinOpExpansion`: the body of the retry loop for a masked
read-modify-write, appended to `LoopMBB`. -/
def doMaskedAtomicBinOpExpansion (MI : MachineInstr) (DL : Nat)
    (LoopMBB : MachineBasicBlock) (BinOp : BinOp) (Width : Int) :
    Except Fatal MachineBasicBlock := do
  assert (Width == 32) .AssertMaskedWidth32
  let DestReg ← MI.getReg 0
  let ScratchReg ← MI.getReg 1
  let AddrReg ← MI.getReg 2
  let IncrReg ← MI.getReg 3
  let MaskReg ← MI.getReg 4
  let Ordering := AtomicOrdering.ofImm (← MI.getImm 5)
  let LR ← getLRForRMW32 false Ordering
  let LoopMBB := BuildMI LoopMBB DL LR [.Reg DestReg, .Reg AddrReg]
  let LoopMBB ← match BinOp with
    | .Xchg =>
      .ok (BuildMI LoopMBB DL .ADDI [.Reg ScratchReg, .Reg IncrReg, .Imm 0])
    | .Add =>
      .ok (BuildMI LoopMBB DL .ADD [.Reg ScratchReg, .Reg DestReg, .Reg IncrReg])
    | .Sub =>
      .ok (BuildMI LoopMBB DL .SUB [.Reg ScratchReg, .Reg DestReg, .Reg IncrReg])
    | .Nand =>
      .ok (BuildMI
        (BuildMI LoopMBB DL .AND [.Reg ScratchReg, .Reg DestReg, .Reg IncrReg])
        DL .XORI [.Reg ScratchReg, .Reg ScratchReg, .Imm (-1)])
    | _ => .error .UnexpectedAtomicRMWBinOp
  let LoopMBB ← insertMaskedMerge DL LoopMBB ScratchReg DestReg ScratchReg MaskReg
    ScratchReg
  let SC ← getSCForRMW32 false Ordering
  let LoopMBB := BuildMI LoopMBB DL SC [.Reg ScratchReg, .Reg AddrReg, .Reg ScratchReg]
  .ok (BuildMI LoopMBB DL .BNE
    [.Reg ScratchReg, .Reg X0, .MBB LoopMBB.id .MO_None])

/-- `RISCVExpandPseudo::expandAtomicBinOp` on the operation at position `MBBI`
of the block at position `I` of the function. The result is the function, the
iterator `NextMBBI` and the returned flag. -/
def expandAtomicBinOp (LV : LiveInsOracle) (MF : MachineFunction) (I MBBI : Nat)
    (BinOp : BinOp) (IsMasked : Bool) (Width : Int) (PtrIsCap : Bool) :
    Except Fatal (MachineFunction × Nat × Bool) := do
  assert (!(IsMasked && PtrIsCap)) .AssertMaskedNotCap
  let MBB ← (MF.Blocks[I]?).elim (.error .BadOperand) .ok
  let MI ← (MBB.insts[MBBI]?).elim (.error .BadOperand) .ok
  let DL := MI.DL
  let (LoopMBB, MF) := MF.CreateMachineBasicBlock MBB.BasicBlock
  let (DoneMBB, MF) := MF.CreateMachineBasicBlock MBB.BasicBlock
  -- Set up successors and transfer remaining instructions to DoneMBB.
  let LoopMBB := LoopMBB.addSuccessor LoopMBB.id
  let LoopMBB := LoopMBB.addSuccessor DoneMBB.id
  let MIPos := DoneMBB.insts.length
  let (DoneMBB, MBB) := DoneMBB.splice MBB MBBI
  let (DoneMBB, MBB) := DoneMBB.transferSuccessors MBB
  let MBB := MBB.addSuccessor LoopMBB.id
  let LoopMBB ←
    if !IsMasked then doAtomicBinOpExpansion MI DL LoopMBB BinOp Width PtrIsCap
    else doMaskedAtomicBinOpExpansion MI DL LoopMBB BinOp Width
  let NextMBBI := MBB.insts.length
  let DoneMBB := DoneMBB.erase MIPos
  let LoopMBB := computeAndAddLiveIns LV (MF.insert I [MBB, LoopMBB, DoneMBB]).Blocks
    LoopMBB
  let DoneMBB := computeAndAddLiveIns LV (MF.insert I [MBB, LoopMBB, DoneMBB]).Blocks
    DoneMBB
  .ok (MF.insert I [MBB, LoopMBB, DoneMBB], NextMBBI, true)

/-! ## Min/max expansion -/

/-- `insertSext`: shift left then arithmetic shift right by `ShamtReg`. -/
def insertSext (DL : Nat) (MBB : MachineBasicBlock) (ValReg ShamtReg : Register) :
    MachineBasicBlock :=
  let MBB := BuildMI MBB DL .SLL [.Reg ValReg, .Reg ValReg, .Reg ShamtReg]
  BuildMI MBB DL .SRA [.Reg ValReg, .Reg ValReg, .Reg ShamtReg]

/-- `RISCVExpandPseudo::expandAtomicMinMaxOp`. -/
def expandAtomicMinMaxOp (LV : LiveInsOracle) (MF : MachineFunction) (I MBBI : Nat)
    (BinOp : BinOp) (IsMasked : Bool) (Width : Int) (PtrIsCap : Bool) :
    Except Fatal (MachineFunction × Nat × Bool) := do
  let MBB ← (MF.Blocks[I]?).elim (.error .BadOperand) .ok
  let MI ← (MBB.insts[MBBI]?).elim (.error .BadOperand) .ok
  let DL := MI.DL
  let (LoopHeadMBB, MF) := MF.CreateMachineBasicBlock MBB.BasicBlock
  let (LoopIfBodyMBB, MF) := MF.CreateMachineBasicBlock MBB.BasicBlock
  let (LoopTailMBB, MF) := MF.CreateMachineBasicBlock MBB.BasicBlock
  let (DoneMBB, MF) := MF.CreateMachineBasicBlock MBB.BasicBlock
  -- Set up successors and transfer remaining instructions to DoneMBB.
  let LoopHeadMBB := LoopHeadMBB.addSuccessor LoopIfBodyMBB.id
  let LoopHeadMBB := LoopHeadMBB.addSuccessor LoopTailMBB.id
  let LoopIfBodyMBB := LoopIfBodyMBB.addSuccessor LoopTailMBB.id
  let LoopTailMBB := LoopTailMBB.addSuccessor LoopHeadMBB.id
  let LoopTailMBB := LoopTailMBB.addSuccessor DoneMBB.id
  let MIPos := DoneMBB.insts.length
  let (DoneMBB, MBB) := DoneMBB.splice MBB MBBI
  let (DoneMBB, MBB) := DoneMBB.transferSuccessors MBB
  let MBB := MBB.addSuccessor LoopHeadMBB.id
  let (LoopHeadMBB, LoopIfBodyMBB, LoopTailMBB) ←
    if IsMasked then do
      assert (!PtrIsCap) .AssertMaskedNotCap
      assert (Width == 32) .AssertMaskedWidth32
      let DestReg ← MI.getReg 0
      let Scratch1Reg ← MI.getReg 1
      let Scratch2Reg ← MI.getReg 2
      let AddrReg ← MI.getReg 3
      let IncrReg ← MI.getReg 4
      let MaskReg ← MI.getReg 5
      let IsSigned := BinOp == .Min || BinOp == .Max
      let Ordering := AtomicOrdering.ofImm (← MI.getImm (if IsSigned then 7 else 6))
      let LR ← getLRForRMW32 PtrIsCap Ordering
      let LoopHeadMBB := BuildMI LoopHeadMBB DL LR [.Reg DestReg, .Reg AddrReg]
      let LoopHeadMBB := BuildMI LoopHeadMBB DL .AND
        [.Reg Scratch2Reg, .Reg DestReg, .Reg MaskReg]
      let LoopHeadMBB := BuildMI LoopHeadMBB DL .ADDI
        [.Reg Scratch1Reg, .Reg DestReg, .Imm 0]
      let LoopHeadMBB ← match BinOp with
        | .Max => do
          let LoopHeadMBB := insertSext DL LoopHeadMBB Scratch2Reg (← MI.getReg 6)
          .ok (BuildMI LoopHeadMBB DL .BGE
            [.Reg Scratch2Reg, .Reg IncrReg, .MBB LoopTailMBB.id .MO_None])
        | .Min => do
          let LoopHeadMBB := insertSext DL LoopHeadMBB Scratch2Reg (← MI.getReg 6)
          .ok (BuildMI LoopHeadMBB DL .BGE
            [.Reg IncrReg, .Reg Scratch2Reg, .MBB LoopTailMBB.id .MO_None])
        | .UMax =>
          .ok (BuildMI LoopHeadMBB DL .BGEU
            [.Reg Scratch2Reg, .Reg IncrReg, .MBB LoopTailMBB.id .MO_None])
        | .UMin =>
          .ok (BuildMI LoopHeadMBB DL .BGEU
            [.Reg IncrReg, .Reg Scratch2Reg, .MBB LoopTailMBB.id .MO_None])
        | _ => .error .UnexpectedAtomicRMWBinOp
      let LoopIfBodyMBB ← insertMaskedMerge DL LoopIfBodyMBB Scratch1Reg DestReg
        IncrReg MaskReg Scratch1Reg
      let SC ← getSCForRMW32 PtrIsCap Ordering
      let LoopTailMBB := BuildMI LoopTailMBB DL SC
        [.Reg Scratch1Reg, .Reg AddrReg, .Reg Scratch1Reg]
      let LoopTailMBB := BuildMI LoopTailMBB DL .BNE
        [.Reg Scratch1Reg, .Reg X0, .MBB LoopHeadMBB.id .MO_None]
      pure (LoopHeadMBB, LoopIfBodyMBB, LoopTailMBB)
    else do
      let DestReg ← MI.getReg 0
      let ScratchReg ← MI.getReg 1
      let AddrReg ← MI.getReg 2
      let IncrReg ← MI.getReg 3
      let Ordering := AtomicOrdering.ofImm (← MI.getImm 4)
      let LR ← getLRForRMW PtrIsCap Ordering Width
      let LoopHeadMBB := BuildMI LoopHeadMBB DL LR [.Reg DestReg, .Reg AddrReg]
      let LoopHeadMBB := BuildMI LoopHeadMBB DL .ADDI
        [.Reg ScratchReg, .Reg DestReg, .Imm 0]
      let LoopHeadMBB ← match BinOp with
        | .Max =>
          .ok (BuildMI LoopHeadMBB DL .BGE
            [.Reg ScratchReg, .Reg IncrReg, .MBB LoopTailMBB.id .MO_None])
        | .Min =>
          .ok (BuildMI LoopHeadMBB DL .BGE
            [.Reg IncrReg, .Reg ScratchReg, .MBB LoopTailMBB.id .MO_None])
        | .UMax =>
          .ok (BuildMI LoopHeadMBB DL .BGEU
            [.Reg ScratchReg, .Reg IncrReg, .MBB LoopTailMBB.id .MO_None])
        | .UMin =>
          .ok (BuildMI LoopHeadMBB DL .BGEU
            [.Reg IncrReg, .Reg ScratchReg, .MBB LoopTailMBB.id .MO_None])
        | _ => .error .UnexpectedAtomicRMWBinOp
      let LoopIfBodyMBB := BuildMI LoopIfBodyMBB DL .ADDI
        [.Reg ScratchReg, .Reg IncrReg, .Imm 0]
      let SC ← getSCForRMW PtrIsCap Ordering Width
      let LoopTailMBB := BuildMI LoopTailMBB DL SC
        [.Reg ScratchReg, .Reg AddrReg, .Reg ScratchReg]
      let LoopTailMBB := BuildMI LoopTailMBB DL .BNE
        [.Reg ScratchReg, .Reg X0, .MBB LoopHeadMBB.id .MO_None]
      pure (LoopHeadMBB, LoopIfBodyMBB, LoopTailMBB)
  let NextMBBI := MBB.insts.length
  let DoneMBB := DoneMBB.erase MIPos
  let LoopHeadMBB := computeAndAddLiveIns LV
    (MF.insert I [MBB, LoopHeadMBB, LoopIfBodyMBB, LoopTailMBB, DoneMBB]).Blocks
    LoopHeadMBB
  let LoopIfBodyMBB := computeAndAddLiveIns LV
    (MF.insert I [MBB, LoopHeadMBB, LoopIfBodyMBB, LoopTailMBB, DoneMBB]).Blocks
    LoopIfBodyMBB
  let LoopTailMBB := computeAndAddLiveIns LV
    (MF.insert I [MBB, LoopHeadMBB, LoopIfBodyMBB, LoopTailMBB, DoneMBB]).Blocks
    LoopTailMBB
  let DoneMBB := computeAndAddLiveIns LV
    (MF.insert I [MBB, LoopHeadMBB, LoopIfBodyMBB, LoopTailMBB, DoneMBB]).Blocks
    DoneMBB
  .ok (MF.insert I [MBB, LoopHeadMBB, LoopIfBodyMBB, LoopTailMBB, DoneMBB],
    NextMBBI, true)

/-! ## Compare-and-swap expansion -/

/-- `RISCVExpandPseudo::expandAtomicCmpXchg`. -/
def expandAtomicCmpXchg (LV : LiveInsOracle) (MF : MachineFunction) (I MBBI : Nat)
    (IsMasked : Bool) (Width : Int) (PtrIsCap : Bool) :
    Except Fatal (MachineFunction × Nat × Bool) := do
  let MBB ← (MF.Blocks[I]?).elim (.error .BadOperand) .ok
  let MI ← (MBB.insts[MBBI]?).elim (.error .BadOperand) .ok
  let DL := MI.DL
  let (LoopHeadMBB, MF) := MF.CreateMachineBasicBlock MBB.BasicBlock
  let (LoopTailMBB, MF) := MF.CreateMachineBasicBlock MBB.BasicBlock
  let (DoneMBB, MF) := MF.CreateMachineBasicBlock MBB.BasicBlock
  -- Set up successors and transfer remaining instructions to DoneMBB.
  let LoopHeadMBB := LoopHeadMBB.addSuccessor LoopTailMBB.id
  let LoopHeadMBB := LoopHeadMBB.addSuccessor DoneMBB.id
  let LoopTailMBB := LoopTailMBB.addSuccessor DoneMBB.id
  let LoopTailMBB := LoopTailMBB.addSuccessor LoopHeadMBB.id
  let MIPos := DoneMBB.insts.length
  let (DoneMBB, MBB) := DoneMBB.splice MBB MBBI
  let (DoneMBB, MBB) := DoneMBB.transferSuccessors MBB
  let MBB := MBB.addSuccessor LoopHeadMBB.id
  let DestReg ← MI.getReg 0
  let ScratchReg ← MI.getReg 1
  let AddrReg ← MI.getReg 2
  let CmpValReg ← MI.getReg 3
  let NewValReg ← MI.getReg 4
  let Ordering := AtomicOrdering.ofImm (← MI.getImm (if IsMasked then 6 else 5))
  let (LoopHeadMBB, LoopTailMBB) ←
    if !IsMasked then do
      let LR ← getLRForRMW PtrIsCap Ordering Width
      let LoopHeadMBB := BuildMI LoopHeadMBB DL LR [.Reg DestReg, .Reg AddrReg]
      let LoopHeadMBB := BuildMI LoopHeadMBB DL .BNE
        [.Reg DestReg, .Reg CmpValReg, .MBB DoneMBB.id .MO_None]
      let SC ← getSCForRMW PtrIsCap Ordering Width
      let LoopTailMBB := BuildMI LoopTailMBB DL SC
        [.Reg ScratchReg, .Reg AddrReg, .Reg NewValReg]
      let LoopTailMBB := BuildMI LoopTailMBB DL .BNE
        [.Reg ScratchReg, .Reg X0, .MBB LoopHeadMBB.id .MO_None]
      pure (LoopHeadMBB, LoopTailMBB)
    else do
      assert (!PtrIsCap) .AssertMaskedNotCap
      let MaskReg ← MI.getReg 5
      let LR ← getLRForRMW false Ordering Width
      let LoopHeadMBB := BuildMI LoopHeadMBB DL LR [.Reg DestReg, .Reg AddrReg]
      let LoopHeadMBB := BuildMI LoopHeadMBB DL .AND
        [.Reg ScratchReg, .Reg DestReg, .Reg MaskReg]
      let LoopHeadMBB := BuildMI LoopHeadMBB DL .BNE
        [.Reg ScratchReg, .Reg CmpValReg, .MBB DoneMBB.id .MO_None]
      let LoopTailMBB ← insertMaskedMerge DL LoopTailMBB ScratchReg DestReg
        NewValReg MaskReg ScratchReg
      let SC ← getSCForRMW false Ordering Width
      let LoopTailMBB := BuildMI LoopTailMBB DL SC
        [.Reg ScratchReg, .Reg AddrReg, .Reg ScratchReg]
      let LoopTailMBB := BuildMI LoopTailMBB DL .BNE
        [.Reg ScratchReg, .Reg X0, .MBB LoopHeadMBB.id .MO_None]
      pure (LoopHeadMBB, LoopTailMBB)
  let NextMBBI := MBB.insts.length
  let DoneMBB := DoneMBB.erase MIPos
  let LoopHeadMBB := computeAndAddLiveIns LV
    (MF.insert I [MBB, LoopHeadMBB, LoopTailMBB, DoneMBB]).Blocks LoopHeadMBB
  let LoopTailMBB := computeAndAddLiveIns LV
    (MF.insert I [MBB, LoopHeadMBB, LoopTailMBB, DoneMBB]).Blocks LoopTailMBB
  let DoneMBB := computeAndAddLiveIns LV
    (MF.insert I [MBB, LoopHeadMBB, LoopTailMBB, DoneMBB]).Blocks DoneMBB
  .ok (MF.insert I [MBB, LoopHeadMBB, LoopTailMBB, DoneMBB], NextMBBI, true)

/-- `RISCVExpandPseudo::expandAtomicCmpXchgCap`. -/
def expandAtomicCmpXchgCap (LV : LiveInsOracle) (MF : MachineFunction)
    (I MBBI : Nat) (PtrIsCap : Bool) :
    Except Fatal (MachineFunction × Nat × Bool) := do
  let MBB ← (MF.Blocks[I]?).elim (.error .BadOperand) .ok
  let MI ← (MBB.insts[MBBI]?).elim (.error .BadOperand) .ok
  let DL := MI.DL
  let CLen := MF.CLen
  let (LoopHeadMBB, MF) := MF.CreateMachineBasicBlock MBB.BasicBlock
  let (LoopTailMBB, MF) := MF.CreateMachineBasicBlock MBB.BasicBlock
  let (DoneMBB, MF) := MF.CreateMachineBasicBlock MBB.BasicBlock
  -- Set up successors and transfer remaining instructions to DoneMBB.
  let LoopHeadMBB := LoopHeadMBB.addSuccessor LoopTailMBB.id
  let LoopHeadMBB := LoopHeadMBB.addSuccessor DoneMBB.id
  let LoopTailMBB := LoopTailMBB.addSuccessor DoneMBB.id
  let LoopTailMBB := LoopTailMBB.addSuccessor LoopHeadMBB.id
  let MIPos := DoneMBB.insts.length
  let (DoneMBB, MBB) := DoneMBB.splice MBB MBBI
  let (DoneMBB, MBB) := DoneMBB.transferSuccessors MBB
  let MBB := MBB.addSuccessor LoopHeadMBB.id
  let DestReg ← MI.getReg 0
  let ScratchReg ← MI.getReg 1
  let AddrReg ← MI.getReg 2
  let CmpValReg ← MI.getReg 3
  let NewValReg ← MI.getReg 4
  let Ordering := AtomicOrdering.ofImm (← MI.getImm 5)
  let LR ← getLRForRMWCap PtrIsCap Ordering CLen
  let LoopHeadMBB := BuildMI LoopHeadMBB DL LR [.Reg DestReg, .Reg AddrReg]
  let LoopHeadMBB := BuildMI LoopHeadMBB DL .BNE
    [.Reg (getSubReg_sub_cap_addr DestReg), .Reg (getSubReg_sub_cap_addr CmpValReg),
     .MBB DoneMBB.id .MO_None]
  let SC ← getSCForRMWCap PtrIsCap Ordering CLen
  let LoopTailMBB := BuildMI LoopTailMBB DL SC
    [.Reg ScratchReg, .Reg AddrReg, .Reg NewValReg]
  let LoopTailMBB := BuildMI LoopTailMBB DL .BNE
    [.Reg ScratchReg, .Reg X0, .MBB LoopHeadMBB.id .MO_None]
  let NextMBBI := MBB.insts.length
  let DoneMBB := DoneMBB.erase MIPos
  let LoopHeadMBB := computeAndAddLiveIns LV
    (MF.insert I [MBB, LoopHeadMBB, LoopTailMBB, DoneMBB]).Blocks LoopHeadMBB
  let LoopTailMBB := computeAndAddLiveIns LV
    (MF.insert I [MBB, LoopHeadMBB, LoopTailMBB, DoneMBB]).Blocks LoopTailMBB
  let DoneMBB := computeAndAddLiveIns LV
    (MF.insert I [MBB, LoopHeadMBB, LoopTailMBB, DoneMBB]).Blocks DoneMBB
  .ok (MF.insert I [MBB, LoopHeadMBB, LoopTailMBB, DoneMBB], NextMBBI, true)

/-! ## Address-pair expansion -/

/-- `RISCVExpandPseudo::expandAuipcInstPair`. The iterator `MBB.end()` that
`NextMBBI` receives is the end of the block, also once the pseudo operation is
erased from it. -/
def expandAuipcInstPair (LV : LiveInsOracle) (MF : MachineFunction) (I MBBI : Nat)
    (FlagsHi : TargetFlag) (SecondOpcode : RISCV) :
    Except Fatal (MachineFunction × Nat × Bool) := do
  let MBB ← (MF.Blocks[I]?).elim (.error .BadOperand) .ok
  let MI ← (MBB.insts[MBBI]?).elim (.error .BadOperand) .ok
  let DL := MI.DL
  let DestReg ← MI.getReg 0
  let Symbol ← MI.getOperand 1
  let (NewMBB, MF) := MF.CreateMachineBasicBlock MBB.BasicBlock
  let NewMBB := NewMBB.setLabelMustBeEmitted
  let NewMBB := BuildMI NewMBB DL .AUIPC [.Reg DestReg, ← addDisp Symbol 0 FlagsHi]
  let NewMBB := BuildMI NewMBB DL SecondOpcode
    [.Reg DestReg, .Reg DestReg, .MBB NewMBB.id .MO_PCREL_LO]
  -- Move all the rest of the instructions to NewMBB.
  let (NewMBB, MBB) := NewMBB.splice MBB (MBBI + 1)
  -- Update machine-CFG edges.
  let (NewMBB, MBB) := NewMBB.transferSuccessors MBB
  -- Make the original basic block fall-through to the new.
  let MBB := MBB.addSuccessor NewMBB.id
  let NewMBB := computeAndAddLiveIns LV (MF.insert I [MBB, NewMBB]).Blocks NewMBB
  let MBB := MBB.erase MBBI
  let NextMBBI := MBB.insts.length
  .ok (MF.insert I [MBB, NewMBB], NextMBBI, true)

/-- `RISCVExpandPseudo::expandLoadLocalAddress`. -/
def expandLoadLocalAddress (LV : LiveInsOracle) (MF : MachineFunction)
    (I MBBI : Nat) : Except Fatal (MachineFunction × Nat × Bool) :=
  expandAuipcInstPair LV MF I MBBI .MO_PCREL_HI .ADDI

/-- `RISCVExpandPseudo::expandLoadAddress`. -/
def expandLoadAddress (LV : LiveInsOracle) (MF : MachineFunction)
    (I MBBI : Nat) : Except Fatal (MachineFunction × Nat × Bool) :=
  if MF.isPositionIndependent then
    expandAuipcInstPair LV MF I MBBI .MO_GOT_HI (if MF.is64Bit then .LD else .LW)
  else
    expandAuipcInstPair LV MF I MBBI .MO_PCREL_HI .ADDI

/-- `RISCVExpandPseudo::expandLoadTLSIEAddress`. -/
def expandLoadTLSIEAddress (LV : LiveInsOracle) (MF : MachineFunction)
    (I MBBI : Nat) : Except Fatal (MachineFunction × Nat × Bool) :=
  expandAuipcInstPair LV MF I MBBI .MO_TLS_GOT_HI (if MF.is64Bit then .LD else .LW)

/-- `RISCVExpandPseudo::expandLoadTLSGDAddress`. -/
def expandLoadTLSGDAddress (LV : LiveInsOracle) (MF : MachineFunction)
    (I MBBI : Nat) : Except Fatal (MachineFunction × Nat × Bool) :=
  expandAuipcInstPair LV MF I MBBI .MO_TLS_GD_HI .ADDI

/-- `RISCVExpandPseudo::expandAuipccInstPair`. -/
def expandAuipccInstPair (LV : LiveInsOracle) (MF : MachineFunction) (I MBBI : Nat)
    (FlagsHi : TargetFlag) (SecondOpcode : RISCV) :
    Except Fatal (MachineFunction × Nat × Bool) := do
  let MBB ← (MF.Blocks[I]?).elim (.error .BadOperand) .ok
  let MI ← (MBB.insts[MBBI]?).elim (.error .BadOperand) .ok
  let DL := MI.DL
  let HasTmpReg := decide (MI.getNumOperands > 2)
  let DestReg ← MI.getReg 0
  let TmpReg ← MI.getReg (if HasTmpReg then 1 else 0)
  let Symbol ← MI.getOperand (if HasTmpReg then 2 else 1)
  let (NewMBB, MF) := MF.CreateMachineBasicBlock MBB.BasicBlock
  let NewMBB := NewMBB.setLabelMustBeEmitted
  let NewMBB := BuildMI NewMBB DL .AUIPCC [.Reg TmpReg, ← addDisp Symbol 0 FlagsHi]
  let NewMBB := BuildMI NewMBB DL SecondOpcode
    [.Reg DestReg, .Reg TmpReg, .MBB NewMBB.id .MO_PCREL_LO]
  -- Move all the rest of the instructions to NewMBB.
  let (NewMBB, MBB) := NewMBB.splice MBB (MBBI + 1)
  -- Update machine-CFG edges.
  let (NewMBB, MBB) := NewMBB.transferSuccessors MBB
  -- Make the original basic block fall-through to the new.
  let MBB := MBB.addSuccessor NewMBB.id
  let NewMBB := computeAndAddLiveIns LV (MF.insert I [MBB, NewMBB]).Blocks NewMBB
  let MBB := MBB.erase MBBI
  let NextMBBI := MBB.insts.length
  .ok (MF.insert I [MBB, NewMBB], NextMBBI, true)

/-- `RISCVExpandPseudo::expandCapLoadGlobalCap`. -/
def expandCapLoadGlobalCap (LV : LiveInsOracle) (MF : MachineFunction)
    (I MBBI : Nat) : Except Fatal (MachineFunction × Nat × Bool) :=
  expandAuipccInstPair LV MF I MBBI .MO_CAPTAB_PCREL_HI
    (if MF.is64Bit then .CLC_128 else .CLC_64)

/-- `RISCVExpandPseudo::expandCapLoadTLSIEAddress`. -/
def expandCapLoadTLSIEAddress (LV : LiveInsOracle) (MF : MachineFunction)
    (I MBBI : Nat) : Except Fatal (MachineFunction × Nat × Bool) :=
  expandAuipccInstPair LV MF I MBBI .MO_TLS_IE_CAPTAB_PCREL_HI
    (if MF.is64Bit then .CLD else .CLW)

/-- `RISCVExpandPseudo::expandCapLoadTLSGDCap`. -/
def expandCapLoadTLSGDCap (LV : LiveInsOracle) (MF : MachineFunction)
    (I MBBI : Nat) : Except Fatal (MachineFunction × Nat × Bool) :=
  expandAuipccInstPair LV MF I MBBI .MO_TLS_GD_CAPTAB_PCREL_HI .CIncOffsetImm

/-! ## Pass driver -/

/-- `RISCVExpandPseudo::expandMI` on the operation at position `MBBI` of the
block at position `I`; `NextMBBI` comes in as the caller set it and goes out as
the expander left it. -/
def expandMI (LV : LiveInsOracle) (MF : MachineFunction) (I MBBI NextMBBI : Nat) :
    Except Fatal (MachineFunction × Nat × Bool) := do
  let MBB ← (MF.Blocks[I]?).elim (.error .BadOperand) .ok
  let MI ← (MBB.insts[MBBI]?).elim (.error .BadOperand) .ok
  match MI.opcode with
  | .target .PseudoAtomicLoadNand32 =>
    expandAtomicBinOp LV MF I MBBI .Nand false 32 false
  | .target .PseudoAtomicLoadNand64 =>
    expandAtomicBinOp LV MF I MBBI .Nand false 64 false
  | .target .PseudoMaskedAtomicSwap32 =>
    expandAtomicBinOp LV MF I MBBI .Xchg true 32 false
  | .target .PseudoMaskedAtomicLoadAdd32 =>
    expandAtomicBinOp LV MF I MBBI .Add true 32 false
  | .target .PseudoMaskedAtomicLoadSub32 =>
    expandAtomicBinOp LV MF I MBBI .Sub true 32 false
  | .target .PseudoMaskedAtomicLoadNand32 =>
    expandAtomicBinOp LV MF I MBBI .Nand true 32 false
  | .target .PseudoMaskedAtomicLoadMax32 =>
    expandAtomicMinMaxOp LV MF I MBBI .Max true 32 false
  | .target .PseudoMaskedAtomicLoadMin32 =>
    expandAtomicMinMaxOp LV MF I MBBI .Min true 32 false
  | .target .PseudoMaskedAtomicLoadUMax32 =>
    expandAtomicMinMaxOp LV MF I MBBI .UMax true 32 false
  | .target .PseudoMaskedAtomicLoadUMin32 =>
    expandAtomicMinMaxOp LV MF I MBBI .UMin true 32 false
  | .target .PseudoCmpXchg32 => expandAtomicCmpXchg LV MF I MBBI false 32 false
  | .target .PseudoCmpXchg64 => expandAtomicCmpXchg LV MF I MBBI false 64 false
  | .target .PseudoMaskedCmpXchg32 => expandAtomicCmpXchg LV MF I MBBI true 32 false
  | .target .PseudoLLA => expandLoadLocalAddress LV MF I MBBI
  | .target .PseudoLA => expandLoadAddress LV MF I MBBI
  | .target .PseudoLA_TLS_IE => expandLoadTLSIEAddress LV MF I MBBI
  | .target .PseudoLA_TLS_GD => expandLoadTLSGDAddress LV MF I MBBI
  | .target .PseudoCLGC => expandCapLoadGlobalCap LV MF I MBBI
  | .target .PseudoCLA_TLS_IE => expandCapLoadTLSIEAddress LV MF I MBBI
  | .target .PseudoCLC_TLS_GD => expandCapLoadTLSGDCap LV MF I MBBI
  | .target .PseudoCmpXchgCap => expandAtomicCmpXchgCap LV MF I MBBI false
  | .target .PseudoCheriAtomicSwap8 =>
    expandAtomicBinOp LV MF I MBBI .Xchg false 8 true
  | .target .PseudoCheriAtomicSwap16 =>
    expandAtomicBinOp LV MF I MBBI .Xchg false 16 true
  | .target .PseudoCheriAtomicLoadAdd8 =>
    expandAtomicBinOp LV MF I MBBI .Add false 8 true
  | .target .PseudoCheriAtomicLoadAdd16 =>
    expandAtomicBinOp LV MF I MBBI .Add false 16 true
  | .target .PseudoCheriAtomicLoadAnd8 =>
    expandAtomicBinOp LV MF I MBBI .And false 8 true
  | .target .PseudoCheriAtomicLoadAnd16 =>
    expandAtomicBinOp LV MF I MBBI .And false 16 true
  | .target .PseudoCheriAtomicLoadOr8 =>
    expandAtomicBinOp LV MF I MBBI .Or false 8 true
  | .target .PseudoCheriAtomicLoadOr16 =>
    expandAtomicBinOp LV MF I MBBI .Or false 16 true
  | .target .PseudoCheriAtomicLoadXor8 =>
    expandAtomicBinOp LV MF I MBBI .Xor false 8 true
  | .target .PseudoCheriAtomicLoadXor16 =>
    expandAtomicBinOp LV MF I MBBI .Xor false 16 true
  | .target .PseudoCheriAtomicLoadNand8 =>
    expandAtomicBinOp LV MF I MBBI .Nand false 8 true
  | .target .PseudoCheriAtomicLoadNand16 =>
    expandAtomicBinOp LV MF I MBBI .Nand false 16 true
  | .target .PseudoCheriAtomicLoadSub8 =>
    expandAtomicBinOp LV MF I MBBI .Sub false 8 true
  | .target .PseudoCheriAtomicLoadSub16 =>
    expandAtomicBinOp LV MF I MBBI .Sub false 16 true
  | .target .PseudoCheriAtomicLoadNand32 =>
    expandAtomicBinOp LV MF I MBBI .Nand false 32 true
  | .target .PseudoCheriAtomicLoadNand64 =>
    expandAtomicBinOp LV MF I MBBI .Nand false 64 true
  | .target .PseudoCheriAtomicLoadMax8 =>
    expandAtomicMinMaxOp LV MF I MBBI .Max false 8 true
  | .target .PseudoCheriAtomicLoadMax16 =>
    expandAtomicMinMaxOp LV MF I MBBI .Max false 16 true
  | .target .PseudoCheriAtomicLoadMin8 =>
    expandAtomicMinMaxOp LV MF I MBBI .Min false 8 true
  | .target .PseudoCheriAtomicLoadMin16 =>
    expandAtomicMinMaxOp LV MF I MBBI .Min false 16 true
  | .target .PseudoCheriAtomicLoadUMax8 =>
    expandAtomicMinMaxOp LV MF I MBBI .UMax false 8 true
  | .target .PseudoCheriAtomicLoadUMax16 =>
    expandAtomicMinMaxOp LV MF I MBBI .UMax false 16 true
  | .target .PseudoCheriAtomicLoadUMin8 =>
    expandAtomicMinMaxOp LV MF I MBBI .UMin false 8 true
  | .target .PseudoCheriAtomicLoadUMin16 =>
    expandAtomicMinMaxOp LV MF I MBBI .UMin false 16 true
  | .target .PseudoCheriCmpXchg8 => expandAtomicCmpXchg LV MF I MBBI false 8 true
  | .target .PseudoCheriCmpXchg16 => expandAtomicCmpXchg LV MF I MBBI false 16 true
  | .target .PseudoCheriCmpXchg32 => expandAtomicCmpXchg LV MF I MBBI false 32 true
  | .target .PseudoCheriCmpXchg64 => expandAtomicCmpXchg LV MF I MBBI false 64 true
  | .target .PseudoCheriCmpXchgCap => expandAtomicCmpXchgCap LV MF I MBBI true
  | _ => .ok (MF, NextMBBI, false)

/-- The `while (MBBI != E)` loop of `RISCVExpandPseudo::expandMBB` on the block
at position `I`, from the iterator `MBBI` on, with the flag `Modified` so far.
Every turn of the loop takes one unit of fuel; without fuel the loop only
tests its condition. -/
def expandMBBLoop (LV : LiveInsOracle) :
    Nat → MachineFunction → Nat → Nat → Bool → Except Fatal (MachineFunction × Bool)
  | 0, MF, I, MBBI, Modified =>
    match MF.Blocks[I]? with
    | none => .error .BadOperand
    | some MBB =>
      if MBBI = MBB.insts.length then .ok (MF, Modified) else .error .OutOfFuel
  | fuel + 1, MF, I, MBBI, Modified =>
    match MF.Blocks[I]? with
    | none => .error .BadOperand
    | some MBB =>
      if MBBI = MBB.insts.length then .ok (MF, Modified)
      else
        match expandMI LV MF I MBBI (MBBI + 1) with
        | .error e => .error e
        | .ok (MF, NMBBI, M) => expandMBBLoop LV fuel MF I NMBBI (Modified || M)

/-- `RISCVExpandPseudo::expandMBB` on the block at position `I`. The loop turns
at most once per operation of the block, which is the fuel it is given. -/
def expandMBB (LV : LiveInsOracle) (MF : MachineFunction) (I : Nat) :
    Except Fatal (MachineFunction × Bool) :=
  match MF.Blocks[I]? with
  | none => .error .BadOperand
  | some MBB => expandMBBLoop LV MBB.insts.length MF I 0 false

/-- Whether `expandMI` has a case for the opcode. -/
def RISCV.isPseudo : RISCV → Bool
  | .PseudoAtomicLoadNand32 | .PseudoAtomicLoadNand64
  | .PseudoMaskedAtomicSwap32 | .PseudoMaskedAtomicLoadAdd32
  | .PseudoMaskedAtomicLoadSub32 | .PseudoMaskedAtomicLoadNand32
  | .PseudoMaskedAtomicLoadMax32 | .PseudoMaskedAtomicLoadMin32
  | .PseudoMaskedAtomicLoadUMax32 | .PseudoMaskedAtomicLoadUMin32
  | .PseudoCmpXchg32 | .PseudoCmpXchg64 | .PseudoMaskedCmpXchg32
  | .PseudoLLA | .PseudoLA | .PseudoLA_TLS_IE | .PseudoLA_TLS_GD
  | .PseudoCLGC | .PseudoCLA_TLS_IE | .PseudoCLC_TLS_GD
  | .PseudoCmpXchgCap
  | .PseudoCheriAtomicSwap8 | .PseudoCheriAtomicSwap16
  | .PseudoCheriAtomicLoadAdd8 | .PseudoCheriAtomicLoadAdd16
  | .PseudoCheriAtomicLoadAnd8 | .PseudoCheriAtomicLoadAnd16
  | .PseudoCheriAtomicLoadOr8 | .PseudoCheriAtomicLoadOr16
  | .PseudoCheriAtomicLoadXor8 | .PseudoCheriAtomicLoadXor16
  | .PseudoCheriAtomicLoadNand8 | .PseudoCheriAtomicLoadNand16
  | .PseudoCheriAtomicLoadSub8 | .PseudoCheriAtomicLoadSub16
  | .PseudoCheriAtomicLoadNand32 | .PseudoCheriAtomicLoadNand64
  | .PseudoCheriAtomicLoadMax8 | .PseudoCheriAtomicLoadMax16
  | .PseudoCheriAtomicLoadMin8 | .PseudoCheriAtomicLoadMin16
  | .PseudoCheriAtomicLoadUMax8 | .PseudoCheriAtomicLoadUMax16
  | .PseudoCheriAtomicLoadUMin8 | .PseudoCheriAtomicLoadUMin16
  | .PseudoCheriCmpXchg8 | .PseudoCheriCmpXchg16
  | .PseudoCheriCmpXchg32 | .PseudoCheriCmpXchg64
  | .PseudoCheriCmpXchgCap => true
  | _ => false

/-- Whether the opcode is one of the pseudo opcodes dispatched by `expandMI`. -/
def Opcode.isPseudo : Opcode → Bool
  | .target o => o.isPseudo
  | .generic _ => false

/-- The number of pseudo operations in a list of operations. -/
def countPseudo (insts : List MachineInstr) : Nat :=
  (insts.filter (fun MI => MI.opcode.isPseudo)).length

/-- The number of pseudo operations in a list of blocks. -/
def countPseudoBlocks (Bs : List MachineBasicBlock) : Nat :=
  (Bs.map (fun B => countPseudo B.insts)).sum

/-- The `for (auto &MBB : MF)` loop of `RISCVExpandPseudo::runOnMachineFunction`
from the block at position `I` on, with the flag `Modified` so far. Blocks an
expansion inserts behind the current block are visited in their turn. Every
turn of the loop takes one unit of fuel; without fuel the loop only tests its
condition. -/
def runOnMachineFunctionLoop (LV : LiveInsOracle) :
    Nat → MachineFunction → Nat → Bool → Except Fatal (MachineFunction × Bool)
  | 0, MF, I, Modified =>
    if I < MF.Blocks.length then .error .OutOfFuel else .ok (MF, Modified)
  | fuel + 1, MF, I, Modified =>
    if I < MF.Blocks.length then
      match expandMBB LV MF I with
      | .error e => .error e
      | .ok (MF, M) => runOnMachineFunctionLoop LV fuel MF (I + 1) (Modified || M)
    else .ok (MF, Modified)

/-- `RISCVExpandPseudo::runOnMachineFunction`. The loop turns once per block of
the function and once per block an expansion creates, at most four per pseudo
operation, which is the fuel it is given. -/
def runOnMachineFunction (LV : LiveInsOracle) (MF : MachineFunction) :
    Except Fatal (MachineFunction × Bool) :=
  runOnMachineFunctionLoop LV (MF.Blocks.length + 4 * countPseudoBlocks MF.Blocks)
    MF 0 false

/-! ## Well-formed pseudo operations -/

/-- Whether `addDisp` handles the operand. -/
def MachineOperand.isDisp : MachineOperand → Bool
  | .Imm _ => true
  | .Sym .ConstantPoolIndex _ _ _ => true
  | .Sym .GlobalAddress _ _ _ => true
  | .Sym .BlockAddress _ _ _ => true
  | _ => false

/-- Operands of an unmasked atomic pseudo operation with `n` leading registers:
the registers, then the ordering immediate, one of the five legal ones. -/
def atomicOperandsOk : Nat → List MachineOperand → Bool
  | 0, .Imm o :: _ => (AtomicOrdering.ofImm o).isLegal
  | n + 1, .Reg _ :: rest => atomicOperandsOk n rest
  | _, _ => false

/-- The three registers `insertMaskedMerge` asserts to be different: the result
register (operand 0), the scratch register (operand 1) and the mask register
(operand `m`). -/
def maskedRegsOk (ops : List MachineOperand) (m : Nat) : Bool :=
  match ops[0]?, ops[1]?, ops[m]? with
  | some (MachineOperand.Reg d), some (MachineOperand.Reg s),
    some (MachineOperand.Reg k) => d != s && d != k && s != k
  | _, _, _ => false

/-- Operands of an address pseudo operation: the result register, then the
symbol, an operand `addDisp` handles. -/
def addressOperandsOk : List MachineOperand → Bool
  | .Reg _ :: d :: _ => d.isDisp
  | _ => false

/-- Operands of a capability address pseudo operation: the result register and
the symbol, or the result register, the intermediate register and the symbol. -/
def capAddressOperandsOk : List MachineOperand → Bool
  | [.Reg _, d] => d.isDisp
  | .Reg _ :: .Reg _ :: d :: _ => d.isDisp
  | _ => false

/-- Whether an operation has the operands its opcode prescribes: for each
pseudo opcode the registers, the symbol and the ordering immediate at the
positions the expanders read them, the ordering being one of the five legal
ones, and for the masked forms the result, scratch and mask registers being
different registers (they are early-clobber results and an input). An
operation that is not a pseudo operation is well formed. -/
def MachineInstr.wellFormed (MI : MachineInstr) : Bool :=
  match MI.opcode with
  | .target .PseudoMaskedAtomicSwap32 | .target .PseudoMaskedAtomicLoadAdd32
  | .target .PseudoMaskedAtomicLoadSub32 | .target .PseudoMaskedAtomicLoadNand32 =>
    atomicOperandsOk 5 MI.operands && maskedRegsOk MI.operands 4
  | .target .PseudoMaskedAtomicLoadMax32 | .target .PseudoMaskedAtomicLoadMin32 =>
    atomicOperandsOk 7 MI.operands && maskedRegsOk MI.operands 5
  | .target .PseudoMaskedAtomicLoadUMax32 | .target .PseudoMaskedAtomicLoadUMin32 =>
    atomicOperandsOk 6 MI.operands && maskedRegsOk MI.operands 5
  | .target .PseudoMaskedCmpXchg32 =>
    atomicOperandsOk 6 MI.operands && maskedRegsOk MI.operands 5
  | .target .PseudoCmpXchg32 | .target .PseudoCmpXchg64 | .target .PseudoCmpXchgCap
  | .target .PseudoCheriCmpXchg8 | .target .PseudoCheriCmpXchg16
  | .target .PseudoCheriCmpXchg32 | .target .PseudoCheriCmpXchg64
  | .target .PseudoCheriCmpXchgCap =>
    atomicOperandsOk 5 MI.operands
  | .target .PseudoLLA | .target .PseudoLA | .target .PseudoLA_TLS_IE
  | .target .PseudoLA_TLS_GD =>
    addressOperandsOk MI.operands
  | .target .PseudoCLGC | .target .PseudoCLA_TLS_IE | .target .PseudoCLC_TLS_GD =>
    capAddressOperandsOk MI.operands
  | .target o => if o.isPseudo then atomicOperandsOk 4 MI.operands else true
  | .generic _ => true

/-- Every operation of every block of the function is well formed. -/
def MachineFunction.wellFormed (MF : MachineFunction) : Prop :=
  ∀ B ∈ MF.Blocks, ∀ MI ∈ B.insts, MI.wellFormed = true

/-- No block of the function contains a pseudo operation. -/
def MachineFunction.noPseudo (MF : MachineFunction) : Prop :=
  ∀ B ∈ MF.Blocks, ∀ MI ∈ B.insts, MI.opcode.isPseudo = false

/-! ## Semantics of the emitted operations

The usual semantics of the integer operations on registers of `xlen` bits, with
`X0` reading as zero. A register holds a natural number below `2 ^ xlen`. -/

/-- Register file and memory. The memory gives, for an address, the value a
load-reserved puts into its result register. -/
structure MachineState where
  regs : Register → Nat
  mem : Nat → Nat

/-- The value of a register; `X0` reads as zero. -/
def MachineState.read (s : MachineState) (r : Register) : Nat :=
  if r = X0 then 0 else s.regs r

/-- The state after a register is written. -/
def MachineState.write (s : MachineState) (r : Register) (v : Nat) : MachineState :=
  { s with regs := fun q => if q = r then v else s.regs q }

/-- Addition on `w` bits. -/
def bvAdd (w a b : Nat) : Nat := (a + b) % 2 ^ w

/-- Subtraction on `w` bits. -/
def bvSub (w a b : Nat) : Nat := (a + (2 ^ w - b % 2 ^ w)) % 2 ^ w

/-- Bitwise complement on `w` bits. -/
def bvNot (w a : Nat) : Nat := (2 ^ w - 1) ^^^ a

/-- A sign-extended immediate as a value of `w` bits. -/
def immValue (w : Nat) (v : Int) : Nat := (v % (2 : Int) ^ w).toNat

/-- The signed reading of a value of `w` bits. -/
def toSigned (w a : Nat) : Int := if a < 2 ^ (w - 1) then (a : Int) else (a : Int) - 2 ^ w

/-- Whether the operation is a load-reserved. -/
def MachineInstr.isLoadReserved (MI : MachineInstr) : Bool :=
  match MI.opcode with
  | .target o => (o.atomicInfo.map (fun i => i.kind)) == some .LoadReserved
  | .generic _ => false

/-- One operation that is neither a branch nor a store-conditional: the
load-reserved, which reads the memory at the address in its address register,
and the register-register and register-immediate operations the expanders emit.
Other operations have no semantics here. -/
def execInst (xlen : Nat) (MI : MachineInstr) (s : MachineState) : Option MachineState :=
  if MI.isLoadReserved then
    match MI.operands with
    | [.Reg rd, .Reg rs1] => some (s.write rd (s.mem (s.read rs1)))
    | _ => none
  else
    match MI.opcode, MI.operands with
    | .target .ADD, [.Reg rd, .Reg rs1, .Reg rs2] =>
      some (s.write rd (bvAdd xlen (s.read rs1) (s.read rs2)))
    | .target .SUB, [.Reg rd, .Reg rs1, .Reg rs2] =>
      some (s.write rd (bvSub xlen (s.read rs1) (s.read rs2)))
    | .target .AND, [.Reg rd, .Reg rs1, .Reg rs2] =>
      some (s.write rd (s.read rs1 &&& s.read rs2))
    | .target .OR, [.Reg rd, .Reg rs1, .Reg rs2] =>
      some (s.write rd (s.read rs1 ||| s.read rs2))
    | .target .XOR, [.Reg rd, .Reg rs1, .Reg rs2] =>
      some (s.write rd (s.read rs1 ^^^ s.read rs2))
    | .target .XORI, [.Reg rd, .Reg rs1, .Imm v] =>
      some (s.write rd (s.read rs1 ^^^ immValue xlen v))
    | .target .ADDI, [.Reg rd, .Reg rs1, .Imm v] =>
      some (s.write rd (bvAdd xlen (s.read rs1) (immValue xlen v)))
    | .target .SLL, [.Reg rd, .Reg rs1, .Reg rs2] =>
      some (s.write rd ((s.read rs1 <<< (s.read rs2 % xlen)) % 2 ^ xlen))
    | .target .SRA, [.Reg rd, .Reg rs1, .Reg rs2] =>
      some (s.write rd
        ((toSigned xlen (s.read rs1) / (2 : Int) ^ (s.read rs2 % xlen)) %
          (2 : Int) ^ xlen).toNat)
    | _, _ => none

/-- Whether the operation is a store-conditional. -/
def MachineInstr.isStoreConditional (MI : MachineInstr) : Bool :=
  match MI.opcode with
  | .target o => (o.atomicInfo.map (fun i => i.kind)) == some .StoreConditional
  | .generic _ => false

/-- The operations of a block are executed in order up to the first
store-conditional; the result is the value that store-conditional offers to the
memory, the value of its source register (operand 2). -/
def valueOfferedToSC (xlen : Nat) : List MachineInstr → MachineState → Option Nat
  | [], _ => none
  | MI :: rest, s =>
    if MI.isStoreConditional then
      match MI.operands with
      | [.Reg _, .Reg _, .Reg rs2] => some (s.read rs2)
      | _ => none
    else
      match execInst xlen MI s with
      | some s => valueOfferedToSC xlen rest s
      | none => none

/-- Executes a list of operations that are neither branches nor
store-conditionals, in order. -/
def execInsts (xlen : Nat) : List MachineInstr → MachineState → Option MachineState
  | [], s => some s
  | MI :: rest, s =>
    match execInst xlen MI s with
    | some s => execInsts xlen rest s
    | none => none

/-- The value a read-modify-write operator computes from the value `old` in
memory and the operand `v`, on `w` bits. The minimum and maximum operators and
the floating-point operators are not computed by one expression of this kind. -/
def binOpValue (w : Nat) : BinOp → Nat → Nat → Option Nat
  | .Xchg, _, v => some v
  | .Add, old, v => some (bvAdd w old v)
  | .Sub, old, v => some (bvSub w old v)
  | .And, old, v => some (old &&& v)
  | .Or, old, v => some (old ||| v)
  | .Xor, old, v => some (old ^^^ v)
  | .Nand, old, v => some (bvNot w (old &&& v))
  | _, _, _ => none

/-! ## Semantics of branches, store-conditionals and blocks -/

/-- Whether a conditional branch is taken in the state, and the identity of the
block it targets: `BNE` is taken when its two registers differ, `BGE` when the
signed reading of the first is at least that of the second, `BGEU` the same on
the unsigned readings. Other operations are not conditional branches. -/
def branchOutcome (xlen : Nat) (MI : MachineInstr) (s : MachineState) :
    Option (Bool × Nat) :=
  match MI.opcode, MI.operands with
  | .target .BNE, [.Reg rs1, .Reg rs2, .MBB t _] =>
    some (decide (s.read rs1 ≠ s.read rs2), t)
  | .target .BGE, [.Reg rs1, .Reg rs2, .MBB t _] =>
    some (decide (toSigned xlen (s.read rs2) ≤ toSigned xlen (s.read rs1)), t)
  | .target .BGEU, [.Reg rs1, .Reg rs2, .MBB t _] =>
    some (decide (s.read rs2 ≤ s.read rs1), t)
  | _, _ => none

/-- The state after a store-conditional of the value `v` to the address `addr`
that reports `status` in the register `rd`: the status 0 is success, and then
the memory holds the value; any other status is failure, and the memory is as
it was. -/
def MachineState.storeConditional (s : MachineState) (rd : Register)
    (addr v status : Nat) : MachineState :=
  (if status = 0 then { s with mem := fun a => if a = addr then v else s.mem a }
   else s).write rd status

/-- How the execution of one block ends: the state, the store-conditionals the
block executed, each as the address and the value it offered, in order, and
the identity of the block a taken branch leads to (`none`: control falls
through to the next block of the layout). -/
structure BlockOutcome where
  state : MachineState
  offered : List (Nat × Nat)
  target : Option Nat

/-- Executes the operations of a block in order. A store-conditional
(operands: status register, address register, source register) is recorded and
reports `status`; a conditional branch that is taken ends the block; any other
operation is executed by `execInst`. -/
def execBlock (xlen status : Nat) :
    List MachineInstr → MachineState → List (Nat × Nat) → Option BlockOutcome
  | [], s, off => some ⟨s, off, none⟩
  | MI :: rest, s, off =>
    if MI.isStoreConditional then
      match MI.operands with
      | [.Reg rd, .Reg rs1, .Reg rs2] =>
        execBlock xlen status rest
          (s.storeConditional rd (s.read rs1) (s.read rs2) status)
          (off ++ [(s.read rs1, s.read rs2)])
      | _ => none
    else
      match branchOutcome xlen MI s with
      | some (true, t) => some ⟨s, off, some t⟩
      | some (false, _) => execBlock xlen status rest s off
      | none =>
        match execInst xlen MI s with
        | some s => execBlock xlen status rest s off
        | none => none

/-- The larger of two values of `w` bits in the signed reading. -/
def signedMax (w a b : Nat) : Nat := if toSigned w b ≤ toSigned w a then a else b

/-- The smaller of two values of `w` bits in the signed reading. -/
def signedMin (w a b : Nat) : Nat := if toSigned w a ≤ toSigned w b then a else b

/-- The value a minimum or maximum operator computes from the value `old` in
memory and the operand `v`: signed for `Max` and `Min`, unsigned for `UMax`
and `UMin`. -/
def minMaxValue (w : Nat) : BinOp → Nat → Nat → Option Nat
  | .Max, old, v => some (signedMax w old v)
  | .Min, old, v => some (signedMin w old v)
  | .UMax, old, v => some (max old v)
  | .UMin, old, v => some (min old v)
  | _, _, _ => none

/-! ## Semantics of the capability compare-and-swap

The register file of a capability machine is merged: the integer register
`X n` is the address field of the capability register `C n`, which is what
`getSubReg_sub_cap_addr` selects. -/

/-- A capability value: its metadata (tag, bounds, permissions) and its
address field. -/
structure Capability where
  metadata : Nat
  address : Nat
  deriving DecidableEq, Repr

/-- Merged register file and memory of a capability machine. The memory gives,
for an address, the capability a load-reserved of a capability puts into its
result register. -/
structure CapMachineState where
  caps : Nat → Capability
  mem : Nat → Capability

/-- The value of a register: a capability register gives the whole
capability, an integer register the address field with no metadata; register
number 0 reads as the null capability. -/
def CapMachineState.readCap (s : CapMachineState) : Register → Capability
  | .C n => if n = 0 then ⟨0, 0⟩ else s.caps n
  | .X n => if n = 0 then ⟨0, 0⟩ else ⟨0, (s.caps n).address⟩
  | .NoRegister => ⟨0, 0⟩

/-- The state after a register is written; a write to an integer register
leaves no metadata in the capability register of the same number. -/
def CapMachineState.writeCap (s : CapMachineState) (r : Register) (c : Capability) :
    CapMachineState :=
  match r with
  | .C n => { s with caps := fun m => if m = n then c else s.caps m }
  | .X n => { s with caps := fun m => if m = n then ⟨0, c.address⟩ else s.caps m }
  | .NoRegister => s

/-- Whether the operation is a load-reserved of a whole capability. -/
def MachineInstr.isCapLoadReserved (MI : MachineInstr) : Bool :=
  match MI.opcode with
  | .target o =>
    (o.atomicInfo.map (fun i => (i.kind, i.capValue))) == some (.LoadReserved, true)
  | .generic _ => false

/-- Whether the operation is a store-conditional of a whole capability. -/
def MachineInstr.isCapStoreConditional (MI : MachineInstr) : Bool :=
  match MI.opcode with
  | .target o =>
    (o.atomicInfo.map (fun i => (i.kind, i.capValue))) == some (.StoreConditional, true)
  | .generic _ => false

/-- How the execution of one block of the capability compare-and-swap ends:
the state, the store-conditionals executed, each as the address and the whole
capability it offered, and the target of a taken branch. -/
structure CapBlockOutcome where
  state : CapMachineState
  offered : List (Nat × Capability)
  target : Option Nat

/-- Executes the operations of a block of the capability compare-and-swap in
order: the load-reserved of a capability, the store-conditional of a
capability, which reports `status`, and `BNE`, which compares the address
fields its two integer registers name. Other operations have no semantics
here. -/
def execCapBlock (status : Nat) :
    List MachineInstr → CapMachineState → List (Nat × Capability) →
      Option CapBlockOutcome
  | [], s, off => some ⟨s, off, none⟩
  | MI :: rest, s, off =>
    if MI.isCapLoadReserved then
      match MI.operands with
      | [.Reg rd, .Reg rs1] =>
        execCapBlock status rest (s.writeCap rd (s.mem (s.readCap rs1).address)) off
      | _ => none
    else if MI.isCapStoreConditional then
      match MI.operands with
      | [.Reg rd, .Reg rs1, .Reg rs2] =>
        execCapBlock status rest
          ((if status = 0 then
              { s with mem := fun a =>
                  if a = (s.readCap rs1).address then s.readCap rs2 else s.mem a }
            else s).writeCap rd ⟨0, status⟩)
          (off ++ [((s.readCap rs1).address, s.readCap rs2)])
      | _ => none
    else
      match MI.opcode, MI.operands with
      | .target .BNE, [.Reg rs1, .Reg rs2, .MBB t _] =>
        if (s.readCap rs1).address ≠ (s.readCap rs2).address then some ⟨s, off, some t⟩
        else execCapBlock status rest s off
      | _, _ => none

/-! ## The rule of the Min/Max comparison -/

/-- The rule for the comparison branch at the end of the head block of a
Min/Max expansion, as the specification states it: `BGE(current, incoming)`
for `Max`, `BGE(incoming, current)` for `Min`, `BGEU(current, incoming)` for
`UMax` and `BGEU(incoming, current)` for `UMin`, each targeting the tail
block. -/
def minMaxBranchRule (BinOp : BinOp) (current incoming : Register) (tail DL : Nat) :
    Option MachineInstr :=
  match BinOp with
  | .Max => some ⟨RISCV.BGE, [.Reg current, .Reg incoming, .MBB tail .MO_None], DL⟩
  | .Min => some ⟨RISCV.BGE, [.Reg incoming, .Reg current, .MBB tail .MO_None], DL⟩
  | .UMax => some ⟨RISCV.BGEU, [.Reg current, .Reg incoming, .MBB tail .MO_None], DL⟩
  | .UMin => some ⟨RISCV.BGEU, [.Reg incoming, .Reg current, .MBB tail .MO_None], DL⟩
  | _ => none

/-- Whether the incoming value is to replace the current one, as the
specification states it: incoming greater than current for `Max` (signed) and
`UMax` (unsigned), incoming less than current for `Min` (signed) and `UMin`
(unsigned). -/
def incomingReplaces (w : Nat) : BinOp → Nat → Nat → Bool
  | .Max, current, incoming => decide (toSigned w current < toSigned w incoming)
  | .Min, current, incoming => decide (toSigned w incoming < toSigned w current)
  | .UMax, current, incoming => decide (current < incoming)
  | .UMin, current, incoming => decide (incoming < current)
  | _, _, _ => false

/-! ## Notions used by the theorems -/

/-- A load-reserved opcode, which is not a pseudo opcode. -/
def RISCV.isLR (o : RISCV) : Prop :=
  (o.atomicInfo.map (fun i => i.kind)) = some .LoadReserved ∧ o.isPseudo = false

/-- A store-conditional opcode, which is not a pseudo opcode. -/
def RISCV.isSC (o : RISCV) : Prop :=
  (o.atomicInfo.map (fun i => i.kind)) = some .StoreConditional ∧ o.isPseudo = false

/-- No operation of the list is a pseudo operation. -/
def NoPseudo (insts : List MachineInstr) : Prop :=
  ∀ MI ∈ insts, MI.opcode.isPseudo = false

/-- The block `B` is the block `B0` with operations appended that are not
pseudo operations. -/
def Appends (B0 B : MachineBasicBlock) : Prop :=
  ∃ em, B = { B0 with insts := B0.insts ++ em } ∧ NoPseudo em

/-- What an expansion of the pseudo operation at position `k` of the block at
position `I` does to the block list: the block keeps the operations before
position `k`, new blocks follow it, at most four, whose operations are not
pseudo operations except that the last new block ends with the operations that
followed position `k`, and the blocks before and after are as they were. The
iterator handed back is the end of the shortened block and the flag is true. -/
def Expanded (MF : MachineFunction) (I k : Nat) (r : MachineFunction × Nat × Bool) :
    Prop :=
  ∃ MBB MI Host Mids Last conc,
    MF.Blocks[I]? = some MBB ∧ MBB.insts[k]? = some MI ∧ MI.opcode.isPseudo = true ∧
    r.1.Blocks = MF.Blocks.take I ++ Host :: (Mids ++ [Last]) ++ MF.Blocks.drop (I + 1) ∧
    Host.insts = MBB.insts.take k ∧
    (∀ B ∈ Mids, NoPseudo B.insts) ∧
    Last.insts = conc ++ MBB.insts.drop (k + 1) ∧ NoPseudo conc ∧
    Mids.length ≤ 3 ∧ r.2.1 = k ∧ r.2.2 = true

/-- The loop block as `expandAtomicBinOp` hands it to the builders of the loop
body: fresh, with the successors loop and done. -/
def rmwLoopBlock (MF : MachineFunction) (MBB : MachineBasicBlock) : MachineBasicBlock :=
  ⟨MF.nextBlock, MBB.BasicBlock, [], [MF.nextBlock, MF.nextBlock + 1], [], false⟩

/-- The result `r` of an address-pair expander is a function whose blocks are
`Pre`, a host block, one new block and `Post`, in which the new block holds the
high-part operation of opcode `HiOpcode` that writes `TmpReg` from the symbol
with the relocation class `FlagsHi`, then the operation of opcode
`SecondOpcode` that writes `DestReg` from `TmpReg` and the new block with the
low relocation class, then `post`. -/
def EmitsAddressPair (r : Except Fatal (MachineFunction × Nat × Bool))
    (Pre Post : List MachineBasicBlock) (post : List MachineInstr) (DL : Nat)
    (Symbol : MachineOperand) (DestReg TmpReg : Register)
    (HiOpcode : RISCV) (FlagsHi : TargetFlag) (SecondOpcode : RISCV) : Prop :=
  ∃ (host new : MachineBasicBlock) (MF' : MachineFunction) (hi : MachineOperand),
    r = .ok (MF', host.insts.length, true) ∧
    MF'.Blocks = Pre ++ host :: new :: Post ∧
    addDisp Symbol 0 FlagsHi = .ok hi ∧
    new.insts = ⟨HiOpcode, [.Reg TmpReg, hi], DL⟩ ::
      ⟨SecondOpcode, [.Reg DestReg, .Reg TmpReg, .MBB new.id .MO_PCREL_LO], DL⟩ :: post

/-- A conditional branch opcode among the opcodes the expanders emit. -/
def RISCV.isBranch : RISCV → Bool
  | .BNE | .BGE | .BGEU => true
  | _ => false

/-- The block operands of an operation that is a branch. -/
def MachineInstr.branchTargets (MI : MachineInstr) : List Nat :=
  match MI.opcode with
  | .target o =>
    if o.isBranch then
      MI.operands.filterMap (fun op => match op with
        | .MBB b _ => some b
        | _ => none)
    else []
  | .generic _ => []

/-- The block operands of the branches of a list of operations, in order. -/
def blockBranchTargets : List MachineInstr → List Nat
  | [] => []
  | MI :: rest => MI.branchTargets ++ blockBranchTargets rest

/-- The operations of the blocks, concatenated in the order of the blocks. -/
def concatBlocks : List MachineBasicBlock → List MachineInstr
  | [] => []
  | B :: rest => B.insts ++ concatBlocks rest

/-- The register an operation writes: operand 0, unless the operation is a
branch, which writes no register. -/
def MachineInstr.defReg (MI : MachineInstr) : Option Register :=
  match MI.opcode, MI.operands with
  | .target o, .Reg r :: _ => if o.isBranch then none else some r
  | _, _ => none

/-- The number of a register; the integer register and the capability register
of one number overlap. -/
def Register.number : Register → Option Nat
  | .X n => some n
  | .C n => some n
  | .NoRegister => none

/-- The pseudo opcodes of the atomic expansions: every pseudo opcode but the
seven address opcodes. -/
def RISCV.isAtomicPseudo (o : RISCV) : Bool :=
  o.isPseudo && !(decide (o ∈ [RISCV.PseudoLLA, .PseudoLA, .PseudoLA_TLS_IE,
    .PseudoLA_TLS_GD, .PseudoCLGC, .PseudoCLA_TLS_IE, .PseudoCLC_TLS_GD]))

/-- The scratch operands of an atomic pseudo operation: operands 1 and 2 of the
masked Min/Max forms, which the expander reads as `Scratch1Reg` and
`Scratch2Reg`, and operand 1 of every other form, read as `ScratchReg`. -/
def MachineInstr.scratchRegs (MI : MachineInstr) : List MachineOperand :=
  match MI.opcode with
  | .target .PseudoMaskedAtomicLoadMax32 | .target .PseudoMaskedAtomicLoadMin32
  | .target .PseudoMaskedAtomicLoadUMax32 | .target .PseudoMaskedAtomicLoadUMin32 =>
    (MI.operands.drop 1).take 2
  | _ => (MI.operands.drop 1).take 1

/-- The position of the first block with the identity `id`. -/
def blockIndex : List MachineBasicBlock → Nat → Option Nat
  | [], _ => none
  | B :: rest, id => if B.id = id then some 0 else (blockIndex rest id).map (· + 1)

/-- Control flow between the blocks of a function, from the start of the block
at position `p` until control reaches the start of the block at position
`exit`. `exec` executes the operations of one block from a state and gives the
state at its end and the target of the branch taken, if one is taken: control
then goes to the block with that identity, and otherwise falls through to the
block at the next position. The store-conditionals of the block executed as the
`k`-th report the status `status k`. The result is the state at `exit` and the
trace: the position and the entry state of every block executed, in order.
Every block executed takes one unit of fuel. -/
def runBlocks {σ : Type} (exec : Nat → List MachineInstr → σ → Option (σ × Option Nat))
    (Blocks : List MachineBasicBlock) (exit : Nat) (status : Nat → Nat) :
    Nat → Nat → σ → List (Nat × σ) → Option (σ × List (Nat × σ))
  | 0, p, s, trace => if p = exit then some (s, trace) else none
  | fuel + 1, p, s, trace =>
    if p = exit then some (s, trace)
    else
      match Blocks[p]? with
      | none => none
      | some B =>
        match exec (status trace.length) B.insts s with
        | none => none
        | some (s1, none) =>
          runBlocks exec Blocks exit status fuel (p + 1) s1 (trace ++ [(p, s)])
        | some (s1, some t) =>
          match blockIndex Blocks t with
          | none => none
          | some q => runBlocks exec Blocks exit status fuel q s1 (trace ++ [(p, s)])

/-- The entry state of the last execution of the block at position `p` in a
trace. -/
def lastVisit {σ : Type} (p : Nat) : List (Nat × σ) → Option σ
  | [] => none
  | (q, s) :: rest =>
    match lastVisit p rest with
    | some x => some x
    | none => if q = p then some s else none

/-- One block under the integer semantics, for `runBlocks`. -/
def execBlockStep (xlen status : Nat) (insts : List MachineInstr) (s : MachineState) :
    Option (MachineState × Option Nat) :=
  (execBlock xlen status insts s []).map (fun out => (out.state, out.target))

/-- One block under the semantics of the capability compare-and-swap, for
`runBlocks`. -/
def execCapBlockStep (status : Nat) (insts : List MachineInstr) (s : CapMachineState) :
    Option (CapMachineState × Option Nat) :=
  (execCapBlock status insts s []).map (fun out => (out.state, out.target))

/-- Every operation of the list writes no register, or writes a register that
is one of the operands `scratch`. -/
def WritesOnly (insts : List MachineInstr) (scratch : List MachineOperand) : Prop :=
  ∀ MI ∈ insts, MI.defReg = none ∨
    ∃ S, MI.defReg = some S ∧ MachineOperand.Reg S ∈ scratch

/-- The blocks of an atomic expansion in the block list `Blocks`: after the
blocks `Pre` stand the host block, the head block of the loop, the further
blocks `body` of the loop and the done block, and then the blocks `Post`. The
blocks from the head block to the done block have the consecutive identities
from `nb` on. The head block starts with a load-reserved that writes `D` from
the address in `A`, and every other operation of the head block and of `body`
writes no register or one of the operands `scratch`. Every branch of the head
block and of `body` targets a block from the head block to the done block. -/
structure AtomicLoop (Blocks Pre Post : List MachineBasicBlock) (nb : Nat)
    (D A : Register) (scratch : List MachineOperand)
    (host head : MachineBasicBlock) (body : List MachineBasicBlock)
    (done : MachineBasicBlock) : Prop where
  hblocks : Blocks = Pre ++ host :: head :: (body ++ done :: Post)
  hids : (head :: (body ++ [done])).map (fun B => B.id) = List.range' nb (body.length + 2)
  hhead : ∃ (L : RISCV) (DL : Nat) (rest : List MachineInstr),
    head.insts = ⟨L, [.Reg D, .Reg A], DL⟩ :: rest ∧ L.isLR ∧
    WritesOnly (rest ++ concatBlocks body) scratch
  htargets : ∀ B ∈ head :: body, ∀ t ∈ blockBranchTargets B.insts,
    nb ≤ t ∧ t ≤ nb + body.length + 1

/-! ## Concrete inputs -/

/-- An empty block with identity 1. -/
def emptyBlock : MachineBasicBlock := ⟨1, 0, [], [], [], false⟩

/-- A 32-bit nand pseudo operation with result `X 10`, scratch `X 11`, address
`X 12`, value `X 13` and ordering SequentiallyConsistent. -/
def nandPseudo : MachineInstr :=
  ⟨RISCV.PseudoAtomicLoadNand32,
    [.Reg (.X 10), .Reg (.X 11), .Reg (.X 12), .Reg (.X 13), .Imm 7], 0⟩

/-- A 32-bit nand pseudo operation whose result register is `X0`. -/
def nandPseudoResultX0 : MachineInstr :=
  ⟨RISCV.PseudoAtomicLoadNand32,
    [.Reg X0, .Reg (.X 11), .Reg (.X 12), .Reg (.X 13), .Imm 2], 0⟩

/-- A masked 32-bit add pseudo operation with result `X 10`, scratch `X 11`,
address `X 12`, value `X 13`, mask `X 14` and ordering Monotonic. -/
def maskedAddPseudo : MachineInstr :=
  ⟨RISCV.PseudoMaskedAtomicLoadAdd32,
    [.Reg (.X 10), .Reg (.X 11), .Reg (.X 12), .Reg (.X 13), .Reg (.X 14), .Imm 2], 0⟩

/-- A masked 32-bit add pseudo operation whose scratch register is `X0`. -/
def maskedAddPseudoScratchX0 : MachineInstr :=
  ⟨RISCV.PseudoMaskedAtomicLoadAdd32,
    [.Reg (.X 10), .Reg X0, .Reg (.X 12), .Reg (.X 13), .Reg (.X 14), .Imm 2], 0⟩

/-- A state in which every memory cell holds 1, the register `X 10` holds 171,
`X 13` holds 1, `X 14` holds 255, `X 15` holds 15 and every other register
holds 0. -/
def onesState : MachineState :=
  ⟨fun r => if r = .X 10 then 171 else if r = .X 13 then 1
    else if r = .X 14 then 255 else if r = .X 15 then 15 else 0, fun _ => 1⟩

/-- A function of one block, with successor 0, that holds an operation the pass
leaves alone, a nand pseudo operation, another operation the pass leaves alone
and a masked add pseudo operation. -/
def twoPseudoFunction : MachineFunction :=
  ⟨[⟨0, 100, [⟨.generic 1, [], 0⟩, nandPseudo, ⟨.generic 2, [], 0⟩, maskedAddPseudo],
      [0], [], false⟩], 1, true, false, 128⟩

/-- An address pseudo operation that loads the local address of global 5 into
`X 10`. -/
def llaPseudo : MachineInstr :=
  ⟨RISCV.PseudoLLA, [.Reg (.X 10), .Sym .GlobalAddress 5 0 .MO_None], 0⟩

/-- A block with successor 7 that holds an operation the pass leaves alone, the
address pseudo operation `llaPseudo` and another operation the pass leaves
alone. -/
def addressBlock : MachineBasicBlock :=
  ⟨0, 100, [⟨.generic 1, [], 0⟩, llaPseudo, ⟨.generic 2, [], 0⟩], [7], [], false⟩

/-- A function of the one block `addressBlock`. -/
def addressFunction : MachineFunction := ⟨[addressBlock], 1, true, false, 128⟩

/-- An unmasked 8-bit signed-maximum pseudo operation of the capability mode,
with result `X 10`, scratch `X 11`, address `C 12`, value `X 13` and ordering
SequentiallyConsistent. -/
def maxPseudo : MachineInstr :=
  ⟨RISCV.PseudoCheriAtomicLoadMax8,
    [.Reg (.X 10), .Reg (.X 11), .Reg (.C 12), .Reg (.X 13), .Imm 7], 0⟩

/-- A block with successor 7 that holds an operation the pass leaves alone, the
pseudo operation `maxPseudo` and another operation the pass leaves alone. -/
def maxBlock : MachineBasicBlock :=
  ⟨0, 100, [⟨.generic 1, [], 0⟩, maxPseudo, ⟨.generic 2, [], 0⟩], [7], [], false⟩

/-- A function of the one block `maxBlock`. -/
def maxFunction : MachineFunction := ⟨[maxBlock], 1, true, false, 128⟩

/-- An unmasked 8-bit signed-minimum pseudo operation whose result register is
`X0`; scratch `X 11`, address `C 12`, value `X 13`. -/
def minPseudoResultX0 : MachineInstr :=
  ⟨RISCV.PseudoCheriAtomicLoadMin8,
    [.Reg X0, .Reg (.X 11), .Reg (.C 12), .Reg (.X 13), .Imm 7], 0⟩

/-- A block that holds the pseudo operation `minPseudoResultX0` between two
operations the pass leaves alone. -/
def minResultX0Block : MachineBasicBlock :=
  ⟨0, 100, [⟨.generic 1, [], 0⟩, minPseudoResultX0, ⟨.generic 2, [], 0⟩], [7], [], false⟩

/-- A function of the one block `minResultX0Block`. -/
def minResultX0Function : MachineFunction := ⟨[minResultX0Block], 1, true, false, 128⟩

/-- A 32-bit compare-and-swap pseudo operation with result `X 10`, scratch
`X 11`, address `X 12`, expected value `X 13`, new value `X 14` and ordering
SequentiallyConsistent. -/
def cmpXchgPseudo : MachineInstr :=
  ⟨RISCV.PseudoCmpXchg32,
    [.Reg (.X 10), .Reg (.X 11), .Reg (.X 12), .Reg (.X 13), .Reg (.X 14), .Imm 7], 0⟩

/-- A block that holds the pseudo operation `cmpXchgPseudo` between two
operations the pass leaves alone. -/
def cmpXchgBlock : MachineBasicBlock :=
  ⟨0, 100, [⟨.generic 1, [], 0⟩, cmpXchgPseudo, ⟨.generic 2, [], 0⟩], [7], [], false⟩

/-- A function of the one block `cmpXchgBlock`. -/
def cmpXchgFunction : MachineFunction := ⟨[cmpXchgBlock], 1, true, false, 128⟩

/-- A masked 32-bit compare-and-swap pseudo operation with result `X 10`,
scratch `X 11`, address `X 12`, expected value `X 13`, new value `X 15`, mask
`X 14` and ordering SequentiallyConsistent. -/
def maskedCmpXchgPseudo : MachineInstr :=
  ⟨RISCV.PseudoMaskedCmpXchg32,
    [.Reg (.X 10), .Reg (.X 11), .Reg (.X 12), .Reg (.X 13), .Reg (.X 15), .Reg (.X 14),
      .Imm 7], 0⟩

/-- A capability compare-and-swap pseudo operation with result `C 10`, scratch
`X 11`, address `X 12`, expected capability `C 13`, new capability `C 14` and
ordering SequentiallyConsistent. -/
def cmpXchgCapPseudo : MachineInstr :=
  ⟨RISCV.PseudoCmpXchgCap,
    [.Reg (.C 10), .Reg (.X 11), .Reg (.X 12), .Reg (.C 13), .Reg (.C 14), .Imm 7], 0⟩

/-- A block that holds the pseudo operation `cmpXchgCapPseudo` between two
operations the pass leaves alone. -/
def cmpXchgCapBlock : MachineBasicBlock :=
  ⟨0, 100, [⟨.generic 1, [], 0⟩, cmpXchgCapPseudo, ⟨.generic 2, [], 0⟩], [7], [], false⟩

/-- A function of the one block `cmpXchgCapBlock`. -/
def cmpXchgCapFunction : MachineFunction := ⟨[cmpXchgCapBlock], 1, true, false, 128⟩

/-- A capability state in which every memory cell holds the capability with
metadata 3 and address 64, the register `C 13` holds the capability with
metadata 9 and the same address 64, `C 14` holds the capability with metadata
5 and address 80, and every other register holds the null capability. -/
def capState : CapMachineState :=
  ⟨fun n => if n = 13 then ⟨9, 64⟩ else if n = 14 then ⟨5, 80⟩ else ⟨0, 0⟩,
   fun _ => ⟨3, 64⟩⟩

/-- A block that holds the pseudo operation `maskedCmpXchgPseudo` between two
operations the pass leaves alone. -/
def maskedCmpXchgBlock : MachineBasicBlock :=
  ⟨0, 100, [⟨.generic 1, [], 0⟩, maskedCmpXchgPseudo, ⟨.generic 2, [], 0⟩], [7], [],
    false⟩

/-- A function of the one block `maskedCmpXchgBlock`. -/
def maskedCmpXchgFunction : MachineFunction :=
  ⟨[maskedCmpXchgBlock], 1, true, false, 128⟩

/-- A masked signed-maximum pseudo operation with result `X 10`, scratch
registers `X 11` and `X 12`, address `X 13`, value `X 14`, mask `X 15`,
shift amount `X 16` and ordering SequentiallyConsistent. -/
def maskedMaxPseudo : MachineInstr :=
  ⟨RISCV.PseudoMaskedAtomicLoadMax32,
    [.Reg (.X 10), .Reg (.X 11), .Reg (.X 12), .Reg (.X 13), .Reg (.X 14), .Reg (.X 15),
      .Reg (.X 16), .Imm 7], 0⟩

/-- A block with successor 7 that holds the pseudo operation `maskedMaxPseudo`
between two operations the pass leaves alone. -/
def maskedMaxBlock : MachineBasicBlock :=
  ⟨0, 100, [⟨.generic 1, [], 0⟩, maskedMaxPseudo, ⟨.generic 2, [], 0⟩], [7], [], false⟩

/-- A function of the one block `maskedMaxBlock`. -/
def maskedMaxFunction : MachineFunction := ⟨[maskedMaxBlock], 1, true, false, 128⟩

/-- A masked 32-bit compare-and-swap pseudo operation whose result register is
`X0`; scratch `X 11`, address `X 12`, expected value `X 13`, new value `X 15`,
mask `X 14`. -/
def maskedCmpXchgPseudoResultX0 : MachineInstr :=
  ⟨RISCV.PseudoMaskedCmpXchg32,
    [.Reg X0, .Reg (.X 11), .Reg (.X 12), .Reg (.X 13), .Reg (.X 15), .Reg (.X 14),
      .Imm 7], 0⟩

/-- A block that holds the pseudo operation `maskedCmpXchgPseudoResultX0`
between two operations the pass leaves alone. -/
def maskedCmpXchgResultX0Block : MachineBasicBlock :=
  ⟨0, 100, [⟨.generic 1, [], 0⟩, maskedCmpXchgPseudoResultX0, ⟨.generic 2, [], 0⟩], [7], [],
    false⟩

/-- A function of the one block `maskedCmpXchgResultX0Block`. -/
def maskedCmpXchgResultX0Function : MachineFunction :=
  ⟨[maskedCmpXchgResultX0Block], 1, true, false, 128⟩

/-- A capability global-address pseudo operation with result `C 10`, the
intermediate register `C 11` and the symbol. -/
def clgcPseudo : MachineInstr :=
  ⟨RISCV.PseudoCLGC, [.Reg (.C 10), .Reg (.C 11), .Sym .GlobalAddress 5 0 .MO_None], 0⟩

/-- A block with successor 7 that holds the pseudo operation `clgcPseudo`
between two operations the pass leaves alone. -/
def clgcBlock : MachineBasicBlock :=
  ⟨0, 100, [⟨.generic 1, [], 0⟩, clgcPseudo, ⟨.generic 2, [], 0⟩], [7], [], false⟩

/-- A function of the one block `clgcBlock`. -/
def clgcFunction : MachineFunction := ⟨[clgcBlock], 1, true, false, 128⟩

/-- A function of one block that holds the pseudo operation
`nandPseudoResultX0`, whose result register is `X0`, between two operations the
pass leaves alone. -/
def nandResultX0Function : MachineFunction :=
  ⟨[⟨0, 100, [⟨.generic 1, [], 0⟩, nandPseudoResultX0, ⟨.generic 2, [], 0⟩], [7], [],
    false⟩], 1, true, false, 128⟩

theorem bind_eq_ok {ε α β : Type} {x : Except ε α} {f : α → Except ε β} {b : β} :
    (x >>= f) = .ok b ↔ ∃ a, x = .ok a ∧ f a = .ok b := by
  cases x <;> simp [bind, Except.bind]

theorem getLRForRMW32_isLR {c : Bool} {o : AtomicOrdering} {L : RISCV}
    (h : getLRForRMW32 c o = .ok L) : L.isLR := by
  cases c <;> cases o <;> simp [getLRForRMW32] at h <;> subst h <;> exact ⟨rfl, rfl⟩

theorem getSCForRMW32_isSC {c : Bool} {o : AtomicOrdering} {L : RISCV}
    (h : getSCForRMW32 c o = .ok L) : L.isSC := by
  cases c <;> cases o <;> simp [getSCForRMW32] at h <;> subst h <;> exact ⟨rfl, rfl⟩

theorem getLRForRMW_isLR {c : Bool} {o : AtomicOrdering} {w : Int} {L : RISCV}
    (h : getLRForRMW c o w = .ok L) : L.isLR := by
  unfold getLRForRMW at h
  split at h
  · cases c <;> cases o <;> simp [getLRForRMW8] at h <;> subst h <;> exact ⟨rfl, rfl⟩
  split at h
  · cases c <;> cases o <;> simp [getLRForRMW16] at h <;> subst h <;> exact ⟨rfl, rfl⟩
  split at h
  · exact getLRForRMW32_isLR h
  split at h
  · cases c <;> cases o <;> simp [getLRForRMW64] at h <;> subst h <;> exact ⟨rfl, rfl⟩
  · cases h

theorem getSCForRMW_isSC {c : Bool} {o : AtomicOrdering} {w : Int} {L : RISCV}
    (h : getSCForRMW c o w = .ok L) : L.isSC := by
  unfold getSCForRMW at h
  split at h
  · cases c <;> cases o <;> simp [getSCForRMW8] at h <;> subst h <;> exact ⟨rfl, rfl⟩
  split at h
  · cases c <;> cases o <;> simp [getSCForRMW16] at h <;> subst h <;> exact ⟨rfl, rfl⟩
  split at h
  · exact getSCForRMW32_isSC h
  split at h
  · cases c <;> cases o <;> simp [getSCForRMW64] at h <;> subst h <;> exact ⟨rfl, rfl⟩
  · cases h

theorem getLRForRMWCap_isLR {c : Bool} {o : AtomicOrdering} {w : Int} {L : RISCV}
    (h : getLRForRMWCap c o w = .ok L) : L.isLR := by
  by_cases hw : w = 64 <;> cases c <;> cases o <;>
    simp [getLRForRMWCap, hw] at h <;> subst h <;> exact ⟨rfl, rfl⟩

theorem getSCForRMWCap_isSC {c : Bool} {o : AtomicOrdering} {w : Int} {L : RISCV}
    (h : getSCForRMWCap c o w = .ok L) : L.isSC := by
  by_cases hw : w = 64 <;> cases c <;> cases o <;>
    simp [getSCForRMWCap, hw] at h <;> subst h <;> exact ⟨rfl, rfl⟩

/-- With a legal ordering and a legal width for the mode, the integer tables
return an opcode. -/
theorem getLRForRMW_ok (c : Bool) (o : AtomicOrdering) (w : Int) (hO : o.isLegal = true)
    (hW : (w = 32 ∨ w = 64) ∨ ((w = 8 ∨ w = 16) ∧ c = true)) :
    ∃ L, getLRForRMW c o w = .ok L := by
  cases c <;> cases o <;> simp [AtomicOrdering.isLegal] at hO <;>
    rcases hW with (rfl | rfl) | ⟨rfl | rfl, h⟩ <;> (try cases h) <;> exact ⟨_, rfl⟩

theorem getSCForRMW_ok (c : Bool) (o : AtomicOrdering) (w : Int) (hO : o.isLegal = true)
    (hW : (w = 32 ∨ w = 64) ∨ ((w = 8 ∨ w = 16) ∧ c = true)) :
    ∃ L, getSCForRMW c o w = .ok L := by
  cases c <;> cases o <;> simp [AtomicOrdering.isLegal] at hO <;>
    rcases hW with (rfl | rfl) | ⟨rfl | rfl, h⟩ <;> (try cases h) <;> exact ⟨_, rfl⟩

theorem getLRForRMW32_ok (c : Bool) (o : AtomicOrdering) (hO : o.isLegal = true) :
    ∃ L, getLRForRMW32 c o = .ok L := by
  cases o <;> simp [AtomicOrdering.isLegal] at hO <;> exact ⟨_, rfl⟩

theorem getSCForRMW32_ok (c : Bool) (o : AtomicOrdering) (hO : o.isLegal = true) :
    ∃ L, getSCForRMW32 c o = .ok L := by
  cases o <;> simp [AtomicOrdering.isLegal] at hO <;> exact ⟨_, rfl⟩

theorem getLRForRMWCap_ok (c : Bool) (o : AtomicOrdering) (w : Int) (hO : o.isLegal = true) :
    ∃ L, getLRForRMWCap c o w = .ok L := by
  cases o <;> simp [AtomicOrdering.isLegal] at hO <;> exact ⟨_, rfl⟩

theorem getSCForRMWCap_ok (c : Bool) (o : AtomicOrdering) (w : Int) (hO : o.isLegal = true) :
    ∃ L, getSCForRMWCap c o w = .ok L := by
  cases o <;> simp [AtomicOrdering.isLegal] at hO <;> exact ⟨_, rfl⟩

/-- C2: for each of the five legal orderings and each legal pair of width and
capability mode (width 32 or 64 in either mode, width 8 or 16 in capability
mode), `getLRForRMW` returns the load-reserved opcode of that width and family
(`CLR_*` in capability mode, `LR_*` otherwise) that carries no annotation for
Monotonic and Release, the acquire annotation for Acquire and AcquireRelease,
and both annotations for SequentiallyConsistent. -/
theorem getLRForRMW_selection (PtrIsCap : Bool) (Ordering : AtomicOrdering)
    (Width : Int) (hO : Ordering.isLegal = true)
    (hW : (Width = 32 ∨ Width = 64) ∨ ((Width = 8 ∨ Width = 16) ∧ PtrIsCap = true)) :
    ∃ Opc, getLRForRMW PtrIsCap Ordering Width = .ok Opc ∧
      Opc.atomicInfo = some ⟨.LoadReserved, PtrIsCap, false, Width,
        loadAcquire Ordering, loadRelease Ordering⟩ := by
  cases PtrIsCap <;> cases Ordering <;> simp [AtomicOrdering.isLegal] at hO <;>
    rcases hW with (rfl | rfl) | ⟨rfl | rfl, h⟩ <;> (try cases h) <;>
    exact ⟨_, rfl, rfl⟩

/-- Witness of C2: AcquireRelease at width 32 outside capability mode. -/
theorem getLRForRMW_selection_witness :
    AtomicOrdering.isLegal .AcquireRelease = true ∧
    (((32 : Int) = 32 ∨ (32 : Int) = 64) ∨
      (((32 : Int) = 8 ∨ (32 : Int) = 16) ∧ false = true)) ∧
    ∃ Opc, getLRForRMW false .AcquireRelease 32 = .ok Opc ∧
      Opc.atomicInfo = some ⟨.LoadReserved, false, false, 32,
        loadAcquire .AcquireRelease, loadRelease .AcquireRelease⟩ :=
  ⟨rfl, Or.inl (Or.inl rfl),
    getLRForRMW_selection false .AcquireRelease 32 rfl (Or.inl (Or.inl rfl))⟩

/-- C3: for each of the five legal orderings and each legal pair of width and
capability mode, `getSCForRMW` returns the store-conditional opcode of that
width and family (`CSC_*` in capability mode, `SC_*` otherwise) that carries no
annotation for Monotonic and Acquire, the release annotation for Release and
AcquireRelease, and both annotations for SequentiallyConsistent. -/
theorem getSCForRMW_selection (PtrIsCap : Bool) (Ordering : AtomicOrdering)
    (Width : Int) (hO : Ordering.isLegal = true)
    (hW : (Width = 32 ∨ Width = 64) ∨ ((Width = 8 ∨ Width = 16) ∧ PtrIsCap = true)) :
    ∃ Opc, getSCForRMW PtrIsCap Ordering Width = .ok Opc ∧
      Opc.atomicInfo = some ⟨.StoreConditional, PtrIsCap, false, Width,
        storeAcquire Ordering, storeRelease Ordering⟩ := by
  cases PtrIsCap <;> cases Ordering <;> simp [AtomicOrdering.isLegal] at hO <;>
    rcases hW with (rfl | rfl) | ⟨rfl | rfl, h⟩ <;> (try cases h) <;>
    exact ⟨_, rfl, rfl⟩

/-- Witness of C3: Release at width 16 in capability mode. -/
theorem getSCForRMW_selection_witness :
    AtomicOrdering.isLegal .Release = true ∧
    (((16 : Int) = 32 ∨ (16 : Int) = 64) ∨
      (((16 : Int) = 8 ∨ (16 : Int) = 16) ∧ true = true)) ∧
    ∃ Opc, getSCForRMW true .Release 16 = .ok Opc ∧
      Opc.atomicInfo = some ⟨.StoreConditional, true, false, 16,
        storeAcquire .Release, storeRelease .Release⟩ :=
  ⟨rfl, Or.inr ⟨Or.inr rfl, rfl⟩,
    getSCForRMW_selection true .Release 16 rfl (Or.inr ⟨Or.inr rfl, rfl⟩)⟩

/-- C4, what the code does: in both capability modes and for every native
capability width, `getSCForRMWCap` selects for Acquire and for AcquireRelease a
store-conditional that carries the acquire annotation alone, and for Release
the plain store-conditional; the release annotation appears on the store only
for SequentiallyConsistent. The rule for the store half asks for the plain
variant under Acquire and the release-annotated one under Release and
AcquireRelease, as `getSCForRMW` selects them. -/
theorem getSCForRMWCap_acquire_on_store (PtrIsCap : Bool) (CLen : Int) :
    (∃ Opc i, getSCForRMWCap PtrIsCap .Acquire CLen = .ok Opc ∧
      Opc.atomicInfo = some i ∧ i.kind = .StoreConditional ∧
      i.aq = true ∧ i.rl = false) ∧
    (∃ Opc i, getSCForRMWCap PtrIsCap .Release CLen = .ok Opc ∧
      Opc.atomicInfo = some i ∧ i.kind = .StoreConditional ∧
      i.aq = false ∧ i.rl = false) ∧
    (∃ Opc i, getSCForRMWCap PtrIsCap .AcquireRelease CLen = .ok Opc ∧
      Opc.atomicInfo = some i ∧ i.kind = .StoreConditional ∧
      i.aq = true ∧ i.rl = false) := by
  cases PtrIsCap <;> by_cases h : CLen = 64 <;>
    simp only [getSCForRMWCap, h, if_true, if_false, Bool.false_eq_true] <;>
    exact ⟨⟨_, _, rfl, rfl, rfl, rfl, rfl⟩, ⟨_, _, rfl, rfl, rfl, rfl, rfl⟩,
      ⟨_, _, rfl, rfl, rfl, rfl, rfl⟩⟩

/-- C5, what the code does: for the Release ordering the capability-value
tables select a plain load-reserved and a plain store-conditional, in both
capability modes and for every native capability width: neither opcode of the
pair carries an annotation. -/
theorem capTables_release_plain_pair (PtrIsCap : Bool) (CLen : Int) :
    ∃ L S li si, getLRForRMWCap PtrIsCap .Release CLen = .ok L ∧
      getSCForRMWCap PtrIsCap .Release CLen = .ok S ∧
      L.atomicInfo = some li ∧ S.atomicInfo = some si ∧
      li.aq = false ∧ li.rl = false ∧ si.aq = false ∧ si.rl = false := by
  cases PtrIsCap <;> by_cases h : CLen = 64 <;>
    simp only [getLRForRMWCap, getSCForRMWCap, h, if_true, if_false,
      Bool.false_eq_true] <;>
    exact ⟨_, _, _, _, rfl, rfl, rfl, rfl, rfl, rfl, rfl, rfl⟩

/-- The integer tables never select a plain pair for an ordering other than
Monotonic, and select both annotations on both opcodes for
SequentiallyConsistent. -/
theorem intTables_annotated (PtrIsCap : Bool) (Ordering : AtomicOrdering) (Width : Int)
    (L S : RISCV) (hL : getLRForRMW PtrIsCap Ordering Width = .ok L)
    (hS : getSCForRMW PtrIsCap Ordering Width = .ok S) (hM : Ordering ≠ .Monotonic) :
    ∃ li si, L.atomicInfo = some li ∧ S.atomicInfo = some si ∧
      (li.aq = true ∨ si.rl = true) ∧
      (Ordering = .SequentiallyConsistent →
        li.aq = true ∧ li.rl = true ∧ si.aq = true ∧ si.rl = true) := by
  unfold getLRForRMW at hL
  unfold getSCForRMW at hS
  split at hL
  · rw [if_pos (by assumption)] at hS
    cases PtrIsCap <;> cases Ordering <;> simp [getLRForRMW8] at hL <;>
      simp [getSCForRMW8] at hS <;> subst hL <;> subst hS <;>
      first | exact absurd rfl hM | exact ⟨_, _, rfl, rfl, by decide, by decide⟩
  rw [if_neg (by assumption)] at hS
  split at hL
  · rw [if_pos (by assumption)] at hS
    cases PtrIsCap <;> cases Ordering <;> simp [getLRForRMW16] at hL <;>
      simp [getSCForRMW16] at hS <;> subst hL <;> subst hS <;>
      first | exact absurd rfl hM | exact ⟨_, _, rfl, rfl, by decide, by decide⟩
  rw [if_neg (by assumption)] at hS
  split at hL
  · rw [if_pos (by assumption)] at hS
    cases PtrIsCap <;> cases Ordering <;> simp [getLRForRMW32] at hL <;>
      simp [getSCForRMW32] at hS <;> subst hL <;> subst hS <;>
      first | exact absurd rfl hM | exact ⟨_, _, rfl, rfl, by decide, by decide⟩
  rw [if_neg (by assumption)] at hS
  split at hL
  · rw [if_pos (by assumption)] at hS
    cases PtrIsCap <;> cases Ordering <;> simp [getLRForRMW64] at hL <;>
      simp [getSCForRMW64] at hS <;> subst hL <;> subst hS <;>
      first | exact absurd rfl hM | exact ⟨_, _, rfl, rfl, by decide, by decide⟩
  · cases hL

/-! ## Theorems: semantics of the emitted loop bodies -/

theorem read_write_same (s : MachineState) (r : Register) (v : Nat) (h : r ≠ X0) :
    (s.write r v).read r = v := by
  simp [MachineState.read, MachineState.write, h]

theorem read_write_other (s : MachineState) (r q : Register) (v : Nat) (h : q ≠ r) :
    (s.write r v).read q = s.read q := by
  simp [MachineState.read, MachineState.write, h]

theorem read_X0 (s : MachineState) : s.read X0 = 0 := by
  simp [MachineState.read]

theorem execInst_LR (xlen : Nat) (L : RISCV) (hL : L.isLR) (rd rs1 : Register) (DL : Nat)
    (s : MachineState) :
    execInst xlen ⟨L, [.Reg rd, .Reg rs1], DL⟩ s =
      some (s.write rd (s.mem (s.read rs1))) := by
  simp [execInst, MachineInstr.isLoadReserved, hL.1]

theorem isStoreConditional_LR (L : RISCV) (hL : L.isLR) (ops : List MachineOperand)
    (DL : Nat) : MachineInstr.isStoreConditional ⟨L, ops, DL⟩ = false := by
  simp [MachineInstr.isStoreConditional, hL.1]

theorem isStoreConditional_SC (S : RISCV) (hS : S.isSC) (ops : List MachineOperand)
    (DL : Nat) : MachineInstr.isStoreConditional ⟨S, ops, DL⟩ = true := by
  simp [MachineInstr.isStoreConditional, hS.1]

theorem valueOfferedToSC_cons (xlen : Nat) (MI : MachineInstr) (rest : List MachineInstr)
    (s s1 : MachineState) (h1 : MI.isStoreConditional = false)
    (h2 : execInst xlen MI s = some s1) :
    valueOfferedToSC xlen (MI :: rest) s = valueOfferedToSC xlen rest s1 := by
  simp [valueOfferedToSC, h1, h2]

theorem valueOfferedToSC_SC (xlen : Nat) (S : RISCV) (hS : S.isSC) (rd rs1 rs2 : Register)
    (DL : Nat) (rest : List MachineInstr) (s : MachineState) :
    valueOfferedToSC xlen (⟨S, [.Reg rd, .Reg rs1, .Reg rs2], DL⟩ :: rest) s =
      some (s.read rs2) := by
  simp [valueOfferedToSC, isStoreConditional_SC S hS]

theorem immValue_neg_one (w : Nat) : immValue w (-1) = 2 ^ w - 1 := by
  unfold immValue
  have h1 : 1 ≤ 2 ^ w := Nat.one_le_two_pow
  have h2 : ((-1 : Int) % 2 ^ w) = ((2 ^ w - 1 : Nat) : Int) := by
    have h3 : ((2 ^ w - 1 : Nat) : Int) = 2 ^ w - 1 := by
      push_cast [Nat.cast_sub h1]; rfl
    have h4 : (0 : Int) < 2 ^ w := by positivity
    rw [Int.emod_eq_add_self_emod, Int.emod_eq_of_lt (by omega) (by omega), h3]
    ring
  rw [h2, Int.toNat_ofNat]

theorem immValue_zero (w : Nat) : immValue w 0 = 0 := by
  simp [immValue]

theorem xor_allOnes (w a : Nat) : a ^^^ (2 ^ w - 1) = bvNot w a := by
  simp [bvNot, Nat.xor_comm]

/-- The masked merge keeps the bits of `old` outside the mask and takes the
bits of `new` inside it. -/
theorem maskedMerge_eq (w old new mask : Nat) (hold : old < 2 ^ w) :
    old ^^^ ((old ^^^ new) &&& mask) = (old &&& bvNot w mask) ||| (new &&& mask) := by
  apply Nat.eq_of_testBit_eq
  intro i
  simp only [bvNot, Nat.testBit_xor, Nat.testBit_and, Nat.testBit_or,
    Nat.testBit_two_pow_sub_one]
  by_cases hi : i < w
  · simp only [hi, decide_True]
    cases old.testBit i <;> cases new.testBit i <;> cases mask.testBit i <;> rfl
  · have ho : old.testBit i = false :=
      Nat.testBit_lt_two_pow (Nat.lt_of_lt_of_le hold
        (Nat.pow_le_pow_right (by decide) (Nat.le_of_not_lt hi)))
    simp only [hi, ho, decide_False]
    cases new.testBit i <;> cases mask.testBit i <;> rfl

theorem insertMaskedMerge_eq (DL : Nat) (MBB : MachineBasicBlock)
    (DestReg OldValReg NewValReg MaskReg ScratchReg : Register)
    (h1 : OldValReg ≠ ScratchReg) (h2 : OldValReg ≠ MaskReg) (h3 : ScratchReg ≠ MaskReg) :
    insertMaskedMerge DL MBB DestReg OldValReg NewValReg MaskReg ScratchReg =
      .ok { MBB with insts := MBB.insts ++
        [⟨RISCV.XOR, [.Reg ScratchReg, .Reg OldValReg, .Reg NewValReg], DL⟩,
         ⟨RISCV.AND, [.Reg ScratchReg, .Reg ScratchReg, .Reg MaskReg], DL⟩,
         ⟨RISCV.XOR, [.Reg DestReg, .Reg OldValReg, .Reg ScratchReg], DL⟩] } := by
  simp [insertMaskedMerge, assert, h1, h2, h3, BuildMI, bind, Except.bind]

/-- C6: `insertMaskedMerge` emits XOR, AND, XOR; run in a state where the
old-value, new-value and mask registers hold `old`, `new` and `mask`, with `old`
a value of `xlen` bits, they leave `old ^ ((old ^ new) & mask)` in the
destination register, and that value is `(old & ~mask) | (new & mask)`. The
registers are as the assertions of the function demand, and the scratch and
destination registers are not `X0`, whose writes are lost. -/
theorem insertMaskedMerge_value (xlen DL : Nat) (MBB : MachineBasicBlock)
    (DestReg OldValReg NewValReg MaskReg ScratchReg : Register)
    (s : MachineState) (old new mask : Nat)
    (hold : old < 2 ^ xlen)
    (h1 : OldValReg ≠ ScratchReg) (h2 : OldValReg ≠ MaskReg) (h3 : ScratchReg ≠ MaskReg)
    (hS0 : ScratchReg ≠ X0) (hD0 : DestReg ≠ X0)
    (ro : s.read OldValReg = old) (rn : s.read NewValReg = new)
    (rm : s.read MaskReg = mask) :
    ∃ i1 i2 i3 s',
      insertMaskedMerge DL MBB DestReg OldValReg NewValReg MaskReg ScratchReg =
        .ok { MBB with insts := MBB.insts ++ [i1, i2, i3] } ∧
      i1.opcode = RISCV.XOR ∧ i2.opcode = RISCV.AND ∧ i3.opcode = RISCV.XOR ∧
      execInsts xlen [i1, i2, i3] s = some s' ∧
      s'.read DestReg = old ^^^ ((old ^^^ new) &&& mask) ∧
      s'.read DestReg = (old &&& bvNot xlen mask) ||| (new &&& mask) := by
  have key : ∀ x, x = old ^^^ ((old ^^^ new) &&& mask) →
      x = old ^^^ ((old ^^^ new) &&& mask) ∧
      x = (old &&& bvNot xlen mask) ||| (new &&& mask) :=
    fun x hx => ⟨hx, hx.trans (maskedMerge_eq xlen old new mask hold)⟩
  refine ⟨_, _, _, _, insertMaskedMerge_eq DL MBB _ _ _ _ _ h1 h2 h3, rfl, rfl, rfl, rfl,
    key _ ?_⟩
  rw [read_write_same _ _ _ hD0, read_write_same _ _ _ hS0, read_write_same _ _ _ hS0,
    read_write_other _ _ _ _ h1, read_write_other _ _ _ _ h1,
    read_write_other _ _ _ _ (Ne.symm h3), ro, rn, rm]

/-- Witness of C6: old value 171 in `X 10`, new value 255 in `X 14`, mask 15 in
`X 15`, scratch `X 17` and destination `X 16`, on 64 bits. -/
theorem insertMaskedMerge_value_witness :
    (171 : Nat) < 2 ^ 64 ∧ Register.X 10 ≠ Register.X 17 ∧ Register.X 10 ≠ Register.X 15 ∧
    Register.X 17 ≠ Register.X 15 ∧ Register.X 17 ≠ X0 ∧ Register.X 16 ≠ X0 ∧
    onesState.read (.X 10) = 171 ∧ onesState.read (.X 14) = 255 ∧
    onesState.read (.X 15) = 15 ∧
    ∃ i1 i2 i3 s',
      insertMaskedMerge 0 emptyBlock (.X 16) (.X 10) (.X 14) (.X 15) (.X 17) =
        .ok { emptyBlock with insts := emptyBlock.insts ++ [i1, i2, i3] } ∧
      i1.opcode = RISCV.XOR ∧ i2.opcode = RISCV.AND ∧ i3.opcode = RISCV.XOR ∧
      execInsts 64 [i1, i2, i3] onesState = some s' ∧
      s'.read (.X 16) = 171 ^^^ ((171 ^^^ 255) &&& 15) ∧
      s'.read (.X 16) = (171 &&& bvNot 64 15) ||| (255 &&& 15) :=
  ⟨by decide, by decide, by decide, by decide, by decide, by decide, rfl, rfl, rfl,
    insertMaskedMerge_value 64 0 emptyBlock (.X 16) (.X 10) (.X 14) (.X 15) (.X 17)
      onesState 171 255 15 (by decide) (by decide) (by decide) (by decide) (by decide)
      (by decide) rfl rfl rfl⟩

/-! ## Theorems: the loop body of a read-modify-write -/

/-- C8, amended: for each of the seven operators, `doAtomicBinOpExpansion`
appends to the loop block the load-reserved into the result register from the
address register, the computation of the operator into the scratch register,
the store-conditional of the scratch register to the address with its status
in the scratch register, and `BNE scratch, X0` back to the loop block. When the
result register differs from the value register and neither the result nor the
scratch register is `X0`, the memory at the address holds `old` and the value
register holds `v`, the store-conditional offers `v` for swap, `old + v` for
add, `old - v` for sub, `old & v`, `old | v`, `old ^ v` for and, or, xor and
`~(old & v)` for nand, on `xlen` bits. -/
theorem doAtomicBinOpExpansion_loop (xlen DL : Nat) (LoopMBB : MachineBasicBlock)
    (BinOp : BinOp) (Width : Int) (PtrIsCap : Bool) (MI : MachineInstr)
    (DestReg ScratchReg AddrReg IncrReg : Register) (o : Int) (rest : List MachineOperand)
    (LR SC : RISCV) (s : MachineState) (old v : Nat)
    (hops : MI.operands = .Reg DestReg :: .Reg ScratchReg :: .Reg AddrReg ::
      .Reg IncrReg :: .Imm o :: rest)
    (hLR : getLRForRMW PtrIsCap (AtomicOrdering.ofImm o) Width = .ok LR)
    (hSC : getSCForRMW PtrIsCap (AtomicOrdering.ofImm o) Width = .ok SC)
    (hop : BinOp ∈ [.Xchg, .Add, .Sub, .And, .Or, .Xor, .Nand])
    (hDI : DestReg ≠ IncrReg) (hD0 : DestReg ≠ X0) (hS0 : ScratchReg ≠ X0)
    (hold : s.mem (s.read AddrReg) = old) (hv : s.read IncrReg = v)
    (hvlt : v < 2 ^ xlen) :
    ∃ body val,
      doAtomicBinOpExpansion MI DL LoopMBB BinOp Width PtrIsCap =
        .ok { LoopMBB with insts := LoopMBB.insts ++
          (⟨LR, [.Reg DestReg, .Reg AddrReg], DL⟩ :: body ++
           [⟨SC, [.Reg ScratchReg, .Reg AddrReg, .Reg ScratchReg], DL⟩,
            ⟨RISCV.BNE, [.Reg ScratchReg, .Reg X0, .MBB LoopMBB.id .MO_None], DL⟩]) } ∧
      (∀ mi ∈ body, mi.operands.head? = some (.Reg ScratchReg)) ∧
      binOpValue xlen BinOp old v = some val ∧
      valueOfferedToSC xlen
        (⟨LR, [.Reg DestReg, .Reg AddrReg], DL⟩ :: body ++
           [⟨SC, [.Reg ScratchReg, .Reg AddrReg, .Reg ScratchReg], DL⟩,
            ⟨RISCV.BNE, [.Reg ScratchReg, .Reg X0, .MBB LoopMBB.id .MO_None], DL⟩]) s =
        some val := by
  have hL := getLRForRMW_isLR hLR
  have hS := getSCForRMW_isSC hSC
  have hID : IncrReg ≠ DestReg := Ne.symm hDI
  simp only [List.mem_cons, List.mem_singleton, List.not_mem_nil, or_false] at hop
  rcases hop with rfl | rfl | rfl | rfl | rfl | rfl | rfl
  · refine ⟨[⟨RISCV.ADD, [.Reg ScratchReg, .Reg X0, .Reg IncrReg], DL⟩], _, ?_, ?_, rfl, ?_⟩
    · simp [doAtomicBinOpExpansion, hops, MachineInstr.getReg, MachineInstr.getImm, hLR, hSC,
        BuildMI, bind, Except.bind]
    · simp
    · simp only [List.cons_append, List.nil_append]
      rw [valueOfferedToSC_cons xlen _ _ s _ (isStoreConditional_LR LR hL _ _)
        (execInst_LR xlen LR hL _ _ _ s)]
      rw [valueOfferedToSC_cons xlen _ _ _ _ (by rfl) (by rfl), valueOfferedToSC_SC xlen SC hS,
        read_write_same _ _ _ hS0]
      simp [read_write_other, read_write_same, hID, hD0, hv, hold, read_X0, bvAdd,
        Nat.mod_eq_of_lt hvlt]
  · refine ⟨[⟨RISCV.ADD, [.Reg ScratchReg, .Reg DestReg, .Reg IncrReg], DL⟩], _, ?_, ?_, rfl, ?_⟩
    · simp [doAtomicBinOpExpansion, hops, MachineInstr.getReg, MachineInstr.getImm, hLR, hSC,
        BuildMI, bind, Except.bind]
    · simp
    · simp only [List.cons_append, List.nil_append]
      rw [valueOfferedToSC_cons xlen _ _ s _ (isStoreConditional_LR LR hL _ _)
        (execInst_LR xlen LR hL _ _ _ s)]
      rw [valueOfferedToSC_cons xlen _ _ _ _ (by rfl) (by rfl), valueOfferedToSC_SC xlen SC hS,
        read_write_same _ _ _ hS0]
      simp [read_write_other, read_write_same, hID, hD0, hv, hold]
  · refine ⟨[⟨RISCV.SUB, [.Reg ScratchReg, .Reg DestReg, .Reg IncrReg], DL⟩], _, ?_, ?_, rfl, ?_⟩
    · simp [doAtomicBinOpExpansion, hops, MachineInstr.getReg, MachineInstr.getImm, hLR, hSC,
        BuildMI, bind, Except.bind]
    · simp
    · simp only [List.cons_append, List.nil_append]
      rw [valueOfferedToSC_cons xlen _ _ s _ (isStoreConditional_LR LR hL _ _)
        (execInst_LR xlen LR hL _ _ _ s)]
      rw [valueOfferedToSC_cons xlen _ _ _ _ (by rfl) (by rfl), valueOfferedToSC_SC xlen SC hS,
        read_write_same _ _ _ hS0]
      simp [read_write_other, read_write_same, hID, hD0, hv, hold]
  · refine ⟨[⟨RISCV.AND, [.Reg ScratchReg, .Reg DestReg, .Reg IncrReg], DL⟩], _, ?_, ?_, rfl, ?_⟩
    · simp [doAtomicBinOpExpansion, hops, MachineInstr.getReg, MachineInstr.getImm, hLR, hSC,
        BuildMI, bind, Except.bind]
    · simp
    · simp only [List.cons_append, List.nil_append]
      rw [valueOfferedToSC_cons xlen _ _ s _ (isStoreConditional_LR LR hL _ _)
        (execInst_LR xlen LR hL _ _ _ s)]
      rw [valueOfferedToSC_cons xlen _ _ _ _ (by rfl) (by rfl), valueOfferedToSC_SC xlen SC hS,
        read_write_same _ _ _ hS0]
      simp [read_write_other, read_write_same, hID, hD0, hv, hold]
  · refine ⟨[⟨RISCV.OR, [.Reg ScratchReg, .Reg DestReg, .Reg IncrReg], DL⟩], _, ?_, ?_, rfl, ?_⟩
    · simp [doAtomicBinOpExpansion, hops, MachineInstr.getReg, MachineInstr.getImm, hLR, hSC,
        BuildMI, bind, Except.bind]
    · simp
    · simp only [List.cons_append, List.nil_append]
      rw [valueOfferedToSC_cons xlen _ _ s _ (isStoreConditional_LR LR hL _ _)
        (execInst_LR xlen LR hL _ _ _ s)]
      rw [valueOfferedToSC_cons xlen _ _ _ _ (by rfl) (by rfl), valueOfferedToSC_SC xlen SC hS,
        read_write_same _ _ _ hS0]
      simp [read_write_other, read_write_same, hID, hD0, hv, hold]
  · refine ⟨[⟨RISCV.XOR, [.Reg ScratchReg, .Reg DestReg, .Reg IncrReg], DL⟩], _, ?_, ?_, rfl, ?_⟩
    · simp [doAtomicBinOpExpansion, hops, MachineInstr.getReg, MachineInstr.getImm, hLR, hSC,
        BuildMI, bind, Except.bind]
    · simp
    · simp only [List.cons_append, List.nil_append]
      rw [valueOfferedToSC_cons xlen _ _ s _ (isStoreConditional_LR LR hL _ _)
        (execInst_LR xlen LR hL _ _ _ s)]
      rw [valueOfferedToSC_cons xlen _ _ _ _ (by rfl) (by rfl), valueOfferedToSC_SC xlen SC hS,
        read_write_same _ _ _ hS0]
      simp [read_write_other, read_write_same, hID, hD0, hv, hold]
  · refine ⟨[⟨RISCV.AND, [.Reg ScratchReg, .Reg DestReg, .Reg IncrReg], DL⟩,
      ⟨RISCV.XORI, [.Reg ScratchReg, .Reg ScratchReg, .Imm (-1)], DL⟩], _, ?_, ?_, rfl, ?_⟩
    · simp [doAtomicBinOpExpansion, hops, MachineInstr.getReg, MachineInstr.getImm, hLR, hSC,
        BuildMI, bind, Except.bind]
    · simp
    · simp only [List.cons_append, List.nil_append]
      rw [valueOfferedToSC_cons xlen _ _ s _ (isStoreConditional_LR LR hL _ _)
        (execInst_LR xlen LR hL _ _ _ s)]
      rw [valueOfferedToSC_cons xlen _ _ _ _ (by rfl) (by rfl),
        valueOfferedToSC_cons xlen _ _ _ _ (by rfl) (by rfl), valueOfferedToSC_SC xlen SC hS,
        read_write_same _ _ _ hS0, read_write_same _ _ _ hS0]
      simp [read_write_other, read_write_same, hID, hD0, hv, hold, immValue_neg_one,
        xor_allOnes]

/-- Witness of C8, amended: the nand of `nandPseudo` at width 32 on 64-bit
registers, in the state `onesState`. -/
theorem doAtomicBinOpExpansion_loop_witness :
    nandPseudo.operands = .Reg (.X 10) :: .Reg (.X 11) :: .Reg (.X 12) ::
      .Reg (.X 13) :: .Imm 7 :: [] ∧
    getLRForRMW false (AtomicOrdering.ofImm 7) 32 = .ok .LR_W_AQ_RL ∧
    getSCForRMW false (AtomicOrdering.ofImm 7) 32 = .ok .SC_W_AQ_RL ∧
    Register.X 10 ≠ Register.X 13 ∧ Register.X 10 ≠ X0 ∧ Register.X 11 ≠ X0 ∧
    onesState.mem (onesState.read (.X 12)) = 1 ∧ onesState.read (.X 13) = 1 ∧
    ∃ body val,
      doAtomicBinOpExpansion nandPseudo 0 emptyBlock .Nand 32 false =
        .ok { emptyBlock with insts := emptyBlock.insts ++
          (⟨RISCV.LR_W_AQ_RL, [.Reg (.X 10), .Reg (.X 12)], 0⟩ :: body ++
           [⟨RISCV.SC_W_AQ_RL, [.Reg (.X 11), .Reg (.X 12), .Reg (.X 11)], 0⟩,
            ⟨RISCV.BNE, [.Reg (.X 11), .Reg X0, .MBB emptyBlock.id .MO_None], 0⟩]) } ∧
      (∀ mi ∈ body, mi.operands.head? = some (.Reg (.X 11))) ∧
      binOpValue 64 .Nand 1 1 = some val ∧
      valueOfferedToSC 64
        (⟨RISCV.LR_W_AQ_RL, [.Reg (.X 10), .Reg (.X 12)], 0⟩ :: body ++
           [⟨RISCV.SC_W_AQ_RL, [.Reg (.X 11), .Reg (.X 12), .Reg (.X 11)], 0⟩,
            ⟨RISCV.BNE, [.Reg (.X 11), .Reg X0, .MBB emptyBlock.id .MO_None], 0⟩])
        onesState = some val :=
  ⟨rfl, rfl, rfl, by decide, by decide, by decide, rfl, rfl,
    doAtomicBinOpExpansion_loop 64 0 emptyBlock .Nand 32 false nandPseudo
      (.X 10) (.X 11) (.X 12) (.X 13) 7 [] .LR_W_AQ_RL .SC_W_AQ_RL onesState 1 1
      rfl rfl rfl (by decide) (by decide) (by decide) (by decide) rfl rfl (by decide)⟩

/-- C8 as stated fails when the result register is `X0`: for the nand pseudo
operation `nandPseudoResultX0`, whose result, scratch, address and value
registers `X0`, `X 11`, `X 12`, `X 13` are pairwise distinct, in a state where
the memory holds 1 and the value register holds 1, the store-conditional is
offered `~(0 & 1)`, all ones, and not `~(1 & 1)`. -/
theorem doAtomicBinOpExpansion_resultX0_counterexample :
    ∃ B, doAtomicBinOpExpansion nandPseudoResultX0 0 emptyBlock .Nand 32 false = .ok B ∧
      nandPseudoResultX0.operands =
        [.Reg X0, .Reg (.X 11), .Reg (.X 12), .Reg (.X 13), .Imm 2] ∧
      onesState.mem (onesState.read (.X 12)) = 1 ∧ onesState.read (.X 13) = 1 ∧
      binOpValue 64 .Nand 1 1 = some 18446744073709551614 ∧
      valueOfferedToSC 64 B.insts onesState = some 18446744073709551615 :=
  ⟨_, rfl, rfl, rfl, rfl, rfl, rfl⟩

/-- C9, amended: for the masked 32-bit expansion with the operators swap, add,
sub and nand, when the result register differs from the scratch, value and
mask registers, the scratch register differs from the mask register and
neither the result nor the scratch register is `X0`, the memory at the address
holds the word `old`, the value register holds `v` and the mask register holds
`m`, the store-conditional offers `(old & ~m) | (op(old, v) & m)`: the bits of
the word outside the mask are stored back unchanged. -/
theorem doMaskedAtomicBinOpExpansion_value (xlen DL : Nat) (LoopMBB : MachineBasicBlock)
    (BinOp : BinOp) (MI : MachineInstr)
    (DestReg ScratchReg AddrReg IncrReg MaskReg : Register) (o : Int)
    (rest : List MachineOperand) (LR SC : RISCV) (s : MachineState) (old v m : Nat)
    (hops : MI.operands = .Reg DestReg :: .Reg ScratchReg :: .Reg AddrReg ::
      .Reg IncrReg :: .Reg MaskReg :: .Imm o :: rest)
    (hLR : getLRForRMW32 false (AtomicOrdering.ofImm o) = .ok LR)
    (hSC : getSCForRMW32 false (AtomicOrdering.ofImm o) = .ok SC)
    (hop : BinOp ∈ [.Xchg, .Add, .Sub, .Nand])
    (hDS : DestReg ≠ ScratchReg) (hDM : DestReg ≠ MaskReg) (hSM : ScratchReg ≠ MaskReg)
    (hDI : DestReg ≠ IncrReg) (hD0 : DestReg ≠ X0) (hS0 : ScratchReg ≠ X0)
    (hold : s.mem (s.read AddrReg) = old) (hv : s.read IncrReg = v)
    (hm : s.read MaskReg = m) (holdlt : old < 2 ^ xlen) (hvlt : v < 2 ^ xlen) :
    ∃ body val,
      doMaskedAtomicBinOpExpansion MI DL LoopMBB BinOp 32 =
        .ok { LoopMBB with insts := LoopMBB.insts ++
          (⟨LR, [.Reg DestReg, .Reg AddrReg], DL⟩ :: body ++
           [⟨RISCV.XOR, [.Reg ScratchReg, .Reg DestReg, .Reg ScratchReg], DL⟩,
            ⟨RISCV.AND, [.Reg ScratchReg, .Reg ScratchReg, .Reg MaskReg], DL⟩,
            ⟨RISCV.XOR, [.Reg ScratchReg, .Reg DestReg, .Reg ScratchReg], DL⟩,
            ⟨SC, [.Reg ScratchReg, .Reg AddrReg, .Reg ScratchReg], DL⟩,
            ⟨RISCV.BNE, [.Reg ScratchReg, .Reg X0, .MBB LoopMBB.id .MO_None], DL⟩]) } ∧
      binOpValue xlen BinOp old v = some val ∧
      valueOfferedToSC xlen
        (⟨LR, [.Reg DestReg, .Reg AddrReg], DL⟩ :: body ++
           [⟨RISCV.XOR, [.Reg ScratchReg, .Reg DestReg, .Reg ScratchReg], DL⟩,
            ⟨RISCV.AND, [.Reg ScratchReg, .Reg ScratchReg, .Reg MaskReg], DL⟩,
            ⟨RISCV.XOR, [.Reg ScratchReg, .Reg DestReg, .Reg ScratchReg], DL⟩,
            ⟨SC, [.Reg ScratchReg, .Reg AddrReg, .Reg ScratchReg], DL⟩,
            ⟨RISCV.BNE, [.Reg ScratchReg, .Reg X0, .MBB LoopMBB.id .MO_None], DL⟩]) s =
        some ((old &&& bvNot xlen m) ||| (val &&& m)) := by
  have hL := getLRForRMW32_isLR hLR
  have hS := getSCForRMW32_isSC hSC
  have hID : IncrReg ≠ DestReg := Ne.symm hDI
  have hMS : MaskReg ≠ ScratchReg := Ne.symm hSM
  have hMD : MaskReg ≠ DestReg := Ne.symm hDM
  simp only [List.mem_cons, List.mem_singleton, List.not_mem_nil, or_false] at hop
  rcases hop with rfl | rfl | rfl | rfl
  · refine ⟨[⟨RISCV.ADDI, [.Reg ScratchReg, .Reg IncrReg, .Imm 0], DL⟩], _, ?_, rfl, ?_⟩
    · simp [doMaskedAtomicBinOpExpansion, hops, MachineInstr.getReg, MachineInstr.getImm,
        hLR, hSC, BuildMI, bind, Except.bind, assert,
        insertMaskedMerge_eq _ _ _ _ _ _ _ hDS hDM hSM]
    · simp only [List.cons_append, List.nil_append]
      rw [valueOfferedToSC_cons xlen _ _ s _ (isStoreConditional_LR LR hL _ _)
        (execInst_LR xlen LR hL _ _ _ s),
        valueOfferedToSC_cons xlen _ _ _ _ (by rfl) (by rfl),
        valueOfferedToSC_cons xlen _ _ _ _ (by rfl) (by rfl),
        valueOfferedToSC_cons xlen _ _ _ _ (by rfl) (by rfl),
        valueOfferedToSC_cons xlen _ _ _ _ (by rfl) (by rfl),
        valueOfferedToSC_SC xlen SC hS]
      simp [read_write_other, read_write_same, hID, hD0, hS0, hDS, hMS, hMD, hv, hold, hm,
        immValue_zero, bvAdd, Nat.mod_eq_of_lt hvlt, maskedMerge_eq xlen old _ m holdlt]
  · refine ⟨[⟨RISCV.ADD, [.Reg ScratchReg, .Reg DestReg, .Reg IncrReg], DL⟩], _, ?_, rfl, ?_⟩
    · simp [doMaskedAtomicBinOpExpansion, hops, MachineInstr.getReg, MachineInstr.getImm,
        hLR, hSC, BuildMI, bind, Except.bind, assert,
        insertMaskedMerge_eq _ _ _ _ _ _ _ hDS hDM hSM]
    · simp only [List.cons_append, List.nil_append]
      rw [valueOfferedToSC_cons xlen _ _ s _ (isStoreConditional_LR LR hL _ _)
        (execInst_LR xlen LR hL _ _ _ s),
        valueOfferedToSC_cons xlen _ _ _ _ (by rfl) (by rfl),
        valueOfferedToSC_cons xlen _ _ _ _ (by rfl) (by rfl),
        valueOfferedToSC_cons xlen _ _ _ _ (by rfl) (by rfl),
        valueOfferedToSC_cons xlen _ _ _ _ (by rfl) (by rfl),
        valueOfferedToSC_SC xlen SC hS]
      simp [read_write_other, read_write_same, hID, hD0, hS0, hDS, hMS, hMD, hv, hold, hm,
        maskedMerge_eq xlen old _ m holdlt]
  · refine ⟨[⟨RISCV.SUB, [.Reg ScratchReg, .Reg DestReg, .Reg IncrReg], DL⟩], _, ?_, rfl, ?_⟩
    · simp [doMaskedAtomicBinOpExpansion, hops, MachineInstr.getReg, MachineInstr.getImm,
        hLR, hSC, BuildMI, bind, Except.bind, assert,
        insertMaskedMerge_eq _ _ _ _ _ _ _ hDS hDM hSM]
    · simp only [List.cons_append, List.nil_append]
      rw [valueOfferedToSC_cons xlen _ _ s _ (isStoreConditional_LR LR hL _ _)
        (execInst_LR xlen LR hL _ _ _ s),
        valueOfferedToSC_cons xlen _ _ _ _ (by rfl) (by rfl),
        valueOfferedToSC_cons xlen _ _ _ _ (by rfl) (by rfl),
        valueOfferedToSC_cons xlen _ _ _ _ (by rfl) (by rfl),
        valueOfferedToSC_cons xlen _ _ _ _ (by rfl) (by rfl),
        valueOfferedToSC_SC xlen SC hS]
      simp [read_write_other, read_write_same, hID, hD0, hS0, hDS, hMS, hMD, hv, hold, hm,
        maskedMerge_eq xlen old _ m holdlt]
  · refine ⟨[⟨RISCV.AND, [.Reg ScratchReg, .Reg DestReg, .Reg IncrReg], DL⟩,
      ⟨RISCV.XORI, [.Reg ScratchReg, .Reg ScratchReg, .Imm (-1)], DL⟩], _, ?_, rfl, ?_⟩
    · simp [doMaskedAtomicBinOpExpansion, hops, MachineInstr.getReg, MachineInstr.getImm,
        hLR, hSC, BuildMI, bind, Except.bind, assert,
        insertMaskedMerge_eq _ _ _ _ _ _ _ hDS hDM hSM]
    · simp only [List.cons_append, List.nil_append]
      rw [valueOfferedToSC_cons xlen _ _ s _ (isStoreConditional_LR LR hL _ _)
        (execInst_LR xlen LR hL _ _ _ s),
        valueOfferedToSC_cons xlen _ _ _ _ (by rfl) (by rfl),
        valueOfferedToSC_cons xlen _ _ _ _ (by rfl) (by rfl),
        valueOfferedToSC_cons xlen _ _ _ _ (by rfl) (by rfl),
        valueOfferedToSC_cons xlen _ _ _ _ (by rfl) (by rfl),
        valueOfferedToSC_cons xlen _ _ _ _ (by rfl) (by rfl),
        valueOfferedToSC_SC xlen SC hS]
      simp [read_write_other, read_write_same, hID, hD0, hS0, hDS, hMS, hMD, hv, hold, hm,
        immValue_neg_one, xor_allOnes, maskedMerge_eq xlen old _ m holdlt]

/-- Witness of C9, amended: the masked add of `maskedAddPseudo` on 64-bit
registers, in the state `onesState`. -/
theorem doMaskedAtomicBinOpExpansion_value_witness :
    maskedAddPseudo.operands = .Reg (.X 10) :: .Reg (.X 11) :: .Reg (.X 12) ::
      .Reg (.X 13) :: .Reg (.X 14) :: .Imm 2 :: [] ∧
    getLRForRMW32 false (AtomicOrdering.ofImm 2) = .ok .LR_W ∧
    getSCForRMW32 false (AtomicOrdering.ofImm 2) = .ok .SC_W ∧
    Register.X 10 ≠ Register.X 11 ∧ Register.X 10 ≠ Register.X 14 ∧
    Register.X 11 ≠ Register.X 14 ∧ Register.X 10 ≠ Register.X 13 ∧
    Register.X 10 ≠ X0 ∧ Register.X 11 ≠ X0 ∧
    onesState.mem (onesState.read (.X 12)) = 1 ∧ onesState.read (.X 13) = 1 ∧
    onesState.read (.X 14) = 255 ∧
    ∃ body val,
      doMaskedAtomicBinOpExpansion maskedAddPseudo 0 emptyBlock .Add 32 =
        .ok { emptyBlock with insts := emptyBlock.insts ++
          (⟨RISCV.LR_W, [.Reg (.X 10), .Reg (.X 12)], 0⟩ :: body ++
           [⟨RISCV.XOR, [.Reg (.X 11), .Reg (.X 10), .Reg (.X 11)], 0⟩,
            ⟨RISCV.AND, [.Reg (.X 11), .Reg (.X 11), .Reg (.X 14)], 0⟩,
            ⟨RISCV.XOR, [.Reg (.X 11), .Reg (.X 10), .Reg (.X 11)], 0⟩,
            ⟨RISCV.SC_W, [.Reg (.X 11), .Reg (.X 12), .Reg (.X 11)], 0⟩,
            ⟨RISCV.BNE, [.Reg (.X 11), .Reg X0, .MBB emptyBlock.id .MO_None], 0⟩]) } ∧
      binOpValue 64 .Add 1 1 = some val ∧
      valueOfferedToSC 64
        (⟨RISCV.LR_W, [.Reg (.X 10), .Reg (.X 12)], 0⟩ :: body ++
           [⟨RISCV.XOR, [.Reg (.X 11), .Reg (.X 10), .Reg (.X 11)], 0⟩,
            ⟨RISCV.AND, [.Reg (.X 11), .Reg (.X 11), .Reg (.X 14)], 0⟩,
            ⟨RISCV.XOR, [.Reg (.X 11), .Reg (.X 10), .Reg (.X 11)], 0⟩,
            ⟨RISCV.SC_W, [.Reg (.X 11), .Reg (.X 12), .Reg (.X 11)], 0⟩,
            ⟨RISCV.BNE, [.Reg (.X 11), .Reg X0, .MBB emptyBlock.id .MO_None], 0⟩])
        onesState = some ((1 &&& bvNot 64 255) ||| (val &&& 255)) :=
  ⟨rfl, rfl, rfl, by decide, by decide, by decide, by decide, by decide, by decide,
    rfl, rfl, rfl,
    doMaskedAtomicBinOpExpansion_value 64 0 emptyBlock .Add maskedAddPseudo
      (.X 10) (.X 11) (.X 12) (.X 13) (.X 14) 2 [] .LR_W .SC_W onesState 1 1 255
      rfl rfl rfl (by decide) (by decide) (by decide) (by decide) (by decide) (by decide)
      (by decide) rfl rfl rfl (by decide) (by decide)⟩

/-- C9 as stated fails when the scratch register is `X0`: for the masked add
pseudo operation `maskedAddPseudoScratchX0`, whose result, scratch, address,
value and mask registers `X 10`, `X0`, `X 12`, `X 13`, `X 14` are pairwise
distinct, in a state where the memory holds 1, the value register holds 1 and
the mask register holds 255, the store-conditional is offered 0 and not
`(1 & ~255) | ((1 + 1) & 255)`, which is 2. -/
theorem doMaskedAtomicBinOpExpansion_scratchX0_counterexample :
    ∃ B, doMaskedAtomicBinOpExpansion maskedAddPseudoScratchX0 0 emptyBlock .Add 32 =
        .ok B ∧
      maskedAddPseudoScratchX0.operands =
        [.Reg (.X 10), .Reg X0, .Reg (.X 12), .Reg (.X 13), .Reg (.X 14), .Imm 2] ∧
      onesState.mem (onesState.read (.X 12)) = 1 ∧ onesState.read (.X 13) = 1 ∧
      onesState.read (.X 14) = 255 ∧
      binOpValue 64 .Add 1 1 = some 2 ∧
      (1 &&& bvNot 64 255) ||| (2 &&& 255) = 2 ∧
      valueOfferedToSC 64 B.insts onesState = some 0 :=
  ⟨_, rfl, rfl, rfl, rfl, rfl, rfl, rfl, rfl⟩

/-! ## Theorems: the shape of an expansion -/

theorem eraseIdx_zero_drop {α : Type} (l : List α) (k : Nat) :
    (l.drop k).eraseIdx 0 = l.drop (k + 1) := by
  rw [List.eraseIdx_zero, List.tail_drop]

theorem exists_assert (c : Bool) (e : Fatal) (P : Unit → Prop) :
    (∃ u, assert c e = .ok u ∧ P u) ↔ c = true ∧ P () := by
  cases c <;> simp [assert]
  exact ⟨fun ⟨_, h⟩ => h, fun h => ⟨(), h⟩⟩

theorem length_take_of_getElem? {α : Type} {l : List α} {k : Nat} {a : α}
    (h : l[k]? = some a) : (l.take k).length = k := by
  have := (List.getElem?_eq_some_iff.1 h).1
  rw [List.length_take]; omega

theorem noPseudo_target {o : RISCV} {ops : List MachineOperand} {DL : Nat}
    (h : o.isPseudo = false) : (MachineInstr.mk (.target o) ops DL).opcode.isPseudo = false := h

theorem Appends.refl (B : MachineBasicBlock) : Appends B B :=
  ⟨[], by simp, by simp [NoPseudo]⟩

theorem Appends.build {B0 B : MachineBasicBlock} (h : Appends B0 B) {o : RISCV}
    (ho : o.isPseudo = false) (DL : Nat) (ops : List MachineOperand) :
    Appends B0 (BuildMI B DL o ops) := by
  obtain ⟨em, rfl, hem⟩ := h
  refine ⟨em ++ [⟨o, ops, DL⟩], by simp [BuildMI], ?_⟩
  intro mi hmi
  rcases List.mem_append.1 hmi with h1 | h1
  · exact hem mi h1
  · rw [List.mem_singleton.1 h1]; exact ho

theorem Appends.trans {B0 B1 B2 : MachineBasicBlock} (h1 : Appends B0 B1)
    (h2 : Appends B1 B2) : Appends B0 B2 := by
  obtain ⟨e1, rfl, he1⟩ := h1
  obtain ⟨e2, rfl, he2⟩ := h2
  refine ⟨e1 ++ e2, by simp, ?_⟩
  intro mi hmi
  rcases List.mem_append.1 hmi with h | h
  · exact he1 mi h
  · exact he2 mi h

theorem Appends.insts {B0 B : MachineBasicBlock} (h : Appends B0 B) (h0 : B0.insts = []) :
    NoPseudo B.insts := by
  obtain ⟨em, rfl, hem⟩ := h
  simpa [h0] using hem

theorem Appends.id {B0 B : MachineBasicBlock} (h : Appends B0 B) : B.id = B0.id := by
  obtain ⟨em, rfl, -⟩ := h; rfl

theorem doAtomicBinOpExpansion_appends {MI : MachineInstr} {DL : Nat}
    {L0 L : MachineBasicBlock} {BinOp : BinOp} {Width : Int} {PtrIsCap : Bool}
    (h : doAtomicBinOpExpansion MI DL L0 BinOp Width PtrIsCap = .ok L) : Appends L0 L := by
  cases BinOp <;>
    simp only [doAtomicBinOpExpansion, bind_eq_ok, Except.ok.injEq, exists_eq_left',
      false_and, and_false, exists_false, reduceCtorEq] at h
  all_goals
    obtain ⟨D, -, S, -, A, -, I, -, o, -, LR, hLR, SC, hSC, rfl⟩ := h
    have hL := (getLRForRMW_isLR hLR).2
    have hS := (getSCForRMW_isSC hSC).2
    repeat' (first | exact Appends.refl _ | exact hL | exact hS | rfl | apply Appends.build)

theorem insertMaskedMerge_appends {DL : Nat} {B0 B : MachineBasicBlock}
    {D O N M S : Register} (h : insertMaskedMerge DL B0 D O N M S = .ok B) :
    Appends B0 B := by
  simp only [insertMaskedMerge, bind_eq_ok, exists_assert, Except.ok.injEq] at h
  obtain ⟨-, -, -, rfl⟩ := h
  repeat' (first | exact Appends.refl _ | rfl | apply Appends.build)

theorem insertSext_appends (DL : Nat) (B : MachineBasicBlock) (V S : Register) :
    Appends B (insertSext DL B V S) := by
  unfold insertSext
  repeat' (first | exact Appends.refl _ | rfl | apply Appends.build)

theorem doMaskedAtomicBinOpExpansion_appends {MI : MachineInstr} {DL : Nat}
    {L0 L : MachineBasicBlock} {BinOp : BinOp} {Width : Int}
    (h : doMaskedAtomicBinOpExpansion MI DL L0 BinOp Width = .ok L) : Appends L0 L := by
  cases BinOp <;>
    simp only [doMaskedAtomicBinOpExpansion, bind_eq_ok, Except.ok.injEq, exists_eq_left',
      false_and, exists_false, reduceCtorEq, exists_assert, and_false] at h
  all_goals
    obtain ⟨-, D, -, S, -, A, -, I, -, M, -, o, -, LR, hLR, L1, hL1, SC, hSC, rfl⟩ := h
    have hL := (getLRForRMW32_isLR hLR).2
    have hS := (getSCForRMW32_isSC hSC).2
    have hM := insertMaskedMerge_appends hL1
    refine Appends.build (Appends.build (Appends.trans ?_ hM) hS _ _) (by rfl) _ _
    repeat' (first | exact Appends.refl _ | exact hL | rfl | apply Appends.build)

theorem expandAtomicBinOp_eq (LV : LiveInsOracle) (MF : MachineFunction) (I k : Nat)
    (BinOp : BinOp) (IsMasked : Bool) (Width : Int) (PtrIsCap : Bool)
    (MBB : MachineBasicBlock) (MI : MachineInstr)
    (hB : MF.Blocks[I]? = some MBB) (hI : MBB.insts[k]? = some MI)
    (hMC : (IsMasked && PtrIsCap) = false) :
    expandAtomicBinOp LV MF I k BinOp IsMasked Width PtrIsCap =
      match (if !IsMasked then
          doAtomicBinOpExpansion MI MI.DL (rmwLoopBlock MF MBB) BinOp Width PtrIsCap
        else doMaskedAtomicBinOpExpansion MI MI.DL (rmwLoopBlock MF MBB) BinOp Width) with
      | .error e => .error e
      | .ok L =>
        let Host : MachineBasicBlock :=
          { MBB with insts := MBB.insts.take k, succs := [MF.nextBlock] }
        let Done : MachineBasicBlock :=
          ⟨MF.nextBlock + 1, MBB.BasicBlock, MBB.insts.drop (k + 1), MBB.succs, [], false⟩
        let MF2 : MachineFunction := { MF with nextBlock := MF.nextBlock + 1 + 1 }
        let L1 := computeAndAddLiveIns LV (MF2.insert I [Host, L, Done]).Blocks L
        let Done1 := computeAndAddLiveIns LV (MF2.insert I [Host, L1, Done]).Blocks Done
        .ok (MF2.insert I [Host, L1, Done1], k, true) := by
  have hk := length_take_of_getElem? hI
  unfold expandAtomicBinOp
  simp only [hB, hI, hMC, hk, assert, Option.elim, bind, Except.bind, pure, Except.pure,
    MachineFunction.CreateMachineBasicBlock, MachineBasicBlock.addSuccessor,
    MachineBasicBlock.splice, MachineBasicBlock.transferSuccessors, MachineBasicBlock.erase,
    List.nil_append, List.length_nil, eraseIdx_zero_drop, Bool.not_false, if_true,
    rmwLoopBlock, List.singleton_append]
  cases IsMasked <;> simp only [Bool.not_false, Bool.not_true, if_true, if_false,
    Bool.false_eq_true] <;> split <;> simp_all

theorem expandAtomicBinOp_expanded {LV : LiveInsOracle} {MF : MachineFunction} {I k : Nat}
    {BinOp : BinOp} {IsMasked : Bool} {Width : Int} {PtrIsCap : Bool}
    {MBB : MachineBasicBlock} {MI : MachineInstr} {r : MachineFunction × Nat × Bool}
    (hB : MF.Blocks[I]? = some MBB) (hI : MBB.insts[k]? = some MI)
    (hP : MI.opcode.isPseudo = true)
    (h : expandAtomicBinOp LV MF I k BinOp IsMasked Width PtrIsCap = .ok r) :
    Expanded MF I k r := by
  by_cases hMC : (IsMasked && PtrIsCap) = false
  · rw [expandAtomicBinOp_eq LV MF I k BinOp IsMasked Width PtrIsCap MBB MI hB hI hMC] at h
    split at h
    · cases h
    · rename_i L hL
      simp only [Except.ok.injEq] at h
      subst h
      have hA : Appends (rmwLoopBlock MF MBB) L := by
        cases IsMasked
        · exact doAtomicBinOpExpansion_appends hL
        · exact doMaskedAtomicBinOpExpansion_appends hL
      refine ⟨MBB, MI, _, [_], _, [], hB, hI, hP, rfl, rfl, ?_, rfl, by simp [NoPseudo],
        by simp, rfl, rfl⟩
      intro B hBm
      rw [List.mem_singleton.1 hBm]
      exact hA.insts rfl
  · exfalso
    simp only [Bool.not_eq_false] at hMC
    simp [expandAtomicBinOp, hMC, assert, bind, Except.bind] at h

theorem noPseudo_liveIns (LV : LiveInsOracle) (Bs : List MachineBasicBlock)
    (id BB : Nat) (succs : List Nat) (B : MachineBasicBlock)
    (h : Appends ⟨id, BB, [], succs, [], false⟩ B) :
    NoPseudo (computeAndAddLiveIns LV Bs B).insts :=
  h.insts rfl

theorem expandAtomicMinMaxOp_expanded {LV : LiveInsOracle} {MF : MachineFunction}
    {I k : Nat} {BinOp : BinOp} {IsMasked : Bool} {Width : Int} {PtrIsCap : Bool}
    {MBB : MachineBasicBlock} {MI : MachineInstr} {r : MachineFunction × Nat × Bool}
    (hB : MF.Blocks[I]? = some MBB) (hI : MBB.insts[k]? = some MI)
    (hP : MI.opcode.isPseudo = true)
    (h : expandAtomicMinMaxOp LV MF I k BinOp IsMasked Width PtrIsCap = .ok r) :
    Expanded MF I k r := by
  have hk := length_take_of_getElem? hI
  cases IsMasked <;> cases BinOp <;>
    simp only [expandAtomicMinMaxOp, hB, hI, hk, Option.elim, bind_eq_ok, Except.ok.injEq,
      exists_eq_left', exists_assert, pure, Except.pure,
      MachineFunction.CreateMachineBasicBlock, MachineBasicBlock.addSuccessor,
      MachineBasicBlock.splice, MachineBasicBlock.transferSuccessors,
      MachineBasicBlock.erase, List.nil_append, List.length_nil, eraseIdx_zero_drop,
      false_and, and_false, exists_false, reduceCtorEq, if_true, if_false,
      Bool.false_eq_true] at h
  all_goals
    first
    | obtain ⟨D, -, S, -, A, -, In, -, o, -, LR, hLR, SC, hSC, rfl⟩ := h
      have hL := (getLRForRMW_isLR hLR).2
      have hS := (getSCForRMW_isSC hSC).2
      refine ⟨MBB, MI, _, [_, _, _], _, [], hB, hI, hP, rfl, rfl, ?_, rfl,
        by simp [NoPseudo], by simp, rfl, rfl⟩
      intro B hBm
      simp only [List.mem_cons, List.mem_singleton, List.not_mem_nil, or_false] at hBm
      rcases hBm with rfl | rfl | rfl <;>
        (apply noPseudo_liveIns
         repeat' first | exact Appends.refl _ | exact hL | exact hS | rfl | apply Appends.build)
    | obtain ⟨-, -, D, -, S1, -, S2, -, A, -, In, -, M, -, o, -, LR, hLR, Sh, -, Bd, hBd,
        SC, hSC, rfl⟩ := h
      have hL := (getLRForRMW32_isLR hLR).2
      have hS := (getSCForRMW32_isSC hSC).2
      have hM := insertMaskedMerge_appends hBd
      refine ⟨MBB, MI, _, [_, _, _], _, [], hB, hI, hP, rfl, rfl, ?_, rfl,
        by simp [NoPseudo], by simp, rfl, rfl⟩
      intro B hBm
      simp only [List.mem_cons, List.mem_singleton, List.not_mem_nil, or_false] at hBm
      rcases hBm with rfl | rfl | rfl
      · apply noPseudo_liveIns
        refine Appends.build (Appends.trans ?_ (insertSext_appends _ _ _ _)) (by rfl) _ _
        repeat' first | exact Appends.refl _ | exact hL | exact hS | rfl | apply Appends.build
      · exact noPseudo_liveIns LV _ _ _ _ _ hM
      · apply noPseudo_liveIns
        repeat' first | exact Appends.refl _ | exact hL | exact hS | rfl | apply Appends.build
    | obtain ⟨-, -, D, -, S1, -, S2, -, A, -, In, -, M, -, o, -, LR, hLR, Bd, hBd,
        SC, hSC, rfl⟩ := h
      have hL := (getLRForRMW32_isLR hLR).2
      have hS := (getSCForRMW32_isSC hSC).2
      have hM := insertMaskedMerge_appends hBd
      refine ⟨MBB, MI, _, [_, _, _], _, [], hB, hI, hP, rfl, rfl, ?_, rfl,
        by simp [NoPseudo], by simp, rfl, rfl⟩
      intro B hBm
      simp only [List.mem_cons, List.mem_singleton, List.not_mem_nil, or_false] at hBm
      rcases hBm with rfl | rfl | rfl
      · apply noPseudo_liveIns
        repeat' first | exact Appends.refl _ | exact hL | exact hS | rfl | apply Appends.build
      · exact noPseudo_liveIns LV _ _ _ _ _ hM
      · apply noPseudo_liveIns
        repeat' first | exact Appends.refl _ | exact hL | exact hS | rfl | apply Appends.build

theorem expandAtomicCmpXchg_expanded {LV : LiveInsOracle} {MF : MachineFunction}
    {I k : Nat} {IsMasked : Bool} {Width : Int} {PtrIsCap : Bool}
    {MBB : MachineBasicBlock} {MI : MachineInstr} {r : MachineFunction × Nat × Bool}
    (hB : MF.Blocks[I]? = some MBB) (hI : MBB.insts[k]? = some MI)
    (hP : MI.opcode.isPseudo = true)
    (h : expandAtomicCmpXchg LV MF I k IsMasked Width PtrIsCap = .ok r) :
    Expanded MF I k r := by
  have hk := length_take_of_getElem? hI
  cases IsMasked <;>
    simp only [expandAtomicCmpXchg, hB, hI, hk, Option.elim, bind_eq_ok, Except.ok.injEq,
      exists_eq_left', exists_assert, pure, Except.pure,
      MachineFunction.CreateMachineBasicBlock, MachineBasicBlock.addSuccessor,
      MachineBasicBlock.splice, MachineBasicBlock.transferSuccessors,
      MachineBasicBlock.erase, List.nil_append, List.length_nil, eraseIdx_zero_drop,
      false_and, and_false, exists_false, reduceCtorEq, if_true, if_false,
      Bool.false_eq_true, Bool.not_false, Bool.not_true] at h
  · obtain ⟨D, -, S, -, A, -, C, -, N, -, o, -, LR, hLR, SC, hSC, rfl⟩ := h
    have hL := (getLRForRMW_isLR hLR).2
    have hS := (getSCForRMW_isSC hSC).2
    refine ⟨MBB, MI, _, [_, _], _, [], hB, hI, hP, rfl, rfl, ?_, rfl,
      by simp [NoPseudo], by simp, rfl, rfl⟩
    intro B hBm
    simp only [List.mem_cons, List.mem_singleton, List.not_mem_nil, or_false] at hBm
    rcases hBm with rfl | rfl <;> apply noPseudo_liveIns <;>
      repeat' first | exact Appends.refl _ | exact hL | exact hS | rfl | apply Appends.build
  · obtain ⟨D, -, S, -, A, -, C, -, N, -, o, -, -, M, -, LR, hLR, T, hT, SC, hSC, rfl⟩ := h
    have hL := (getLRForRMW_isLR hLR).2
    have hS := (getSCForRMW_isSC hSC).2
    have hM := insertMaskedMerge_appends hT
    refine ⟨MBB, MI, _, [_, _], _, [], hB, hI, hP, rfl, rfl, ?_, rfl,
      by simp [NoPseudo], by simp, rfl, rfl⟩
    intro B hBm
    simp only [List.mem_cons, List.mem_singleton, List.not_mem_nil, or_false] at hBm
    rcases hBm with rfl | rfl
    · apply noPseudo_liveIns
      repeat' first | exact Appends.refl _ | exact hL | exact hS | rfl | apply Appends.build
    · apply noPseudo_liveIns
      exact Appends.build (Appends.build hM hS _ _) (by rfl) _ _

theorem expandAtomicCmpXchgCap_expanded {LV : LiveInsOracle} {MF : MachineFunction}
    {I k : Nat} {PtrIsCap : Bool}
    {MBB : MachineBasicBlock} {MI : MachineInstr} {r : MachineFunction × Nat × Bool}
    (hB : MF.Blocks[I]? = some MBB) (hI : MBB.insts[k]? = some MI)
    (hP : MI.opcode.isPseudo = true)
    (h : expandAtomicCmpXchgCap LV MF I k PtrIsCap = .ok r) :
    Expanded MF I k r := by
  have hk := length_take_of_getElem? hI
  simp only [expandAtomicCmpXchgCap, hB, hI, hk, Option.elim, bind_eq_ok, Except.ok.injEq,
    exists_eq_left', pure, Except.pure,
    MachineFunction.CreateMachineBasicBlock, MachineBasicBlock.addSuccessor,
    MachineBasicBlock.splice, MachineBasicBlock.transferSuccessors,
    MachineBasicBlock.erase, List.nil_append, List.length_nil, eraseIdx_zero_drop] at h
  obtain ⟨D, -, S, -, A, -, C, -, N, -, o, -, LR, hLR, SC, hSC, rfl⟩ := h
  have hL := (getLRForRMWCap_isLR hLR).2
  have hS := (getSCForRMWCap_isSC hSC).2
  refine ⟨MBB, MI, _, [_, _], _, [], hB, hI, hP, rfl, rfl, ?_, rfl,
    by simp [NoPseudo], by simp, rfl, rfl⟩
  intro B hBm
  simp only [List.mem_cons, List.mem_singleton, List.not_mem_nil, or_false] at hBm
  rcases hBm with rfl | rfl <;> apply noPseudo_liveIns <;>
    repeat' first | exact Appends.refl _ | exact hL | exact hS | rfl | apply Appends.build

theorem eraseIdx_take_succ {α : Type} {l : List α} {k : Nat} {a : α} (h : l[k]? = some a) :
    (l.take (k + 1)).eraseIdx k = l.take k := by
  have hlt := (List.getElem?_eq_some_iff.1 h).1
  rw [List.take_succ, h]
  simp only [Option.toList]
  rw [List.eraseIdx_append_of_length_le (by simp [List.length_take])]
  simp [List.length_take, Nat.min_eq_left (Nat.le_of_lt hlt)]

theorem expandAuipcInstPair_expanded {LV : LiveInsOracle} {MF : MachineFunction}
    {I k : Nat} {FlagsHi : TargetFlag} {SecondOpcode : RISCV}
    {MBB : MachineBasicBlock} {MI : MachineInstr} {r : MachineFunction × Nat × Bool}
    (hB : MF.Blocks[I]? = some MBB) (hI : MBB.insts[k]? = some MI)
    (hP : MI.opcode.isPseudo = true) (h2 : SecondOpcode.isPseudo = false)
    (h : expandAuipcInstPair LV MF I k FlagsHi SecondOpcode = .ok r) :
    Expanded MF I k r := by
  have hk := length_take_of_getElem? hI
  simp only [expandAuipcInstPair, hB, hI, Option.elim, bind_eq_ok, Except.ok.injEq,
    exists_eq_left', pure, Except.pure,
    MachineFunction.CreateMachineBasicBlock, MachineBasicBlock.addSuccessor,
    MachineBasicBlock.splice, MachineBasicBlock.transferSuccessors,
    MachineBasicBlock.erase, MachineBasicBlock.setLabelMustBeEmitted, BuildMI,
    List.nil_append, eraseIdx_take_succ hI, hk] at h
  obtain ⟨D, -, Sym, -, Disp, -, rfl⟩ := h
  refine ⟨MBB, MI, _, [], _, [_, _], hB, hI, hP, rfl, rfl, by simp, rfl, ?_,
    by simp, rfl, rfl⟩
  intro mi hmi
  simp only [List.mem_cons, List.mem_singleton, List.not_mem_nil, or_false] at hmi
  rcases hmi with rfl | rfl
  · rfl
  · exact h2

theorem expandAuipccInstPair_expanded {LV : LiveInsOracle} {MF : MachineFunction}
    {I k : Nat} {FlagsHi : TargetFlag} {SecondOpcode : RISCV}
    {MBB : MachineBasicBlock} {MI : MachineInstr} {r : MachineFunction × Nat × Bool}
    (hB : MF.Blocks[I]? = some MBB) (hI : MBB.insts[k]? = some MI)
    (hP : MI.opcode.isPseudo = true) (h2 : SecondOpcode.isPseudo = false)
    (h : expandAuipccInstPair LV MF I k FlagsHi SecondOpcode = .ok r) :
    Expanded MF I k r := by
  have hk := length_take_of_getElem? hI
  simp only [expandAuipccInstPair, hB, hI, Option.elim, bind_eq_ok, Except.ok.injEq,
    exists_eq_left', pure, Except.pure,
    MachineFunction.CreateMachineBasicBlock, MachineBasicBlock.addSuccessor,
    MachineBasicBlock.splice, MachineBasicBlock.transferSuccessors,
    MachineBasicBlock.erase, MachineBasicBlock.setLabelMustBeEmitted, BuildMI,
    List.nil_append, eraseIdx_take_succ hI, hk] at h
  obtain ⟨D, -, T, -, Sym, -, Disp, -, rfl⟩ := h
  refine ⟨MBB, MI, _, [], _, [_, _], hB, hI, hP, rfl, rfl, by simp, rfl, ?_,
    by simp, rfl, rfl⟩
  intro mi hmi
  simp only [List.mem_cons, List.mem_singleton, List.not_mem_nil, or_false] at hmi
  rcases hmi with rfl | rfl
  · rfl
  · exact h2

/-! ## Theorems: the dispatch and the driver -/

theorem expandMI_cases {LV : LiveInsOracle} {MF : MachineFunction} {I k n : Nat}
    {MBB : MachineBasicBlock} {MI : MachineInstr} {r : MachineFunction × Nat × Bool}
    (hB : MF.Blocks[I]? = some MBB) (hI : MBB.insts[k]? = some MI)
    (h : expandMI LV MF I k n = .ok r) :
    (MI.opcode.isPseudo = false ∧ r = (MF, n, false)) ∨
    (MI.opcode.isPseudo = true ∧ Expanded MF I k r) := by
  unfold expandMI at h
  rw [hB] at h
  change (MBB.insts[k]?.elim (Except.error Fatal.BadOperand) Except.ok >>= _) = _ at h
  rw [hI] at h
  change (match MI.opcode with | _ => _) = _ at h
  obtain ⟨opc, ops, DL⟩ := MI
  cases opc with
  | generic m =>
    exact Or.inl ⟨rfl, (Except.ok.inj h).symm⟩
  | target o =>
    cases o
    case PseudoAtomicLoadNand32 =>
      have h1 : expandAtomicBinOp LV MF I k .Nand false 32 false = .ok r := h
      exact Or.inr ⟨rfl, expandAtomicBinOp_expanded hB hI rfl h1⟩
    case PseudoAtomicLoadNand64 =>
      have h1 : expandAtomicBinOp LV MF I k .Nand false 64 false = .ok r := h
      exact Or.inr ⟨rfl, expandAtomicBinOp_expanded hB hI rfl h1⟩
    case PseudoMaskedAtomicSwap32 =>
      have h1 : expandAtomicBinOp LV MF I k .Xchg true 32 false = .ok r := h
      exact Or.inr ⟨rfl, expandAtomicBinOp_expanded hB hI rfl h1⟩
    case PseudoMaskedAtomicLoadAdd32 =>
      have h1 : expandAtomicBinOp LV MF I k .Add true 32 false = .ok r := h
      exact Or.inr ⟨rfl, expandAtomicBinOp_expanded hB hI rfl h1⟩
    case PseudoMaskedAtomicLoadSub32 =>
      have h1 : expandAtomicBinOp LV MF I k .Sub true 32 false = .ok r := h
      exact Or.inr ⟨rfl, expandAtomicBinOp_expanded hB hI rfl h1⟩
    case PseudoMaskedAtomicLoadNand32 =>
      have h1 : expandAtomicBinOp LV MF I k .Nand true 32 false = .ok r := h
      exact Or.inr ⟨rfl, expandAtomicBinOp_expanded hB hI rfl h1⟩
    case PseudoMaskedAtomicLoadMax32 =>
      have h1 : expandAtomicMinMaxOp LV MF I k .Max true 32 false = .ok r := h
      exact Or.inr ⟨rfl, expandAtomicMinMaxOp_expanded hB hI rfl h1⟩
    case PseudoMaskedAtomicLoadMin32 =>
      have h1 : expandAtomicMinMaxOp LV MF I k .Min true 32 false = .ok r := h
      exact Or.inr ⟨rfl, expandAtomicMinMaxOp_expanded hB hI rfl h1⟩
    case PseudoMaskedAtomicLoadUMax32 =>
      have h1 : expandAtomicMinMaxOp LV MF I k .UMax true 32 false = .ok r := h
      exact Or.inr ⟨rfl, expandAtomicMinMaxOp_expanded hB hI rfl h1⟩
    case PseudoMaskedAtomicLoadUMin32 =>
      have h1 : expandAtomicMinMaxOp LV MF I k .UMin true 32 false = .ok r := h
      exact Or.inr ⟨rfl, expandAtomicMinMaxOp_expanded hB hI rfl h1⟩
    case PseudoCmpXchg32 =>
      have h1 : expandAtomicCmpXchg LV MF I k false 32 false = .ok r := h
      exact Or.inr ⟨rfl, expandAtomicCmpXchg_expanded hB hI rfl h1⟩
    case PseudoCmpXchg64 =>
      have h1 : expandAtomicCmpXchg LV MF I k false 64 false = .ok r := h
      exact Or.inr ⟨rfl, expandAtomicCmpXchg_expanded hB hI rfl h1⟩
    case PseudoMaskedCmpXchg32 =>
      have h1 : expandAtomicCmpXchg LV MF I k true 32 false = .ok r := h
      exact Or.inr ⟨rfl, expandAtomicCmpXchg_expanded hB hI rfl h1⟩
    case PseudoLLA =>
      have h1 : expandAuipcInstPair LV MF I k .MO_PCREL_HI .ADDI = .ok r := h
      exact Or.inr ⟨rfl, expandAuipcInstPair_expanded hB hI rfl (by rfl) h1⟩
    case PseudoLA =>
      have h1 : expandLoadAddress LV MF I k = .ok r := h
      unfold expandLoadAddress at h1
      split at h1
      · exact Or.inr ⟨rfl, expandAuipcInstPair_expanded hB hI rfl (by split <;> rfl) h1⟩
      · exact Or.inr ⟨rfl, expandAuipcInstPair_expanded hB hI rfl (by rfl) h1⟩
    case PseudoLA_TLS_IE =>
      have h1 : expandAuipcInstPair LV MF I k .MO_TLS_GOT_HI
          (if MF.is64Bit then .LD else .LW) = .ok r := h
      exact Or.inr ⟨rfl, expandAuipcInstPair_expanded hB hI rfl (by split <;> rfl) h1⟩
    case PseudoLA_TLS_GD =>
      have h1 : expandAuipcInstPair LV MF I k .MO_TLS_GD_HI .ADDI = .ok r := h
      exact Or.inr ⟨rfl, expandAuipcInstPair_expanded hB hI rfl (by rfl) h1⟩
    case PseudoCLGC =>
      have h1 : expandAuipccInstPair LV MF I k .MO_CAPTAB_PCREL_HI
          (if MF.is64Bit then .CLC_128 else .CLC_64) = .ok r := h
      exact Or.inr ⟨rfl, expandAuipccInstPair_expanded hB hI rfl (by split <;> rfl) h1⟩
    case PseudoCLA_TLS_IE =>
      have h1 : expandAuipccInstPair LV MF I k .MO_TLS_IE_CAPTAB_PCREL_HI
          (if MF.is64Bit then .CLD else .CLW) = .ok r := h
      exact Or.inr ⟨rfl, expandAuipccInstPair_expanded hB hI rfl (by split <;> rfl) h1⟩
    case PseudoCLC_TLS_GD =>
      have h1 : expandAuipccInstPair LV MF I k .MO_TLS_GD_CAPTAB_PCREL_HI .CIncOffsetImm =
          .ok r := h
      exact Or.inr ⟨rfl, expandAuipccInstPair_expanded hB hI rfl (by rfl) h1⟩
    case PseudoCmpXchgCap =>
      have h1 : expandAtomicCmpXchgCap LV MF I k false = .ok r := h
      exact Or.inr ⟨rfl, expandAtomicCmpXchgCap_expanded hB hI rfl h1⟩
    case PseudoCheriAtomicSwap8 =>
      have h1 : expandAtomicBinOp LV MF I k .Xchg false 8 true = .ok r := h
      exact Or.inr ⟨rfl, expandAtomicBinOp_expanded hB hI rfl h1⟩
    case PseudoCheriAtomicSwap16 =>
      have h1 : expandAtomicBinOp LV MF I k .Xchg false 16 true = .ok r := h
      exact Or.inr ⟨rfl, expandAtomicBinOp_expanded hB hI rfl h1⟩
    case PseudoCheriAtomicLoadAdd8 =>
      have h1 : expandAtomicBinOp LV MF I k .Add false 8 true = .ok r := h
      exact Or.inr ⟨rfl, expandAtomicBinOp_expanded hB hI rfl h1⟩
    case PseudoCheriAtomicLoadAdd16 =>
      have h1 : expandAtomicBinOp LV MF I k .Add false 16 true = .ok r := h
      exact Or.inr ⟨rfl, expandAtomicBinOp_expanded hB hI rfl h1⟩
    case PseudoCheriAtomicLoadAnd8 =>
      have h1 : expandAtomicBinOp LV MF I k .And false 8 true = .ok r := h
      exact Or.inr ⟨rfl, expandAtomicBinOp_expanded hB hI rfl h1⟩
    case PseudoCheriAtomicLoadAnd16 =>
      have h1 : expandAtomicBinOp LV MF I k .And false 16 true = .ok r := h
      exact Or.inr ⟨rfl, expandAtomicBinOp_expanded hB hI rfl h1⟩
    case PseudoCheriAtomicLoadOr8 =>
      have h1 : expandAtomicBinOp LV MF I k .Or false 8 true = .ok r := h
      exact Or.inr ⟨rfl, expandAtomicBinOp_expanded hB hI rfl h1⟩
    case PseudoCheriAtomicLoadOr16 =>
      have h1 : expandAtomicBinOp LV MF I k .Or false 16 true = .ok r := h
      exact Or.inr ⟨rfl, expandAtomicBinOp_expanded hB hI rfl h1⟩
    case PseudoCheriAtomicLoadXor8 =>
      have h1 : expandAtomicBinOp LV MF I k .Xor false 8 true = .ok r := h
      exact Or.inr ⟨rfl, expandAtomicBinOp_expanded hB hI rfl h1⟩
    case PseudoCheriAtomicLoadXor16 =>
      have h1 : expandAtomicBinOp LV MF I k .Xor false 16 true = .ok r := h
      exact Or.inr ⟨rfl, expandAtomicBinOp_expanded hB hI rfl h1⟩
    case PseudoCheriAtomicLoadNand8 =>
      have h1 : expandAtomicBinOp LV MF I k .Nand false 8 true = .ok r := h
      exact Or.inr ⟨rfl, expandAtomicBinOp_expanded hB hI rfl h1⟩
    case PseudoCheriAtomicLoadNand16 =>
      have h1 : expandAtomicBinOp LV MF I k .Nand false 16 true = .ok r := h
      exact Or.inr ⟨rfl, expandAtomicBinOp_expanded hB hI rfl h1⟩
    case PseudoCheriAtomicLoadSub8 =>
      have h1 : expandAtomicBinOp LV MF I k .Sub false 8 true = .ok r := h
      exact Or.inr ⟨rfl, expandAtomicBinOp_expanded hB hI rfl h1⟩
    case PseudoCheriAtomicLoadSub16 =>
      have h1 : expandAtomicBinOp LV MF I k .Sub false 16 true = .ok r := h
      exact Or.inr ⟨rfl, expandAtomicBinOp_expanded hB hI rfl h1⟩
    case PseudoCheriAtomicLoadNand32 =>
      have h1 : expandAtomicBinOp LV MF I k .Nand false 32 true = .ok r := h
      exact Or.inr ⟨rfl, expandAtomicBinOp_expanded hB hI rfl h1⟩
    case PseudoCheriAtomicLoadNand64 =>
      have h1 : expandAtomicBinOp LV MF I k .Nand false 64 true = .ok r := h
      exact Or.inr ⟨rfl, expandAtomicBinOp_expanded hB hI rfl h1⟩
    case PseudoCheriAtomicLoadMax8 =>
      have h1 : expandAtomicMinMaxOp LV MF I k .Max false 8 true = .ok r := h
      exact Or.inr ⟨rfl, expandAtomicMinMaxOp_expanded hB hI rfl h1⟩
    case PseudoCheriAtomicLoadMax16 =>
      have h1 : expandAtomicMinMaxOp LV MF I k .Max false 16 true = .ok r := h
      exact Or.inr ⟨rfl, expandAtomicMinMaxOp_expanded hB hI rfl h1⟩
    case PseudoCheriAtomicLoadMin8 =>
      have h1 : expandAtomicMinMaxOp LV MF I k .Min false 8 true = .ok r := h
      exact Or.inr ⟨rfl, expandAtomicMinMaxOp_expanded hB hI rfl h1⟩
    case PseudoCheriAtomicLoadMin16 =>
      have h1 : expandAtomicMinMaxOp LV MF I k .Min false 16 true = .ok r := h
      exact Or.inr ⟨rfl, expandAtomicMinMaxOp_expanded hB hI rfl h1⟩
    case PseudoCheriAtomicLoadUMax8 =>
      have h1 : expandAtomicMinMaxOp LV MF I k .UMax false 8 true = .ok r := h
      exact Or.inr ⟨rfl, expandAtomicMinMaxOp_expanded hB hI rfl h1⟩
    case PseudoCheriAtomicLoadUMax16 =>
      have h1 : expandAtomicMinMaxOp LV MF I k .UMax false 16 true = .ok r := h
      exact Or.inr ⟨rfl, expandAtomicMinMaxOp_expanded hB hI rfl h1⟩
    case PseudoCheriAtomicLoadUMin8 =>
      have h1 : expandAtomicMinMaxOp LV MF I k .UMin false 8 true = .ok r := h
      exact Or.inr ⟨rfl, expandAtomicMinMaxOp_expanded hB hI rfl h1⟩
    case PseudoCheriAtomicLoadUMin16 =>
      have h1 : expandAtomicMinMaxOp LV MF I k .UMin false 16 true = .ok r := h
      exact Or.inr ⟨rfl, expandAtomicMinMaxOp_expanded hB hI rfl h1⟩
    case PseudoCheriCmpXchg8 =>
      have h1 : expandAtomicCmpXchg LV MF I k false 8 true = .ok r := h
      exact Or.inr ⟨rfl, expandAtomicCmpXchg_expanded hB hI rfl h1⟩
    case PseudoCheriCmpXchg16 =>
      have h1 : expandAtomicCmpXchg LV MF I k false 16 true = .ok r := h
      exact Or.inr ⟨rfl, expandAtomicCmpXchg_expanded hB hI rfl h1⟩
    case PseudoCheriCmpXchg32 =>
      have h1 : expandAtomicCmpXchg LV MF I k false 32 true = .ok r := h
      exact Or.inr ⟨rfl, expandAtomicCmpXchg_expanded hB hI rfl h1⟩
    case PseudoCheriCmpXchg64 =>
      have h1 : expandAtomicCmpXchg LV MF I k false 64 true = .ok r := h
      exact Or.inr ⟨rfl, expandAtomicCmpXchg_expanded hB hI rfl h1⟩
    case PseudoCheriCmpXchgCap =>
      have h1 : expandAtomicCmpXchgCap LV MF I k true = .ok r := h
      exact Or.inr ⟨rfl, expandAtomicCmpXchgCap_expanded hB hI rfl h1⟩
    all_goals exact Or.inl ⟨rfl, (Except.ok.inj h).symm⟩

theorem noPseudo_take_succ {l : List MachineInstr} {k : Nat} {MI : MachineInstr}
    (hI : l[k]? = some MI) (h : NoPseudo (l.take k)) (hMI : MI.opcode.isPseudo = false) :
    NoPseudo (l.take (k + 1)) := by
  rw [List.take_succ, hI]
  intro mi hmi
  rcases List.mem_append.1 hmi with h1 | h1
  · exact h mi h1
  · simp only [Option.toList, List.mem_singleton] at h1
    rw [h1]; exact hMI

/-- After an expansion at position `j` of the block at position `I`, the blocks
before position `I` are as they were and the block at position `I` holds the
operations that preceded position `j`. -/
theorem Expanded.host {MF : MachineFunction} {I j : Nat}
    {r : MachineFunction × Nat × Bool} (h : Expanded MF I j r) :
    ∃ MBB Host, MF.Blocks[I]? = some MBB ∧ r.1.Blocks.take I = MF.Blocks.take I ∧
      r.1.Blocks[I]? = some Host ∧ Host.insts = MBB.insts.take j ∧
      j < MBB.insts.length ∧ I < r.1.Blocks.length := by
  obtain ⟨MBB, MI, Host, Mids, Last, conc, hB, hI, -, hBl, hH, -, -, -, -, -, -⟩ := h
  have hIlt := (List.getElem?_eq_some_iff.1 hB).1
  have hlen : (MF.Blocks.take I).length = I := by
    rw [List.length_take]; omega
  refine ⟨MBB, Host, hB, ?_, ?_, hH, (List.getElem?_eq_some_iff.1 hI).1, ?_⟩
  · rw [hBl, List.append_assoc, List.take_append_of_le_length (by omega),
      List.take_of_length_le (by omega)]
  · rw [hBl, List.append_assoc, List.getElem?_append_right (by omega), hlen]
    simp
  · rw [hBl]
    simp only [List.length_append, List.length_cons, hlen]
    omega

theorem expandMBBLoop_spec (LV : LiveInsOracle) :
    ∀ (fuel : Nat) (MF : MachineFunction) (I k : Nat) (M : Bool) (MBB : MachineBasicBlock)
      (r : MachineFunction × Bool),
      MF.Blocks[I]? = some MBB → NoPseudo (MBB.insts.take k) → k ≤ MBB.insts.length →
      expandMBBLoop LV fuel MF I k M = .ok r →
      (r = (MF, M) ∧ NoPseudo MBB.insts) ∨
      (∃ j, k ≤ j ∧ NoPseudo (MBB.insts.take j) ∧ Expanded MF I j (r.1, j, true) ∧
        r.2 = true) := by
  intro fuel
  induction fuel with
  | zero =>
    intro MF I k M MBB r hB hN hk h
    unfold expandMBBLoop at h
    simp only [hB] at h
    split at h
    · rename_i hkl
      left
      rw [hkl, List.take_length] at hN
      exact ⟨(Except.ok.inj h).symm, hN⟩
    · cases h
  | succ fuel ih =>
    intro MF I k M MBB r hB hN hk h
    unfold expandMBBLoop at h
    simp only [hB] at h
    split at h
    · rename_i hkl
      left
      rw [hkl, List.take_length] at hN
      exact ⟨(Except.ok.inj h).symm, hN⟩
    · rename_i hkl
      have hlt : k < MBB.insts.length := by omega
      have hI : MBB.insts[k]? = some (MBB.insts[k]) := List.getElem?_eq_getElem hlt
      split at h
      · cases h
      · rename_i MF1 n1 M1 hE
        rcases expandMI_cases hB hI hE with ⟨hnp, heq⟩ | ⟨hp, hX⟩
        · simp only [Prod.mk.injEq] at heq
          obtain ⟨rfl, rfl, rfl⟩ := heq
          rcases ih MF1 I (k + 1) (M || false) MBB r hB (noPseudo_take_succ hI hN hnp)
            (by omega) h with ⟨h1, h2⟩ | ⟨j, hj, h1, h2, h3⟩
          · left
            simp only [Bool.or_false] at h1
            exact ⟨h1, h2⟩
          · right
            exact ⟨j, by omega, h1, h2, h3⟩
        · right
          have hnM : n1 = k ∧ M1 = true := by
            obtain ⟨_, _, _, _, _, _, -, -, -, -, -, -, -, -, -, h1, h2⟩ := hX
            exact ⟨h1, h2⟩
          obtain ⟨hn1, hM1⟩ := hnM
          subst hn1 hM1
          obtain ⟨MBB', Host, hB', -, hH, hHi, -, -⟩ := hX.host
          rw [hB] at hB'
          cases hB'
          have hHl : Host.insts.length = n1 := by
            rw [hHi, List.length_take]; omega
          have hH' : MF1.Blocks[I]? = some Host := hH
          have h' : (Except.ok (MF1, M || true) : Except Fatal (MachineFunction × Bool)) =
              Except.ok r := by
            cases fuel <;> simpa only [expandMBBLoop, hH', hHl, if_true] using h
          have hr := Except.ok.inj h'
          subst hr
          exact ⟨n1, Nat.le_refl _, hN, hX, by simp⟩

theorem expandMBB_spec {LV : LiveInsOracle} {MF : MachineFunction} {I : Nat}
    {r : MachineFunction × Bool} (h : expandMBB LV MF I = .ok r) :
    ∃ MBB, MF.Blocks[I]? = some MBB ∧
      ((r = (MF, false) ∧ NoPseudo MBB.insts) ∨
       (∃ j, NoPseudo (MBB.insts.take j) ∧ Expanded MF I j (r.1, j, true) ∧ r.2 = true)) := by
  unfold expandMBB at h
  split at h
  · cases h
  · rename_i MBB hB
    refine ⟨MBB, hB, ?_⟩
    rcases expandMBBLoop_spec LV _ MF I 0 false MBB r hB (by simp [NoPseudo]) (Nat.zero_le _) h
      with h1 | ⟨j, -, h1, h2, h3⟩
    · exact Or.inl h1
    · exact Or.inr ⟨j, h1, h2, h3⟩

theorem noPseudo_take_succ_blocks {Bs : List MachineBasicBlock} {I : Nat}
    {B : MachineBasicBlock} (hB : Bs[I]? = some B)
    (h : ∀ X ∈ Bs.take I, NoPseudo X.insts) (hN : NoPseudo B.insts) :
    ∀ X ∈ Bs.take (I + 1), NoPseudo X.insts := by
  rw [List.take_succ, hB]
  intro X hX
  rcases List.mem_append.1 hX with h1 | h1
  · exact h X h1
  · simp only [Option.toList, List.mem_singleton] at h1
    rw [h1]; exact hN

theorem runOnMachineFunctionLoop_noPseudo (LV : LiveInsOracle) :
    ∀ (fuel : Nat) (MF : MachineFunction) (I : Nat) (M : Bool)
      (r : MachineFunction × Bool),
      (∀ B ∈ MF.Blocks.take I, NoPseudo B.insts) →
      runOnMachineFunctionLoop LV fuel MF I M = .ok r → r.1.noPseudo := by
  intro fuel
  induction fuel with
  | zero =>
    intro MF I M r hN h
    unfold runOnMachineFunctionLoop at h
    split at h
    · cases h
    · rename_i hI
      have hr := Except.ok.inj h
      subst hr
      rw [List.take_of_length_le (by omega)] at hN
      exact hN
  | succ fuel ih =>
    intro MF I M r hN h
    unfold runOnMachineFunctionLoop at h
    split at h
    · split at h
      · cases h
      · rename_i MF1 M1 hE
        obtain ⟨MBB, hB, hc⟩ := expandMBB_spec hE
        rcases hc with ⟨heq, hNB⟩ | ⟨j, hNj, hX, -⟩
        · simp only [Prod.mk.injEq] at heq
          obtain ⟨rfl, rfl⟩ := heq
          exact ih MF1 (I + 1) _ r (noPseudo_take_succ_blocks hB hN hNB) h
        · obtain ⟨MBB', Host, hB', hT, hH, hHi, -, -⟩ := hX.host
          rw [hB] at hB'
          cases hB'
          refine ih MF1 (I + 1) _ r (noPseudo_take_succ_blocks hH ?_ ?_) h
          · rw [hT]; exact hN
          · rw [hHi]; exact hNj
    · rename_i hI
      have hr := Except.ok.inj h
      subst hr
      rw [List.take_of_length_le (by omega)] at hN
      exact hN

/-! ## Theorems: expansions of well-formed pseudo operations succeed -/

theorem atomicOperandsOk_spec :
    ∀ (n : Nat) (ops : List MachineOperand), atomicOperandsOk n ops = true →
      (∀ i, i < n → ∃ r, ops[i]? = some (.Reg r)) ∧
      ∃ o, ops[n]? = some (.Imm o) ∧ (AtomicOrdering.ofImm o).isLegal = true := by
  intro n
  induction n with
  | zero =>
    intro ops h
    refine ⟨fun i hi => absurd hi (Nat.not_lt_zero i), ?_⟩
    match ops, h with
    | .Imm o :: _, h => exact ⟨o, by simp, h⟩
  | succ n ih =>
    intro ops h
    match ops, h with
    | .Reg r :: rest, h =>
      obtain ⟨h1, o, h2, h3⟩ := ih rest h
      refine ⟨fun i hi => ?_, o, by simpa using h2, h3⟩
      cases i with
      | zero => exact ⟨r, by simp⟩
      | succ i => simpa using h1 i (by omega)

theorem getReg_of {MI : MachineInstr} {i : Nat} {r : Register}
    (h : MI.operands[i]? = some (.Reg r)) : MI.getReg i = .ok r := by
  simp [MachineInstr.getReg, h]

theorem getImm_of {MI : MachineInstr} {i : Nat} {v : Int}
    (h : MI.operands[i]? = some (.Imm v)) : MI.getImm i = .ok v := by
  simp [MachineInstr.getImm, h]

theorem maskedRegsOk_spec {ops : List MachineOperand} {m : Nat}
    (h : maskedRegsOk ops m = true) :
    ∃ d s k, ops[0]? = some (.Reg d) ∧ ops[1]? = some (.Reg s) ∧ ops[m]? = some (.Reg k) ∧
      d ≠ s ∧ d ≠ k ∧ s ≠ k := by
  unfold maskedRegsOk at h
  split at h
  · rename_i d s k h0 h1 hm
    simp only [Bool.and_eq_true, bne_iff_ne, ne_eq] at h
    exact ⟨d, s, k, h0, h1, hm, h.1.1, h.1.2, h.2⟩
  · cases h

theorem expandAtomicBinOp_total {LV : LiveInsOracle} {MF : MachineFunction} {I k : Nat}
    {MBB : MachineBasicBlock} {MI : MachineInstr} (BinOp : BinOp) (Width : Int)
    (PtrIsCap : Bool)
    (hB : MF.Blocks[I]? = some MBB) (hI : MBB.insts[k]? = some MI)
    (hops : atomicOperandsOk 4 MI.operands = true)
    (hW : (Width = 32 ∨ Width = 64) ∨ ((Width = 8 ∨ Width = 16) ∧ PtrIsCap = true))
    (hop : BinOp ∈ [.Xchg, .Add, .Sub, .And, .Or, .Xor, .Nand]) :
    ∃ r, expandAtomicBinOp LV MF I k BinOp false Width PtrIsCap = .ok r := by
  obtain ⟨hr, o, ho, hleg⟩ := atomicOperandsOk_spec _ _ hops
  obtain ⟨r0, h0⟩ := hr 0 (by decide)
  obtain ⟨r1, h1⟩ := hr 1 (by decide)
  obtain ⟨r2, h2⟩ := hr 2 (by decide)
  obtain ⟨r3, h3⟩ := hr 3 (by decide)
  obtain ⟨LR, hLR⟩ := getLRForRMW_ok PtrIsCap _ Width hleg hW
  obtain ⟨SC, hSC⟩ := getSCForRMW_ok PtrIsCap _ Width hleg hW
  rw [expandAtomicBinOp_eq LV MF I k BinOp false Width PtrIsCap MBB MI hB hI rfl]
  simp only [List.mem_cons, List.mem_singleton, List.not_mem_nil, or_false] at hop
  rcases hop with rfl | rfl | rfl | rfl | rfl | rfl | rfl <;>
    simp [doAtomicBinOpExpansion, getReg_of h0, getReg_of h1, getReg_of h2, getReg_of h3,
      getImm_of ho, hLR, hSC, bind, Except.bind]

theorem expandAtomicBinOp_masked_total {LV : LiveInsOracle} {MF : MachineFunction}
    {I k : Nat} {MBB : MachineBasicBlock} {MI : MachineInstr} (BinOp : BinOp)
    (hB : MF.Blocks[I]? = some MBB) (hI : MBB.insts[k]? = some MI)
    (hops : atomicOperandsOk 5 MI.operands = true)
    (hm : maskedRegsOk MI.operands 4 = true)
    (hop : BinOp ∈ [.Xchg, .Add, .Sub, .Nand]) :
    ∃ r, expandAtomicBinOp LV MF I k BinOp true 32 false = .ok r := by
  obtain ⟨hr, o, ho, hleg⟩ := atomicOperandsOk_spec _ _ hops
  obtain ⟨d, s, m, h0, h1, h4, hds, hdm, hsm⟩ := maskedRegsOk_spec hm
  obtain ⟨r2, h2⟩ := hr 2 (by decide)
  obtain ⟨r3, h3⟩ := hr 3 (by decide)
  obtain ⟨LR, hLR⟩ := getLRForRMW32_ok false _ hleg
  obtain ⟨SC, hSC⟩ := getSCForRMW32_ok false _ hleg
  rw [expandAtomicBinOp_eq LV MF I k BinOp true 32 false MBB MI hB hI rfl]
  simp only [List.mem_cons, List.mem_singleton, List.not_mem_nil, or_false] at hop
  rcases hop with rfl | rfl | rfl | rfl <;>
    simp [doMaskedAtomicBinOpExpansion, getReg_of h0, getReg_of h1, getReg_of h2,
      getReg_of h3, getReg_of h4, getImm_of ho, hLR, hSC, bind, Except.bind, assert,
      insertMaskedMerge, hds, hdm, hsm]

theorem expandAtomicMinMaxOp_total {LV : LiveInsOracle} {MF : MachineFunction} {I k : Nat}
    {MBB : MachineBasicBlock} {MI : MachineInstr} (BinOp : BinOp) (Width : Int)
    (PtrIsCap : Bool)
    (hB : MF.Blocks[I]? = some MBB) (hI : MBB.insts[k]? = some MI)
    (hops : atomicOperandsOk 4 MI.operands = true)
    (hW : (Width = 32 ∨ Width = 64) ∨ ((Width = 8 ∨ Width = 16) ∧ PtrIsCap = true))
    (hop : BinOp ∈ [.Max, .Min, .UMax, .UMin]) :
    ∃ r, expandAtomicMinMaxOp LV MF I k BinOp false Width PtrIsCap = .ok r := by
  obtain ⟨hr, o, ho, hleg⟩ := atomicOperandsOk_spec _ _ hops
  obtain ⟨r0, h0⟩ := hr 0 (by decide)
  obtain ⟨r1, h1⟩ := hr 1 (by decide)
  obtain ⟨r2, h2⟩ := hr 2 (by decide)
  obtain ⟨r3, h3⟩ := hr 3 (by decide)
  obtain ⟨LR, hLR⟩ := getLRForRMW_ok PtrIsCap _ Width hleg hW
  obtain ⟨SC, hSC⟩ := getSCForRMW_ok PtrIsCap _ Width hleg hW
  simp only [List.mem_cons, List.mem_singleton, List.not_mem_nil, or_false] at hop
  rcases hop with rfl | rfl | rfl | rfl <;>
    simp [expandAtomicMinMaxOp, hB, hI, getReg_of h0, getReg_of h1, getReg_of h2,
      getReg_of h3, getImm_of ho, hLR, hSC, bind, Except.bind, pure, Except.pure]

theorem expandAtomicMinMaxOp_signed_total {LV : LiveInsOracle} {MF : MachineFunction}
    {I k : Nat} {MBB : MachineBasicBlock} {MI : MachineInstr} (BinOp : BinOp)
    (hB : MF.Blocks[I]? = some MBB) (hI : MBB.insts[k]? = some MI)
    (hops : atomicOperandsOk 7 MI.operands = true)
    (hm : maskedRegsOk MI.operands 5 = true)
    (hop : BinOp ∈ [.Max, .Min]) :
    ∃ r, expandAtomicMinMaxOp LV MF I k BinOp true 32 false = .ok r := by
  obtain ⟨hr, o, ho, hleg⟩ := atomicOperandsOk_spec _ _ hops
  obtain ⟨d, s, m, h0, h1, h5, hds, hdm, hsm⟩ := maskedRegsOk_spec hm
  obtain ⟨r2, h2⟩ := hr 2 (by decide)
  obtain ⟨r3, h3⟩ := hr 3 (by decide)
  obtain ⟨r4, h4⟩ := hr 4 (by decide)
  obtain ⟨r6, h6⟩ := hr 6 (by decide)
  obtain ⟨LR, hLR⟩ := getLRForRMW32_ok false _ hleg
  obtain ⟨SC, hSC⟩ := getSCForRMW32_ok false _ hleg
  simp only [List.mem_cons, List.mem_singleton, List.not_mem_nil, or_false] at hop
  rcases hop with rfl | rfl <;>
    simp [expandAtomicMinMaxOp, hB, hI, getReg_of h0, getReg_of h1, getReg_of h2,
      getReg_of h3, getReg_of h4, getReg_of h5, getReg_of h6, getImm_of ho, hLR, hSC,
      bind, Except.bind, pure, Except.pure, assert, insertMaskedMerge, hds, hdm, hsm]

theorem expandAtomicMinMaxOp_unsigned_total {LV : LiveInsOracle} {MF : MachineFunction}
    {I k : Nat} {MBB : MachineBasicBlock} {MI : MachineInstr} (BinOp : BinOp)
    (hB : MF.Blocks[I]? = some MBB) (hI : MBB.insts[k]? = some MI)
    (hops : atomicOperandsOk 6 MI.operands = true)
    (hm : maskedRegsOk MI.operands 5 = true)
    (hop : BinOp ∈ [.UMax, .UMin]) :
    ∃ r, expandAtomicMinMaxOp LV MF I k BinOp true 32 false = .ok r := by
  obtain ⟨hr, o, ho, hleg⟩ := atomicOperandsOk_spec _ _ hops
  obtain ⟨d, s, m, h0, h1, h5, hds, hdm, hsm⟩ := maskedRegsOk_spec hm
  obtain ⟨r2, h2⟩ := hr 2 (by decide)
  obtain ⟨r3, h3⟩ := hr 3 (by decide)
  obtain ⟨r4, h4⟩ := hr 4 (by decide)
  obtain ⟨LR, hLR⟩ := getLRForRMW32_ok false _ hleg
  obtain ⟨SC, hSC⟩ := getSCForRMW32_ok false _ hleg
  simp only [List.mem_cons, List.mem_singleton, List.not_mem_nil, or_false] at hop
  rcases hop with rfl | rfl <;>
    simp [expandAtomicMinMaxOp, hB, hI, getReg_of h0, getReg_of h1, getReg_of h2,
      getReg_of h3, getReg_of h4, getReg_of h5, getImm_of ho, hLR, hSC,
      bind, Except.bind, pure, Except.pure, assert, insertMaskedMerge, hds, hdm, hsm]

theorem expandAtomicCmpXchg_total {LV : LiveInsOracle} {MF : MachineFunction} {I k : Nat}
    {MBB : MachineBasicBlock} {MI : MachineInstr} (Width : Int) (PtrIsCap : Bool)
    (hB : MF.Blocks[I]? = some MBB) (hI : MBB.insts[k]? = some MI)
    (hops : atomicOperandsOk 5 MI.operands = true)
    (hW : (Width = 32 ∨ Width = 64) ∨ ((Width = 8 ∨ Width = 16) ∧ PtrIsCap = true)) :
    ∃ r, expandAtomicCmpXchg LV MF I k false Width PtrIsCap = .ok r := by
  obtain ⟨hr, o, ho, hleg⟩ := atomicOperandsOk_spec _ _ hops
  obtain ⟨r0, h0⟩ := hr 0 (by decide)
  obtain ⟨r1, h1⟩ := hr 1 (by decide)
  obtain ⟨r2, h2⟩ := hr 2 (by decide)
  obtain ⟨r3, h3⟩ := hr 3 (by decide)
  obtain ⟨r4, h4⟩ := hr 4 (by decide)
  obtain ⟨LR, hLR⟩ := getLRForRMW_ok PtrIsCap _ Width hleg hW
  obtain ⟨SC, hSC⟩ := getSCForRMW_ok PtrIsCap _ Width hleg hW
  simp [expandAtomicCmpXchg, hB, hI, getReg_of h0, getReg_of h1, getReg_of h2,
    getReg_of h3, getReg_of h4, getImm_of ho, hLR, hSC, bind, Except.bind, pure,
    Except.pure]

theorem expandAtomicCmpXchg_masked_total {LV : LiveInsOracle} {MF : MachineFunction}
    {I k : Nat} {MBB : MachineBasicBlock} {MI : MachineInstr}
    (hB : MF.Blocks[I]? = some MBB) (hI : MBB.insts[k]? = some MI)
    (hops : atomicOperandsOk 6 MI.operands = true)
    (hm : maskedRegsOk MI.operands 5 = true) :
    ∃ r, expandAtomicCmpXchg LV MF I k true 32 false = .ok r := by
  obtain ⟨hr, o, ho, hleg⟩ := atomicOperandsOk_spec _ _ hops
  obtain ⟨d, s, m, h0, h1, h5, hds, hdm, hsm⟩ := maskedRegsOk_spec hm
  obtain ⟨r2, h2⟩ := hr 2 (by decide)
  obtain ⟨r3, h3⟩ := hr 3 (by decide)
  obtain ⟨r4, h4⟩ := hr 4 (by decide)
  obtain ⟨LR, hLR⟩ := getLRForRMW_ok false _ 32 hleg (Or.inl (Or.inl rfl))
  obtain ⟨SC, hSC⟩ := getSCForRMW_ok false _ 32 hleg (Or.inl (Or.inl rfl))
  simp [expandAtomicCmpXchg, hB, hI, getReg_of h0, getReg_of h1, getReg_of h2,
    getReg_of h3, getReg_of h4, getReg_of h5, getImm_of ho, hLR, hSC, bind, Except.bind,
    pure, Except.pure, assert, insertMaskedMerge, hds, hdm, hsm]

theorem expandAtomicCmpXchgCap_total {LV : LiveInsOracle} {MF : MachineFunction}
    {I k : Nat} {MBB : MachineBasicBlock} {MI : MachineInstr} (PtrIsCap : Bool)
    (hB : MF.Blocks[I]? = some MBB) (hI : MBB.insts[k]? = some MI)
    (hops : atomicOperandsOk 5 MI.operands = true) :
    ∃ r, expandAtomicCmpXchgCap LV MF I k PtrIsCap = .ok r := by
  obtain ⟨hr, o, ho, hleg⟩ := atomicOperandsOk_spec _ _ hops
  obtain ⟨r0, h0⟩ := hr 0 (by decide)
  obtain ⟨r1, h1⟩ := hr 1 (by decide)
  obtain ⟨r2, h2⟩ := hr 2 (by decide)
  obtain ⟨r3, h3⟩ := hr 3 (by decide)
  obtain ⟨r4, h4⟩ := hr 4 (by decide)
  obtain ⟨LR, hLR⟩ := getLRForRMWCap_ok PtrIsCap _ MF.CLen hleg
  obtain ⟨SC, hSC⟩ := getSCForRMWCap_ok PtrIsCap _ MF.CLen hleg
  simp [expandAtomicCmpXchgCap, hB, hI, getReg_of h0, getReg_of h1, getReg_of h2,
    getReg_of h3, getReg_of h4, getImm_of ho, hLR, hSC, bind, Except.bind, pure,
    Except.pure]

theorem addDisp_ok {d : MachineOperand} (h : d.isDisp = true) (off : Int)
    (F : TargetFlag) : ∃ x, addDisp d off F = .ok x := by
  cases d with
  | Reg r => cases h
  | Imm v => exact ⟨_, rfl⟩
  | MBB b f => cases h
  | Sym kind r o f => cases kind <;> first | exact ⟨_, rfl⟩ | cases h

theorem expandAuipcInstPair_total {LV : LiveInsOracle} {MF : MachineFunction}
    {I k : Nat} {MBB : MachineBasicBlock} {MI : MachineInstr} (FlagsHi : TargetFlag)
    (SecondOpcode : RISCV) (r0 : Register) (d : MachineOperand) (rest : List MachineOperand)
    (hB : MF.Blocks[I]? = some MBB) (hI : MBB.insts[k]? = some MI)
    (hops : MI.operands = .Reg r0 :: d :: rest) (hd : d.isDisp = true) :
    ∃ r, expandAuipcInstPair LV MF I k FlagsHi SecondOpcode = .ok r := by
  obtain ⟨x, hx⟩ := addDisp_ok hd 0 FlagsHi
  simp [expandAuipcInstPair, hB, hI, MachineInstr.getReg, MachineInstr.getOperand, hops,
    hx, bind, Except.bind, pure, Except.pure]

theorem expandAuipccInstPair_total {LV : LiveInsOracle} {MF : MachineFunction}
    {I k : Nat} {MBB : MachineBasicBlock} {MI : MachineInstr} (FlagsHi : TargetFlag)
    (SecondOpcode : RISCV) (hB : MF.Blocks[I]? = some MBB) (hI : MBB.insts[k]? = some MI)
    (hops : (∃ r0 d, MI.operands = [.Reg r0, d] ∧ d.isDisp = true) ∨
      (∃ r0 r1 d rest, MI.operands = .Reg r0 :: .Reg r1 :: d :: rest ∧ d.isDisp = true)) :
    ∃ r, expandAuipccInstPair LV MF I k FlagsHi SecondOpcode = .ok r := by
  rcases hops with ⟨r0, d, hops, hd⟩ | ⟨r0, r1, d, rest, hops, hd⟩
  · obtain ⟨x, hx⟩ := addDisp_ok hd 0 FlagsHi
    simp [expandAuipccInstPair, hB, hI, MachineInstr.getReg, MachineInstr.getOperand,
      MachineInstr.getNumOperands, hops, hx, bind, Except.bind, pure, Except.pure]
  · obtain ⟨x, hx⟩ := addDisp_ok hd 0 FlagsHi
    simp [expandAuipccInstPair, hB, hI, MachineInstr.getReg, MachineInstr.getOperand,
      MachineInstr.getNumOperands, hops, hx, bind, Except.bind, pure, Except.pure]

theorem addressOperandsOk_spec {ops : List MachineOperand}
    (h : addressOperandsOk ops = true) :
    ∃ r0 d rest, ops = .Reg r0 :: d :: rest ∧ d.isDisp = true := by
  match ops, h with
  | .Reg r0 :: d :: rest, h => exact ⟨r0, d, rest, rfl, by simpa [addressOperandsOk] using h⟩

theorem capAddressOperandsOk_spec {ops : List MachineOperand}
    (h : capAddressOperandsOk ops = true) :
    (∃ r0 d, ops = [.Reg r0, d] ∧ d.isDisp = true) ∨
    (∃ r0 r1 d rest, ops = .Reg r0 :: .Reg r1 :: d :: rest ∧ d.isDisp = true) := by
  match ops, h with
  | [.Reg r0, d], h => exact Or.inl ⟨r0, d, rfl, by simpa [capAddressOperandsOk] using h⟩
  | .Reg r0 :: .Reg r1 :: d :: rest, h =>
    exact Or.inr ⟨r0, r1, d, rest, rfl, by simpa [capAddressOperandsOk] using h⟩

theorem ok_ne_error {ε α : Type} {x : Except ε α} {e : ε} (h1 : ∃ r, x = .ok r)
    (h2 : x = .error e) : False := by
  obtain ⟨r, hr⟩ := h1
  rw [hr] at h2
  cases h2

theorem expandLoadAddress_total {LV : LiveInsOracle} {MF : MachineFunction}
    {I k : Nat} {MBB : MachineBasicBlock} {MI : MachineInstr}
    (r0 : Register) (d : MachineOperand) (rest : List MachineOperand)
    (hB : MF.Blocks[I]? = some MBB) (hI : MBB.insts[k]? = some MI)
    (hops : MI.operands = .Reg r0 :: d :: rest) (hd : d.isDisp = true) :
    ∃ r, expandLoadAddress LV MF I k = .ok r := by
  unfold expandLoadAddress
  split
  · exact expandAuipcInstPair_total _ _ r0 d rest hB hI hops hd
  · exact expandAuipcInstPair_total _ _ r0 d rest hB hI hops hd

theorem expandMI_total {LV : LiveInsOracle} {MF : MachineFunction} {I k : Nat} (n : Nat)
    {MBB : MachineBasicBlock} {MI : MachineInstr}
    (hB : MF.Blocks[I]? = some MBB) (hI : MBB.insts[k]? = some MI)
    (hwf : MI.wellFormed = true) :
    ∃ r, expandMI LV MF I k n = .ok r := by
  cases hE : expandMI LV MF I k n with
  | ok r => exact ⟨r, rfl⟩
  | error e =>
  exfalso
  unfold expandMI at hE
  rw [hB] at hE
  change (MBB.insts[k]?.elim (Except.error Fatal.BadOperand) Except.ok >>= _) = _ at hE
  rw [hI] at hE
  change (match MI.opcode with | _ => _) = _ at hE
  obtain ⟨opc, ops, DL⟩ := MI
  cases opc with
  | generic m => exact Except.noConfusion hE
  | target o =>
    cases o
    case PseudoAtomicLoadNand32 =>
      exact ok_ne_error
        (expandAtomicBinOp_total .Nand 32 false hB hI hwf (Or.inl (Or.inl rfl)) (by decide)) hE
    case PseudoAtomicLoadNand64 =>
      exact ok_ne_error
        (expandAtomicBinOp_total .Nand 64 false hB hI hwf (Or.inl (Or.inr rfl)) (by decide)) hE
    case PseudoMaskedAtomicSwap32 =>
      have hw : (atomicOperandsOk 5 ops && maskedRegsOk ops 4) = true := hwf
      rw [Bool.and_eq_true] at hw
      exact ok_ne_error (expandAtomicBinOp_masked_total .Xchg hB hI hw.1 hw.2 (by decide)) hE
    case PseudoMaskedAtomicLoadAdd32 =>
      have hw : (atomicOperandsOk 5 ops && maskedRegsOk ops 4) = true := hwf
      rw [Bool.and_eq_true] at hw
      exact ok_ne_error (expandAtomicBinOp_masked_total .Add hB hI hw.1 hw.2 (by decide)) hE
    case PseudoMaskedAtomicLoadSub32 =>
      have hw : (atomicOperandsOk 5 ops && maskedRegsOk ops 4) = true := hwf
      rw [Bool.and_eq_true] at hw
      exact ok_ne_error (expandAtomicBinOp_masked_total .Sub hB hI hw.1 hw.2 (by decide)) hE
    case PseudoMaskedAtomicLoadNand32 =>
      have hw : (atomicOperandsOk 5 ops && maskedRegsOk ops 4) = true := hwf
      rw [Bool.and_eq_true] at hw
      exact ok_ne_error (expandAtomicBinOp_masked_total .Nand hB hI hw.1 hw.2 (by decide)) hE
    case PseudoMaskedAtomicLoadMax32 =>
      have hw : (atomicOperandsOk 7 ops && maskedRegsOk ops 5) = true := hwf
      rw [Bool.and_eq_true] at hw
      exact ok_ne_error (expandAtomicMinMaxOp_signed_total .Max hB hI hw.1 hw.2 (by decide)) hE
    case PseudoMaskedAtomicLoadMin32 =>
      have hw : (atomicOperandsOk 7 ops && maskedRegsOk ops 5) = true := hwf
      rw [Bool.and_eq_true] at hw
      exact ok_ne_error (expandAtomicMinMaxOp_signed_total .Min hB hI hw.1 hw.2 (by decide)) hE
    case PseudoMaskedAtomicLoadUMax32 =>
      have hw : (atomicOperandsOk 6 ops && maskedRegsOk ops 5) = true := hwf
      rw [Bool.and_eq_true] at hw
      exact ok_ne_error (expandAtomicMinMaxOp_unsigned_total .UMax hB hI hw.1 hw.2 (by decide)) hE
    case PseudoMaskedAtomicLoadUMin32 =>
      have hw : (atomicOperandsOk 6 ops && maskedRegsOk ops 5) = true := hwf
      rw [Bool.and_eq_true] at hw
      exact ok_ne_error (expandAtomicMinMaxOp_unsigned_total .UMin hB hI hw.1 hw.2 (by decide)) hE
    case PseudoCmpXchg32 =>
      exact ok_ne_error (expandAtomicCmpXchg_total 32 false hB hI hwf (Or.inl (Or.inl rfl))) hE
    case PseudoCmpXchg64 =>
      exact ok_ne_error (expandAtomicCmpXchg_total 64 false hB hI hwf (Or.inl (Or.inr rfl))) hE
    case PseudoMaskedCmpXchg32 =>
      have hw : (atomicOperandsOk 6 ops && maskedRegsOk ops 5) = true := hwf
      rw [Bool.and_eq_true] at hw
      exact ok_ne_error (expandAtomicCmpXchg_masked_total hB hI hw.1 hw.2) hE
    case PseudoLLA =>
      obtain ⟨r0, d, rest, ho, hd⟩ := addressOperandsOk_spec hwf
      exact ok_ne_error
        (expandAuipcInstPair_total .MO_PCREL_HI .ADDI r0 d rest hB hI ho hd) hE
    case PseudoLA =>
      obtain ⟨r0, d, rest, ho, hd⟩ := addressOperandsOk_spec hwf
      exact ok_ne_error (expandLoadAddress_total r0 d rest hB hI ho hd) hE
    case PseudoLA_TLS_IE =>
      obtain ⟨r0, d, rest, ho, hd⟩ := addressOperandsOk_spec hwf
      exact ok_ne_error
        (expandAuipcInstPair_total .MO_TLS_GOT_HI (if MF.is64Bit then .LD else .LW)
          r0 d rest hB hI ho hd) hE
    case PseudoLA_TLS_GD =>
      obtain ⟨r0, d, rest, ho, hd⟩ := addressOperandsOk_spec hwf
      exact ok_ne_error
        (expandAuipcInstPair_total .MO_TLS_GD_HI .ADDI r0 d rest hB hI ho hd) hE
    case PseudoCLGC =>
      exact ok_ne_error
        (expandAuipccInstPair_total .MO_CAPTAB_PCREL_HI
          (if MF.is64Bit then .CLC_128 else .CLC_64) hB hI
          (capAddressOperandsOk_spec hwf)) hE
    case PseudoCLA_TLS_IE =>
      exact ok_ne_error
        (expandAuipccInstPair_total .MO_TLS_IE_CAPTAB_PCREL_HI
          (if MF.is64Bit then .CLD else .CLW) hB hI (capAddressOperandsOk_spec hwf)) hE
    case PseudoCLC_TLS_GD =>
      exact ok_ne_error
        (expandAuipccInstPair_total .MO_TLS_GD_CAPTAB_PCREL_HI .CIncOffsetImm hB hI
          (capAddressOperandsOk_spec hwf)) hE
    case PseudoCmpXchgCap =>
      exact ok_ne_error (expandAtomicCmpXchgCap_total false hB hI hwf) hE
    case PseudoCheriAtomicSwap8 =>
      exact ok_ne_error
        (expandAtomicBinOp_total .Xchg 8 true hB hI hwf (Or.inr ⟨Or.inl rfl, rfl⟩) (by decide)) hE
    case PseudoCheriAtomicSwap16 =>
      exact ok_ne_error
        (expandAtomicBinOp_total .Xchg 16 true hB hI hwf (Or.inr ⟨Or.inr rfl, rfl⟩) (by decide)) hE
    case PseudoCheriAtomicLoadAdd8 =>
      exact ok_ne_error
        (expandAtomicBinOp_total .Add 8 true hB hI hwf (Or.inr ⟨Or.inl rfl, rfl⟩) (by decide)) hE
    case PseudoCheriAtomicLoadAdd16 =>
      exact ok_ne_error
        (expandAtomicBinOp_total .Add 16 true hB hI hwf (Or.inr ⟨Or.inr rfl, rfl⟩) (by decide)) hE
    case PseudoCheriAtomicLoadAnd8 =>
      exact ok_ne_error
        (expandAtomicBinOp_total .And 8 true hB hI hwf (Or.inr ⟨Or.inl rfl, rfl⟩) (by decide)) hE
    case PseudoCheriAtomicLoadAnd16 =>
      exact ok_ne_error
        (expandAtomicBinOp_total .And 16 true hB hI hwf (Or.inr ⟨Or.inr rfl, rfl⟩) (by decide)) hE
    case PseudoCheriAtomicLoadOr8 =>
      exact ok_ne_error
        (expandAtomicBinOp_total .Or 8 true hB hI hwf (Or.inr ⟨Or.inl rfl, rfl⟩) (by decide)) hE
    case PseudoCheriAtomicLoadOr16 =>
      exact ok_ne_error
        (expandAtomicBinOp_total .Or 16 true hB hI hwf (Or.inr ⟨Or.inr rfl, rfl⟩) (by decide)) hE
    case PseudoCheriAtomicLoadXor8 =>
      exact ok_ne_error
        (expandAtomicBinOp_total .Xor 8 true hB hI hwf (Or.inr ⟨Or.inl rfl, rfl⟩) (by decide)) hE
    case PseudoCheriAtomicLoadXor16 =>
      exact ok_ne_error
        (expandAtomicBinOp_total .Xor 16 true hB hI hwf (Or.inr ⟨Or.inr rfl, rfl⟩) (by decide)) hE
    case PseudoCheriAtomicLoadNand8 =>
      exact ok_ne_error
        (expandAtomicBinOp_total .Nand 8 true hB hI hwf (Or.inr ⟨Or.inl rfl, rfl⟩) (by decide)) hE
    case PseudoCheriAtomicLoadNand16 =>
      exact ok_ne_error
        (expandAtomicBinOp_total .Nand 16 true hB hI hwf (Or.inr ⟨Or.inr rfl, rfl⟩) (by decide)) hE
    case PseudoCheriAtomicLoadSub8 =>
      exact ok_ne_error
        (expandAtomicBinOp_total .Sub 8 true hB hI hwf (Or.inr ⟨Or.inl rfl, rfl⟩) (by decide)) hE
    case PseudoCheriAtomicLoadSub16 =>
      exact ok_ne_error
        (expandAtomicBinOp_total .Sub 16 true hB hI hwf (Or.inr ⟨Or.inr rfl, rfl⟩) (by decide)) hE
    case PseudoCheriAtomicLoadNand32 =>
      exact ok_ne_error
        (expandAtomicBinOp_total .Nand 32 true hB hI hwf (Or.inl (Or.inl rfl)) (by decide)) hE
    case PseudoCheriAtomicLoadNand64 =>
      exact ok_ne_error
        (expandAtomicBinOp_total .Nand 64 true hB hI hwf (Or.inl (Or.inr rfl)) (by decide)) hE
    case PseudoCheriAtomicLoadMax8 =>
      exact ok_ne_error
        (expandAtomicMinMaxOp_total .Max 8 true hB hI hwf (Or.inr ⟨Or.inl rfl, rfl⟩) (by decide)) hE
    case PseudoCheriAtomicLoadMax16 =>
      exact ok_ne_error
        (expandAtomicMinMaxOp_total .Max 16 true hB hI hwf (Or.inr ⟨Or.inr rfl, rfl⟩) (by decide)) hE
    case PseudoCheriAtomicLoadMin8 =>
      exact ok_ne_error
        (expandAtomicMinMaxOp_total .Min 8 true hB hI hwf (Or.inr ⟨Or.inl rfl, rfl⟩) (by decide)) hE
    case PseudoCheriAtomicLoadMin16 =>
      exact ok_ne_error
        (expandAtomicMinMaxOp_total .Min 16 true hB hI hwf (Or.inr ⟨Or.inr rfl, rfl⟩) (by decide)) hE
    case PseudoCheriAtomicLoadUMax8 =>
      exact ok_ne_error
        (expandAtomicMinMaxOp_total .UMax 8 true hB hI hwf (Or.inr ⟨Or.inl rfl, rfl⟩) (by decide)) hE
    case PseudoCheriAtomicLoadUMax16 =>
      exact ok_ne_error
        (expandAtomicMinMaxOp_total .UMax 16 true hB hI hwf (Or.inr ⟨Or.inr rfl, rfl⟩) (by decide)) hE
    case PseudoCheriAtomicLoadUMin8 =>
      exact ok_ne_error
        (expandAtomicMinMaxOp_total .UMin 8 true hB hI hwf (Or.inr ⟨Or.inl rfl, rfl⟩) (by decide)) hE
    case PseudoCheriAtomicLoadUMin16 =>
      exact ok_ne_error
        (expandAtomicMinMaxOp_total .UMin 16 true hB hI hwf (Or.inr ⟨Or.inr rfl, rfl⟩) (by decide)) hE
    case PseudoCheriCmpXchg8 =>
      exact ok_ne_error (expandAtomicCmpXchg_total 8 true hB hI hwf (Or.inr ⟨Or.inl rfl, rfl⟩)) hE
    case PseudoCheriCmpXchg16 =>
      exact ok_ne_error (expandAtomicCmpXchg_total 16 true hB hI hwf (Or.inr ⟨Or.inr rfl, rfl⟩)) hE
    case PseudoCheriCmpXchg32 =>
      exact ok_ne_error (expandAtomicCmpXchg_total 32 true hB hI hwf (Or.inl (Or.inl rfl))) hE
    case PseudoCheriCmpXchg64 =>
      exact ok_ne_error (expandAtomicCmpXchg_total 64 true hB hI hwf (Or.inl (Or.inr rfl))) hE
    case PseudoCheriCmpXchgCap =>
      exact ok_ne_error (expandAtomicCmpXchgCap_total true hB hI hwf) hE
    all_goals exact Except.noConfusion hE

/-! ## Theorems: the driver returns a function without pseudo operations -/

theorem wellFormed_of_not_pseudo {MI : MachineInstr} (h : MI.opcode.isPseudo = false) :
    MI.wellFormed = true := by
  obtain ⟨opc, ops, DL⟩ := MI
  cases opc with
  | generic m => rfl
  | target o => cases o <;> first | rfl | exact Bool.noConfusion (h : true = false)

theorem countPseudo_append (a b : List MachineInstr) :
    countPseudo (a ++ b) = countPseudo a + countPseudo b := by
  simp [countPseudo]

theorem countPseudo_noPseudo {l : List MachineInstr} (h : NoPseudo l) :
    countPseudo l = 0 := by
  unfold countPseudo
  rw [List.length_eq_zero, List.filter_eq_nil_iff]
  intro MI hMI
  rw [h MI hMI]
  simp

theorem countPseudoBlocks_append (a b : List MachineBasicBlock) :
    countPseudoBlocks (a ++ b) = countPseudoBlocks a + countPseudoBlocks b := by
  simp [countPseudoBlocks]

theorem countPseudoBlocks_cons (B : MachineBasicBlock) (Bs : List MachineBasicBlock) :
    countPseudoBlocks (B :: Bs) = countPseudo B.insts + countPseudoBlocks Bs := by
  simp [countPseudoBlocks]

theorem countPseudoBlocks_noPseudo {Bs : List MachineBasicBlock}
    (h : ∀ B ∈ Bs, NoPseudo B.insts) : countPseudoBlocks Bs = 0 := by
  induction Bs with
  | nil => rfl
  | cons B Bs ih =>
    rw [countPseudoBlocks_cons, countPseudo_noPseudo (h B (List.mem_cons_self _ _)),
      ih (fun X hX => h X (List.mem_cons_of_mem _ hX))]

theorem countPseudo_split {l : List MachineInstr} {j : Nat} {MI : MachineInstr}
    (hI : l[j]? = some MI) (hp : MI.opcode.isPseudo = true) :
    countPseudo l = countPseudo (l.take j) + 1 + countPseudo (l.drop (j + 1)) := by
  have hlt := (List.getElem?_eq_some_iff.1 hI).1
  have hd : l.drop j = MI :: l.drop (j + 1) := by
    rw [List.drop_eq_getElem_cons hlt]
    congr 1
    exact (List.getElem?_eq_some_iff.1 hI).2
  conv_lhs => rw [← List.take_append_drop j l, hd]
  rw [countPseudo_append]
  simp only [countPseudo, List.filter_cons, hp, if_true, List.length_cons]
  omega

theorem drop_eq_cons_of_getElem? {α : Type} {l : List α} {I : Nat} {x : α}
    (h : l[I]? = some x) : l.drop I = x :: l.drop (I + 1) := by
  have hlt := (List.getElem?_eq_some_iff.1 h).1
  rw [List.drop_eq_getElem_cons hlt]
  congr 1
  exact (List.getElem?_eq_some_iff.1 h).2

/-- An expansion lowers the measure of the work that remains from the next
block on: at most four blocks are added and one pseudo operation is gone. -/
theorem Expanded.measure {MF : MachineFunction} {I j : Nat}
    {r : MachineFunction × Nat × Bool} (h : Expanded MF I j r) :
    (r.1.Blocks.length - (I + 1)) + 4 * countPseudoBlocks (r.1.Blocks.drop (I + 1)) + 1 ≤
      (MF.Blocks.length - I) + 4 * countPseudoBlocks (MF.Blocks.drop I) := by
  obtain ⟨MBB, MI, Host, Mids, Last, conc, hB, hI, hp, hBl, hH, hM, hL, hc, hlen, -, -⟩ := h
  have hIlt := (List.getElem?_eq_some_iff.1 hB).1
  have hlenT : (MF.Blocks.take I).length = I := by
    rw [List.length_take]; omega
  have hdrop : r.1.Blocks.drop (I + 1) = (Mids ++ [Last]) ++ MF.Blocks.drop (I + 1) := by
    rw [hBl, List.append_assoc, List.drop_append_eq_append_drop,
      List.drop_of_length_le (by omega), hlenT]
    simp
  have hlen2 : r.1.Blocks.length = MF.Blocks.length + Mids.length + 1 := by
    rw [hBl]
    simp only [List.length_append, List.length_cons, List.length_nil, hlenT,
      List.length_drop]
    omega
  rw [hdrop, hlen2, drop_eq_cons_of_getElem? hB, countPseudoBlocks_append,
    countPseudoBlocks_append, countPseudoBlocks_cons, countPseudoBlocks_noPseudo hM,
    countPseudoBlocks_cons, countPseudo_split hI hp, hL, countPseudo_append,
    countPseudo_noPseudo hc]
  simp only [countPseudoBlocks, List.map_nil, List.sum_nil]
  omega

theorem Expanded.wellFormed {MF : MachineFunction} {I j : Nat}
    {r : MachineFunction × Nat × Bool} (hwf : MF.wellFormed) (h : Expanded MF I j r) :
    r.1.wellFormed := by
  obtain ⟨MBB, MI, Host, Mids, Last, conc, hB, hI, hp, hBl, hH, hM, hL, hc, hlen, -, -⟩ := h
  have hMBB : MBB ∈ MF.Blocks := by
    obtain ⟨h1, h2⟩ := List.getElem?_eq_some_iff.1 hB
    rw [← h2]
    exact List.getElem_mem ..
  intro B hBm X hX
  rw [hBl] at hBm
  simp only [List.mem_append, List.mem_cons, List.mem_singleton, List.not_mem_nil,
    or_false] at hBm
  rcases hBm with (h1 | h1 | h1 | h1) | h1
  · exact hwf B (List.mem_of_mem_take h1) X hX
  · rw [h1, hH] at hX
    exact hwf MBB hMBB X (List.mem_of_mem_take hX)
  · exact wellFormed_of_not_pseudo (hM B h1 X hX)
  · rw [h1, hL] at hX
    rcases List.mem_append.1 hX with h2 | h2
    · exact wellFormed_of_not_pseudo (hc X h2)
    · exact hwf MBB hMBB X (List.mem_of_mem_drop h2)
  · exact hwf B (List.mem_of_mem_drop h1) X hX

theorem expandMBBLoop_total (LV : LiveInsOracle) :
    ∀ (fuel : Nat) (MF : MachineFunction) (I k : Nat) (M : Bool) (MBB : MachineBasicBlock),
      MF.Blocks[I]? = some MBB → (∀ MI ∈ MBB.insts, MI.wellFormed = true) →
      MBB.insts.length ≤ k + fuel → k ≤ MBB.insts.length →
      ∃ r, expandMBBLoop LV fuel MF I k M = .ok r := by
  intro fuel
  induction fuel with
  | zero =>
    intro MF I k M MBB hB hwf hf hk
    have hkl : k = MBB.insts.length := by omega
    unfold expandMBBLoop
    simp only [hB]
    rw [if_pos hkl]
    exact ⟨_, rfl⟩
  | succ fuel ih =>
    intro MF I k M MBB hB hwf hf hk
    unfold expandMBBLoop
    simp only [hB]
    by_cases hkl : k = MBB.insts.length
    · rw [if_pos hkl]
      exact ⟨_, rfl⟩
    · rw [if_neg hkl]
      have hlt : k < MBB.insts.length := by omega
      have hI : MBB.insts[k]? = some (MBB.insts[k]) := List.getElem?_eq_getElem hlt
      obtain ⟨⟨MF1, n1, M1⟩, hE⟩ :=
        @expandMI_total LV MF I k (k + 1) MBB _ hB hI (hwf _ (List.getElem_mem ..))
      rw [hE]
      rcases expandMI_cases hB hI hE with ⟨-, heq⟩ | ⟨-, hX⟩
      · simp only [Prod.mk.injEq] at heq
        obtain ⟨rfl, rfl, rfl⟩ := heq
        exact ih MF1 I (k + 1) _ MBB hB hwf (by omega) (by omega)
      · have hnM : n1 = k := by
          obtain ⟨_, _, _, _, _, _, -, -, -, -, -, -, -, -, -, h1, -⟩ := hX
          exact h1
        subst hnM
        obtain ⟨MBB', Host, hB', -, hH, hHi, -, -⟩ := hX.host
        rw [hB] at hB'
        cases hB'
        have hHl : Host.insts.length = n1 := by
          rw [hHi, List.length_take]; omega
        have hH' : MF1.Blocks[I]? = some Host := hH
        cases fuel <;> simp only [expandMBBLoop, hH', hHl, if_true] <;> exact ⟨_, rfl⟩

theorem expandMBB_total {LV : LiveInsOracle} {MF : MachineFunction} {I : Nat}
    {MBB : MachineBasicBlock} (hB : MF.Blocks[I]? = some MBB)
    (hwf : ∀ MI ∈ MBB.insts, MI.wellFormed = true) :
    ∃ r, expandMBB LV MF I = .ok r := by
  unfold expandMBB
  simp only [hB]
  exact expandMBBLoop_total LV _ MF I 0 false MBB hB hwf (by omega) (Nat.zero_le _)

theorem runOnMachineFunctionLoop_total (LV : LiveInsOracle) :
    ∀ (fuel : Nat) (MF : MachineFunction) (I : Nat) (M : Bool),
      MF.wellFormed →
      (MF.Blocks.length - I) + 4 * countPseudoBlocks (MF.Blocks.drop I) ≤ fuel →
      ∃ r, runOnMachineFunctionLoop LV fuel MF I M = .ok r := by
  intro fuel
  induction fuel with
  | zero =>
    intro MF I M hwf hf
    unfold runOnMachineFunctionLoop
    rw [if_neg (by omega)]
    exact ⟨_, rfl⟩
  | succ fuel ih =>
    intro MF I M hwf hf
    unfold runOnMachineFunctionLoop
    by_cases hI : I < MF.Blocks.length
    · rw [if_pos hI]
      have hB : MF.Blocks[I]? = some (MF.Blocks[I]) := List.getElem?_eq_getElem hI
      obtain ⟨⟨MF1, M1⟩, hE⟩ :=
        @expandMBB_total LV MF I _ hB (hwf _ (List.getElem_mem ..))
      rw [hE]
      obtain ⟨MBB, hB', hc⟩ := expandMBB_spec hE
      rcases hc with ⟨heq, -⟩ | ⟨j, -, hX, -⟩
      · simp only [Prod.mk.injEq] at heq
        obtain ⟨rfl, rfl⟩ := heq
        refine ih MF1 (I + 1) _ hwf ?_
        rw [drop_eq_cons_of_getElem? hB, countPseudoBlocks_cons] at hf
        omega
      · refine ih MF1 (I + 1) _ (hX.wellFormed hwf) ?_
        have := hX.measure
        simp only at this
        omega
    · rw [if_neg hI]
      exact ⟨_, rfl⟩

/-- C1: for every function whose operations are well formed (each pseudo
operation has the operands its opcode prescribes, its ordering is one of the
five legal ones, and the result, scratch and mask registers of a masked form
are different registers), with any number of pseudo operations in any blocks,
runOnMachineFunction returns a function of which no block contains an
operation with one of the pseudo opcodes dispatched by expandMI. -/
theorem runOnMachineFunction_noPseudo (LV : LiveInsOracle) (MF : MachineFunction)
    (hwf : MF.wellFormed) :
    ∃ MF' Modified, runOnMachineFunction LV MF = .ok (MF', Modified) ∧ MF'.noPseudo := by
  obtain ⟨⟨MF', c⟩, h⟩ := runOnMachineFunctionLoop_total LV
    (MF.Blocks.length + 4 * countPseudoBlocks MF.Blocks) MF 0 false hwf (by simp)
  exact ⟨MF', c, h, runOnMachineFunctionLoop_noPseudo LV _ MF 0 false _ (by simp) h⟩

theorem runOnMachineFunction_noPseudo_witness :
    twoPseudoFunction.wellFormed ∧
    ∃ MF' Modified, runOnMachineFunction (fun _ _ => []) twoPseudoFunction =
      .ok (MF', Modified) ∧ MF'.noPseudo :=
  ⟨by unfold MachineFunction.wellFormed; decide,
   runOnMachineFunction_noPseudo (fun _ _ => []) twoPseudoFunction
    (by unfold MachineFunction.wellFormed; decide)⟩

/-! ## Theorems: the blocks of a read-modify-write expansion -/

theorem Appends.succs {B0 B : MachineBasicBlock} (h : Appends B0 B) :
    B.succs = B0.succs := by
  obtain ⟨em, rfl, -⟩ := h; rfl

theorem getElem?_append_cons_self {α : Type} (a b : List α) (x : α) :
    (a ++ x :: b)[a.length]? = some x := by
  rw [List.getElem?_append_right (Nat.le_refl _)]
  simp

/-- C7: for a function whose blocks are Pre, the host block and Post, the host
block holding pre, a read-modify-write pseudo operation P and post, with
successors S: expandAtomicBinOp returns the function whose blocks are Pre, host,
loop, done and Post, where loop and done are the two newly created blocks; host
holds exactly pre and has the single successor loop, loop has exactly the
successors loop and done and holds no pseudo operation (so P is not in it), done
holds exactly post and has the successors S; the returned position is the end
of host and the returned flag is true. When P occurred nowhere else in the
function, P occurs in no block of the result. -/
theorem expandAtomicBinOp_blocks (LV : LiveInsOracle) (MF : MachineFunction)
    (Pre Post : List MachineBasicBlock) (MBB : MachineBasicBlock)
    (pre post : List MachineInstr) (P : MachineInstr)
    (BinOp : BinOp) (IsMasked : Bool) (Width : Int) (PtrIsCap : Bool)
    (hBlocks : MF.Blocks = Pre ++ MBB :: Post)
    (hinsts : MBB.insts = pre ++ P :: post)
    (hpseudo : P.opcode.isPseudo = true)
    (hP : (IsMasked = false ∧ atomicOperandsOk 4 P.operands = true ∧
          ((Width = 32 ∨ Width = 64) ∨ ((Width = 8 ∨ Width = 16) ∧ PtrIsCap = true)) ∧
          BinOp ∈ [.Xchg, .Add, .Sub, .And, .Or, .Xor, .Nand]) ∨
        (IsMasked = true ∧ Width = 32 ∧ PtrIsCap = false ∧
          atomicOperandsOk 5 P.operands = true ∧ maskedRegsOk P.operands 4 = true ∧
          BinOp ∈ [.Xchg, .Add, .Sub, .Nand])) :
    ∃ (host loop done : MachineBasicBlock) (MF' : MachineFunction),
      expandAtomicBinOp LV MF Pre.length pre.length BinOp IsMasked Width PtrIsCap =
        .ok (MF', pre.length, true) ∧
      MF'.Blocks = Pre ++ host :: loop :: done :: Post ∧
      MF'.nextBlock = MF.nextBlock + 2 ∧
      host.id = MBB.id ∧ loop.id = MF.nextBlock ∧ done.id = MF.nextBlock + 1 ∧
      host.insts = pre ∧ host.succs = [loop.id] ∧
      loop.succs = [loop.id, done.id] ∧ NoPseudo loop.insts ∧ P ∉ loop.insts ∧
      done.insts = post ∧ done.succs = MBB.succs ∧
      ((∀ B ∈ Pre ++ Post, P ∉ B.insts) → P ∉ pre ++ post →
        ∀ B ∈ MF'.Blocks, P ∉ B.insts) := by
  have hB : MF.Blocks[Pre.length]? = some MBB := by
    rw [hBlocks]; exact getElem?_append_cons_self _ _ _
  have hI : MBB.insts[pre.length]? = some P := by
    rw [hinsts]; exact getElem?_append_cons_self _ _ _
  have hMC : (IsMasked && PtrIsCap) = false := by
    rcases hP with ⟨h, -⟩ | ⟨-, -, h, -⟩ <;> simp [h]
  have htot : ∃ r, expandAtomicBinOp LV MF Pre.length pre.length BinOp IsMasked Width
      PtrIsCap = .ok r := by
    rcases hP with ⟨h1, h2, h3, h4⟩ | ⟨h1, h2, h3, h4, h5, h6⟩
    · subst h1
      exact expandAtomicBinOp_total BinOp Width PtrIsCap hB hI h2 h3 h4
    · subst h1 h2 h3
      exact expandAtomicBinOp_masked_total BinOp hB hI h4 h5 h6
  obtain ⟨r, hr⟩ := htot
  have hr' := hr
  rw [expandAtomicBinOp_eq LV MF _ _ BinOp IsMasked Width PtrIsCap MBB P hB hI hMC] at hr'
  split at hr'
  · cases hr'
  · rename_i L hL
    simp only [Except.ok.injEq] at hr'
    subst hr'
    have hA : Appends (rmwLoopBlock MF MBB) L := by
      cases IsMasked
      · exact doAtomicBinOpExpansion_appends hL
      · exact doMaskedAtomicBinOpExpansion_appends hL
    have hN : NoPseudo L.insts := hA.insts rfl
    have hT : MF.Blocks.take Pre.length = Pre := by
      rw [hBlocks]; simp
    have hD : MF.Blocks.drop (Pre.length + 1) = Post := by
      rw [hBlocks]; simp
    have hpre : MBB.insts.take pre.length = pre := by
      rw [hinsts]; simp
    have hpost : MBB.insts.drop (pre.length + 1) = post := by
      rw [hinsts]; simp
    have hBl : ∀ H X Y : MachineBasicBlock,
        (({ MF with nextBlock := MF.nextBlock + 1 + 1 } : MachineFunction).insert
          Pre.length [H, X, Y]).Blocks = Pre ++ H :: X :: Y :: Post := by
      intro H X Y
      simp only [MachineFunction.insert, hT, hD, List.append_assoc, List.cons_append,
        List.nil_append]
    refine ⟨_, _, _, _, hr, hBl _ _ _, rfl, rfl, hA.id, rfl, hpre, ?_, ?_, hN, ?_, hpost,
      rfl, ?_⟩
    · show [MF.nextBlock] = [L.id]
      rw [hA.id]; rfl
    · show L.succs = [L.id, MF.nextBlock + 1]
      rw [hA.succs, hA.id]; rfl
    · intro hmem
      have := hN P hmem
      rw [hpseudo] at this
      cases this
    · intro h1 h2 B hBm
      rw [hBl] at hBm
      simp only [List.mem_append, List.mem_cons] at hBm h1 h2
      rcases hBm with h | rfl | rfl | rfl | h
      · exact h1 B (Or.inl h)
      · exact fun hm => h2 (Or.inl (hpre ▸ hm))
      · intro hmem
        have := hN P hmem
        rw [hpseudo] at this
        cases this
      · exact fun hm => h2 (Or.inr (hpost ▸ hm))
      · exact h1 B (Or.inr h)

theorem expandAtomicBinOp_blocks_witness :
    twoPseudoFunction.Blocks =
      [] ++ (⟨0, 100, [⟨.generic 1, [], 0⟩, nandPseudo, ⟨.generic 2, [], 0⟩,
        maskedAddPseudo], [0], [], false⟩ : MachineBasicBlock) :: [] ∧
    ∃ (host loop done : MachineBasicBlock) (MF' : MachineFunction),
      expandAtomicBinOp (fun _ _ => []) twoPseudoFunction 0 1 .Nand false 32 false =
        .ok (MF', 1, true) ∧
      MF'.Blocks = [] ++ host :: loop :: done :: [] ∧
      MF'.nextBlock = 1 + 2 ∧
      host.id = 0 ∧ loop.id = 1 ∧ done.id = 1 + 1 ∧
      host.insts = [⟨.generic 1, [], 0⟩] ∧ host.succs = [loop.id] ∧
      loop.succs = [loop.id, done.id] ∧ NoPseudo loop.insts ∧ nandPseudo ∉ loop.insts ∧
      done.insts = [⟨.generic 2, [], 0⟩, maskedAddPseudo] ∧ done.succs = [0] ∧
      ((∀ B ∈ ([] : List MachineBasicBlock) ++ [], nandPseudo ∉ B.insts) →
        nandPseudo ∉ [⟨.generic 1, [], 0⟩] ++ [⟨.generic 2, [], 0⟩, maskedAddPseudo] →
        ∀ B ∈ MF'.Blocks, nandPseudo ∉ B.insts) :=
  ⟨rfl, expandAtomicBinOp_blocks (fun _ _ => []) twoPseudoFunction [] []
    ⟨0, 100, [⟨.generic 1, [], 0⟩, nandPseudo, ⟨.generic 2, [], 0⟩, maskedAddPseudo],
      [0], [], false⟩
    [⟨.generic 1, [], 0⟩] [⟨.generic 2, [], 0⟩, maskedAddPseudo] nandPseudo
    .Nand false 32 false rfl rfl rfl
    (Or.inl ⟨rfl, rfl, Or.inl (Or.inl rfl), by decide⟩)⟩

/-! ## Theorems: the operators of the masked expansion -/

theorem Appends.length_le {B0 B : MachineBasicBlock} (h : Appends B0 B) :
    B0.insts.length ≤ B.insts.length := by
  obtain ⟨em, rfl, -⟩ := h
  simp

theorem doMaskedAtomicBinOpExpansion_grows {MI : MachineInstr} {DL : Nat}
    {L0 L : MachineBasicBlock} {BinOp : BinOp} {Width : Int}
    (h : doMaskedAtomicBinOpExpansion MI DL L0 BinOp Width = .ok L) :
    L0.insts.length < L.insts.length := by
  cases BinOp <;>
    simp only [doMaskedAtomicBinOpExpansion, bind_eq_ok, Except.ok.injEq, exists_eq_left',
      false_and, exists_false, reduceCtorEq, exists_assert, and_false] at h
  all_goals
    obtain ⟨-, D, -, S, -, A, -, I, -, M, -, o, -, LR, hLR, L1, hL1, SC, hSC, rfl⟩ := h
    have hM := (insertMaskedMerge_appends hL1).length_le
    simp only [BuildMI, List.length_append, List.length_cons, List.length_nil] at hM ⊢
    omega

/-- C10 (counterexample): at width 32 in non-capability mode the masked
expansion with the operator and, applied to a masked pseudo operation with
well-formed operands, ends in the fatal branch for an unexpected operator,
both in doMaskedAtomicBinOpExpansion and in expandAtomicBinOp. -/
theorem doMaskedAtomicBinOpExpansion_and_counterexample :
    atomicOperandsOk 5 maskedAddPseudo.operands = true ∧
    maskedRegsOk maskedAddPseudo.operands 4 = true ∧
    doMaskedAtomicBinOpExpansion maskedAddPseudo 0 emptyBlock .And 32 =
      .error .UnexpectedAtomicRMWBinOp ∧
    expandAtomicBinOp (fun _ _ => []) twoPseudoFunction 0 3 .And true 32 false =
      .error .UnexpectedAtomicRMWBinOp :=
  ⟨rfl, rfl, rfl, rfl⟩

/-- C10 (amended): for a masked pseudo operation with well-formed operands, at
width 32 in non-capability mode, the masked expansion succeeds and appends a
non-empty loop body of concrete operations for each operator in swap, add, sub
and nand, and it ends in the fatal branch for an unexpected operator for each
operator in and, or and xor. -/
theorem doMaskedAtomicBinOpExpansion_operators (MI : MachineInstr) (DL : Nat)
    (LoopMBB : MachineBasicBlock) (BinOp : BinOp)
    (hops : atomicOperandsOk 5 MI.operands = true)
    (hm : maskedRegsOk MI.operands 4 = true) :
    (BinOp ∈ [.Xchg, .Add, .Sub, .Nand] →
      ∃ L, doMaskedAtomicBinOpExpansion MI DL LoopMBB BinOp 32 = .ok L ∧
        Appends LoopMBB L ∧ LoopMBB.insts.length < L.insts.length) ∧
    (BinOp ∈ [.And, .Or, .Xor] →
      doMaskedAtomicBinOpExpansion MI DL LoopMBB BinOp 32 =
        .error .UnexpectedAtomicRMWBinOp) := by
  obtain ⟨hr, o, ho, hleg⟩ := atomicOperandsOk_spec _ _ hops
  obtain ⟨d, s, m, h0, h1, h4, hds, hdm, hsm⟩ := maskedRegsOk_spec hm
  obtain ⟨r2, h2⟩ := hr 2 (by decide)
  obtain ⟨r3, h3⟩ := hr 3 (by decide)
  obtain ⟨LR, hLR⟩ := getLRForRMW32_ok false _ hleg
  obtain ⟨SC, hSC⟩ := getSCForRMW32_ok false _ hleg
  constructor
  · intro hop
    have hex : ∃ L, doMaskedAtomicBinOpExpansion MI DL LoopMBB BinOp 32 = .ok L := by
      simp only [List.mem_cons, List.mem_singleton, List.not_mem_nil, or_false] at hop
      rcases hop with rfl | rfl | rfl | rfl <;>
        simp [doMaskedAtomicBinOpExpansion, getReg_of h0, getReg_of h1, getReg_of h2,
          getReg_of h3, getReg_of h4, getImm_of ho, hLR, hSC, bind, Except.bind, assert,
          insertMaskedMerge, hds, hdm, hsm]
    obtain ⟨L, hL⟩ := hex
    exact ⟨L, hL, doMaskedAtomicBinOpExpansion_appends hL,
      doMaskedAtomicBinOpExpansion_grows hL⟩
  · intro hop
    simp only [List.mem_cons, List.mem_singleton, List.not_mem_nil, or_false] at hop
    rcases hop with rfl | rfl | rfl <;>
      simp [doMaskedAtomicBinOpExpansion, getReg_of h0, getReg_of h1, getReg_of h2,
        getReg_of h3, getReg_of h4, getImm_of ho, hLR, bind, Except.bind, assert]

theorem doMaskedAtomicBinOpExpansion_operators_witness :
    (atomicOperandsOk 5 maskedAddPseudo.operands = true ∧
      maskedRegsOk maskedAddPseudo.operands 4 = true) ∧
    ((BinOp.Add ∈ [BinOp.Xchg, .Add, .Sub, .Nand] →
      ∃ L, doMaskedAtomicBinOpExpansion maskedAddPseudo 0 emptyBlock .Add 32 = .ok L ∧
        Appends emptyBlock L ∧ emptyBlock.insts.length < L.insts.length) ∧
    (BinOp.Add ∈ [BinOp.And, .Or, .Xor] →
      doMaskedAtomicBinOpExpansion maskedAddPseudo 0 emptyBlock .Add 32 =
        .error .UnexpectedAtomicRMWBinOp)) :=
  ⟨⟨rfl, rfl⟩, doMaskedAtomicBinOpExpansion_operators maskedAddPseudo 0 emptyBlock .Add
    rfl rfl⟩

/-! ## Theorems: when the integer tables fail -/

theorem except_error_or_ok {ε α : Type} (x : Except ε α) :
    (∃ e, x = .error e) ∨ (∃ a, x = .ok a) := by
  cases x with
  | error e => exact Or.inl ⟨e, rfl⟩
  | ok a => exact Or.inr ⟨a, rfl⟩

theorem getLRForRMW_error_iff (PtrIsCap : Bool) (Ordering : AtomicOrdering) (Width : Int) :
    (∃ e, getLRForRMW PtrIsCap Ordering Width = .error e) ↔
      ((Width ≠ 8 ∧ Width ≠ 16 ∧ Width ≠ 32 ∧ Width ≠ 64) ∨
       ((Width = 8 ∨ Width = 16) ∧ PtrIsCap = false) ∨
       (Ordering ≠ .Monotonic ∧ Ordering ≠ .Acquire ∧ Ordering ≠ .Release ∧
        Ordering ≠ .AcquireRelease ∧ Ordering ≠ .SequentiallyConsistent)) := by
  by_cases h8 : Width = 8
  · subst h8
    cases PtrIsCap <;> cases Ordering <;>
      simp [getLRForRMW, getLRForRMW8]
  by_cases h16 : Width = 16
  · subst h16
    cases PtrIsCap <;> cases Ordering <;>
      simp [getLRForRMW, getLRForRMW16]
  by_cases h32 : Width = 32
  · subst h32
    cases PtrIsCap <;> cases Ordering <;>
      simp [getLRForRMW, getLRForRMW32]
  by_cases h64 : Width = 64
  · subst h64
    cases PtrIsCap <;> cases Ordering <;>
      simp [getLRForRMW, getLRForRMW64]
  simp [getLRForRMW, h8, h16, h32, h64]

theorem getSCForRMW_error_iff (PtrIsCap : Bool) (Ordering : AtomicOrdering) (Width : Int) :
    (∃ e, getSCForRMW PtrIsCap Ordering Width = .error e) ↔
      ((Width ≠ 8 ∧ Width ≠ 16 ∧ Width ≠ 32 ∧ Width ≠ 64) ∨
       ((Width = 8 ∨ Width = 16) ∧ PtrIsCap = false) ∨
       (Ordering ≠ .Monotonic ∧ Ordering ≠ .Acquire ∧ Ordering ≠ .Release ∧
        Ordering ≠ .AcquireRelease ∧ Ordering ≠ .SequentiallyConsistent)) := by
  by_cases h8 : Width = 8
  · subst h8
    cases PtrIsCap <;> cases Ordering <;>
      simp [getSCForRMW, getSCForRMW8]
  by_cases h16 : Width = 16
  · subst h16
    cases PtrIsCap <;> cases Ordering <;>
      simp [getSCForRMW, getSCForRMW16]
  by_cases h32 : Width = 32
  · subst h32
    cases PtrIsCap <;> cases Ordering <;>
      simp [getSCForRMW, getSCForRMW32]
  by_cases h64 : Width = 64
  · subst h64
    cases PtrIsCap <;> cases Ordering <;>
      simp [getSCForRMW, getSCForRMW64]
  simp [getSCForRMW, h8, h16, h32, h64]

/-- C20: `getLRForRMW` and `getSCForRMW` each end in a fatal error exactly when
the width is none of 8, 16, 32 and 64, or the width is 8 or 16 and the
capability mode is off, or the ordering is none of Monotonic, Acquire, Release,
AcquireRelease and SequentiallyConsistent; for every other width, ordering and
capability mode both return an opcode. -/
theorem getLRForRMW_getSCForRMW_fatal_iff (PtrIsCap : Bool) (Ordering : AtomicOrdering)
    (Width : Int) :
    ((∃ e, getLRForRMW PtrIsCap Ordering Width = .error e) ↔
      ((Width ≠ 8 ∧ Width ≠ 16 ∧ Width ≠ 32 ∧ Width ≠ 64) ∨
       ((Width = 8 ∨ Width = 16) ∧ PtrIsCap = false) ∨
       (Ordering ≠ .Monotonic ∧ Ordering ≠ .Acquire ∧ Ordering ≠ .Release ∧
        Ordering ≠ .AcquireRelease ∧ Ordering ≠ .SequentiallyConsistent))) ∧
    ((∃ e, getSCForRMW PtrIsCap Ordering Width = .error e) ↔
      ((Width ≠ 8 ∧ Width ≠ 16 ∧ Width ≠ 32 ∧ Width ≠ 64) ∨
       ((Width = 8 ∨ Width = 16) ∧ PtrIsCap = false) ∨
       (Ordering ≠ .Monotonic ∧ Ordering ≠ .Acquire ∧ Ordering ≠ .Release ∧
        Ordering ≠ .AcquireRelease ∧ Ordering ≠ .SequentiallyConsistent))) ∧
    (¬ ((Width ≠ 8 ∧ Width ≠ 16 ∧ Width ≠ 32 ∧ Width ≠ 64) ∨
       ((Width = 8 ∨ Width = 16) ∧ PtrIsCap = false) ∨
       (Ordering ≠ .Monotonic ∧ Ordering ≠ .Acquire ∧ Ordering ≠ .Release ∧
        Ordering ≠ .AcquireRelease ∧ Ordering ≠ .SequentiallyConsistent)) →
      ∃ L S, getLRForRMW PtrIsCap Ordering Width = .ok L ∧
        getSCForRMW PtrIsCap Ordering Width = .ok S) := by
  refine ⟨getLRForRMW_error_iff _ _ _, getSCForRMW_error_iff _ _ _, fun hn => ?_⟩
  rcases except_error_or_ok (getLRForRMW PtrIsCap Ordering Width) with hL | ⟨L, hL⟩
  · exact absurd ((getLRForRMW_error_iff _ _ _).1 hL) hn
  rcases except_error_or_ok (getSCForRMW PtrIsCap Ordering Width) with hS | ⟨S, hS⟩
  · exact absurd ((getSCForRMW_error_iff _ _ _).1 hS) hn
  exact ⟨L, S, hL, hS⟩

theorem getLRForRMW_getSCForRMW_fatal_iff_witness :
    ¬ (((32 : Int) ≠ 8 ∧ (32 : Int) ≠ 16 ∧ (32 : Int) ≠ 32 ∧ (32 : Int) ≠ 64) ∨
       (((32 : Int) = 8 ∨ (32 : Int) = 16) ∧ false = false) ∨
       (AtomicOrdering.Release ≠ .Monotonic ∧ AtomicOrdering.Release ≠ .Acquire ∧
        AtomicOrdering.Release ≠ .Release ∧ AtomicOrdering.Release ≠ .AcquireRelease ∧
        AtomicOrdering.Release ≠ .SequentiallyConsistent)) ∧
    ∃ L S, getLRForRMW false .Release 32 = .ok L ∧ getSCForRMW false .Release 32 = .ok S :=
  ⟨by decide, (getLRForRMW_getSCForRMW_fatal_iff false .Release 32).2.2 (by decide)⟩

/-! ## Theorems: the flag the driver returns -/

theorem countPseudo_pos {l : List MachineInstr} {MI : MachineInstr} (hm : MI ∈ l)
    (hp : MI.opcode.isPseudo = true) : 0 < countPseudo l := by
  unfold countPseudo
  exact List.length_pos_of_mem (List.mem_filter.2 ⟨hm, hp⟩)

theorem countPseudoBlocks_pos {Bs : List MachineBasicBlock} {B : MachineBasicBlock}
    {MI : MachineInstr} (hB : B ∈ Bs) (hm : MI ∈ B.insts)
    (hp : MI.opcode.isPseudo = true) : 0 < countPseudoBlocks Bs := by
  induction Bs with
  | nil => cases hB
  | cons X Xs ih =>
    rw [countPseudoBlocks_cons]
    rcases List.mem_cons.1 hB with h | h
    · subst h
      have := countPseudo_pos hm hp
      omega
    · have := ih h
      omega

theorem mem_of_getElem?_eq_some {α : Type} {l : List α} {i : Nat} {x : α}
    (h : l[i]? = some x) : x ∈ l := by
  obtain ⟨h1, h2⟩ := List.getElem?_eq_some_iff.1 h
  rw [← h2]
  exact List.getElem_mem ..

/-- The flag the loop of the driver returns: the flag it started with when no
pseudo operation is left in the blocks still to visit, in which case the
function is unchanged, and true when there is one. -/
theorem runOnMachineFunctionLoop_flag (LV : LiveInsOracle) :
    ∀ (fuel : Nat) (MF : MachineFunction) (I : Nat) (M : Bool)
      (r : MachineFunction × Bool),
      runOnMachineFunctionLoop LV fuel MF I M = .ok r →
      (countPseudoBlocks (MF.Blocks.drop I) = 0 → r = (MF, M)) ∧
      (0 < countPseudoBlocks (MF.Blocks.drop I) → r.2 = true) ∧
      (M = true → r.2 = true) := by
  intro fuel
  induction fuel with
  | zero =>
    intro MF I M r h
    unfold runOnMachineFunctionLoop at h
    split at h
    · cases h
    · rename_i hI
      have hr := Except.ok.inj h
      subst hr
      rw [List.drop_of_length_le (by omega)]
      exact ⟨fun _ => rfl, fun h0 => absurd h0 (by simp [countPseudoBlocks]), fun h => h⟩
  | succ fuel ih =>
    intro MF I M r h
    unfold runOnMachineFunctionLoop at h
    split at h
    · rename_i hI
      split at h
      · cases h
      · rename_i MF1 M1 hE
        obtain ⟨MBB, hB, hc⟩ := expandMBB_spec hE
        rw [drop_eq_cons_of_getElem? hB, countPseudoBlocks_cons]
        rcases hc with ⟨heq, hNB⟩ | ⟨j, -, hX, hM1⟩
        · simp only [Prod.mk.injEq] at heq
          obtain ⟨rfl, rfl⟩ := heq
          obtain ⟨h1, h2, h3⟩ := ih MF1 (I + 1) (M || false) r h
          rw [countPseudo_noPseudo hNB, Nat.zero_add]
          simp only [Bool.or_false] at h1 h3
          exact ⟨h1, h2, h3⟩
        · obtain ⟨-, -, h3⟩ := ih MF1 (I + 1) (M || M1) r h
          have hM1' : M1 = true := hM1
          have hr : r.2 = true := h3 (by simp [hM1'])
          obtain ⟨MBB', MI, _, _, _, _, hB', hI', hp, -⟩ := hX
          rw [hB] at hB'
          cases hB'
          have hpos := countPseudo_pos (mem_of_getElem?_eq_some hI') hp
          exact ⟨fun h0 => absurd h0 (by omega), fun _ => hr, fun _ => hr⟩
    · rename_i hI
      have hr := Except.ok.inj h
      subst hr
      rw [List.drop_of_length_le (by omega)]
      exact ⟨fun _ => rfl, fun h0 => absurd h0 (by simp [countPseudoBlocks]), fun h => h⟩

theorem countPseudoBlocks_eq_zero_of_noPseudo {MF : MachineFunction} (h : MF.noPseudo) :
    countPseudoBlocks MF.Blocks = 0 :=
  countPseudoBlocks_noPseudo h

theorem wellFormed_of_noPseudo {MF : MachineFunction} (h : MF.noPseudo) : MF.wellFormed :=
  fun B hB MI hMI => wellFormed_of_not_pseudo (h B hB MI hMI)

theorem runOnMachineFunction_total {LV : LiveInsOracle} {MF : MachineFunction}
    (hwf : MF.wellFormed) : ∃ r, runOnMachineFunction LV MF = .ok r :=
  runOnMachineFunctionLoop_total LV
    (MF.Blocks.length + 4 * countPseudoBlocks MF.Blocks) MF 0 false hwf (by simp)

/-- C18: for every well-formed function, runOnMachineFunction returns, and the
flag it returns is true if and only if some block of the input function holds
an operation whose opcode expandMI dispatches; when the flag is false, the
returned function is the input function, unchanged in its blocks, their
operations and their successors. -/
theorem runOnMachineFunction_modified_iff (LV : LiveInsOracle) (MF : MachineFunction)
    (hwf : MF.wellFormed) :
    ∃ MF' Modified, runOnMachineFunction LV MF = .ok (MF', Modified) ∧
      (Modified = true ↔ ∃ B ∈ MF.Blocks, ∃ MI ∈ B.insts, MI.opcode.isPseudo = true) ∧
      (Modified = false → MF' = MF) := by
  obtain ⟨⟨MF', c⟩, h⟩ := @runOnMachineFunction_total LV _ hwf
  obtain ⟨h1, h2, -⟩ := runOnMachineFunctionLoop_flag LV _ MF 0 false (MF', c) h
  simp only [List.drop_zero] at h1 h2
  refine ⟨MF', c, h, ⟨fun hc => ?_, fun hex => ?_⟩, fun hc => ?_⟩
  · by_contra hn
    have hnp : MF.noPseudo := by
      intro B hB MI hMI
      by_contra hp
      exact hn ⟨B, hB, MI, hMI, by simpa using hp⟩
    have := h1 (countPseudoBlocks_noPseudo hnp)
    simp only [Prod.mk.injEq] at this
    rw [this.2] at hc
    cases hc
  · obtain ⟨B, hB, MI, hMI, hp⟩ := hex
    exact h2 (countPseudoBlocks_pos hB hMI hp)
  · by_cases h0 : countPseudoBlocks MF.Blocks = 0
    · have := h1 h0
      simp only [Prod.mk.injEq] at this
      exact this.1
    · have := h2 (by omega)
      simp only at this
      rw [this] at hc
      cases hc

theorem runOnMachineFunction_modified_iff_witness :
    twoPseudoFunction.wellFormed ∧
    ∃ MF' Modified, runOnMachineFunction (fun _ _ => []) twoPseudoFunction =
        .ok (MF', Modified) ∧
      (Modified = true ↔
        ∃ B ∈ twoPseudoFunction.Blocks, ∃ MI ∈ B.insts, MI.opcode.isPseudo = true) ∧
      (Modified = false → MF' = twoPseudoFunction) :=
  ⟨by unfold MachineFunction.wellFormed; decide,
   runOnMachineFunction_modified_iff (fun _ _ => []) twoPseudoFunction
    (by unfold MachineFunction.wellFormed; decide)⟩

/-- C19: the pass is idempotent. For every well-formed function F,
runOnMachineFunction returns a function F', and runOnMachineFunction on F'
returns F' itself with the flag false. -/
theorem runOnMachineFunction_idempotent (LV : LiveInsOracle) (MF : MachineFunction)
    (hwf : MF.wellFormed) :
    ∃ MF' Modified, runOnMachineFunction LV MF = .ok (MF', Modified) ∧
      runOnMachineFunction LV MF' = .ok (MF', false) := by
  obtain ⟨⟨MF', c⟩, h⟩ := @runOnMachineFunction_total LV _ hwf
  have hnp : MF'.noPseudo :=
    runOnMachineFunctionLoop_noPseudo LV _ MF 0 false _ (by simp) h
  obtain ⟨r2, h2⟩ := @runOnMachineFunction_total LV _ (wellFormed_of_noPseudo hnp)
  obtain ⟨h1, -, -⟩ := runOnMachineFunctionLoop_flag LV _ MF' 0 false r2 h2
  simp only [List.drop_zero] at h1
  have := h1 (countPseudoBlocks_noPseudo hnp)
  subst this
  exact ⟨MF', c, h, h2⟩

theorem runOnMachineFunction_idempotent_witness :
    twoPseudoFunction.wellFormed ∧
    ∃ MF' Modified, runOnMachineFunction (fun _ _ => []) twoPseudoFunction =
        .ok (MF', Modified) ∧
      runOnMachineFunction (fun _ _ => []) MF' = .ok (MF', false) :=
  ⟨by unfold MachineFunction.wellFormed; decide,
   runOnMachineFunction_idempotent (fun _ _ => []) twoPseudoFunction
    (by unfold MachineFunction.wellFormed; decide)⟩

/-! ## Theorems: the blocks of an address-pair expansion -/

theorem getOperand_of {MI : MachineInstr} {i : Nat} {op : MachineOperand}
    (h : MI.operands[i]? = some op) : MI.getOperand i = .ok op := by
  simp [MachineInstr.getOperand, h]

theorem take_append_cons_self {α : Type} (a b : List α) (x : α) :
    (a ++ x :: b).take a.length = a := by
  simp

theorem drop_append_cons_self {α : Type} (a b : List α) (x : α) :
    (a ++ x :: b).drop (a.length + 1) = b := by
  simp

theorem insert_two_blocks (MF : MachineFunction) (n : Nat) (Pre Post : List MachineBasicBlock)
    (MBB H X : MachineBasicBlock) (hBlocks : MF.Blocks = Pre ++ MBB :: Post) :
    (({ MF with nextBlock := n } : MachineFunction).insert Pre.length [H, X]).Blocks =
      Pre ++ H :: X :: Post := by
  simp only [MachineFunction.insert, hBlocks, take_append_cons_self, drop_append_cons_self,
    List.append_assoc, List.cons_append, List.nil_append]

/-- C17: for a function whose blocks are Pre, the host block and Post, the host
block holding pre, an address pseudo operation P and post, with successors S:
expandAuipcInstPair and expandAuipccInstPair each return the function whose
blocks are Pre, host, the one newly created block and Post. The new block
holds the high-part operation (AUIPC or AUIPCC on the symbol of P with the high
relocation class), then the second operation, whose block operand of class
MO_PCREL_LO is the new block itself, then post in order; it is marked
label-must-be-emitted and has the successors S. The host block holds exactly
pre and has the new block as its only successor. -/
theorem expandAuipcInstPair_blocks (LV : LiveInsOracle) (MF : MachineFunction)
    (Pre Post : List MachineBasicBlock) (MBB : MachineBasicBlock)
    (pre post : List MachineInstr) (P : MachineInstr)
    (FlagsHi : TargetFlag) (SecondOpcode : RISCV)
    (DestReg TmpReg : Register) (Symbol : MachineOperand)
    (hBlocks : MF.Blocks = Pre ++ MBB :: Post)
    (hinsts : MBB.insts = pre ++ P :: post)
    (hd : Symbol.isDisp = true) :
    ((∃ rest, P.operands = .Reg DestReg :: Symbol :: rest) →
      ∃ (host new : MachineBasicBlock) (MF' : MachineFunction) (hi : MachineOperand),
        expandAuipcInstPair LV MF Pre.length pre.length FlagsHi SecondOpcode =
          .ok (MF', pre.length, true) ∧
        addDisp Symbol 0 FlagsHi = .ok hi ∧
        MF'.Blocks = Pre ++ host :: new :: Post ∧
        MF'.nextBlock = MF.nextBlock + 1 ∧
        host.id = MBB.id ∧ new.id = MF.nextBlock ∧
        host.insts = pre ∧ host.succs = [new.id] ∧
        new.insts = ⟨RISCV.AUIPC, [.Reg DestReg, hi], P.DL⟩ ::
          ⟨SecondOpcode, [.Reg DestReg, .Reg DestReg, .MBB new.id .MO_PCREL_LO], P.DL⟩ ::
          post ∧
        new.LabelMustBeEmitted = true ∧ new.succs = MBB.succs) ∧
    ((P.operands = [.Reg DestReg, Symbol] ∧ TmpReg = DestReg) ∨
      (∃ rest, P.operands = .Reg DestReg :: .Reg TmpReg :: Symbol :: rest) →
      ∃ (host new : MachineBasicBlock) (MF' : MachineFunction) (hi : MachineOperand),
        expandAuipccInstPair LV MF Pre.length pre.length FlagsHi SecondOpcode =
          .ok (MF', pre.length, true) ∧
        addDisp Symbol 0 FlagsHi = .ok hi ∧
        MF'.Blocks = Pre ++ host :: new :: Post ∧
        MF'.nextBlock = MF.nextBlock + 1 ∧
        host.id = MBB.id ∧ new.id = MF.nextBlock ∧
        host.insts = pre ∧ host.succs = [new.id] ∧
        new.insts = ⟨RISCV.AUIPCC, [.Reg TmpReg, hi], P.DL⟩ ::
          ⟨SecondOpcode, [.Reg DestReg, .Reg TmpReg, .MBB new.id .MO_PCREL_LO], P.DL⟩ ::
          post ∧
        new.LabelMustBeEmitted = true ∧ new.succs = MBB.succs) := by
  have hB : MF.Blocks[Pre.length]? = some MBB := by
    rw [hBlocks]; exact getElem?_append_cons_self _ _ _
  have hI : MBB.insts[pre.length]? = some P := by
    rw [hinsts]; exact getElem?_append_cons_self _ _ _
  have hk := length_take_of_getElem? hI
  have hpre : MBB.insts.take pre.length = pre := by
    rw [hinsts]; simp
  have hpost : MBB.insts.drop (pre.length + 1) = post := by
    rw [hinsts]; simp
  obtain ⟨hi, hhi⟩ := addDisp_ok hd 0 FlagsHi
  constructor
  · rintro ⟨rest, hops⟩
    have hg0 : P.getReg 0 = .ok DestReg := getReg_of (by rw [hops]; simp)
    have hg1 : P.getOperand 1 = .ok Symbol := getOperand_of (by rw [hops]; simp)
    obtain ⟨r, hr⟩ := @expandAuipcInstPair_total LV MF Pre.length pre.length MBB P FlagsHi
      SecondOpcode DestReg Symbol rest hB hI hops hd
    have hr' := hr
    simp only [expandAuipcInstPair, hB, hI, hg0, hg1, hhi, Option.elim, bind, Except.bind,
      pure, Except.pure, MachineFunction.CreateMachineBasicBlock,
      MachineBasicBlock.addSuccessor, MachineBasicBlock.splice,
      MachineBasicBlock.transferSuccessors, MachineBasicBlock.erase,
      MachineBasicBlock.setLabelMustBeEmitted, BuildMI, List.nil_append,
      eraseIdx_take_succ hI, hk, hpre, Except.ok.injEq] at hr'
    subst hr'
    refine ⟨_, _, _, hi, hr, hhi, insert_two_blocks MF _ Pre Post MBB _ _ hBlocks, rfl, rfl,
      rfl, rfl, rfl, ?_, rfl, rfl⟩
    show _ :: _ :: MBB.insts.drop (pre.length + 1) = _
    rw [hpost]
    rfl
  · intro hops
    have hg : P.getReg 0 = .ok DestReg ∧
        P.getReg (if decide (P.getNumOperands > 2) then 1 else 0) = .ok TmpReg ∧
        P.getOperand (if decide (P.getNumOperands > 2) then 2 else 1) = .ok Symbol := by
      rcases hops with ⟨hops, rfl⟩ | ⟨rest, hops⟩
      · simp [MachineInstr.getReg, MachineInstr.getOperand, MachineInstr.getNumOperands,
          hops]
      · simp [MachineInstr.getReg, MachineInstr.getOperand, MachineInstr.getNumOperands,
          hops]
    obtain ⟨hg0, hg1, hg2⟩ := hg
    have hops' : (∃ r0 d, P.operands = [.Reg r0, d] ∧ d.isDisp = true) ∨
        (∃ r0 r1 d rest, P.operands = .Reg r0 :: .Reg r1 :: d :: rest ∧
          d.isDisp = true) := by
      rcases hops with ⟨hops, -⟩ | ⟨rest, hops⟩
      · exact Or.inl ⟨_, _, hops, hd⟩
      · exact Or.inr ⟨_, _, _, _, hops, hd⟩
    obtain ⟨r, hr⟩ := @expandAuipccInstPair_total LV MF Pre.length pre.length MBB P FlagsHi
      SecondOpcode hB hI hops'
    have hr' := hr
    simp only [expandAuipccInstPair, hB, hI, hg0, hg1, hg2, hhi, Option.elim, bind,
      Except.bind, pure, Except.pure, MachineFunction.CreateMachineBasicBlock,
      MachineBasicBlock.addSuccessor, MachineBasicBlock.splice,
      MachineBasicBlock.transferSuccessors, MachineBasicBlock.erase,
      MachineBasicBlock.setLabelMustBeEmitted, BuildMI, List.nil_append,
      eraseIdx_take_succ hI, hk, hpre, Except.ok.injEq] at hr'
    subst hr'
    refine ⟨_, _, _, hi, hr, hhi, insert_two_blocks MF _ Pre Post MBB _ _ hBlocks, rfl, rfl,
      rfl, rfl, rfl, ?_, rfl, rfl⟩
    show _ :: _ :: MBB.insts.drop (pre.length + 1) = _
    rw [hpost]
    rfl

theorem expandAuipcInstPair_blocks_witness :
    (addressFunction.Blocks = [] ++ addressBlock :: [] ∧
      addressBlock.insts = [⟨.generic 1, [], 0⟩] ++ llaPseudo :: [⟨.generic 2, [], 0⟩] ∧
      (MachineOperand.Sym .GlobalAddress 5 0 .MO_None).isDisp = true) ∧
    (∃ (host new : MachineBasicBlock) (MF' : MachineFunction) (hi : MachineOperand),
        expandAuipcInstPair (fun _ _ => []) addressFunction 0 1 .MO_PCREL_HI .ADDI =
          .ok (MF', 1, true) ∧
        addDisp (.Sym .GlobalAddress 5 0 .MO_None) 0 .MO_PCREL_HI = .ok hi ∧
        MF'.Blocks = [] ++ host :: new :: [] ∧
        MF'.nextBlock = 1 + 1 ∧
        host.id = 0 ∧ new.id = 1 ∧
        host.insts = [⟨.generic 1, [], 0⟩] ∧ host.succs = [new.id] ∧
        new.insts = ⟨RISCV.AUIPC, [.Reg (.X 10), hi], 0⟩ ::
          ⟨RISCV.ADDI, [.Reg (.X 10), .Reg (.X 10), .MBB new.id .MO_PCREL_LO], 0⟩ ::
          [⟨.generic 2, [], 0⟩] ∧
        new.LabelMustBeEmitted = true ∧ new.succs = [7]) ∧
    (∃ (host new : MachineBasicBlock) (MF' : MachineFunction) (hi : MachineOperand),
        expandAuipccInstPair (fun _ _ => []) addressFunction 0 1 .MO_PCREL_HI .ADDI =
          .ok (MF', 1, true) ∧
        addDisp (.Sym .GlobalAddress 5 0 .MO_None) 0 .MO_PCREL_HI = .ok hi ∧
        MF'.Blocks = [] ++ host :: new :: [] ∧
        MF'.nextBlock = 1 + 1 ∧
        host.id = 0 ∧ new.id = 1 ∧
        host.insts = [⟨.generic 1, [], 0⟩] ∧ host.succs = [new.id] ∧
        new.insts = ⟨RISCV.AUIPCC, [.Reg (.X 10), hi], 0⟩ ::
          ⟨RISCV.ADDI, [.Reg (.X 10), .Reg (.X 10), .MBB new.id .MO_PCREL_LO], 0⟩ ::
          [⟨.generic 2, [], 0⟩] ∧
        new.LabelMustBeEmitted = true ∧ new.succs = [7]) :=
  ⟨⟨rfl, rfl, rfl⟩,
    (expandAuipcInstPair_blocks (fun _ _ => []) addressFunction [] [] addressBlock
      [⟨.generic 1, [], 0⟩] [⟨.generic 2, [], 0⟩] llaPseudo .MO_PCREL_HI .ADDI
      (.X 10) (.X 10) (.Sym .GlobalAddress 5 0 .MO_None) rfl rfl rfl).1 ⟨[], rfl⟩,
    (expandAuipcInstPair_blocks (fun _ _ => []) addressFunction [] [] addressBlock
      [⟨.generic 1, [], 0⟩] [⟨.generic 2, [], 0⟩] llaPseudo .MO_PCREL_HI .ADDI
      (.X 10) (.X 10) (.Sym .GlobalAddress 5 0 .MO_None) rfl rfl rfl).2
      (Or.inl ⟨rfl, rfl⟩)⟩

/-! ## Theorems: execution of the emitted blocks -/

theorem branchOutcome_atomic (xlen : Nat) (o : RISCV) (h : o.atomicInfo ≠ none)
    (ops : List MachineOperand) (DL : Nat) (s : MachineState) :
    branchOutcome xlen ⟨o, ops, DL⟩ s = none := by
  cases o <;> first | rfl | exact absurd rfl h

theorem branchOutcome_LR (xlen : Nat) (L : RISCV) (hL : L.isLR)
    (ops : List MachineOperand) (DL : Nat) (s : MachineState) :
    branchOutcome xlen ⟨L, ops, DL⟩ s = none := by
  apply branchOutcome_atomic
  intro h
  have := hL.1
  rw [h] at this
  cases this

theorem execBlock_nil (xlen status : Nat) (s : MachineState) (off : List (Nat × Nat)) :
    execBlock xlen status [] s off = some ⟨s, off, none⟩ := rfl

theorem execBlock_LR (xlen status : Nat) (L : RISCV) (hL : L.isLR) (rd rs1 : Register)
    (DL : Nat) (rest : List MachineInstr) (s : MachineState) (off : List (Nat × Nat)) :
    execBlock xlen status (⟨L, [.Reg rd, .Reg rs1], DL⟩ :: rest) s off =
      execBlock xlen status rest (s.write rd (s.mem (s.read rs1))) off := by
  simp [execBlock, isStoreConditional_LR L hL, branchOutcome_LR xlen L hL,
    execInst_LR xlen L hL]

theorem execBlock_SC (xlen status : Nat) (S : RISCV) (hS : S.isSC) (rd rs1 rs2 : Register)
    (DL : Nat) (rest : List MachineInstr) (s : MachineState) (off : List (Nat × Nat)) :
    execBlock xlen status (⟨S, [.Reg rd, .Reg rs1, .Reg rs2], DL⟩ :: rest) s off =
      execBlock xlen status rest
        (s.storeConditional rd (s.read rs1) (s.read rs2) status)
        (off ++ [(s.read rs1, s.read rs2)]) := by
  simp [execBlock, isStoreConditional_SC S hS]

theorem execBlock_straight (xlen status : Nat) (MI : MachineInstr)
    (rest : List MachineInstr) (s s1 : MachineState) (off : List (Nat × Nat))
    (h1 : MI.isStoreConditional = false) (h2 : branchOutcome xlen MI s = none)
    (h3 : execInst xlen MI s = some s1) :
    execBlock xlen status (MI :: rest) s off = execBlock xlen status rest s1 off := by
  simp [execBlock, h1, h2, h3]

theorem execBlock_ADDI (xlen status : Nat) (rd rs1 : Register) (v : Int) (DL : Nat)
    (rest : List MachineInstr) (s : MachineState) (off : List (Nat × Nat)) :
    execBlock xlen status (⟨RISCV.ADDI, [.Reg rd, .Reg rs1, .Imm v], DL⟩ :: rest) s off =
      execBlock xlen status rest
        (s.write rd (bvAdd xlen (s.read rs1) (immValue xlen v))) off :=
  execBlock_straight xlen status _ rest s _ off rfl rfl rfl

theorem execBlock_AND (xlen status : Nat) (rd rs1 rs2 : Register) (DL : Nat)
    (rest : List MachineInstr) (s : MachineState) (off : List (Nat × Nat)) :
    execBlock xlen status (⟨RISCV.AND, [.Reg rd, .Reg rs1, .Reg rs2], DL⟩ :: rest) s off =
      execBlock xlen status rest (s.write rd (s.read rs1 &&& s.read rs2)) off :=
  execBlock_straight xlen status _ rest s _ off rfl rfl rfl

theorem execBlock_XOR (xlen status : Nat) (rd rs1 rs2 : Register) (DL : Nat)
    (rest : List MachineInstr) (s : MachineState) (off : List (Nat × Nat)) :
    execBlock xlen status (⟨RISCV.XOR, [.Reg rd, .Reg rs1, .Reg rs2], DL⟩ :: rest) s off =
      execBlock xlen status rest (s.write rd (s.read rs1 ^^^ s.read rs2)) off :=
  execBlock_straight xlen status _ rest s _ off rfl rfl rfl

theorem execBlock_SLL (xlen status : Nat) (rd rs1 rs2 : Register) (DL : Nat)
    (rest : List MachineInstr) (s : MachineState) (off : List (Nat × Nat)) :
    execBlock xlen status (⟨RISCV.SLL, [.Reg rd, .Reg rs1, .Reg rs2], DL⟩ :: rest) s off =
      execBlock xlen status rest
        (s.write rd ((s.read rs1 <<< (s.read rs2 % xlen)) % 2 ^ xlen)) off :=
  execBlock_straight xlen status _ rest s _ off rfl rfl rfl

theorem execBlock_SRA (xlen status : Nat) (rd rs1 rs2 : Register) (DL : Nat)
    (rest : List MachineInstr) (s : MachineState) (off : List (Nat × Nat)) :
    execBlock xlen status (⟨RISCV.SRA, [.Reg rd, .Reg rs1, .Reg rs2], DL⟩ :: rest) s off =
      execBlock xlen status rest
        (s.write rd
          ((toSigned xlen (s.read rs1) / (2 : Int) ^ (s.read rs2 % xlen)) %
            (2 : Int) ^ xlen).toNat) off :=
  execBlock_straight xlen status _ rest s _ off rfl rfl rfl

theorem execBlock_branch (xlen status : Nat) (MI : MachineInstr)
    (rest : List MachineInstr) (s : MachineState) (off : List (Nat × Nat)) (b : Bool)
    (t : Nat) (h1 : MI.isStoreConditional = false)
    (h2 : branchOutcome xlen MI s = some (b, t)) :
    execBlock xlen status (MI :: rest) s off =
      if b then some ⟨s, off, some t⟩ else execBlock xlen status rest s off := by
  cases b <;> simp [execBlock, h1, h2]

theorem execBlock_BNE (xlen status : Nat) (rs1 rs2 : Register) (t : Nat) (f : TargetFlag)
    (DL : Nat) (rest : List MachineInstr) (s : MachineState) (off : List (Nat × Nat)) :
    execBlock xlen status (⟨RISCV.BNE, [.Reg rs1, .Reg rs2, .MBB t f], DL⟩ :: rest) s off =
      if s.read rs1 ≠ s.read rs2 then some ⟨s, off, some t⟩
      else execBlock xlen status rest s off := by
  rw [execBlock_branch xlen status ⟨_, _, DL⟩ rest s off (decide (s.read rs1 ≠ s.read rs2)) t (by rfl) (by rfl)]
  simp

theorem execBlock_BGE (xlen status : Nat) (rs1 rs2 : Register) (t : Nat) (f : TargetFlag)
    (DL : Nat) (rest : List MachineInstr) (s : MachineState) (off : List (Nat × Nat)) :
    execBlock xlen status (⟨RISCV.BGE, [.Reg rs1, .Reg rs2, .MBB t f], DL⟩ :: rest) s off =
      if toSigned xlen (s.read rs2) ≤ toSigned xlen (s.read rs1) then
        some ⟨s, off, some t⟩
      else execBlock xlen status rest s off := by
  rw [execBlock_branch xlen status ⟨_, _, DL⟩ rest s off
    (decide (toSigned xlen (s.read rs2) ≤ toSigned xlen (s.read rs1))) t (by rfl) (by rfl)]
  simp

theorem execBlock_BGEU (xlen status : Nat) (rs1 rs2 : Register) (t : Nat) (f : TargetFlag)
    (DL : Nat) (rest : List MachineInstr) (s : MachineState) (off : List (Nat × Nat)) :
    execBlock xlen status (⟨RISCV.BGEU, [.Reg rs1, .Reg rs2, .MBB t f], DL⟩ :: rest) s off =
      if s.read rs2 ≤ s.read rs1 then some ⟨s, off, some t⟩
      else execBlock xlen status rest s off := by
  rw [execBlock_branch xlen status ⟨_, _, DL⟩ rest s off (decide (s.read rs2 ≤ s.read rs1)) t (by rfl) (by rfl)]
  simp

/-! ## Theorems: the blocks of a Min/Max expansion -/

theorem insert_five_blocks (MF : MachineFunction) (n : Nat)
    (Pre Post : List MachineBasicBlock) (MBB H A B C D : MachineBasicBlock)
    (hBlocks : MF.Blocks = Pre ++ MBB :: Post) :
    (({ MF with nextBlock := n } : MachineFunction).insert Pre.length
      [H, A, B, C, D]).Blocks = Pre ++ H :: A :: B :: C :: D :: Post := by
  simp only [MachineFunction.insert, hBlocks, take_append_cons_self, drop_append_cons_self,
    List.append_assoc, List.cons_append, List.nil_append]

theorem insert_four_blocks (MF : MachineFunction) (n : Nat)
    (Pre Post : List MachineBasicBlock) (MBB H A B C : MachineBasicBlock)
    (hBlocks : MF.Blocks = Pre ++ MBB :: Post) :
    (({ MF with nextBlock := n } : MachineFunction).insert Pre.length
      [H, A, B, C]).Blocks = Pre ++ H :: A :: B :: C :: Post := by
  simp only [MachineFunction.insert, hBlocks, take_append_cons_self, drop_append_cons_self,
    List.append_assoc, List.cons_append, List.nil_append]

/-- The blocks of the unmasked Min/Max expansion. -/
theorem expandAtomicMinMaxOp_unmasked_shape (LV : LiveInsOracle) (MF : MachineFunction)
    (Pre Post : List MachineBasicBlock) (MBB : MachineBasicBlock)
    (pre post : List MachineInstr) (P : MachineInstr)
    (BinOp : BinOp) (Width : Int) (PtrIsCap : Bool)
    (D S A V : Register) (o : Int) (rest : List MachineOperand) (LR SC : RISCV)
    (hBlocks : MF.Blocks = Pre ++ MBB :: Post)
    (hinsts : MBB.insts = pre ++ P :: post)
    (hops : P.operands = .Reg D :: .Reg S :: .Reg A :: .Reg V :: .Imm o :: rest)
    (hLR : getLRForRMW PtrIsCap (AtomicOrdering.ofImm o) Width = .ok LR)
    (hSC : getSCForRMW PtrIsCap (AtomicOrdering.ofImm o) Width = .ok SC)
    (hop : BinOp ∈ [.Max, .Min, .UMax, .UMin]) :
    ∃ (host head ifb tail done : MachineBasicBlock) (MF' : MachineFunction)
      (br : MachineInstr),
      expandAtomicMinMaxOp LV MF Pre.length pre.length BinOp false Width PtrIsCap =
        .ok (MF', pre.length, true) ∧
      MF'.Blocks = Pre ++ host :: head :: ifb :: tail :: done :: Post ∧
      head.id = MF.nextBlock ∧ ifb.id = MF.nextBlock + 1 ∧ tail.id = MF.nextBlock + 2 ∧
      done.id = MF.nextBlock + 3 ∧ host.insts = pre ∧ done.insts = post ∧
      minMaxBranchRule BinOp S V (MF.nextBlock + 2) P.DL = some br ∧
      head.insts = [⟨LR, [.Reg D, .Reg A], P.DL⟩,
        ⟨RISCV.ADDI, [.Reg S, .Reg D, .Imm 0], P.DL⟩, br] ∧
      ifb.insts = [⟨RISCV.ADDI, [.Reg S, .Reg V, .Imm 0], P.DL⟩] ∧
      tail.insts = [⟨SC, [.Reg S, .Reg A, .Reg S], P.DL⟩,
        ⟨RISCV.BNE, [.Reg S, .Reg X0, .MBB MF.nextBlock .MO_None], P.DL⟩] := by
  have hB : MF.Blocks[Pre.length]? = some MBB := by
    rw [hBlocks]; exact getElem?_append_cons_self _ _ _
  have hI : MBB.insts[pre.length]? = some P := by
    rw [hinsts]; exact getElem?_append_cons_self _ _ _
  have hk := length_take_of_getElem? hI
  have hpre : MBB.insts.take pre.length = pre := by
    rw [hinsts]; simp
  have hpost : MBB.insts.drop (pre.length + 1) = post := by
    rw [hinsts]; simp
  have h0 : P.getReg 0 = .ok D := getReg_of (by rw [hops]; simp)
  have h1 : P.getReg 1 = .ok S := getReg_of (by rw [hops]; simp)
  have h2 : P.getReg 2 = .ok A := getReg_of (by rw [hops]; simp)
  have h3 : P.getReg 3 = .ok V := getReg_of (by rw [hops]; simp)
  have h4 : P.getImm 4 = .ok o := getImm_of (by rw [hops]; simp)
  simp only [List.mem_cons, List.mem_singleton, List.not_mem_nil, or_false] at hop
  have hr : ∃ r, expandAtomicMinMaxOp LV MF Pre.length pre.length BinOp false Width
      PtrIsCap = .ok r := by
    rcases hop with rfl | rfl | rfl | rfl <;>
      simp [expandAtomicMinMaxOp, hB, hI, h0, h1, h2, h3, h4, hLR, hSC, bind, Except.bind,
        pure, Except.pure]
  obtain ⟨r, hr⟩ := hr
  have hr' := hr
  rcases hop with rfl | rfl | rfl | rfl
  all_goals
    simp only [expandAtomicMinMaxOp, hB, hI, h0, h1, h2, h3, h4, hLR, hSC, hk, hpre,
      Option.elim, bind, Except.bind, pure, Except.pure,
      MachineFunction.CreateMachineBasicBlock, MachineBasicBlock.addSuccessor,
      MachineBasicBlock.splice, MachineBasicBlock.transferSuccessors,
      MachineBasicBlock.erase, BuildMI, List.nil_append, List.length_nil,
      eraseIdx_zero_drop, Bool.false_eq_true, if_false, Except.ok.injEq] at hr'
    subst hr'
    refine ⟨_, _, _, _, _, _, _, hr, insert_five_blocks MF _ Pre Post MBB _ _ _ _ _ hBlocks,
      rfl, rfl, rfl, rfl, rfl, hpost, rfl, rfl, rfl, rfl⟩

/-- The blocks of the masked signed Min/Max expansion. -/
theorem expandAtomicMinMaxOp_signed_shape (LV : LiveInsOracle) (MF : MachineFunction)
    (Pre Post : List MachineBasicBlock) (MBB : MachineBasicBlock)
    (pre post : List MachineInstr) (P : MachineInstr) (BinOp : BinOp)
    (D S1 S2 A V M Sh : Register) (o : Int) (rest : List MachineOperand) (LR SC : RISCV)
    (hBlocks : MF.Blocks = Pre ++ MBB :: Post)
    (hinsts : MBB.insts = pre ++ P :: post)
    (hops : P.operands = .Reg D :: .Reg S1 :: .Reg S2 :: .Reg A :: .Reg V :: .Reg M ::
      .Reg Sh :: .Imm o :: rest)
    (hLR : getLRForRMW32 false (AtomicOrdering.ofImm o) = .ok LR)
    (hSC : getSCForRMW32 false (AtomicOrdering.ofImm o) = .ok SC)
    (hDS : D ≠ S1) (hDM : D ≠ M) (hSM : S1 ≠ M)
    (hop : BinOp ∈ [.Max, .Min]) :
    ∃ (host head ifb tail done : MachineBasicBlock) (MF' : MachineFunction)
      (br : MachineInstr),
      expandAtomicMinMaxOp LV MF Pre.length pre.length BinOp true 32 false =
        .ok (MF', pre.length, true) ∧
      MF'.Blocks = Pre ++ host :: head :: ifb :: tail :: done :: Post ∧
      head.id = MF.nextBlock ∧ ifb.id = MF.nextBlock + 1 ∧ tail.id = MF.nextBlock + 2 ∧
      done.id = MF.nextBlock + 3 ∧ host.insts = pre ∧ done.insts = post ∧
      minMaxBranchRule BinOp S2 V (MF.nextBlock + 2) P.DL = some br ∧
      head.insts = [⟨LR, [.Reg D, .Reg A], P.DL⟩,
        ⟨RISCV.AND, [.Reg S2, .Reg D, .Reg M], P.DL⟩,
        ⟨RISCV.ADDI, [.Reg S1, .Reg D, .Imm 0], P.DL⟩,
        ⟨RISCV.SLL, [.Reg S2, .Reg S2, .Reg Sh], P.DL⟩,
        ⟨RISCV.SRA, [.Reg S2, .Reg S2, .Reg Sh], P.DL⟩, br] ∧
      ifb.insts = [⟨RISCV.XOR, [.Reg S1, .Reg D, .Reg V], P.DL⟩,
        ⟨RISCV.AND, [.Reg S1, .Reg S1, .Reg M], P.DL⟩,
        ⟨RISCV.XOR, [.Reg S1, .Reg D, .Reg S1], P.DL⟩] ∧
      tail.insts = [⟨SC, [.Reg S1, .Reg A, .Reg S1], P.DL⟩,
        ⟨RISCV.BNE, [.Reg S1, .Reg X0, .MBB MF.nextBlock .MO_None], P.DL⟩] := by
  have hB : MF.Blocks[Pre.length]? = some MBB := by
    rw [hBlocks]; exact getElem?_append_cons_self _ _ _
  have hI : MBB.insts[pre.length]? = some P := by
    rw [hinsts]; exact getElem?_append_cons_self _ _ _
  have hk := length_take_of_getElem? hI
  have hpre : MBB.insts.take pre.length = pre := by
    rw [hinsts]; simp
  have hpost : MBB.insts.drop (pre.length + 1) = post := by
    rw [hinsts]; simp
  have h0 : P.getReg 0 = .ok D := getReg_of (by rw [hops]; simp)
  have h1 : P.getReg 1 = .ok S1 := getReg_of (by rw [hops]; simp)
  have h2 : P.getReg 2 = .ok S2 := getReg_of (by rw [hops]; simp)
  have h3 : P.getReg 3 = .ok A := getReg_of (by rw [hops]; simp)
  have h4 : P.getReg 4 = .ok V := getReg_of (by rw [hops]; simp)
  have h5 : P.getReg 5 = .ok M := getReg_of (by rw [hops]; simp)
  have h6 : P.getReg 6 = .ok Sh := getReg_of (by rw [hops]; simp)
  have h7 : P.getImm 7 = .ok o := getImm_of (by rw [hops]; simp)
  simp only [List.mem_cons, List.mem_singleton, List.not_mem_nil, or_false] at hop
  have hr : ∃ r, expandAtomicMinMaxOp LV MF Pre.length pre.length BinOp true 32 false =
      .ok r := by
    rcases hop with rfl | rfl <;>
      simp [expandAtomicMinMaxOp, hB, hI, h0, h1, h2, h3, h4, h5, h6, h7, hLR, hSC, bind,
        Except.bind, pure, Except.pure, assert, insertMaskedMerge, hDS, hDM, hSM]
  obtain ⟨r, hr⟩ := hr
  have hr' := hr
  rcases hop with rfl | rfl
  all_goals
    simp [expandAtomicMinMaxOp, hB, hI, h0, h1, h2, h3, h4, h5, h6, h7, hLR, hSC, hk, hpre,
      bind, Except.bind, pure, Except.pure, assert, insertMaskedMerge, insertSext, hDS, hDM,
      hSM, MachineFunction.CreateMachineBasicBlock, MachineBasicBlock.addSuccessor,
      MachineBasicBlock.splice, MachineBasicBlock.transferSuccessors,
      MachineBasicBlock.erase, BuildMI] at hr'
    subst hr'
    refine ⟨_, _, _, _, _, _, _, hr, insert_five_blocks MF _ Pre Post MBB _ _ _ _ _ hBlocks,
      rfl, rfl, rfl, rfl, rfl, hpost, rfl, rfl, rfl, rfl⟩

/-- The blocks of the masked unsigned Min/Max expansion. -/
theorem expandAtomicMinMaxOp_unsigned_shape (LV : LiveInsOracle) (MF : MachineFunction)
    (Pre Post : List MachineBasicBlock) (MBB : MachineBasicBlock)
    (pre post : List MachineInstr) (P : MachineInstr) (BinOp : BinOp)
    (D S1 S2 A V M : Register) (o : Int) (rest : List MachineOperand) (LR SC : RISCV)
    (hBlocks : MF.Blocks = Pre ++ MBB :: Post)
    (hinsts : MBB.insts = pre ++ P :: post)
    (hops : P.operands = .Reg D :: .Reg S1 :: .Reg S2 :: .Reg A :: .Reg V :: .Reg M ::
      .Imm o :: rest)
    (hLR : getLRForRMW32 false (AtomicOrdering.ofImm o) = .ok LR)
    (hSC : getSCForRMW32 false (AtomicOrdering.ofImm o) = .ok SC)
    (hDS : D ≠ S1) (hDM : D ≠ M) (hSM : S1 ≠ M)
    (hop : BinOp ∈ [.UMax, .UMin]) :
    ∃ (host head ifb tail done : MachineBasicBlock) (MF' : MachineFunction)
      (br : MachineInstr),
      expandAtomicMinMaxOp LV MF Pre.length pre.length BinOp true 32 false =
        .ok (MF', pre.length, true) ∧
      MF'.Blocks = Pre ++ host :: head :: ifb :: tail :: done :: Post ∧
      head.id = MF.nextBlock ∧ ifb.id = MF.nextBlock + 1 ∧ tail.id = MF.nextBlock + 2 ∧
      done.id = MF.nextBlock + 3 ∧ host.insts = pre ∧ done.insts = post ∧
      minMaxBranchRule BinOp S2 V (MF.nextBlock + 2) P.DL = some br ∧
      head.insts = [⟨LR, [.Reg D, .Reg A], P.DL⟩,
        ⟨RISCV.AND, [.Reg S2, .Reg D, .Reg M], P.DL⟩,
        ⟨RISCV.ADDI, [.Reg S1, .Reg D, .Imm 0], P.DL⟩, br] ∧
      ifb.insts = [⟨RISCV.XOR, [.Reg S1, .Reg D, .Reg V], P.DL⟩,
        ⟨RISCV.AND, [.Reg S1, .Reg S1, .Reg M], P.DL⟩,
        ⟨RISCV.XOR, [.Reg S1, .Reg D, .Reg S1], P.DL⟩] ∧
      tail.insts = [⟨SC, [.Reg S1, .Reg A, .Reg S1], P.DL⟩,
        ⟨RISCV.BNE, [.Reg S1, .Reg X0, .MBB MF.nextBlock .MO_None], P.DL⟩] := by
  have hB : MF.Blocks[Pre.length]? = some MBB := by
    rw [hBlocks]; exact getElem?_append_cons_self _ _ _
  have hI : MBB.insts[pre.length]? = some P := by
    rw [hinsts]; exact getElem?_append_cons_self _ _ _
  have hk := length_take_of_getElem? hI
  have hpre : MBB.insts.take pre.length = pre := by
    rw [hinsts]; simp
  have hpost : MBB.insts.drop (pre.length + 1) = post := by
    rw [hinsts]; simp
  have h0 : P.getReg 0 = .ok D := getReg_of (by rw [hops]; simp)
  have h1 : P.getReg 1 = .ok S1 := getReg_of (by rw [hops]; simp)
  have h2 : P.getReg 2 = .ok S2 := getReg_of (by rw [hops]; simp)
  have h3 : P.getReg 3 = .ok A := getReg_of (by rw [hops]; simp)
  have h4 : P.getReg 4 = .ok V := getReg_of (by rw [hops]; simp)
  have h5 : P.getReg 5 = .ok M := getReg_of (by rw [hops]; simp)
  have h6 : P.getImm 6 = .ok o := getImm_of (by rw [hops]; simp)
  simp only [List.mem_cons, List.mem_singleton, List.not_mem_nil, or_false] at hop
  have hr : ∃ r, expandAtomicMinMaxOp LV MF Pre.length pre.length BinOp true 32 false =
      .ok r := by
    rcases hop with rfl | rfl <;>
      simp [expandAtomicMinMaxOp, hB, hI, h0, h1, h2, h3, h4, h5, h6, hLR, hSC, bind,
        Except.bind, pure, Except.pure, assert, insertMaskedMerge, hDS, hDM, hSM]
  obtain ⟨r, hr⟩ := hr
  have hr' := hr
  rcases hop with rfl | rfl
  all_goals
    simp [expandAtomicMinMaxOp, hB, hI, h0, h1, h2, h3, h4, h5, h6, hLR, hSC, hk, hpre,
      bind, Except.bind, pure, Except.pure, assert, insertMaskedMerge, hDS, hDM,
      hSM, MachineFunction.CreateMachineBasicBlock, MachineBasicBlock.addSuccessor,
      MachineBasicBlock.splice, MachineBasicBlock.transferSuccessors,
      MachineBasicBlock.erase, BuildMI] at hr'
    subst hr'
    refine ⟨_, _, _, _, _, _, _, hr, insert_five_blocks MF _ Pre Post MBB _ _ _ _ _ hBlocks,
      rfl, rfl, rfl, rfl, rfl, hpost, rfl, rfl, rfl, rfl⟩

theorem atomicOperandsOk_four {ops : List MachineOperand}
    (h : atomicOperandsOk 4 ops = true) :
    ∃ a b c d o rest, ops = .Reg a :: .Reg b :: .Reg c :: .Reg d :: .Imm o :: rest ∧
      (AtomicOrdering.ofImm o).isLegal = true := by
  match ops, h with
  | .Reg a :: .Reg b :: .Reg c :: .Reg d :: .Imm o :: rest, h =>
    exact ⟨a, b, c, d, o, rest, rfl, h⟩

theorem atomicOperandsOk_five {ops : List MachineOperand}
    (h : atomicOperandsOk 5 ops = true) :
    ∃ a b c d e o rest,
      ops = .Reg a :: .Reg b :: .Reg c :: .Reg d :: .Reg e :: .Imm o :: rest ∧
      (AtomicOrdering.ofImm o).isLegal = true := by
  match ops, h with
  | .Reg a :: .Reg b :: .Reg c :: .Reg d :: .Reg e :: .Imm o :: rest, h =>
    exact ⟨a, b, c, d, e, o, rest, rfl, h⟩

theorem atomicOperandsOk_six {ops : List MachineOperand}
    (h : atomicOperandsOk 6 ops = true) :
    ∃ a b c d e f o rest,
      ops = .Reg a :: .Reg b :: .Reg c :: .Reg d :: .Reg e :: .Reg f :: .Imm o :: rest ∧
      (AtomicOrdering.ofImm o).isLegal = true := by
  match ops, h with
  | .Reg a :: .Reg b :: .Reg c :: .Reg d :: .Reg e :: .Reg f :: .Imm o :: rest, h =>
    exact ⟨a, b, c, d, e, f, o, rest, rfl, h⟩

theorem atomicOperandsOk_seven {ops : List MachineOperand}
    (h : atomicOperandsOk 7 ops = true) :
    ∃ a b c d e f g o rest,
      ops = .Reg a :: .Reg b :: .Reg c :: .Reg d :: .Reg e :: .Reg f :: .Reg g ::
        .Imm o :: rest ∧
      (AtomicOrdering.ofImm o).isLegal = true := by
  match ops, h with
  | .Reg a :: .Reg b :: .Reg c :: .Reg d :: .Reg e :: .Reg f :: .Reg g :: .Imm o :: rest,
    h => exact ⟨a, b, c, d, e, f, g, o, rest, rfl, h⟩

/-- The comparison branch of the rule, executed in a state: it is taken to the
tail block unless the incoming value is to replace the current one. -/
theorem execBlock_minMaxBranch (xlen status : Nat) (BinOp : BinOp)
    (cur inc : Register) (tail DL : Nat) (br : MachineInstr) (s : MachineState)
    (off : List (Nat × Nat))
    (hbr : minMaxBranchRule BinOp cur inc tail DL = some br) :
    ∃ t, execBlock xlen status [br] s off = some ⟨s, off, t⟩ ∧
      (t = none ∨ t = some tail) ∧
      (t = none ↔ incomingReplaces xlen BinOp (s.read cur) (s.read inc) = true) ∧
      (s.read inc = s.read cur → t = some tail) := by
  cases BinOp <;> simp only [minMaxBranchRule, Option.some.injEq, reduceCtorEq] at hbr
  all_goals subst hbr
  · rw [execBlock_BGE, execBlock_nil]
    by_cases hc : toSigned xlen (s.read inc) ≤ toSigned xlen (s.read cur)
    · rw [if_pos hc]
      exact ⟨_, rfl, Or.inr rfl, by simp [incomingReplaces, hc], fun _ => rfl⟩
    · rw [if_neg hc]
      refine ⟨_, rfl, Or.inl rfl, by simp [incomingReplaces]; omega, fun h => ?_⟩
      rw [h] at hc
      exact absurd (le_refl _) hc
  · rw [execBlock_BGE, execBlock_nil]
    by_cases hc : toSigned xlen (s.read cur) ≤ toSigned xlen (s.read inc)
    · rw [if_pos hc]
      exact ⟨_, rfl, Or.inr rfl, by simp [incomingReplaces, hc], fun _ => rfl⟩
    · rw [if_neg hc]
      refine ⟨_, rfl, Or.inl rfl, by simp [incomingReplaces]; omega, fun h => ?_⟩
      rw [h] at hc
      exact absurd (le_refl _) hc
  · rw [execBlock_BGEU, execBlock_nil]
    by_cases hc : s.read inc ≤ s.read cur
    · rw [if_pos hc]
      exact ⟨_, rfl, Or.inr rfl, by simp [incomingReplaces, hc], fun _ => rfl⟩
    · rw [if_neg hc]
      refine ⟨_, rfl, Or.inl rfl, by simp [incomingReplaces]; omega, fun h => ?_⟩
      rw [h] at hc
      exact absurd (le_refl _) hc
  · rw [execBlock_BGEU, execBlock_nil]
    by_cases hc : s.read cur ≤ s.read inc
    · rw [if_pos hc]
      exact ⟨_, rfl, Or.inr rfl, by simp [incomingReplaces, hc], fun _ => rfl⟩
    · rw [if_neg hc]
      refine ⟨_, rfl, Or.inl rfl, by simp [incomingReplaces]; omega, fun h => ?_⟩
      rw [h] at hc
      exact absurd (le_refl _) hc

/-! ## Theorems: the blocks of a compare-and-swap expansion -/

/-- The blocks of the unmasked compare-and-swap expansion. -/
theorem expandAtomicCmpXchg_unmasked_shape (LV : LiveInsOracle) (MF : MachineFunction)
    (Pre Post : List MachineBasicBlock) (MBB : MachineBasicBlock)
    (pre post : List MachineInstr) (P : MachineInstr) (Width : Int) (PtrIsCap : Bool)
    (D S A C N : Register) (o : Int) (rest : List MachineOperand) (LR SC : RISCV)
    (hBlocks : MF.Blocks = Pre ++ MBB :: Post)
    (hinsts : MBB.insts = pre ++ P :: post)
    (hops : P.operands = .Reg D :: .Reg S :: .Reg A :: .Reg C :: .Reg N :: .Imm o :: rest)
    (hLR : getLRForRMW PtrIsCap (AtomicOrdering.ofImm o) Width = .ok LR)
    (hSC : getSCForRMW PtrIsCap (AtomicOrdering.ofImm o) Width = .ok SC) :
    ∃ (host head tail done : MachineBasicBlock) (MF' : MachineFunction),
      expandAtomicCmpXchg LV MF Pre.length pre.length false Width PtrIsCap =
        .ok (MF', pre.length, true) ∧
      MF'.Blocks = Pre ++ host :: head :: tail :: done :: Post ∧
      head.id = MF.nextBlock ∧ tail.id = MF.nextBlock + 1 ∧ done.id = MF.nextBlock + 2 ∧
      host.insts = pre ∧ done.insts = post ∧
      head.insts = [⟨LR, [.Reg D, .Reg A], P.DL⟩,
        ⟨RISCV.BNE, [.Reg D, .Reg C, .MBB (MF.nextBlock + 2) .MO_None], P.DL⟩] ∧
      tail.insts = [⟨SC, [.Reg S, .Reg A, .Reg N], P.DL⟩,
        ⟨RISCV.BNE, [.Reg S, .Reg X0, .MBB MF.nextBlock .MO_None], P.DL⟩] := by
  have hB : MF.Blocks[Pre.length]? = some MBB := by
    rw [hBlocks]; exact getElem?_append_cons_self _ _ _
  have hI : MBB.insts[pre.length]? = some P := by
    rw [hinsts]; exact getElem?_append_cons_self _ _ _
  have hk := length_take_of_getElem? hI
  have hpre : MBB.insts.take pre.length = pre := by
    rw [hinsts]; simp
  have hpost : MBB.insts.drop (pre.length + 1) = post := by
    rw [hinsts]; simp
  have h0 : P.getReg 0 = .ok D := getReg_of (by rw [hops]; simp)
  have h1 : P.getReg 1 = .ok S := getReg_of (by rw [hops]; simp)
  have h2 : P.getReg 2 = .ok A := getReg_of (by rw [hops]; simp)
  have h3 : P.getReg 3 = .ok C := getReg_of (by rw [hops]; simp)
  have h4 : P.getReg 4 = .ok N := getReg_of (by rw [hops]; simp)
  have h5 : P.getImm 5 = .ok o := getImm_of (by rw [hops]; simp)
  have hr : ∃ r, expandAtomicCmpXchg LV MF Pre.length pre.length false Width PtrIsCap =
      .ok r := by
    simp [expandAtomicCmpXchg, hB, hI, h0, h1, h2, h3, h4, h5, hLR, hSC, bind, Except.bind,
      pure, Except.pure]
  obtain ⟨r, hr⟩ := hr
  have hr' := hr
  simp [expandAtomicCmpXchg, hB, hI, h0, h1, h2, h3, h4, h5, hLR, hSC, hk, hpre,
    bind, Except.bind, pure, Except.pure,
    MachineFunction.CreateMachineBasicBlock, MachineBasicBlock.addSuccessor,
    MachineBasicBlock.splice, MachineBasicBlock.transferSuccessors,
    MachineBasicBlock.erase, BuildMI] at hr'
  subst hr'
  exact ⟨_, _, _, _, _, hr, insert_four_blocks MF _ Pre Post MBB _ _ _ _ hBlocks,
    rfl, rfl, rfl, rfl, hpost, rfl, rfl⟩

/-- The blocks of the masked compare-and-swap expansion. -/
theorem expandAtomicCmpXchg_masked_shape (LV : LiveInsOracle) (MF : MachineFunction)
    (Pre Post : List MachineBasicBlock) (MBB : MachineBasicBlock)
    (pre post : List MachineInstr) (P : MachineInstr)
    (D S A C N M : Register) (o : Int) (rest : List MachineOperand) (LR SC : RISCV)
    (hBlocks : MF.Blocks = Pre ++ MBB :: Post)
    (hinsts : MBB.insts = pre ++ P :: post)
    (hops : P.operands = .Reg D :: .Reg S :: .Reg A :: .Reg C :: .Reg N :: .Reg M ::
      .Imm o :: rest)
    (hLR : getLRForRMW false (AtomicOrdering.ofImm o) 32 = .ok LR)
    (hSC : getSCForRMW false (AtomicOrdering.ofImm o) 32 = .ok SC)
    (hDS : D ≠ S) (hDM : D ≠ M) (hSM : S ≠ M) :
    ∃ (host head tail done : MachineBasicBlock) (MF' : MachineFunction),
      expandAtomicCmpXchg LV MF Pre.length pre.length true 32 false =
        .ok (MF', pre.length, true) ∧
      MF'.Blocks = Pre ++ host :: head :: tail :: done :: Post ∧
      head.id = MF.nextBlock ∧ tail.id = MF.nextBlock + 1 ∧ done.id = MF.nextBlock + 2 ∧
      host.insts = pre ∧ done.insts = post ∧
      head.insts = [⟨LR, [.Reg D, .Reg A], P.DL⟩,
        ⟨RISCV.AND, [.Reg S, .Reg D, .Reg M], P.DL⟩,
        ⟨RISCV.BNE, [.Reg S, .Reg C, .MBB (MF.nextBlock + 2) .MO_None], P.DL⟩] ∧
      tail.insts = [⟨RISCV.XOR, [.Reg S, .Reg D, .Reg N], P.DL⟩,
        ⟨RISCV.AND, [.Reg S, .Reg S, .Reg M], P.DL⟩,
        ⟨RISCV.XOR, [.Reg S, .Reg D, .Reg S], P.DL⟩,
        ⟨SC, [.Reg S, .Reg A, .Reg S], P.DL⟩,
        ⟨RISCV.BNE, [.Reg S, .Reg X0, .MBB MF.nextBlock .MO_None], P.DL⟩] := by
  have hB : MF.Blocks[Pre.length]? = some MBB := by
    rw [hBlocks]; exact getElem?_append_cons_self _ _ _
  have hI : MBB.insts[pre.length]? = some P := by
    rw [hinsts]; exact getElem?_append_cons_self _ _ _
  have hk := length_take_of_getElem? hI
  have hpre : MBB.insts.take pre.length = pre := by
    rw [hinsts]; simp
  have hpost : MBB.insts.drop (pre.length + 1) = post := by
    rw [hinsts]; simp
  have h0 : P.getReg 0 = .ok D := getReg_of (by rw [hops]; simp)
  have h1 : P.getReg 1 = .ok S := getReg_of (by rw [hops]; simp)
  have h2 : P.getReg 2 = .ok A := getReg_of (by rw [hops]; simp)
  have h3 : P.getReg 3 = .ok C := getReg_of (by rw [hops]; simp)
  have h4 : P.getReg 4 = .ok N := getReg_of (by rw [hops]; simp)
  have h5 : P.getReg 5 = .ok M := getReg_of (by rw [hops]; simp)
  have h6 : P.getImm 6 = .ok o := getImm_of (by rw [hops]; simp)
  have hr : ∃ r, expandAtomicCmpXchg LV MF Pre.length pre.length true 32 false =
      .ok r := by
    simp [expandAtomicCmpXchg, hB, hI, h0, h1, h2, h3, h4, h5, h6, hLR, hSC, bind,
      Except.bind, pure, Except.pure, assert, insertMaskedMerge, hDS, hDM, hSM]
  obtain ⟨r, hr⟩ := hr
  have hr' := hr
  simp [expandAtomicCmpXchg, hB, hI, h0, h1, h2, h3, h4, h5, h6, hLR, hSC, hk, hpre,
    bind, Except.bind, pure, Except.pure, assert, insertMaskedMerge, hDS, hDM, hSM,
    MachineFunction.CreateMachineBasicBlock, MachineBasicBlock.addSuccessor,
    MachineBasicBlock.splice, MachineBasicBlock.transferSuccessors,
    MachineBasicBlock.erase, BuildMI] at hr'
  subst hr'
  exact ⟨_, _, _, _, _, hr, insert_four_blocks MF _ Pre Post MBB _ _ _ _ hBlocks,
    rfl, rfl, rfl, rfl, hpost, rfl, rfl⟩

/-- The blocks of the capability compare-and-swap expansion. -/
theorem expandAtomicCmpXchgCap_shape (LV : LiveInsOracle) (MF : MachineFunction)
    (Pre Post : List MachineBasicBlock) (MBB : MachineBasicBlock)
    (pre post : List MachineInstr) (P : MachineInstr) (PtrIsCap : Bool)
    (D S A C N : Register) (o : Int) (rest : List MachineOperand) (LR SC : RISCV)
    (hBlocks : MF.Blocks = Pre ++ MBB :: Post)
    (hinsts : MBB.insts = pre ++ P :: post)
    (hops : P.operands = .Reg D :: .Reg S :: .Reg A :: .Reg C :: .Reg N :: .Imm o :: rest)
    (hLR : getLRForRMWCap PtrIsCap (AtomicOrdering.ofImm o) MF.CLen = .ok LR)
    (hSC : getSCForRMWCap PtrIsCap (AtomicOrdering.ofImm o) MF.CLen = .ok SC) :
    ∃ (host head tail done : MachineBasicBlock) (MF' : MachineFunction),
      expandAtomicCmpXchgCap LV MF Pre.length pre.length PtrIsCap =
        .ok (MF', pre.length, true) ∧
      MF'.Blocks = Pre ++ host :: head :: tail :: done :: Post ∧
      head.id = MF.nextBlock ∧ tail.id = MF.nextBlock + 1 ∧ done.id = MF.nextBlock + 2 ∧
      host.insts = pre ∧ done.insts = post ∧
      head.insts = [⟨LR, [.Reg D, .Reg A], P.DL⟩,
        ⟨RISCV.BNE, [.Reg (getSubReg_sub_cap_addr D), .Reg (getSubReg_sub_cap_addr C),
          .MBB (MF.nextBlock + 2) .MO_None], P.DL⟩] ∧
      tail.insts = [⟨SC, [.Reg S, .Reg A, .Reg N], P.DL⟩,
        ⟨RISCV.BNE, [.Reg S, .Reg X0, .MBB MF.nextBlock .MO_None], P.DL⟩] := by
  have hB : MF.Blocks[Pre.length]? = some MBB := by
    rw [hBlocks]; exact getElem?_append_cons_self _ _ _
  have hI : MBB.insts[pre.length]? = some P := by
    rw [hinsts]; exact getElem?_append_cons_self _ _ _
  have hk := length_take_of_getElem? hI
  have hpre : MBB.insts.take pre.length = pre := by
    rw [hinsts]; simp
  have hpost : MBB.insts.drop (pre.length + 1) = post := by
    rw [hinsts]; simp
  have h0 : P.getReg 0 = .ok D := getReg_of (by rw [hops]; simp)
  have h1 : P.getReg 1 = .ok S := getReg_of (by rw [hops]; simp)
  have h2 : P.getReg 2 = .ok A := getReg_of (by rw [hops]; simp)
  have h3 : P.getReg 3 = .ok C := getReg_of (by rw [hops]; simp)
  have h4 : P.getReg 4 = .ok N := getReg_of (by rw [hops]; simp)
  have h5 : P.getImm 5 = .ok o := getImm_of (by rw [hops]; simp)
  have hr : ∃ r, expandAtomicCmpXchgCap LV MF Pre.length pre.length PtrIsCap = .ok r := by
    simp [expandAtomicCmpXchgCap, hB, hI, h0, h1, h2, h3, h4, h5, hLR, hSC, bind,
      Except.bind, pure, Except.pure]
  obtain ⟨r, hr⟩ := hr
  have hr' := hr
  simp [expandAtomicCmpXchgCap, hB, hI, h0, h1, h2, h3, h4, h5, hLR, hSC, hk, hpre,
    bind, Except.bind, pure, Except.pure,
    MachineFunction.CreateMachineBasicBlock, MachineBasicBlock.addSuccessor,
    MachineBasicBlock.splice, MachineBasicBlock.transferSuccessors,
    MachineBasicBlock.erase, BuildMI] at hr'
  subst hr'
  exact ⟨_, _, _, _, _, hr, insert_four_blocks MF _ Pre Post MBB _ _ _ _ hBlocks,
    rfl, rfl, rfl, rfl, hpost, rfl, rfl⟩

/-! ## Theorems: the comparison of the Min/Max expansion -/

/-- C11: in expandAtomicMinMaxOp, unmasked (current is the scratch register,
operand 1, incoming the value register, operand 3) and masked (current is the
second scratch register, operand 2, incoming the value register, operand 4),
the head block ends with the conditional branch to the tail block that the
rule states: BGE(current, incoming) for Max, BGE(incoming, current) for Min,
BGEU(current, incoming) for UMax and BGEU(incoming, current) for UMin. From
every state the head block runs to that branch without a store-conditional,
and control falls through to the if-body block, the next block of the layout,
exactly when incoming is greater than current (Max signed, UMax unsigned) or
less than current (Min signed, UMin unsigned); when the two values are equal
the branch to the tail block is taken. -/
theorem expandAtomicMinMaxOp_branch (LV : LiveInsOracle) (MF : MachineFunction)
    (Pre Post : List MachineBasicBlock) (MBB : MachineBasicBlock)
    (pre post : List MachineInstr) (P : MachineInstr)
    (BinOp : BinOp) (IsMasked : Bool) (Width : Int) (PtrIsCap : Bool)
    (xlen status : Nat) (current incoming : Register)
    (hBlocks : MF.Blocks = Pre ++ MBB :: Post)
    (hinsts : MBB.insts = pre ++ P :: post)
    (hP : (IsMasked = false ∧ BinOp ∈ [.Max, .Min, .UMax, .UMin] ∧
          atomicOperandsOk 4 P.operands = true ∧
          ((Width = 32 ∨ Width = 64) ∨ ((Width = 8 ∨ Width = 16) ∧ PtrIsCap = true)) ∧
          P.operands[1]? = some (.Reg current) ∧ P.operands[3]? = some (.Reg incoming)) ∨
        (IsMasked = true ∧ Width = 32 ∧ PtrIsCap = false ∧
          ((BinOp ∈ [.Max, .Min] ∧ atomicOperandsOk 7 P.operands = true) ∨
           (BinOp ∈ [.UMax, .UMin] ∧ atomicOperandsOk 6 P.operands = true)) ∧
          maskedRegsOk P.operands 5 = true ∧
          P.operands[2]? = some (.Reg current) ∧ P.operands[4]? = some (.Reg incoming))) :
    ∃ (host head ifb tail done : MachineBasicBlock) (MF' : MachineFunction)
      (front : List MachineInstr) (br : MachineInstr),
      expandAtomicMinMaxOp LV MF Pre.length pre.length BinOp IsMasked Width PtrIsCap =
        .ok (MF', pre.length, true) ∧
      MF'.Blocks = Pre ++ host :: head :: ifb :: tail :: done :: Post ∧
      head.insts = front ++ [br] ∧
      minMaxBranchRule BinOp current incoming tail.id P.DL = some br ∧
      ∀ s : MachineState, ∃ s1 t,
        execBlock xlen status head.insts s [] = some ⟨s1, [], t⟩ ∧
        (t = none ∨ t = some tail.id) ∧
        (t = none ↔
          incomingReplaces xlen BinOp (s1.read current) (s1.read incoming) = true) ∧
        (s1.read incoming = s1.read current → t = some tail.id) := by
  rcases hP with ⟨rfl, hop, hops, hW, hcur, hinc⟩ |
    ⟨rfl, rfl, rfl, hsu, hm, hcur, hinc⟩
  · obtain ⟨D, S, A, V, o, rest, hops, hleg⟩ := atomicOperandsOk_four hops
    rw [hops] at hcur hinc
    simp only [List.getElem?_cons_succ, List.getElem?_cons_zero, Option.some.injEq,
      MachineOperand.Reg.injEq] at hcur hinc
    subst hcur hinc
    obtain ⟨LR, hLR⟩ := getLRForRMW_ok PtrIsCap _ Width hleg hW
    obtain ⟨SC, hSC⟩ := getSCForRMW_ok PtrIsCap _ Width hleg hW
    have hL := getLRForRMW_isLR hLR
    obtain ⟨host, head, ifb, tail, done, MF', br, hr, hBl, -, -, htail, -, -, -, hbr, hhead,
      -, -⟩ := expandAtomicMinMaxOp_unmasked_shape LV MF Pre Post MBB pre post P BinOp Width
        PtrIsCap D S A V o rest LR SC hBlocks hinsts hops hLR hSC hop
    refine ⟨host, head, ifb, tail, done, MF',
      [⟨LR, [.Reg D, .Reg A], P.DL⟩, ⟨RISCV.ADDI, [.Reg S, .Reg D, .Imm 0], P.DL⟩], br, hr,
      hBl, by rw [hhead]; rfl, by rw [htail]; exact hbr, fun s => ?_⟩
    rw [hhead, htail, execBlock_LR xlen status LR hL, execBlock_ADDI]
    obtain ⟨t, h1, h2, h3, h4⟩ := execBlock_minMaxBranch xlen status BinOp S V
      (MF.nextBlock + 2) P.DL br _ [] hbr
    exact ⟨_, t, h1, h2, h3, h4⟩
  · obtain ⟨d, s1, m, hd, hs1, hm5, hds, hdm, hsm⟩ := maskedRegsOk_spec hm
    rcases hsu with ⟨hop, hops⟩ | ⟨hop, hops⟩
    · obtain ⟨D, S1, S2, A, V, M, Sh, o, rest, hops, hleg⟩ := atomicOperandsOk_seven hops
      rw [hops] at hcur hinc hd hs1 hm5
      simp only [List.getElem?_cons_succ, List.getElem?_cons_zero, Option.some.injEq,
        MachineOperand.Reg.injEq] at hcur hinc hd hs1 hm5
      subst hcur hinc hd hs1 hm5
      obtain ⟨LR, hLR⟩ := getLRForRMW32_ok false _ hleg
      obtain ⟨SC, hSC⟩ := getSCForRMW32_ok false _ hleg
      have hL := getLRForRMW32_isLR hLR
      obtain ⟨host, head, ifb, tail, done, MF', br, hr, hBl, -, -, htail, -, -, -, hbr,
        hhead, -, -⟩ := expandAtomicMinMaxOp_signed_shape LV MF Pre Post MBB pre post P
          BinOp D S1 S2 A V M Sh o rest LR SC hBlocks hinsts hops hLR hSC hds hdm hsm hop
      refine ⟨host, head, ifb, tail, done, MF',
        [⟨LR, [.Reg D, .Reg A], P.DL⟩, ⟨RISCV.AND, [.Reg S2, .Reg D, .Reg M], P.DL⟩,
          ⟨RISCV.ADDI, [.Reg S1, .Reg D, .Imm 0], P.DL⟩,
          ⟨RISCV.SLL, [.Reg S2, .Reg S2, .Reg Sh], P.DL⟩,
          ⟨RISCV.SRA, [.Reg S2, .Reg S2, .Reg Sh], P.DL⟩], br, hr, hBl,
        by rw [hhead]; rfl, by rw [htail]; exact hbr, fun s => ?_⟩
      rw [hhead, htail, execBlock_LR xlen status LR hL, execBlock_AND, execBlock_ADDI,
        execBlock_SLL, execBlock_SRA]
      obtain ⟨t, h1, h2, h3, h4⟩ := execBlock_minMaxBranch xlen status BinOp S2 V
        (MF.nextBlock + 2) P.DL br _ [] hbr
      exact ⟨_, t, h1, h2, h3, h4⟩
    · obtain ⟨D, S1, S2, A, V, M, o, rest, hops, hleg⟩ := atomicOperandsOk_six hops
      rw [hops] at hcur hinc hd hs1 hm5
      simp only [List.getElem?_cons_succ, List.getElem?_cons_zero, Option.some.injEq,
        MachineOperand.Reg.injEq] at hcur hinc hd hs1 hm5
      subst hcur hinc hd hs1 hm5
      obtain ⟨LR, hLR⟩ := getLRForRMW32_ok false _ hleg
      obtain ⟨SC, hSC⟩ := getSCForRMW32_ok false _ hleg
      have hL := getLRForRMW32_isLR hLR
      obtain ⟨host, head, ifb, tail, done, MF', br, hr, hBl, -, -, htail, -, -, -, hbr,
        hhead, -, -⟩ := expandAtomicMinMaxOp_unsigned_shape LV MF Pre Post MBB pre post P
          BinOp D S1 S2 A V M o rest LR SC hBlocks hinsts hops hLR hSC hds hdm hsm hop
      refine ⟨host, head, ifb, tail, done, MF',
        [⟨LR, [.Reg D, .Reg A], P.DL⟩, ⟨RISCV.AND, [.Reg S2, .Reg D, .Reg M], P.DL⟩,
          ⟨RISCV.ADDI, [.Reg S1, .Reg D, .Imm 0], P.DL⟩], br, hr, hBl,
        by rw [hhead]; rfl, by rw [htail]; exact hbr, fun s => ?_⟩
      rw [hhead, htail, execBlock_LR xlen status LR hL, execBlock_AND, execBlock_ADDI]
      obtain ⟨t, h1, h2, h3, h4⟩ := execBlock_minMaxBranch xlen status BinOp S2 V
        (MF.nextBlock + 2) P.DL br _ [] hbr
      exact ⟨_, t, h1, h2, h3, h4⟩

theorem expandAtomicMinMaxOp_branch_witness :
    (maxFunction.Blocks = [] ++ maxBlock :: [] ∧
      maxBlock.insts = [⟨.generic 1, [], 0⟩] ++ maxPseudo :: [⟨.generic 2, [], 0⟩] ∧
      atomicOperandsOk 4 maxPseudo.operands = true ∧
      maxPseudo.operands[1]? = some (.Reg (.X 11)) ∧
      maxPseudo.operands[3]? = some (.Reg (.X 13))) ∧
    ∃ (host head ifb tail done : MachineBasicBlock) (MF' : MachineFunction)
      (front : List MachineInstr) (br : MachineInstr),
      expandAtomicMinMaxOp (fun _ _ => []) maxFunction 0 1 .Max false 8 true =
        .ok (MF', 1, true) ∧
      MF'.Blocks = [] ++ host :: head :: ifb :: tail :: done :: [] ∧
      head.insts = front ++ [br] ∧
      minMaxBranchRule .Max (.X 11) (.X 13) tail.id 0 = some br ∧
      ∀ s : MachineState, ∃ s1 t,
        execBlock 64 0 head.insts s [] = some ⟨s1, [], t⟩ ∧
        (t = none ∨ t = some tail.id) ∧
        (t = none ↔
          incomingReplaces 64 .Max (s1.read (.X 11)) (s1.read (.X 13)) = true) ∧
        (s1.read (.X 13) = s1.read (.X 11) → t = some tail.id) :=
  ⟨⟨rfl, rfl, rfl, rfl, rfl⟩,
    expandAtomicMinMaxOp_branch (fun _ _ => []) maxFunction [] [] maxBlock
      [⟨.generic 1, [], 0⟩] [⟨.generic 2, [], 0⟩] maxPseudo .Max false 8 true 64 0
      (.X 11) (.X 13) rfl rfl
      (Or.inl ⟨rfl, by decide, rfl, Or.inr ⟨Or.inl rfl, rfl⟩, rfl, rfl⟩)⟩

/-! ## Theorems: the no-change path of the Min/Max expansion -/

theorem bvAdd_zero (w a : Nat) (h : a < 2 ^ w) : bvAdd w a (immValue w 0) = a := by
  simp [bvAdd, immValue_zero, Nat.mod_eq_of_lt h]

/-- The tail block of the integer expansions, executed in a state: its
store-conditional offers the source register to the address register, and the
branch on the status returns to the head block unless the status register
reads zero. -/
theorem execBlock_tail (xlen status : Nat) (SC : RISCV) (hS : SC.isSC)
    (S A src : Register) (head DL : Nat) (s : MachineState) :
    ∃ s2 t2,
      execBlock xlen status [⟨SC, [.Reg S, .Reg A, .Reg src], DL⟩,
        ⟨RISCV.BNE, [.Reg S, .Reg X0, .MBB head .MO_None], DL⟩] s [] =
        some ⟨s2, [(s.read A, s.read src)], t2⟩ ∧
      (S ≠ X0 → status = 0 → t2 = none) ∧
      (S ≠ X0 → status ≠ 0 → t2 = some head) := by
  rw [execBlock_SC xlen status SC hS, execBlock_BNE, execBlock_nil]
  by_cases h0 : S = X0
  · subst h0
    simp only [read_X0, ne_eq, not_true_eq_false, if_false, List.nil_append]
    exact ⟨_, _, rfl, fun h => h.elim, fun h => h.elim⟩
  · have hr : (s.storeConditional S (s.read A) (s.read src) status).read S = status := by
      unfold MachineState.storeConditional
      exact read_write_same _ _ _ h0
    rw [hr, read_X0]
    by_cases hst : status = 0
    · rw [if_neg (by simpa using hst)]
      exact ⟨_, _, rfl, fun _ _ => rfl, fun _ h => absurd hst h⟩
    · rw [if_pos hst]
      exact ⟨_, _, rfl, fun _ h => absurd h hst, fun _ _ => rfl⟩

/-- C12 as stated fails: in the expansion of the signed-maximum pseudo
operation `maxPseudo`, in a state where the memory holds 1 and the value
register holds 1, so that no change is needed, the comparison branch at the end
of the head block is taken, to the tail block, and the tail block executes its
store-conditional, offering the unchanged value 1, before control falls
through to the done block. -/
theorem expandAtomicMinMaxOp_noChange_counterexample :
    ∃ (host head ifb tail done : MachineBasicBlock) (MF' : MachineFunction)
      (s1 s2 : MachineState),
      expandAtomicMinMaxOp (fun _ _ => []) maxFunction 0 1 .Max false 8 true =
        .ok (MF', 1, true) ∧
      MF'.Blocks = [host, head, ifb, tail, done] ∧
      onesState.mem (onesState.read (.C 12)) = 1 ∧ onesState.read (.X 13) = 1 ∧
      execBlock 64 0 head.insts onesState [] = some ⟨s1, [], some tail.id⟩ ∧
      execBlock 64 0 tail.insts s1 [] = some ⟨s2, [(0, 1)], none⟩ :=
  ⟨_, _, _, _, _, _, _, _, rfl, rfl, rfl, rfl, rfl, rfl⟩

/-- C12, amended: in the Min/Max expansion, unmasked and masked, the head
block runs to its comparison branch without a store-conditional, and when that
branch is taken (no change is needed) control passes to the tail block,
skipping the if-body block; the tail block then executes its
store-conditional, which offers to the address the content of the scratch
register, the copy of the loaded value that the head block made: the unchanged
value is stored back. Here the result and the scratch register are not `X0`,
and the registers the head block writes are different from the address
register and from each other. -/
theorem expandAtomicMinMaxOp_noChange_stores (LV : LiveInsOracle) (MF : MachineFunction)
    (Pre Post : List MachineBasicBlock) (MBB : MachineBasicBlock)
    (pre post : List MachineInstr) (P : MachineInstr)
    (BinOp : BinOp) (IsMasked : Bool) (Width : Int) (PtrIsCap : Bool)
    (xlen status : Nat) (D S A : Register)
    (hBlocks : MF.Blocks = Pre ++ MBB :: Post)
    (hinsts : MBB.insts = pre ++ P :: post)
    (hP : (IsMasked = false ∧ BinOp ∈ [.Max, .Min, .UMax, .UMin] ∧
          atomicOperandsOk 4 P.operands = true ∧
          ((Width = 32 ∨ Width = 64) ∨ ((Width = 8 ∨ Width = 16) ∧ PtrIsCap = true)) ∧
          P.operands[0]? = some (.Reg D) ∧ P.operands[1]? = some (.Reg S) ∧
          P.operands[2]? = some (.Reg A)) ∨
        (IsMasked = true ∧ Width = 32 ∧ PtrIsCap = false ∧
          ((BinOp ∈ [.Max, .Min] ∧ atomicOperandsOk 7 P.operands = true) ∨
           (BinOp ∈ [.UMax, .UMin] ∧ atomicOperandsOk 6 P.operands = true)) ∧
          maskedRegsOk P.operands 5 = true ∧
          P.operands[0]? = some (.Reg D) ∧ P.operands[1]? = some (.Reg S) ∧
          P.operands[3]? = some (.Reg A) ∧
          ∃ S2, P.operands[2]? = some (.Reg S2) ∧ S2 ≠ D ∧ S2 ≠ S ∧ S2 ≠ A))
    (hD0 : D ≠ X0) (hS0 : S ≠ X0) (hAD : A ≠ D) (hAS : A ≠ S) :
    ∃ (host head ifb tail done : MachineBasicBlock) (MF' : MachineFunction),
      expandAtomicMinMaxOp LV MF Pre.length pre.length BinOp IsMasked Width PtrIsCap =
        .ok (MF', pre.length, true) ∧
      MF'.Blocks = Pre ++ host :: head :: ifb :: tail :: done :: Post ∧
      ∀ s : MachineState, s.mem (s.read A) < 2 ^ xlen →
        ∃ s1 t, execBlock xlen status head.insts s [] = some ⟨s1, [], t⟩ ∧
          (t = none ∨ t = some tail.id) ∧
          (t = some tail.id →
            ∃ s2 t2, execBlock xlen status tail.insts s1 [] =
              some ⟨s2, [(s.read A, s.mem (s.read A))], t2⟩) := by
  rcases hP with ⟨rfl, hop, hops, hW, hd, hs, ha⟩ |
    ⟨rfl, rfl, rfl, hsu, hm, hd, hs, ha, S2, hs2, h2D, h2S, h2A⟩
  · obtain ⟨D', S', A', V, o, rest, hops, hleg⟩ := atomicOperandsOk_four hops
    rw [hops] at hd hs ha
    simp only [List.getElem?_cons_succ, List.getElem?_cons_zero, Option.some.injEq,
      MachineOperand.Reg.injEq] at hd hs ha
    subst hd hs ha
    obtain ⟨LR, hLR⟩ := getLRForRMW_ok PtrIsCap _ Width hleg hW
    obtain ⟨SC, hSC⟩ := getSCForRMW_ok PtrIsCap _ Width hleg hW
    have hL := getLRForRMW_isLR hLR
    have hSc := getSCForRMW_isSC hSC
    obtain ⟨host, head, ifb, tail, done, MF', br, hr, hBl, -, -, htail, -, -, -, hbr, hhead,
      -, htl⟩ := expandAtomicMinMaxOp_unmasked_shape LV MF Pre Post MBB pre post P BinOp
        Width PtrIsCap D' S' A' V o rest LR SC hBlocks hinsts hops hLR hSC hop
    refine ⟨host, head, ifb, tail, done, MF', hr, hBl, fun s hold => ?_⟩
    rw [hhead, htail, execBlock_LR xlen status LR hL, execBlock_ADDI]
    obtain ⟨t, h1, h2, -, -⟩ := execBlock_minMaxBranch xlen status BinOp S' V
      (MF.nextBlock + 2) P.DL br _ [] hbr
    refine ⟨_, t, h1, h2, fun _ => ?_⟩
    rw [htl]
    obtain ⟨s2, t2, h3, -, -⟩ := execBlock_tail xlen status SC hSc S' A' S' MF.nextBlock
      P.DL ((s.write D' (s.mem (s.read A'))).write S'
        (bvAdd xlen ((s.write D' (s.mem (s.read A'))).read D') (immValue xlen 0)))
    refine ⟨s2, t2, ?_⟩
    rw [h3]
    simp [read_write_same, read_write_other, hD0, hS0, hAD, hAS, bvAdd_zero, hold]
  · obtain ⟨d, s1, m, hd', hs1, hm5, hds, hdm, hsm⟩ := maskedRegsOk_spec hm
    rcases hsu with ⟨hop, hops⟩ | ⟨hop, hops⟩
    · obtain ⟨D', S1, S2', A', V, M, Sh, o, rest, hops, hleg⟩ := atomicOperandsOk_seven hops
      rw [hops] at hd hs ha hs2 hd' hs1 hm5
      simp only [List.getElem?_cons_succ, List.getElem?_cons_zero, Option.some.injEq,
        MachineOperand.Reg.injEq] at hd hs ha hs2 hd' hs1 hm5
      subst hd hs ha hs2 hd' hs1 hm5
      obtain ⟨LR, hLR⟩ := getLRForRMW32_ok false _ hleg
      obtain ⟨SC, hSC⟩ := getSCForRMW32_ok false _ hleg
      have hL := getLRForRMW32_isLR hLR
      have hSc := getSCForRMW32_isSC hSC
      obtain ⟨host, head, ifb, tail, done, MF', br, hr, hBl, -, -, htail, -, -, -, hbr,
        hhead, -, htl⟩ := expandAtomicMinMaxOp_signed_shape LV MF Pre Post MBB pre post P
          BinOp D' S1 S2' A' V M Sh o rest LR SC hBlocks hinsts hops hLR hSC hds hdm hsm hop
      refine ⟨host, head, ifb, tail, done, MF', hr, hBl, fun s hold => ?_⟩
      rw [hhead, htail, execBlock_LR xlen status LR hL, execBlock_AND, execBlock_ADDI,
        execBlock_SLL, execBlock_SRA]
      obtain ⟨t, h1, h2, -, -⟩ := execBlock_minMaxBranch xlen status BinOp S2' V
        (MF.nextBlock + 2) P.DL br _ [] hbr
      refine ⟨_, t, h1, h2, fun _ => ?_⟩
      rw [htl]
      obtain ⟨s2, t2, h3, -, -⟩ := execBlock_tail xlen status SC hSc S1 A' S1 MF.nextBlock
        P.DL _
      refine ⟨s2, t2, ?_⟩
      rw [h3]
      simp [read_write_same, read_write_other, hD0, hS0, hAD, hAS, bvAdd_zero, hold,
        h2D, h2S, h2A, Ne.symm h2D, Ne.symm h2S, Ne.symm h2A]
    · obtain ⟨D', S1, S2', A', V, M, o, rest, hops, hleg⟩ := atomicOperandsOk_six hops
      rw [hops] at hd hs ha hs2 hd' hs1 hm5
      simp only [List.getElem?_cons_succ, List.getElem?_cons_zero, Option.some.injEq,
        MachineOperand.Reg.injEq] at hd hs ha hs2 hd' hs1 hm5
      subst hd hs ha hs2 hd' hs1 hm5
      obtain ⟨LR, hLR⟩ := getLRForRMW32_ok false _ hleg
      obtain ⟨SC, hSC⟩ := getSCForRMW32_ok false _ hleg
      have hL := getLRForRMW32_isLR hLR
      have hSc := getSCForRMW32_isSC hSC
      obtain ⟨host, head, ifb, tail, done, MF', br, hr, hBl, -, -, htail, -, -, -, hbr,
        hhead, -, htl⟩ := expandAtomicMinMaxOp_unsigned_shape LV MF Pre Post MBB pre post P
          BinOp D' S1 S2' A' V M o rest LR SC hBlocks hinsts hops hLR hSC hds hdm hsm hop
      refine ⟨host, head, ifb, tail, done, MF', hr, hBl, fun s hold => ?_⟩
      rw [hhead, htail, execBlock_LR xlen status LR hL, execBlock_AND, execBlock_ADDI]
      obtain ⟨t, h1, h2, -, -⟩ := execBlock_minMaxBranch xlen status BinOp S2' V
        (MF.nextBlock + 2) P.DL br _ [] hbr
      refine ⟨_, t, h1, h2, fun _ => ?_⟩
      rw [htl]
      obtain ⟨s2, t2, h3, -, -⟩ := execBlock_tail xlen status SC hSc S1 A' S1 MF.nextBlock
        P.DL _
      refine ⟨s2, t2, ?_⟩
      rw [h3]
      simp [read_write_same, read_write_other, hD0, hS0, hAD, hAS, bvAdd_zero, hold,
        h2D, h2S, h2A, Ne.symm h2D, Ne.symm h2S, Ne.symm h2A]

theorem expandAtomicMinMaxOp_noChange_stores_witness :
    (maxFunction.Blocks = [] ++ maxBlock :: [] ∧
      maxBlock.insts = [⟨.generic 1, [], 0⟩] ++ maxPseudo :: [⟨.generic 2, [], 0⟩] ∧
      atomicOperandsOk 4 maxPseudo.operands = true ∧
      Register.X 10 ≠ X0 ∧ Register.X 11 ≠ X0 ∧ Register.C 12 ≠ Register.X 10 ∧
      Register.C 12 ≠ Register.X 11) ∧
    ∃ (host head ifb tail done : MachineBasicBlock) (MF' : MachineFunction),
      expandAtomicMinMaxOp (fun _ _ => []) maxFunction 0 1 .Max false 8 true =
        .ok (MF', 1, true) ∧
      MF'.Blocks = [] ++ host :: head :: ifb :: tail :: done :: [] ∧
      ∀ s : MachineState, s.mem (s.read (.C 12)) < 2 ^ 64 →
        ∃ s1 t, execBlock 64 0 head.insts s [] = some ⟨s1, [], t⟩ ∧
          (t = none ∨ t = some tail.id) ∧
          (t = some tail.id →
            ∃ s2 t2, execBlock 64 0 tail.insts s1 [] =
              some ⟨s2, [(s.read (.C 12), s.mem (s.read (.C 12)))], t2⟩) :=
  ⟨⟨rfl, rfl, rfl, by decide, by decide, by decide, by decide⟩,
    expandAtomicMinMaxOp_noChange_stores (fun _ _ => []) maxFunction [] [] maxBlock
      [⟨.generic 1, [], 0⟩] [⟨.generic 2, [], 0⟩] maxPseudo .Max false 8 true 64 0
      (.X 10) (.X 11) (.C 12) rfl rfl
      (Or.inl ⟨rfl, by decide, rfl, Or.inr ⟨Or.inl rfl, rfl⟩, rfl, rfl, rfl⟩)
      (by decide) (by decide) (by decide) (by decide)⟩

/-! ## Theorems: the value the Min/Max expansion stores -/

theorem minMaxValue_replaces (w : Nat) (BinOp : BinOp) (old v : Nat)
    (hop : BinOp ∈ [.Max, .Min, .UMax, .UMin]) :
    minMaxValue w BinOp old v =
      some (if incomingReplaces w BinOp old v = true then v else old) := by
  simp only [List.mem_cons, List.mem_singleton, List.not_mem_nil, or_false] at hop
  rcases hop with rfl | rfl | rfl | rfl <;>
    simp only [minMaxValue, incomingReplaces, signedMax, signedMin, decide_eq_true_eq,
      Option.some.injEq]
  · split <;> split <;> first | rfl | omega
  · split <;> split <;> first | rfl | omega
  · rw [Nat.max_def]
    split <;> split <;> omega
  · rw [Nat.min_def]
    split <;> split <;> omega

/-- C13 as stated fails when the result register is `X0`: for the
signed-minimum pseudo operation `minPseudoResultX0`, whose result, scratch,
address and value registers `X0`, `X 11`, `C 12`, `X 13` are pairwise distinct,
in a state where the memory holds 1 and the value register holds 1, the branch
at the end of the head block is taken and the store-conditional of the tail
block offers 0, and not the signed minimum of 1 and 1, which is 1. -/
theorem expandAtomicMinMaxOp_resultX0_counterexample :
    ∃ (host head ifb tail done : MachineBasicBlock) (MF' : MachineFunction)
      (s1 s2 : MachineState),
      expandAtomicMinMaxOp (fun _ _ => []) minResultX0Function 0 1 .Min false 8 true =
        .ok (MF', 1, true) ∧
      MF'.Blocks = [host, head, ifb, tail, done] ∧
      minPseudoResultX0.operands =
        [.Reg X0, .Reg (.X 11), .Reg (.C 12), .Reg (.X 13), .Imm 7] ∧
      onesState.mem (onesState.read (.C 12)) = 1 ∧ onesState.read (.X 13) = 1 ∧
      minMaxValue 64 .Min 1 1 = some 1 ∧
      execBlock 64 0 head.insts onesState [] = some ⟨s1, [], some tail.id⟩ ∧
      execBlock 64 0 tail.insts s1 [] = some ⟨s2, [(0, 0)], none⟩ :=
  ⟨_, _, _, _, _, _, _, _, rfl, rfl, rfl, rfl, rfl, rfl, rfl, rfl⟩

/-- C13, amended: for the unmasked Min/Max expansion in which neither the
result nor the scratch register is `X0` and the value and address registers
are different from the result and scratch registers, for every loaded value
old and incoming value v of `xlen` bits, the store-conditional of the tail
block offers to the address the signed maximum of old and v for Max, the
signed minimum for Min, the unsigned maximum for UMax and the unsigned minimum
for UMin, on the path from the head block straight to the tail block and on
the path through the if-body block. -/
theorem expandAtomicMinMaxOp_value (LV : LiveInsOracle) (MF : MachineFunction)
    (Pre Post : List MachineBasicBlock) (MBB : MachineBasicBlock)
    (pre post : List MachineInstr) (P : MachineInstr)
    (BinOp : BinOp) (Width : Int) (PtrIsCap : Bool) (xlen status : Nat)
    (D S A V : Register) (o : Int) (rest : List MachineOperand) (LR SC : RISCV)
    (hBlocks : MF.Blocks = Pre ++ MBB :: Post)
    (hinsts : MBB.insts = pre ++ P :: post)
    (hops : P.operands = .Reg D :: .Reg S :: .Reg A :: .Reg V :: .Imm o :: rest)
    (hLR : getLRForRMW PtrIsCap (AtomicOrdering.ofImm o) Width = .ok LR)
    (hSC : getSCForRMW PtrIsCap (AtomicOrdering.ofImm o) Width = .ok SC)
    (hop : BinOp ∈ [.Max, .Min, .UMax, .UMin])
    (hD0 : D ≠ X0) (hS0 : S ≠ X0) (hVD : V ≠ D) (hVS : V ≠ S) (hAD : A ≠ D)
    (hAS : A ≠ S) :
    ∃ (host head ifb tail done : MachineBasicBlock) (MF' : MachineFunction),
      expandAtomicMinMaxOp LV MF Pre.length pre.length BinOp false Width PtrIsCap =
        .ok (MF', pre.length, true) ∧
      MF'.Blocks = Pre ++ host :: head :: ifb :: tail :: done :: Post ∧
      ∀ s : MachineState, s.mem (s.read A) < 2 ^ xlen → s.read V < 2 ^ xlen →
        ∃ m s1 t,
          minMaxValue xlen BinOp (s.mem (s.read A)) (s.read V) = some m ∧
          execBlock xlen status head.insts s [] = some ⟨s1, [], t⟩ ∧
          (t = none ∨ t = some tail.id) ∧
          (t = some tail.id →
            ∃ s2 t2, execBlock xlen status tail.insts s1 [] =
              some ⟨s2, [(s.read A, m)], t2⟩) ∧
          (t = none →
            ∃ s1', execBlock xlen status ifb.insts s1 [] = some ⟨s1', [], none⟩ ∧
              ∃ s2 t2, execBlock xlen status tail.insts s1' [] =
                some ⟨s2, [(s.read A, m)], t2⟩) := by
  have hL := getLRForRMW_isLR hLR
  have hSc := getSCForRMW_isSC hSC
  obtain ⟨host, head, ifb, tail, done, MF', br, hr, hBl, -, -, htail, -, -, -, hbr, hhead,
    hifb, htl⟩ := expandAtomicMinMaxOp_unmasked_shape LV MF Pre Post MBB pre post P BinOp
      Width PtrIsCap D S A V o rest LR SC hBlocks hinsts hops hLR hSC hop
  refine ⟨host, head, ifb, tail, done, MF', hr, hBl, fun s hold hv => ?_⟩
  rw [hhead, htail, hifb, htl, execBlock_LR xlen status LR hL, execBlock_ADDI,
    minMaxValue_replaces xlen BinOp _ _ hop]
  obtain ⟨t, h1, h2, h3, -⟩ := execBlock_minMaxBranch xlen status BinOp S V
    (MF.nextBlock + 2) P.DL br
    ((s.write D (s.mem (s.read A))).write S
      (bvAdd xlen ((s.write D (s.mem (s.read A))).read D) (immValue xlen 0))) [] hbr
  have eS : (((s.write D (s.mem (s.read A))).write S
      (bvAdd xlen ((s.write D (s.mem (s.read A))).read D) (immValue xlen 0))).read S) =
      s.mem (s.read A) := by
    simp [read_write_same, read_write_other, hD0, hS0, bvAdd_zero, hold]
  have eV : (((s.write D (s.mem (s.read A))).write S
      (bvAdd xlen ((s.write D (s.mem (s.read A))).read D) (immValue xlen 0))).read V) =
      s.read V := by
    simp [read_write_other, hVD, hVS]
  have eA : (((s.write D (s.mem (s.read A))).write S
      (bvAdd xlen ((s.write D (s.mem (s.read A))).read D) (immValue xlen 0))).read A) =
      s.read A := by
    simp [read_write_other, hAD, hAS]
  rw [eS, eV] at h3
  refine ⟨_, _, t, rfl, h1, h2, fun ht => ?_, fun ht => ?_⟩
  · have hn : ¬ incomingReplaces xlen BinOp (s.mem (s.read A)) (s.read V) = true := by
      intro hc
      rw [h3.2 hc] at ht
      cases ht
    rw [if_neg hn]
    obtain ⟨s2, t2, h4, -, -⟩ := execBlock_tail xlen status SC hSc S A S MF.nextBlock
      P.DL ((s.write D (s.mem (s.read A))).write S
        (bvAdd xlen ((s.write D (s.mem (s.read A))).read D) (immValue xlen 0)))
    rw [eS, eA] at h4
    exact ⟨s2, t2, h4⟩
  · rw [if_pos (h3.1 ht), execBlock_ADDI, execBlock_nil]
    refine ⟨_, rfl, ?_⟩
    obtain ⟨s2, t2, h4, -, -⟩ := execBlock_tail xlen status SC hSc S A S MF.nextBlock
      P.DL (((s.write D (s.mem (s.read A))).write S
        (bvAdd xlen ((s.write D (s.mem (s.read A))).read D) (immValue xlen 0))).write S
          (bvAdd xlen (((s.write D (s.mem (s.read A))).write S
            (bvAdd xlen ((s.write D (s.mem (s.read A))).read D)
              (immValue xlen 0))).read V) (immValue xlen 0)))
    refine ⟨s2, t2, ?_⟩
    rw [h4]
    simp [read_write_same, read_write_other, hS0, hVD, hVS, hAD, hAS, bvAdd_zero, hv]

theorem expandAtomicMinMaxOp_value_witness :
    (maxFunction.Blocks = [] ++ maxBlock :: [] ∧
      maxBlock.insts = [⟨.generic 1, [], 0⟩] ++ maxPseudo :: [⟨.generic 2, [], 0⟩] ∧
      maxPseudo.operands = .Reg (.X 10) :: .Reg (.X 11) :: .Reg (.C 12) ::
        .Reg (.X 13) :: .Imm 7 :: [] ∧
      getLRForRMW true (AtomicOrdering.ofImm 7) 8 = .ok .CLR_B_AQ_RL ∧
      getSCForRMW true (AtomicOrdering.ofImm 7) 8 = .ok .CSC_B_AQ_RL ∧
      Register.X 10 ≠ X0 ∧ Register.X 11 ≠ X0 ∧ Register.X 13 ≠ Register.X 10 ∧
      Register.X 13 ≠ Register.X 11 ∧ Register.C 12 ≠ Register.X 10 ∧
      Register.C 12 ≠ Register.X 11) ∧
    ∃ (host head ifb tail done : MachineBasicBlock) (MF' : MachineFunction),
      expandAtomicMinMaxOp (fun _ _ => []) maxFunction 0 1 .Max false 8 true =
        .ok (MF', 1, true) ∧
      MF'.Blocks = [] ++ host :: head :: ifb :: tail :: done :: [] ∧
      ∀ s : MachineState, s.mem (s.read (.C 12)) < 2 ^ 64 → s.read (.X 13) < 2 ^ 64 →
        ∃ m s1 t,
          minMaxValue 64 .Max (s.mem (s.read (.C 12))) (s.read (.X 13)) = some m ∧
          execBlock 64 0 head.insts s [] = some ⟨s1, [], t⟩ ∧
          (t = none ∨ t = some tail.id) ∧
          (t = some tail.id →
            ∃ s2 t2, execBlock 64 0 tail.insts s1 [] =
              some ⟨s2, [(s.read (.C 12), m)], t2⟩) ∧
          (t = none →
            ∃ s1', execBlock 64 0 ifb.insts s1 [] = some ⟨s1', [], none⟩ ∧
              ∃ s2 t2, execBlock 64 0 tail.insts s1' [] =
                some ⟨s2, [(s.read (.C 12), m)], t2⟩) :=
  ⟨⟨rfl, rfl, rfl, rfl, rfl, by decide, by decide, by decide, by decide, by decide,
      by decide⟩,
    expandAtomicMinMaxOp_value (fun _ _ => []) maxFunction [] [] maxBlock
      [⟨.generic 1, [], 0⟩] [⟨.generic 2, [], 0⟩] maxPseudo .Max 8 true 64 0
      (.X 10) (.X 11) (.C 12) (.X 13) 7 [] .CLR_B_AQ_RL .CSC_B_AQ_RL rfl rfl rfl rfl rfl
      (by decide) (by decide) (by decide) (by decide) (by decide) (by decide)
      (by decide)⟩

/-! ## Theorems: the compare-and-swap expansions in execution -/

theorem getLRForRMWCap_capLR {c : Bool} {o : AtomicOrdering} {w : Int} {L : RISCV}
    (h : getLRForRMWCap c o w = .ok L) (ops : List MachineOperand) (DL : Nat) :
    MachineInstr.isCapLoadReserved ⟨L, ops, DL⟩ = true := by
  by_cases hw : w = 64 <;> cases c <;> cases o <;>
    simp [getLRForRMWCap, hw] at h <;> subst h <;> rfl

theorem getSCForRMWCap_capSC {c : Bool} {o : AtomicOrdering} {w : Int} {L : RISCV}
    (h : getSCForRMWCap c o w = .ok L) (ops : List MachineOperand) (DL : Nat) :
    MachineInstr.isCapLoadReserved ⟨L, ops, DL⟩ = false ∧
      MachineInstr.isCapStoreConditional ⟨L, ops, DL⟩ = true := by
  by_cases hw : w = 64 <;> cases c <;> cases o <;>
    simp [getSCForRMWCap, hw] at h <;> subst h <;> exact ⟨rfl, rfl⟩

theorem execCapBlock_LR (status : Nat) (L : RISCV) (rd rs1 : Register) (DL : Nat)
    (hL : MachineInstr.isCapLoadReserved ⟨L, [.Reg rd, .Reg rs1], DL⟩ = true)
    (rest : List MachineInstr) (s : CapMachineState) (off : List (Nat × Capability)) :
    execCapBlock status (⟨L, [.Reg rd, .Reg rs1], DL⟩ :: rest) s off =
      execCapBlock status rest (s.writeCap rd (s.mem (s.readCap rs1).address)) off := by
  simp [execCapBlock, hL]

theorem execCapBlock_SC (status : Nat) (S : RISCV) (rd rs1 rs2 : Register) (DL : Nat)
    (hS : MachineInstr.isCapLoadReserved ⟨S, [.Reg rd, .Reg rs1, .Reg rs2], DL⟩ = false ∧
      MachineInstr.isCapStoreConditional ⟨S, [.Reg rd, .Reg rs1, .Reg rs2], DL⟩ = true)
    (rest : List MachineInstr) (s : CapMachineState) (off : List (Nat × Capability)) :
    execCapBlock status (⟨S, [.Reg rd, .Reg rs1, .Reg rs2], DL⟩ :: rest) s off =
      execCapBlock status rest
        ((if status = 0 then
            { s with mem := fun a =>
                if a = (s.readCap rs1).address then s.readCap rs2 else s.mem a }
          else s).writeCap rd ⟨0, status⟩)
        (off ++ [((s.readCap rs1).address, s.readCap rs2)]) := by
  simp [execCapBlock, hS.1, hS.2]

theorem execCapBlock_BNE (status : Nat) (rs1 rs2 : Register) (t : Nat) (f : TargetFlag)
    (DL : Nat) (rest : List MachineInstr) (s : CapMachineState)
    (off : List (Nat × Capability)) :
    execCapBlock status (⟨RISCV.BNE, [.Reg rs1, .Reg rs2, .MBB t f], DL⟩ :: rest) s off =
      if (s.readCap rs1).address ≠ (s.readCap rs2).address then some ⟨s, off, some t⟩
      else execCapBlock status rest s off := by
  have h1 : MachineInstr.isCapLoadReserved
      ⟨RISCV.BNE, [.Reg rs1, .Reg rs2, .MBB t f], DL⟩ = false := rfl
  have h2 : MachineInstr.isCapStoreConditional
      ⟨RISCV.BNE, [.Reg rs1, .Reg rs2, .MBB t f], DL⟩ = false := rfl
  simp [execCapBlock, h1, h2]

theorem readCap_C_writeCap_same (s : CapMachineState) (d : Nat) (c : Capability)
    (hd : d ≠ 0) : (s.writeCap (.C d) c).readCap (.C d) = c := by
  simp [CapMachineState.readCap, CapMachineState.writeCap, hd]

theorem readCap_X_writeCap_same (s : CapMachineState) (d : Nat) (c : Capability)
    (hd : d ≠ 0) : ((s.writeCap (.C d) c).readCap (.X d)).address = c.address := by
  simp [CapMachineState.readCap, CapMachineState.writeCap, hd]

theorem readCap_writeCap_other (s : CapMachineState) (d : Nat) (c : Capability)
    (r : Register) (h1 : r ≠ .C d) (h2 : r ≠ .X d) :
    (s.writeCap (.C d) c).readCap r = s.readCap r := by
  cases r with
  | NoRegister => rfl
  | X n =>
    have hn : n ≠ d := fun h => h2 (by rw [h])
    simp [CapMachineState.readCap, CapMachineState.writeCap, hn]
  | C n =>
    have hn : n ≠ d := fun h => h1 (by rw [h])
    simp [CapMachineState.readCap, CapMachineState.writeCap, hn]

theorem readCap_X_address (s : CapMachineState) (n : Nat) :
    (s.readCap (.X n)).address = (s.readCap (.C n)).address := by
  by_cases h : n = 0 <;> simp [CapMachineState.readCap, h]

theorem isStoreConditional_BNE (ops : List MachineOperand) (DL : Nat) :
    MachineInstr.isStoreConditional ⟨RISCV.BNE, ops, DL⟩ = false := rfl

theorem isStoreConditional_AND (ops : List MachineOperand) (DL : Nat) :
    MachineInstr.isStoreConditional ⟨RISCV.AND, ops, DL⟩ = false := rfl

theorem isStoreConditional_XOR (ops : List MachineOperand) (DL : Nat) :
    MachineInstr.isStoreConditional ⟨RISCV.XOR, ops, DL⟩ = false := rfl

/-- C14: in every compare-and-swap expansion the head block holds no
store-conditional and ends with the BNE of the compared value and the expected
value that targets the done block, and the tail block holds the one
store-conditional. In the unmasked expansion the compared value is the loaded
value, in the masked expansion the loaded value ANDed with the mask, in the
capability expansion the address field of the loaded capability against the
address field of the expected capability. In every state in which the compared
value differs from the expected value, the head block ends by the branch to the
done block and no store-conditional has been executed. Here the result
register (and in the masked expansion the scratch register) is not register
number 0 and differs from the register of the expected value. -/
theorem expandAtomicCmpXchg_mismatch (LV : LiveInsOracle) (MF : MachineFunction)
    (Pre Post : List MachineBasicBlock) (MBB : MachineBasicBlock)
    (pre post : List MachineInstr) (P : MachineInstr) (xlen status : Nat)
    (hBlocks : MF.Blocks = Pre ++ MBB :: Post)
    (hinsts : MBB.insts = pre ++ P :: post) :
    (∀ (Width : Int) (PtrIsCap : Bool) (D S A C N : Register) (o : Int)
        (rest : List MachineOperand) (LR SC : RISCV),
      P.operands = .Reg D :: .Reg S :: .Reg A :: .Reg C :: .Reg N :: .Imm o :: rest →
      getLRForRMW PtrIsCap (AtomicOrdering.ofImm o) Width = .ok LR →
      getSCForRMW PtrIsCap (AtomicOrdering.ofImm o) Width = .ok SC →
      D ≠ X0 → C ≠ D →
      ∃ (host head tail done : MachineBasicBlock) (MF' : MachineFunction),
        expandAtomicCmpXchg LV MF Pre.length pre.length false Width PtrIsCap =
          .ok (MF', pre.length, true) ∧
        MF'.Blocks = Pre ++ host :: head :: tail :: done :: Post ∧
        (∀ MI ∈ head.insts, MI.isStoreConditional = false) ∧
        head.insts.getLast? =
          some ⟨RISCV.BNE, [.Reg D, .Reg C, .MBB done.id .MO_None], P.DL⟩ ∧
        (tail.insts.filter (fun MI => MI.isStoreConditional)).length = 1 ∧
        ∀ s : MachineState, s.mem (s.read A) ≠ s.read C →
          ∃ s1, execBlock xlen status head.insts s [] = some ⟨s1, [], some done.id⟩) ∧
    (∀ (D S A C N M : Register) (o : Int) (rest : List MachineOperand) (LR SC : RISCV),
      P.operands = .Reg D :: .Reg S :: .Reg A :: .Reg C :: .Reg N :: .Reg M :: .Imm o ::
        rest →
      getLRForRMW false (AtomicOrdering.ofImm o) 32 = .ok LR →
      getSCForRMW false (AtomicOrdering.ofImm o) 32 = .ok SC →
      D ≠ S → D ≠ M → S ≠ M → D ≠ X0 → S ≠ X0 → C ≠ D → C ≠ S →
      ∃ (host head tail done : MachineBasicBlock) (MF' : MachineFunction),
        expandAtomicCmpXchg LV MF Pre.length pre.length true 32 false =
          .ok (MF', pre.length, true) ∧
        MF'.Blocks = Pre ++ host :: head :: tail :: done :: Post ∧
        (∀ MI ∈ head.insts, MI.isStoreConditional = false) ∧
        head.insts.getLast? =
          some ⟨RISCV.BNE, [.Reg S, .Reg C, .MBB done.id .MO_None], P.DL⟩ ∧
        (tail.insts.filter (fun MI => MI.isStoreConditional)).length = 1 ∧
        ∀ s : MachineState, s.mem (s.read A) &&& s.read M ≠ s.read C →
          ∃ s1, execBlock xlen status head.insts s [] = some ⟨s1, [], some done.id⟩) ∧
    (∀ (PtrIsCap : Bool) (d c : Nat) (S A N : Register) (o : Int)
        (rest : List MachineOperand) (LR SC : RISCV),
      P.operands = .Reg (.C d) :: .Reg S :: .Reg A :: .Reg (.C c) :: .Reg N :: .Imm o ::
        rest →
      getLRForRMWCap PtrIsCap (AtomicOrdering.ofImm o) MF.CLen = .ok LR →
      getSCForRMWCap PtrIsCap (AtomicOrdering.ofImm o) MF.CLen = .ok SC →
      d ≠ 0 → c ≠ d →
      ∃ (host head tail done : MachineBasicBlock) (MF' : MachineFunction),
        expandAtomicCmpXchgCap LV MF Pre.length pre.length PtrIsCap =
          .ok (MF', pre.length, true) ∧
        MF'.Blocks = Pre ++ host :: head :: tail :: done :: Post ∧
        (∀ MI ∈ head.insts, MI.isStoreConditional = false) ∧
        head.insts.getLast? =
          some ⟨RISCV.BNE, [.Reg (.X d), .Reg (.X c), .MBB done.id .MO_None], P.DL⟩ ∧
        (tail.insts.filter (fun MI => MI.isStoreConditional)).length = 1 ∧
        ∀ s : CapMachineState,
          (s.mem (s.readCap A).address).address ≠ (s.readCap (.C c)).address →
          ∃ s1, execCapBlock status head.insts s [] = some ⟨s1, [], some done.id⟩) := by
  refine ⟨?_, ?_, ?_⟩
  · intro Width PtrIsCap D S A C N o rest LR SC hops hLR hSC hD0 hCD
    have hL := getLRForRMW_isLR hLR
    have hSc := getSCForRMW_isSC hSC
    obtain ⟨host, head, tail, done, MF', hr, hBl, -, -, hdone, -, -, hhead, htl⟩ :=
      expandAtomicCmpXchg_unmasked_shape LV MF Pre Post MBB pre post P Width PtrIsCap
        D S A C N o rest LR SC hBlocks hinsts hops hLR hSC
    refine ⟨host, head, tail, done, MF', hr, hBl, ?_, ?_, ?_, fun s hne => ?_⟩
    · intro MI hMI
      rw [hhead] at hMI
      simp only [List.mem_cons, List.mem_singleton, List.not_mem_nil, or_false] at hMI
      rcases hMI with rfl | rfl
      · exact isStoreConditional_LR LR hL _ _
      · rfl
    · rw [hhead, hdone]; rfl
    · rw [htl]
      simp [List.filter, isStoreConditional_SC SC hSc, isStoreConditional_BNE]
    · rw [hhead, hdone, execBlock_LR xlen status LR hL, execBlock_BNE,
        read_write_same _ _ _ hD0, read_write_other _ _ _ _ hCD, if_pos hne]
      exact ⟨_, rfl⟩
  · intro D S A C N M o rest LR SC hops hLR hSC hDS hDM hSM hD0 hS0 hCD hCS
    have hL := getLRForRMW_isLR hLR
    have hSc := getSCForRMW_isSC hSC
    obtain ⟨host, head, tail, done, MF', hr, hBl, -, -, hdone, -, -, hhead, htl⟩ :=
      expandAtomicCmpXchg_masked_shape LV MF Pre Post MBB pre post P
        D S A C N M o rest LR SC hBlocks hinsts hops hLR hSC hDS hDM hSM
    refine ⟨host, head, tail, done, MF', hr, hBl, ?_, ?_, ?_, fun s hne => ?_⟩
    · intro MI hMI
      rw [hhead] at hMI
      simp only [List.mem_cons, List.mem_singleton, List.not_mem_nil, or_false] at hMI
      rcases hMI with rfl | rfl | rfl
      · exact isStoreConditional_LR LR hL _ _
      · rfl
      · rfl
    · rw [hhead, hdone]; rfl
    · rw [htl]
      simp [List.filter, isStoreConditional_SC SC hSc, isStoreConditional_BNE,
        isStoreConditional_AND, isStoreConditional_XOR]
    · rw [hhead, hdone, execBlock_LR xlen status LR hL, execBlock_AND, execBlock_BNE]
      have e1 : ((s.write D (s.mem (s.read A))).write S
          ((s.write D (s.mem (s.read A))).read D &&&
            (s.write D (s.mem (s.read A))).read M)).read S =
          s.mem (s.read A) &&& s.read M := by
        simp [read_write_same, read_write_other, hD0, hS0, Ne.symm hDM]
      have e2 : ((s.write D (s.mem (s.read A))).write S
          ((s.write D (s.mem (s.read A))).read D &&&
            (s.write D (s.mem (s.read A))).read M)).read C = s.read C := by
        simp [read_write_other, hCD, hCS]
      rw [e1, e2, if_pos hne]
      exact ⟨_, rfl⟩
  · intro PtrIsCap d c S A N o rest LR SC hops hLR hSC hd hcd
    have hL := getLRForRMWCap_isLR hLR
    have hSc := getSCForRMWCap_isSC hSC
    obtain ⟨host, head, tail, done, MF', hr, hBl, -, -, hdone, -, -, hhead, htl⟩ :=
      expandAtomicCmpXchgCap_shape LV MF Pre Post MBB pre post P PtrIsCap
        (.C d) S A (.C c) N o rest LR SC hBlocks hinsts hops hLR hSC
    simp only [getSubReg_sub_cap_addr] at hhead
    refine ⟨host, head, tail, done, MF', hr, hBl, ?_, ?_, ?_, fun s hne => ?_⟩
    · intro MI hMI
      rw [hhead] at hMI
      simp only [List.mem_cons, List.mem_singleton, List.not_mem_nil, or_false] at hMI
      rcases hMI with rfl | rfl
      · exact isStoreConditional_LR LR hL _ _
      · rfl
    · rw [hhead, hdone]; rfl
    · rw [htl]
      simp [List.filter, isStoreConditional_SC SC hSc, isStoreConditional_BNE]
    · rw [hhead, hdone, execCapBlock_LR status LR _ _ _ (getLRForRMWCap_capLR hLR _ _),
        execCapBlock_BNE, readCap_X_writeCap_same _ _ _ hd, readCap_X_address,
        readCap_writeCap_other _ _ _ _ (by simp [hcd]) (by simp), if_pos hne]
      exact ⟨_, rfl⟩

theorem expandAtomicCmpXchg_mismatch_witness :
    (cmpXchgFunction.Blocks = [] ++ cmpXchgBlock :: [] ∧
      cmpXchgBlock.insts =
        [⟨.generic 1, [], 0⟩] ++ cmpXchgPseudo :: [⟨.generic 2, [], 0⟩] ∧
      cmpXchgPseudo.operands = .Reg (.X 10) :: .Reg (.X 11) :: .Reg (.X 12) ::
        .Reg (.X 13) :: .Reg (.X 14) :: .Imm 7 :: [] ∧
      Register.X 10 ≠ X0 ∧ Register.X 13 ≠ Register.X 10) ∧
    (∃ (host head tail done : MachineBasicBlock) (MF' : MachineFunction),
        expandAtomicCmpXchg (fun _ _ => []) cmpXchgFunction 0 1 false 32 false =
          .ok (MF', 1, true) ∧
        MF'.Blocks = [] ++ host :: head :: tail :: done :: [] ∧
        (∀ MI ∈ head.insts, MI.isStoreConditional = false) ∧
        head.insts.getLast? =
          some ⟨RISCV.BNE, [.Reg (.X 10), .Reg (.X 13), .MBB done.id .MO_None], 0⟩ ∧
        (tail.insts.filter (fun MI => MI.isStoreConditional)).length = 1 ∧
        ∀ s : MachineState, s.mem (s.read (.X 12)) ≠ s.read (.X 13) →
          ∃ s1, execBlock 64 0 head.insts s [] = some ⟨s1, [], some done.id⟩) ∧
    (∃ (host head tail done : MachineBasicBlock) (MF' : MachineFunction),
        expandAtomicCmpXchg (fun _ _ => []) maskedCmpXchgFunction 0 1 true 32 false =
          .ok (MF', 1, true) ∧
        MF'.Blocks = [] ++ host :: head :: tail :: done :: [] ∧
        (∀ MI ∈ head.insts, MI.isStoreConditional = false) ∧
        head.insts.getLast? =
          some ⟨RISCV.BNE, [.Reg (.X 11), .Reg (.X 13), .MBB done.id .MO_None], 0⟩ ∧
        (tail.insts.filter (fun MI => MI.isStoreConditional)).length = 1 ∧
        ∀ s : MachineState, s.mem (s.read (.X 12)) &&& s.read (.X 14) ≠ s.read (.X 13) →
          ∃ s1, execBlock 64 0 head.insts s [] = some ⟨s1, [], some done.id⟩) ∧
    (∃ (host head tail done : MachineBasicBlock) (MF' : MachineFunction),
        expandAtomicCmpXchgCap (fun _ _ => []) cmpXchgCapFunction 0 1 false =
          .ok (MF', 1, true) ∧
        MF'.Blocks = [] ++ host :: head :: tail :: done :: [] ∧
        (∀ MI ∈ head.insts, MI.isStoreConditional = false) ∧
        head.insts.getLast? =
          some ⟨RISCV.BNE, [.Reg (.X 10), .Reg (.X 13), .MBB done.id .MO_None], 0⟩ ∧
        (tail.insts.filter (fun MI => MI.isStoreConditional)).length = 1 ∧
        ∀ s : CapMachineState,
          (s.mem (s.readCap (.X 12)).address).address ≠ (s.readCap (.C 13)).address →
          ∃ s1, execCapBlock 0 head.insts s [] = some ⟨s1, [], some done.id⟩) :=
  ⟨⟨rfl, rfl, rfl, by decide, by decide⟩,
    (expandAtomicCmpXchg_mismatch (fun _ _ => []) cmpXchgFunction [] [] cmpXchgBlock
      [⟨.generic 1, [], 0⟩] [⟨.generic 2, [], 0⟩] cmpXchgPseudo 64 0 rfl rfl).1
      32 false (.X 10) (.X 11) (.X 12) (.X 13) (.X 14) 7 [] .LR_W_AQ_RL .SC_W_AQ_RL
      rfl rfl rfl (by decide) (by decide),
    (expandAtomicCmpXchg_mismatch (fun _ _ => []) maskedCmpXchgFunction [] []
      maskedCmpXchgBlock [⟨.generic 1, [], 0⟩] [⟨.generic 2, [], 0⟩] maskedCmpXchgPseudo
      64 0 rfl rfl).2.1
      (.X 10) (.X 11) (.X 12) (.X 13) (.X 15) (.X 14) 7 [] .LR_W_AQ_RL .SC_W_AQ_RL
      rfl rfl rfl (by decide) (by decide) (by decide) (by decide) (by decide)
      (by decide) (by decide),
    (expandAtomicCmpXchg_mismatch (fun _ _ => []) cmpXchgCapFunction [] []
      cmpXchgCapBlock [⟨.generic 1, [], 0⟩] [⟨.generic 2, [], 0⟩] cmpXchgCapPseudo
      64 0 rfl rfl).2.2
      false 10 13 (.X 11) (.X 12) (.C 14) 7 [] .LR_C_AQ_RL_128 .SC_C_AQ_RL_128
      rfl rfl rfl (by decide) (by decide)⟩

/-- C15: for the unmasked compare-and-swap expansion in which neither the
result nor the scratch register is `X0` and the address and new-value
registers are different from the result register, in every state in which the
value loaded by the head block equals the expected value, the head block ends
without its branch to the done block taken, so that control falls through into
the tail block, the next block of the layout; the store-conditional of the
tail block offers to the address exactly the content of the new-value
register; with the status zero control falls through to the done block, the
next block of the layout, and with a status other than zero the branch back
to the head block is taken. -/
theorem expandAtomicCmpXchg_match (LV : LiveInsOracle) (MF : MachineFunction)
    (Pre Post : List MachineBasicBlock) (MBB : MachineBasicBlock)
    (pre post : List MachineInstr) (P : MachineInstr) (Width : Int) (PtrIsCap : Bool)
    (xlen status : Nat) (D S A C N : Register) (o : Int) (rest : List MachineOperand)
    (LR SC : RISCV)
    (hBlocks : MF.Blocks = Pre ++ MBB :: Post)
    (hinsts : MBB.insts = pre ++ P :: post)
    (hops : P.operands = .Reg D :: .Reg S :: .Reg A :: .Reg C :: .Reg N :: .Imm o :: rest)
    (hLR : getLRForRMW PtrIsCap (AtomicOrdering.ofImm o) Width = .ok LR)
    (hSC : getSCForRMW PtrIsCap (AtomicOrdering.ofImm o) Width = .ok SC)
    (hD0 : D ≠ X0) (hS0 : S ≠ X0) (hAD : A ≠ D) (hND : N ≠ D) :
    ∃ (host head tail done : MachineBasicBlock) (MF' : MachineFunction),
      expandAtomicCmpXchg LV MF Pre.length pre.length false Width PtrIsCap =
        .ok (MF', pre.length, true) ∧
      MF'.Blocks = Pre ++ host :: head :: tail :: done :: Post ∧
      ∀ s : MachineState, s.mem (s.read A) = s.read C →
        ∃ s1, execBlock xlen status head.insts s [] = some ⟨s1, [], none⟩ ∧
          ∃ s2 t2, execBlock xlen status tail.insts s1 [] =
              some ⟨s2, [(s.read A, s.read N)], t2⟩ ∧
            (status = 0 → t2 = none) ∧ (status ≠ 0 → t2 = some head.id) := by
  have hL := getLRForRMW_isLR hLR
  have hSc := getSCForRMW_isSC hSC
  obtain ⟨host, head, tail, done, MF', hr, hBl, hhid, -, -, -, -, hhead, htl⟩ :=
    expandAtomicCmpXchg_unmasked_shape LV MF Pre Post MBB pre post P Width PtrIsCap
      D S A C N o rest LR SC hBlocks hinsts hops hLR hSC
  refine ⟨host, head, tail, done, MF', hr, hBl, fun s heq => ?_⟩
  have hcmp : (s.write D (s.mem (s.read A))).read D =
      (s.write D (s.mem (s.read A))).read C := by
    by_cases hCD : C = D
    · rw [hCD]
    · rw [read_write_same _ _ _ hD0, read_write_other _ _ _ _ hCD, heq]
  rw [hhead, htl, hhid, execBlock_LR xlen status LR hL, execBlock_BNE,
    if_neg (by simpa using hcmp), execBlock_nil]
  refine ⟨_, rfl, ?_⟩
  obtain ⟨s2, t2, h3, h4, h5⟩ := execBlock_tail xlen status SC hSc S A N MF.nextBlock
    P.DL (s.write D (s.mem (s.read A)))
  rw [read_write_other _ _ _ _ hAD, read_write_other _ _ _ _ hND] at h3
  exact ⟨s2, t2, h3, h4 hS0, h5 hS0⟩

theorem expandAtomicCmpXchg_match_witness :
    (cmpXchgFunction.Blocks = [] ++ cmpXchgBlock :: [] ∧
      cmpXchgBlock.insts =
        [⟨.generic 1, [], 0⟩] ++ cmpXchgPseudo :: [⟨.generic 2, [], 0⟩] ∧
      cmpXchgPseudo.operands = .Reg (.X 10) :: .Reg (.X 11) :: .Reg (.X 12) ::
        .Reg (.X 13) :: .Reg (.X 14) :: .Imm 7 :: [] ∧
      getLRForRMW false (AtomicOrdering.ofImm 7) 32 = .ok .LR_W_AQ_RL ∧
      getSCForRMW false (AtomicOrdering.ofImm 7) 32 = .ok .SC_W_AQ_RL ∧
      Register.X 10 ≠ X0 ∧ Register.X 11 ≠ X0 ∧ Register.X 12 ≠ Register.X 10 ∧
      Register.X 14 ≠ Register.X 10 ∧
      onesState.mem (onesState.read (.X 12)) = onesState.read (.X 13)) ∧
    ∃ (host head tail done : MachineBasicBlock) (MF' : MachineFunction),
      expandAtomicCmpXchg (fun _ _ => []) cmpXchgFunction 0 1 false 32 false =
        .ok (MF', 1, true) ∧
      MF'.Blocks = [] ++ host :: head :: tail :: done :: [] ∧
      ∀ s : MachineState, s.mem (s.read (.X 12)) = s.read (.X 13) →
        ∃ s1, execBlock 64 0 head.insts s [] = some ⟨s1, [], none⟩ ∧
          ∃ s2 t2, execBlock 64 0 tail.insts s1 [] =
              some ⟨s2, [(s.read (.X 12), s.read (.X 14))], t2⟩ ∧
            (0 = 0 → t2 = none) ∧ (0 ≠ 0 → t2 = some head.id) :=
  ⟨⟨rfl, rfl, rfl, rfl, rfl, by decide, by decide, by decide, by decide, rfl⟩,
    expandAtomicCmpXchg_match (fun _ _ => []) cmpXchgFunction [] [] cmpXchgBlock
      [⟨.generic 1, [], 0⟩] [⟨.generic 2, [], 0⟩] cmpXchgPseudo 32 false 64 0
      (.X 10) (.X 11) (.X 12) (.X 13) (.X 14) 7 [] .LR_W_AQ_RL .SC_W_AQ_RL
      rfl rfl rfl rfl rfl (by decide) (by decide) (by decide) (by decide)⟩

/-- C16: in expandAtomicCmpXchgCap the branch of the head block compares the
address sub-registers of the result register and of the expected-value
register, and the store-conditional of the tail block stores the whole
new-value capability register. For every state in which the loaded capability
and the expected capability have equal address fields, whatever their
metadata, the head block ends without its branch to the done block taken, so
that control falls through into the tail block, and the store-conditional of
the tail block offers to the address the whole new capability, metadata and
address. Here the result register is not register number 0 and the address
and new-value registers are different from it. -/
theorem expandAtomicCmpXchgCap_address_compare (LV : LiveInsOracle) (MF : MachineFunction)
    (Pre Post : List MachineBasicBlock) (MBB : MachineBasicBlock)
    (pre post : List MachineInstr) (P : MachineInstr) (PtrIsCap : Bool) (status : Nat)
    (d c n : Nat) (S A : Register) (o : Int) (rest : List MachineOperand) (LR SC : RISCV)
    (hBlocks : MF.Blocks = Pre ++ MBB :: Post)
    (hinsts : MBB.insts = pre ++ P :: post)
    (hops : P.operands = .Reg (.C d) :: .Reg S :: .Reg A :: .Reg (.C c) :: .Reg (.C n) ::
      .Imm o :: rest)
    (hLR : getLRForRMWCap PtrIsCap (AtomicOrdering.ofImm o) MF.CLen = .ok LR)
    (hSC : getSCForRMWCap PtrIsCap (AtomicOrdering.ofImm o) MF.CLen = .ok SC)
    (hd : d ≠ 0) (hnd : n ≠ d) (hAC : A ≠ .C d) (hAX : A ≠ .X d) :
    ∃ (host head tail done : MachineBasicBlock) (MF' : MachineFunction),
      expandAtomicCmpXchgCap LV MF Pre.length pre.length PtrIsCap =
        .ok (MF', pre.length, true) ∧
      MF'.Blocks = Pre ++ host :: head :: tail :: done :: Post ∧
      head.insts.getLast? =
        some ⟨RISCV.BNE, [.Reg (.X d), .Reg (.X c), .MBB done.id .MO_None], P.DL⟩ ∧
      tail.insts.head? = some ⟨SC, [.Reg S, .Reg A, .Reg (.C n)], P.DL⟩ ∧
      ∀ s : CapMachineState,
        (s.mem (s.readCap A).address).address = (s.readCap (.C c)).address →
        ∃ s1, execCapBlock status head.insts s [] = some ⟨s1, [], none⟩ ∧
          ∃ s2 t2, execCapBlock status tail.insts s1 [] =
            some ⟨s2, [((s.readCap A).address, s.readCap (.C n))], t2⟩ := by
  obtain ⟨host, head, tail, done, MF', hr, hBl, -, -, hdone, -, -, hhead, htl⟩ :=
    expandAtomicCmpXchgCap_shape LV MF Pre Post MBB pre post P PtrIsCap
      (.C d) S A (.C c) (.C n) o rest LR SC hBlocks hinsts hops hLR hSC
  simp only [getSubReg_sub_cap_addr] at hhead
  refine ⟨host, head, tail, done, MF', hr, hBl, by rw [hhead, hdone]; rfl,
    by rw [htl]; rfl, fun s heq => ?_⟩
  have hcmp : ((s.writeCap (.C d) (s.mem (s.readCap A).address)).readCap (.X d)).address =
      ((s.writeCap (.C d) (s.mem (s.readCap A).address)).readCap (.X c)).address := by
    by_cases hcd : c = d
    · rw [hcd]
    · rw [readCap_X_writeCap_same _ _ _ hd, readCap_X_address,
        readCap_writeCap_other _ _ _ _ (by simp [hcd]) (by simp), heq]
  rw [hhead, htl, execCapBlock_LR status LR _ _ _ (getLRForRMWCap_capLR hLR _ _),
    execCapBlock_BNE, if_neg (by simpa using hcmp)]
  refine ⟨_, rfl, ?_⟩
  rw [execCapBlock_SC status SC _ _ _ _ (getSCForRMWCap_capSC hSC _ _), execCapBlock_BNE,
    readCap_writeCap_other _ _ _ _ hAC hAX,
    readCap_writeCap_other _ _ _ (.C n) (by simp [hnd]) (by simp)]
  simp only [List.nil_append]
  split_ifs <;> exact ⟨_, _, rfl⟩

theorem expandAtomicCmpXchgCap_address_compare_witness :
    (cmpXchgCapFunction.Blocks = [] ++ cmpXchgCapBlock :: [] ∧
      cmpXchgCapBlock.insts =
        [⟨.generic 1, [], 0⟩] ++ cmpXchgCapPseudo :: [⟨.generic 2, [], 0⟩] ∧
      cmpXchgCapPseudo.operands = .Reg (.C 10) :: .Reg (.X 11) :: .Reg (.X 12) ::
        .Reg (.C 13) :: .Reg (.C 14) :: .Imm 7 :: [] ∧
      getLRForRMWCap false (AtomicOrdering.ofImm 7) cmpXchgCapFunction.CLen =
        .ok .LR_C_AQ_RL_128 ∧
      getSCForRMWCap false (AtomicOrdering.ofImm 7) cmpXchgCapFunction.CLen =
        .ok .SC_C_AQ_RL_128 ∧
      (10 : Nat) ≠ 0 ∧ (14 : Nat) ≠ 10 ∧ Register.X 12 ≠ Register.C 10 ∧
      Register.X 12 ≠ Register.X 10 ∧
      capState.mem (capState.readCap (.X 12)).address = ⟨3, 64⟩ ∧
      capState.readCap (.C 13) = ⟨9, 64⟩ ∧ capState.readCap (.C 14) = ⟨5, 80⟩) ∧
    (∃ (host head tail done : MachineBasicBlock) (MF' : MachineFunction),
      expandAtomicCmpXchgCap (fun _ _ => []) cmpXchgCapFunction 0 1 false =
        .ok (MF', 1, true) ∧
      MF'.Blocks = [] ++ host :: head :: tail :: done :: [] ∧
      head.insts.getLast? =
        some ⟨RISCV.BNE, [.Reg (.X 10), .Reg (.X 13), .MBB done.id .MO_None], 0⟩ ∧
      tail.insts.head? =
        some ⟨RISCV.SC_C_AQ_RL_128, [.Reg (.X 11), .Reg (.X 12), .Reg (.C 14)], 0⟩ ∧
      ∀ s : CapMachineState,
        (s.mem (s.readCap (.X 12)).address).address = (s.readCap (.C 13)).address →
        ∃ s1, execCapBlock 0 head.insts s [] = some ⟨s1, [], none⟩ ∧
          ∃ s2 t2, execCapBlock 0 tail.insts s1 [] =
            some ⟨s2, [((s.readCap (.X 12)).address, s.readCap (.C 14))], t2⟩) ∧
    (∃ (host head tail done : MachineBasicBlock) (MF' : MachineFunction)
      (s1 s2 : CapMachineState),
      expandAtomicCmpXchgCap (fun _ _ => []) cmpXchgCapFunction 0 1 false =
        .ok (MF', 1, true) ∧
      MF'.Blocks = [host, head, tail, done] ∧
      execCapBlock 0 head.insts capState [] = some ⟨s1, [], none⟩ ∧
      execCapBlock 0 tail.insts s1 [] = some ⟨s2, [(0, ⟨5, 80⟩)], none⟩) :=
  ⟨⟨rfl, rfl, rfl, rfl, rfl, by decide, by decide, by decide, by decide, rfl, rfl, rfl⟩,
    expandAtomicCmpXchgCap_address_compare (fun _ _ => []) cmpXchgCapFunction [] []
      cmpXchgCapBlock [⟨.generic 1, [], 0⟩] [⟨.generic 2, [], 0⟩] cmpXchgCapPseudo false 0
      10 13 14 (.X 11) (.X 12) 7 [] .LR_C_AQ_RL_128 .SC_C_AQ_RL_128
      rfl rfl rfl rfl rfl (by decide) (by decide) (by decide) (by decide),
    ⟨_, _, _, _, _, _, _, rfl, rfl, rfl, rfl⟩⟩

/-! ## Theorems: the width argument of the capability-value tables -/

/-- C21, what the code does: the capability-value tables compare the native
capability width with 64 only. For each of the five legal orderings, in both
capability modes and for every width value, `getLRForRMWCap` and
`getSCForRMWCap` return a capability-value opcode: the 64-bit one when the width
is 64, the 128-bit one for every other width value. No width makes them fail. -/
theorem capTables_width (PtrIsCap : Bool) (Ordering : AtomicOrdering) (CLen : Int)
    (hO : Ordering.isLegal = true) :
    ∃ L S li si, getLRForRMWCap PtrIsCap Ordering CLen = .ok L ∧
      getSCForRMWCap PtrIsCap Ordering CLen = .ok S ∧
      L.atomicInfo = some li ∧ S.atomicInfo = some si ∧
      li.kind = .LoadReserved ∧ si.kind = .StoreConditional ∧
      li.capValue = true ∧ si.capValue = true ∧
      li.capMode = PtrIsCap ∧ si.capMode = PtrIsCap ∧
      li.bits = (if CLen = 64 then 64 else 128) ∧
      si.bits = (if CLen = 64 then 64 else 128) := by
  cases PtrIsCap <;> by_cases h : CLen = 64 <;> cases Ordering <;>
    simp [AtomicOrdering.isLegal] at hO <;>
    simp only [getLRForRMWCap, getSCForRMWCap, h, if_true, if_false,
      Bool.false_eq_true] <;>
    exact ⟨_, _, _, _, rfl, rfl, rfl, rfl, rfl, rfl, rfl, rfl, rfl, rfl, rfl, rfl⟩

/-- Witness of C21: the Acquire ordering in capability mode at width 128. -/
theorem capTables_width_witness :
    AtomicOrdering.Acquire.isLegal = true ∧
    ∃ L S li si, getLRForRMWCap true .Acquire 128 = .ok L ∧
      getSCForRMWCap true .Acquire 128 = .ok S ∧
      L.atomicInfo = some li ∧ S.atomicInfo = some si ∧
      li.kind = .LoadReserved ∧ si.kind = .StoreConditional ∧
      li.capValue = true ∧ si.capValue = true ∧
      li.capMode = true ∧ si.capMode = true ∧
      li.bits = (if (128 : Int) = 64 then 64 else 128) ∧
      si.bits = (if (128 : Int) = 64 then 64 else 128) :=
  ⟨rfl, capTables_width true .Acquire 128 rfl⟩

/-- Counterexample to C21 as stated: at the width value 32, which is neither 64
nor 128, both tables return an opcode, the one of width 128, and not a fatal
error. -/
theorem capTables_width32_counterexample :
    getLRForRMWCap true .Monotonic 32 = .ok .CLR_C_128 ∧
    getSCForRMWCap true .Monotonic 32 = .ok .CSC_C_128 ∧
    getLRForRMWCap false .SequentiallyConsistent 0 = .ok .LR_C_AQ_RL_128 ∧
    getSCForRMWCap false .SequentiallyConsistent 0 = .ok .SC_C_AQ_RL_128 :=
  ⟨rfl, rfl, rfl, rfl⟩

/-! ## Theorems: the successor lists and branches of the new blocks -/

theorem isBranch_of_isLR {o : RISCV} (h : o.isLR) : o.isBranch = false := by
  obtain ⟨h1, -⟩ := h
  cases o <;> first | rfl | cases h1

theorem isBranch_of_isSC {o : RISCV} (h : o.isSC) : o.isBranch = false := by
  obtain ⟨h1, -⟩ := h
  cases o <;> first | rfl | cases h1

theorem insert_blocks (MF : MachineFunction) (I : Nat) (Bs : List MachineBasicBlock) :
    (MF.insert I Bs).Blocks = MF.Blocks.take I ++ (Bs ++ MF.Blocks.drop (I + 1)) := by
  simp [MachineFunction.insert]

theorem insertMaskedMerge_ok {DL : Nat} {B0 B : MachineBasicBlock}
    {D O N M S : Register} (h : insertMaskedMerge DL B0 D O N M S = .ok B) :
    B = BuildMI (BuildMI (BuildMI B0 DL .XOR [.Reg S, .Reg O, .Reg N]) DL .AND
      [.Reg S, .Reg S, .Reg M]) DL .XOR [.Reg D, .Reg O, .Reg S] := by
  simp only [insertMaskedMerge, bind_eq_ok, exists_assert, Except.ok.injEq] at h
  obtain ⟨-, -, -, rfl⟩ := h
  rfl

set_option maxHeartbeats 2000000 in
theorem expandAtomicMinMaxOp_cfg {LV : LiveInsOracle} {MF : MachineFunction}
    {I k : Nat} {BinOp : BinOp} {IsMasked : Bool} {Width : Int} {PtrIsCap : Bool}
    {MBB : MachineBasicBlock} {MI : MachineInstr} {r : MachineFunction × Nat × Bool}
    (hB : MF.Blocks[I]? = some MBB) (hI : MBB.insts[k]? = some MI)
    (h : expandAtomicMinMaxOp LV MF I k BinOp IsMasked Width PtrIsCap = .ok r) :
    ∃ host head ifb tail done : MachineBasicBlock,
      r.1.Blocks = MF.Blocks.take I ++ host :: head :: ifb :: tail :: done ::
        MF.Blocks.drop (I + 1) ∧
      r.1.nextBlock = MF.nextBlock + 4 ∧ r.2 = (k, true) ∧
      host.id = MBB.id ∧ head.id = MF.nextBlock ∧ ifb.id = MF.nextBlock + 1 ∧
      tail.id = MF.nextBlock + 2 ∧ done.id = MF.nextBlock + 3 ∧
      host.insts = MBB.insts.take k ∧ done.insts = MBB.insts.drop (k + 1) ∧
      host.succs = [MF.nextBlock] ∧ head.succs = [MF.nextBlock + 1, MF.nextBlock + 2] ∧
      ifb.succs = [MF.nextBlock + 2] ∧ tail.succs = [MF.nextBlock, MF.nextBlock + 3] ∧
      done.succs = MBB.succs ∧
      NoPseudo head.insts ∧ NoPseudo ifb.insts ∧ NoPseudo tail.insts ∧
      blockBranchTargets head.insts = [MF.nextBlock + 2] ∧
      blockBranchTargets ifb.insts = [] ∧
      blockBranchTargets tail.insts = [MF.nextBlock] := by
  have hk := length_take_of_getElem? hI
  cases IsMasked <;> cases BinOp <;>
    simp only [expandAtomicMinMaxOp, hB, hI, hk, Option.elim, bind_eq_ok, Except.ok.injEq,
      exists_eq_left', exists_assert, pure, Except.pure,
      MachineFunction.CreateMachineBasicBlock, MachineBasicBlock.addSuccessor,
      MachineBasicBlock.splice, MachineBasicBlock.transferSuccessors,
      MachineBasicBlock.erase, List.nil_append, List.length_nil, eraseIdx_zero_drop,
      false_and, and_false, exists_false, reduceCtorEq, if_true, if_false,
      Bool.false_eq_true] at h
  all_goals
    first
    | obtain ⟨D, -, S, -, A, -, In, -, o, -, LR, hLR, SC, hSC, rfl⟩ := h
      have hL := (getLRForRMW_isLR hLR).2
      have hS := (getSCForRMW_isSC hSC).2
      have hLb := isBranch_of_isLR (getLRForRMW_isLR hLR)
      have hSb := isBranch_of_isSC (getSCForRMW_isSC hSC)
      refine ⟨_, _, _, _, _, insert_blocks _ _ _, rfl, rfl, rfl, rfl, rfl, rfl,
        rfl, rfl, rfl, rfl, rfl, rfl, rfl, rfl, ?_, ?_, ?_, ?_, ?_, ?_⟩
      · apply noPseudo_liveIns
        repeat' first | exact Appends.refl _ | exact hL | exact hS | rfl | apply Appends.build
      · apply noPseudo_liveIns
        repeat' first | exact Appends.refl _ | exact hL | exact hS | rfl | apply Appends.build
      · apply noPseudo_liveIns
        repeat' first | exact Appends.refl _ | exact hL | exact hS | rfl | apply Appends.build
      · simp [computeAndAddLiveIns, BuildMI, blockBranchTargets, MachineInstr.branchTargets,
          hLb, RISCV.isBranch]
      · simp [computeAndAddLiveIns, BuildMI, blockBranchTargets, MachineInstr.branchTargets,
          RISCV.isBranch]
      · simp [computeAndAddLiveIns, BuildMI, blockBranchTargets, MachineInstr.branchTargets,
          hSb, RISCV.isBranch]
    | obtain ⟨-, -, D, -, S1, -, S2, -, A, -, In, -, M, -, o, -, LR, hLR, Sh, -, Bd, hBd,
        SC, hSC, rfl⟩ := h
      have hL := (getLRForRMW32_isLR hLR).2
      have hS := (getSCForRMW32_isSC hSC).2
      have hLb := isBranch_of_isLR (getLRForRMW32_isLR hLR)
      have hSb := isBranch_of_isSC (getSCForRMW32_isSC hSC)
      have hM := insertMaskedMerge_appends hBd
      have hBd' := insertMaskedMerge_ok hBd
      refine ⟨_, _, _, _, _, insert_blocks _ _ _, rfl, rfl, rfl, rfl, hM.id, rfl,
        rfl, rfl, rfl, rfl, rfl, hM.succs, rfl, rfl, ?_, ?_, ?_, ?_, ?_, ?_⟩
      · apply noPseudo_liveIns
        refine Appends.build (Appends.trans ?_ (insertSext_appends _ _ _ _)) (by rfl) _ _
        repeat' first | exact Appends.refl _ | exact hL | exact hS | rfl | apply Appends.build
      · exact noPseudo_liveIns LV _ _ _ _ _ hM
      · apply noPseudo_liveIns
        repeat' first | exact Appends.refl _ | exact hL | exact hS | rfl | apply Appends.build
      · simp [computeAndAddLiveIns, BuildMI, insertSext, blockBranchTargets,
          MachineInstr.branchTargets, hLb, RISCV.isBranch]
      · subst hBd'
        simp [computeAndAddLiveIns, BuildMI, blockBranchTargets, MachineInstr.branchTargets,
          RISCV.isBranch]
      · simp [computeAndAddLiveIns, BuildMI, insertSext, blockBranchTargets,
          MachineInstr.branchTargets, hSb, RISCV.isBranch]
    | obtain ⟨-, -, D, -, S1, -, S2, -, A, -, In, -, M, -, o, -, LR, hLR, Bd, hBd,
        SC, hSC, rfl⟩ := h
      have hL := (getLRForRMW32_isLR hLR).2
      have hS := (getSCForRMW32_isSC hSC).2
      have hLb := isBranch_of_isLR (getLRForRMW32_isLR hLR)
      have hSb := isBranch_of_isSC (getSCForRMW32_isSC hSC)
      have hM := insertMaskedMerge_appends hBd
      have hBd' := insertMaskedMerge_ok hBd
      refine ⟨_, _, _, _, _, insert_blocks _ _ _, rfl, rfl, rfl, rfl, hM.id, rfl,
        rfl, rfl, rfl, rfl, rfl, hM.succs, rfl, rfl, ?_, ?_, ?_, ?_, ?_, ?_⟩
      · apply noPseudo_liveIns
        repeat' first | exact Appends.refl _ | exact hL | exact hS | rfl | apply Appends.build
      · exact noPseudo_liveIns LV _ _ _ _ _ hM
      · apply noPseudo_liveIns
        repeat' first | exact Appends.refl _ | exact hL | exact hS | rfl | apply Appends.build
      · simp [computeAndAddLiveIns, BuildMI, blockBranchTargets,
          MachineInstr.branchTargets, hLb, RISCV.isBranch]
      · subst hBd'
        simp [computeAndAddLiveIns, BuildMI, blockBranchTargets, MachineInstr.branchTargets,
          RISCV.isBranch]
      · simp [computeAndAddLiveIns, BuildMI, blockBranchTargets,
          MachineInstr.branchTargets, hSb, RISCV.isBranch]

theorem expandAtomicCmpXchg_cfg {LV : LiveInsOracle} {MF : MachineFunction}
    {I k : Nat} {IsMasked : Bool} {Width : Int} {PtrIsCap : Bool}
    {MBB : MachineBasicBlock} {MI : MachineInstr} {r : MachineFunction × Nat × Bool}
    (hB : MF.Blocks[I]? = some MBB) (hI : MBB.insts[k]? = some MI)
    (h : expandAtomicCmpXchg LV MF I k IsMasked Width PtrIsCap = .ok r) :
    ∃ host head tail done : MachineBasicBlock,
      r.1.Blocks = MF.Blocks.take I ++ host :: head :: tail :: done ::
        MF.Blocks.drop (I + 1) ∧
      r.1.nextBlock = MF.nextBlock + 3 ∧ r.2 = (k, true) ∧
      host.id = MBB.id ∧ head.id = MF.nextBlock ∧ tail.id = MF.nextBlock + 1 ∧
      done.id = MF.nextBlock + 2 ∧
      host.insts = MBB.insts.take k ∧ done.insts = MBB.insts.drop (k + 1) ∧
      host.succs = [MF.nextBlock] ∧ head.succs = [MF.nextBlock + 1, MF.nextBlock + 2] ∧
      tail.succs = [MF.nextBlock + 2, MF.nextBlock] ∧ done.succs = MBB.succs ∧
      NoPseudo head.insts ∧ NoPseudo tail.insts ∧
      blockBranchTargets head.insts = [MF.nextBlock + 2] ∧
      blockBranchTargets tail.insts = [MF.nextBlock] := by
  have hk := length_take_of_getElem? hI
  cases IsMasked <;>
    simp only [expandAtomicCmpXchg, hB, hI, hk, Option.elim, bind_eq_ok, Except.ok.injEq,
      exists_eq_left', exists_assert, pure, Except.pure,
      MachineFunction.CreateMachineBasicBlock, MachineBasicBlock.addSuccessor,
      MachineBasicBlock.splice, MachineBasicBlock.transferSuccessors,
      MachineBasicBlock.erase, List.nil_append, List.length_nil, eraseIdx_zero_drop,
      false_and, and_false, exists_false, reduceCtorEq, if_true, if_false,
      Bool.false_eq_true, Bool.not_false, Bool.not_true] at h
  · obtain ⟨D, -, S, -, A, -, C, -, N, -, o, -, LR, hLR, SC, hSC, rfl⟩ := h
    have hL := (getLRForRMW_isLR hLR).2
    have hS := (getSCForRMW_isSC hSC).2
    have hLb := isBranch_of_isLR (getLRForRMW_isLR hLR)
    have hSb := isBranch_of_isSC (getSCForRMW_isSC hSC)
    refine ⟨_, _, _, _, insert_blocks _ _ _, rfl, rfl, rfl, rfl, rfl, rfl, rfl, rfl, rfl,
      rfl, rfl, rfl, ?_, ?_, ?_, ?_⟩
    · apply noPseudo_liveIns
      repeat' first | exact Appends.refl _ | exact hL | exact hS | rfl | apply Appends.build
    · apply noPseudo_liveIns
      repeat' first | exact Appends.refl _ | exact hL | exact hS | rfl | apply Appends.build
    · simp [computeAndAddLiveIns, BuildMI, blockBranchTargets, MachineInstr.branchTargets,
        hLb, RISCV.isBranch]
    · simp [computeAndAddLiveIns, BuildMI, blockBranchTargets, MachineInstr.branchTargets,
        hSb, RISCV.isBranch]
  · obtain ⟨D, -, S, -, A, -, C, -, N, -, o, -, -, M, -, LR, hLR, T, hT, SC, hSC, rfl⟩ := h
    have hL := (getLRForRMW_isLR hLR).2
    have hS := (getSCForRMW_isSC hSC).2
    have hLb := isBranch_of_isLR (getLRForRMW_isLR hLR)
    have hSb := isBranch_of_isSC (getSCForRMW_isSC hSC)
    have hM := insertMaskedMerge_appends hT
    have hT' := insertMaskedMerge_ok hT
    refine ⟨_, _, _, _, insert_blocks _ _ _, rfl, rfl, rfl, rfl, hM.id, rfl, rfl, rfl,
      rfl, rfl, hM.succs, rfl, ?_, ?_, ?_, ?_⟩
    · apply noPseudo_liveIns
      repeat' first | exact Appends.refl _ | exact hL | exact hS | rfl | apply Appends.build
    · apply noPseudo_liveIns
      exact Appends.build (Appends.build hM hS _ _) (by rfl) _ _
    · simp [computeAndAddLiveIns, BuildMI, blockBranchTargets, MachineInstr.branchTargets,
        hLb, RISCV.isBranch]
    · subst hT'
      simp [computeAndAddLiveIns, BuildMI, blockBranchTargets, MachineInstr.branchTargets,
        hSb, RISCV.isBranch]

theorem expandAtomicCmpXchgCap_cfg {LV : LiveInsOracle} {MF : MachineFunction}
    {I k : Nat} {PtrIsCap : Bool}
    {MBB : MachineBasicBlock} {MI : MachineInstr} {r : MachineFunction × Nat × Bool}
    (hB : MF.Blocks[I]? = some MBB) (hI : MBB.insts[k]? = some MI)
    (h : expandAtomicCmpXchgCap LV MF I k PtrIsCap = .ok r) :
    ∃ host head tail done : MachineBasicBlock,
      r.1.Blocks = MF.Blocks.take I ++ host :: head :: tail :: done ::
        MF.Blocks.drop (I + 1) ∧
      r.1.nextBlock = MF.nextBlock + 3 ∧ r.2 = (k, true) ∧
      host.id = MBB.id ∧ head.id = MF.nextBlock ∧ tail.id = MF.nextBlock + 1 ∧
      done.id = MF.nextBlock + 2 ∧
      host.insts = MBB.insts.take k ∧ done.insts = MBB.insts.drop (k + 1) ∧
      host.succs = [MF.nextBlock] ∧ head.succs = [MF.nextBlock + 1, MF.nextBlock + 2] ∧
      tail.succs = [MF.nextBlock + 2, MF.nextBlock] ∧ done.succs = MBB.succs ∧
      NoPseudo head.insts ∧ NoPseudo tail.insts ∧
      blockBranchTargets head.insts = [MF.nextBlock + 2] ∧
      blockBranchTargets tail.insts = [MF.nextBlock] := by
  have hk := length_take_of_getElem? hI
  simp only [expandAtomicCmpXchgCap, hB, hI, hk, Option.elim, bind_eq_ok, Except.ok.injEq,
    exists_eq_left', pure, Except.pure,
    MachineFunction.CreateMachineBasicBlock, MachineBasicBlock.addSuccessor,
    MachineBasicBlock.splice, MachineBasicBlock.transferSuccessors,
    MachineBasicBlock.erase, List.nil_append, List.length_nil, eraseIdx_zero_drop] at h
  obtain ⟨D, -, S, -, A, -, C, -, N, -, o, -, LR, hLR, SC, hSC, rfl⟩ := h
  have hL := (getLRForRMWCap_isLR hLR).2
  have hS := (getSCForRMWCap_isSC hSC).2
  have hLb := isBranch_of_isLR (getLRForRMWCap_isLR hLR)
  have hSb := isBranch_of_isSC (getSCForRMWCap_isSC hSC)
  refine ⟨_, _, _, _, insert_blocks _ _ _, rfl, rfl, rfl, rfl, rfl, rfl, rfl, rfl, rfl,
    rfl, rfl, rfl, ?_, ?_, ?_, ?_⟩
  · apply noPseudo_liveIns
    repeat' first | exact Appends.refl _ | exact hL | exact hS | rfl | apply Appends.build
  · apply noPseudo_liveIns
    repeat' first | exact Appends.refl _ | exact hL | exact hS | rfl | apply Appends.build
  · simp [computeAndAddLiveIns, BuildMI, blockBranchTargets, MachineInstr.branchTargets,
      hLb, RISCV.isBranch]
  · simp [computeAndAddLiveIns, BuildMI, blockBranchTargets, MachineInstr.branchTargets,
      hSb, RISCV.isBranch]

theorem doAtomicBinOpExpansion_targets {MI : MachineInstr} {DL : Nat}
    {L0 L : MachineBasicBlock} {BinOp : BinOp} {Width : Int} {PtrIsCap : Bool}
    (h : doAtomicBinOpExpansion MI DL L0 BinOp Width PtrIsCap = .ok L)
    (h0 : L0.insts = []) : blockBranchTargets L.insts = [L0.id] := by
  cases BinOp <;>
    simp only [doAtomicBinOpExpansion, bind_eq_ok, Except.ok.injEq, exists_eq_left',
      false_and, and_false, exists_false, reduceCtorEq] at h
  all_goals
    obtain ⟨D, -, S, -, A, -, I, -, o, -, LR, hLR, SC, hSC, rfl⟩ := h
    have hLb := isBranch_of_isLR (getLRForRMW_isLR hLR)
    have hSb := isBranch_of_isSC (getSCForRMW_isSC hSC)
    simp [BuildMI, h0, blockBranchTargets, MachineInstr.branchTargets, hLb, hSb,
      RISCV.isBranch]

theorem doMaskedAtomicBinOpExpansion_targets {MI : MachineInstr} {DL : Nat}
    {L0 L : MachineBasicBlock} {BinOp : BinOp} {Width : Int}
    (h : doMaskedAtomicBinOpExpansion MI DL L0 BinOp Width = .ok L)
    (h0 : L0.insts = []) : blockBranchTargets L.insts = [L0.id] := by
  cases BinOp <;>
    simp only [doMaskedAtomicBinOpExpansion, bind_eq_ok, Except.ok.injEq, exists_eq_left',
      false_and, exists_false, reduceCtorEq, exists_assert, and_false] at h
  all_goals
    obtain ⟨-, D, -, S, -, A, -, I, -, M, -, o, -, LR, hLR, L1, hL1, SC, hSC, rfl⟩ := h
    have hLb := isBranch_of_isLR (getLRForRMW32_isLR hLR)
    have hSb := isBranch_of_isSC (getSCForRMW32_isSC hSC)
    have hL1' := insertMaskedMerge_ok hL1
    subst hL1'
    simp [BuildMI, h0, blockBranchTargets, MachineInstr.branchTargets, hLb, hSb,
      RISCV.isBranch]

/-- C22: for a function whose blocks are Pre, the host block and Post, the host
block holding pre, a Min/Max pseudo operation P and post, with successors S:
expandAtomicMinMaxOp returns the function whose blocks are Pre, host, head,
if-body, tail, done and Post, where head, if-body, tail and done are four newly
created blocks; host holds exactly pre and has the single successor head, head
has exactly the successors if-body and tail, if-body the successor tail, tail
the successors head and done, and done holds exactly post and has the
successors S; head, if-body and tail hold no pseudo operation, so P is in none
of them; the returned position is the end of host and the returned flag is
true. When P occurred nowhere else in the function, P occurs in no block of the
result. -/
theorem expandAtomicMinMaxOp_blocks (LV : LiveInsOracle) (MF : MachineFunction)
    (Pre Post : List MachineBasicBlock) (MBB : MachineBasicBlock)
    (pre post : List MachineInstr) (P : MachineInstr)
    (BinOp : BinOp) (IsMasked : Bool) (Width : Int) (PtrIsCap : Bool)
    (hBlocks : MF.Blocks = Pre ++ MBB :: Post)
    (hinsts : MBB.insts = pre ++ P :: post)
    (hpseudo : P.opcode.isPseudo = true)
    (hP : (IsMasked = false ∧ BinOp ∈ [.Max, .Min, .UMax, .UMin] ∧
          atomicOperandsOk 4 P.operands = true ∧
          ((Width = 32 ∨ Width = 64) ∨ ((Width = 8 ∨ Width = 16) ∧ PtrIsCap = true))) ∨
        (IsMasked = true ∧ Width = 32 ∧ PtrIsCap = false ∧
          ((BinOp ∈ [.Max, .Min] ∧ atomicOperandsOk 7 P.operands = true) ∨
           (BinOp ∈ [.UMax, .UMin] ∧ atomicOperandsOk 6 P.operands = true)) ∧
          maskedRegsOk P.operands 5 = true)) :
    ∃ (host head ifb tail done : MachineBasicBlock) (MF' : MachineFunction),
      expandAtomicMinMaxOp LV MF Pre.length pre.length BinOp IsMasked Width PtrIsCap =
        .ok (MF', pre.length, true) ∧
      MF'.Blocks = Pre ++ host :: head :: ifb :: tail :: done :: Post ∧
      MF'.nextBlock = MF.nextBlock + 4 ∧
      host.id = MBB.id ∧ head.id = MF.nextBlock ∧ ifb.id = MF.nextBlock + 1 ∧
      tail.id = MF.nextBlock + 2 ∧ done.id = MF.nextBlock + 3 ∧
      host.insts = pre ∧ host.succs = [head.id] ∧
      head.succs = [ifb.id, tail.id] ∧ ifb.succs = [tail.id] ∧
      tail.succs = [head.id, done.id] ∧
      done.insts = post ∧ done.succs = MBB.succs ∧
      NoPseudo head.insts ∧ NoPseudo ifb.insts ∧ NoPseudo tail.insts ∧
      P ∉ head.insts ∧ P ∉ ifb.insts ∧ P ∉ tail.insts ∧
      ((∀ B ∈ Pre ++ Post, P ∉ B.insts) → P ∉ pre ++ post →
        ∀ B ∈ MF'.Blocks, P ∉ B.insts) := by
  have hB : MF.Blocks[Pre.length]? = some MBB := by
    rw [hBlocks]; exact getElem?_append_cons_self _ _ _
  have hI : MBB.insts[pre.length]? = some P := by
    rw [hinsts]; exact getElem?_append_cons_self _ _ _
  have hT : MF.Blocks.take Pre.length = Pre := by
    rw [hBlocks]; simp
  have hD : MF.Blocks.drop (Pre.length + 1) = Post := by
    rw [hBlocks]; simp
  have hpre : MBB.insts.take pre.length = pre := by
    rw [hinsts]; simp
  have hpost : MBB.insts.drop (pre.length + 1) = post := by
    rw [hinsts]; simp
  have htot : ∃ r, expandAtomicMinMaxOp LV MF Pre.length pre.length BinOp IsMasked Width
      PtrIsCap = .ok r := by
    rcases hP with ⟨h1, h2, h3, h4⟩ | ⟨h1, h2, h3, h4, h5⟩
    · subst h1
      exact expandAtomicMinMaxOp_total BinOp Width PtrIsCap hB hI h3 h4 h2
    · subst h1 h2 h3
      rcases h4 with ⟨hop, hops⟩ | ⟨hop, hops⟩
      · exact expandAtomicMinMaxOp_signed_total BinOp hB hI hops h5 hop
      · exact expandAtomicMinMaxOp_unsigned_total BinOp hB hI hops h5 hop
  obtain ⟨⟨MF', k', b⟩, hr⟩ := htot
  obtain ⟨host, head, ifb, tail, done, hBl, hnb, h2, hid0, hid1, hid2, hid3, hid4, hhi, hdi,
    hs0, hs1, hs2, hs3, hs4, hn1, hn2, hn3, -, -, -⟩ := expandAtomicMinMaxOp_cfg hB hI hr
  simp only [Prod.mk.injEq] at h2
  obtain ⟨rfl, rfl⟩ := h2
  simp only [hT, hD] at hBl
  have hno : ∀ l : List MachineInstr, NoPseudo l → P ∉ l := by
    intro l hl hmem
    have := hl P hmem
    rw [hpseudo] at this
    cases this
  refine ⟨host, head, ifb, tail, done, MF', hr, hBl, hnb, hid0, hid1, hid2, hid3, hid4,
    hhi.trans hpre, by rw [hs0, hid1], by rw [hs1, hid2, hid3], by rw [hs2, hid3],
    by rw [hs3, hid1, hid4], hdi.trans hpost, hs4, hn1, hn2, hn3, hno _ hn1, hno _ hn2,
    hno _ hn3, ?_⟩
  intro h1 h2 B hBm
  rw [hBl] at hBm
  simp only [List.mem_append, List.mem_cons] at hBm h1 h2
  rcases hBm with h | rfl | rfl | rfl | rfl | rfl | h
  · exact h1 B (Or.inl h)
  · rw [hhi, hpre]; exact fun hm => h2 (Or.inl hm)
  · exact hno _ hn1
  · exact hno _ hn2
  · exact hno _ hn3
  · rw [hdi, hpost]; exact fun hm => h2 (Or.inr hm)
  · exact h1 B (Or.inr h)

/-- Witness of C22: the signed maximum `maxPseudo` in the one-block function
`maxFunction`. -/
theorem expandAtomicMinMaxOp_blocks_witness :
    (maxFunction.Blocks = [] ++ maxBlock :: [] ∧
      maxBlock.insts = [⟨.generic 1, [], 0⟩] ++ maxPseudo :: [⟨.generic 2, [], 0⟩] ∧
      maxPseudo.opcode.isPseudo = true ∧ atomicOperandsOk 4 maxPseudo.operands = true) ∧
    ∃ (host head ifb tail done : MachineBasicBlock) (MF' : MachineFunction),
      expandAtomicMinMaxOp (fun _ _ => []) maxFunction 0 1 .Max false 8 true =
        .ok (MF', 1, true) ∧
      MF'.Blocks = [] ++ host :: head :: ifb :: tail :: done :: [] ∧
      MF'.nextBlock = 1 + 4 ∧
      host.id = 0 ∧ head.id = 1 ∧ ifb.id = 1 + 1 ∧ tail.id = 1 + 2 ∧ done.id = 1 + 3 ∧
      host.insts = [⟨.generic 1, [], 0⟩] ∧ host.succs = [head.id] ∧
      head.succs = [ifb.id, tail.id] ∧ ifb.succs = [tail.id] ∧
      tail.succs = [head.id, done.id] ∧
      done.insts = [⟨.generic 2, [], 0⟩] ∧ done.succs = [7] ∧
      NoPseudo head.insts ∧ NoPseudo ifb.insts ∧ NoPseudo tail.insts ∧
      maxPseudo ∉ head.insts ∧ maxPseudo ∉ ifb.insts ∧ maxPseudo ∉ tail.insts ∧
      ((∀ B ∈ ([] : List MachineBasicBlock) ++ [], maxPseudo ∉ B.insts) →
        maxPseudo ∉ [⟨.generic 1, [], 0⟩] ++ [⟨.generic 2, [], 0⟩] →
        ∀ B ∈ MF'.Blocks, maxPseudo ∉ B.insts) :=
  ⟨⟨rfl, rfl, rfl, rfl⟩,
    expandAtomicMinMaxOp_blocks (fun _ _ => []) maxFunction [] [] maxBlock
      [⟨.generic 1, [], 0⟩] [⟨.generic 2, [], 0⟩] maxPseudo .Max false 8 true rfl rfl rfl
      (Or.inl ⟨rfl, by simp, rfl, Or.inr ⟨Or.inl rfl, rfl⟩⟩)⟩

/-- C23: for a function whose blocks are Pre, the host block and Post, the host
block holding pre, a compare-and-swap pseudo operation P and post, with
successors S: expandAtomicCmpXchg, unmasked and masked, and
expandAtomicCmpXchgCap each return the function whose blocks are Pre, host,
head, tail, done and Post, where head, tail and done are three newly created
blocks; host holds exactly pre and has the single successor head, head has
exactly the successors tail and done, tail the successors done and head, and
done holds exactly post and has the successors S; head and tail hold no pseudo
operation, so P is in neither; the returned position is the end of host and the
returned flag is true. When P occurred nowhere else in the function, P occurs
in no block of the result. -/
theorem expandAtomicCmpXchg_blocks (LV : LiveInsOracle) (MF : MachineFunction)
    (Pre Post : List MachineBasicBlock) (MBB : MachineBasicBlock)
    (pre post : List MachineInstr) (P : MachineInstr)
    (r : Except Fatal (MachineFunction × Nat × Bool))
    (hBlocks : MF.Blocks = Pre ++ MBB :: Post)
    (hinsts : MBB.insts = pre ++ P :: post)
    (hpseudo : P.opcode.isPseudo = true)
    (hP : (∃ Width PtrIsCap,
          r = expandAtomicCmpXchg LV MF Pre.length pre.length false Width PtrIsCap ∧
          atomicOperandsOk 5 P.operands = true ∧
          ((Width = 32 ∨ Width = 64) ∨ ((Width = 8 ∨ Width = 16) ∧ PtrIsCap = true))) ∨
        (r = expandAtomicCmpXchg LV MF Pre.length pre.length true 32 false ∧
          atomicOperandsOk 6 P.operands = true ∧ maskedRegsOk P.operands 5 = true) ∨
        (∃ PtrIsCap, r = expandAtomicCmpXchgCap LV MF Pre.length pre.length PtrIsCap ∧
          atomicOperandsOk 5 P.operands = true)) :
    ∃ (host head tail done : MachineBasicBlock) (MF' : MachineFunction),
      r = .ok (MF', pre.length, true) ∧
      MF'.Blocks = Pre ++ host :: head :: tail :: done :: Post ∧
      MF'.nextBlock = MF.nextBlock + 3 ∧
      host.id = MBB.id ∧ head.id = MF.nextBlock ∧ tail.id = MF.nextBlock + 1 ∧
      done.id = MF.nextBlock + 2 ∧
      host.insts = pre ∧ host.succs = [head.id] ∧
      head.succs = [tail.id, done.id] ∧ tail.succs = [done.id, head.id] ∧
      done.insts = post ∧ done.succs = MBB.succs ∧
      NoPseudo head.insts ∧ NoPseudo tail.insts ∧
      P ∉ head.insts ∧ P ∉ tail.insts ∧
      ((∀ B ∈ Pre ++ Post, P ∉ B.insts) → P ∉ pre ++ post →
        ∀ B ∈ MF'.Blocks, P ∉ B.insts) := by
  have hB : MF.Blocks[Pre.length]? = some MBB := by
    rw [hBlocks]; exact getElem?_append_cons_self _ _ _
  have hI : MBB.insts[pre.length]? = some P := by
    rw [hinsts]; exact getElem?_append_cons_self _ _ _
  have hT : MF.Blocks.take Pre.length = Pre := by
    rw [hBlocks]; simp
  have hD : MF.Blocks.drop (Pre.length + 1) = Post := by
    rw [hBlocks]; simp
  have hpre : MBB.insts.take pre.length = pre := by
    rw [hinsts]; simp
  have hpost : MBB.insts.drop (pre.length + 1) = post := by
    rw [hinsts]; simp
  have hcfg : ∃ (r' : MachineFunction × Nat × Bool), r = .ok r' ∧
      ∃ host head tail done : MachineBasicBlock,
      r'.1.Blocks = MF.Blocks.take Pre.length ++ host :: head :: tail :: done ::
        MF.Blocks.drop (Pre.length + 1) ∧
      r'.1.nextBlock = MF.nextBlock + 3 ∧ r'.2 = (pre.length, true) ∧
      host.id = MBB.id ∧ head.id = MF.nextBlock ∧ tail.id = MF.nextBlock + 1 ∧
      done.id = MF.nextBlock + 2 ∧
      host.insts = MBB.insts.take pre.length ∧
      done.insts = MBB.insts.drop (pre.length + 1) ∧
      host.succs = [MF.nextBlock] ∧ head.succs = [MF.nextBlock + 1, MF.nextBlock + 2] ∧
      tail.succs = [MF.nextBlock + 2, MF.nextBlock] ∧ done.succs = MBB.succs ∧
      NoPseudo head.insts ∧ NoPseudo tail.insts ∧
      blockBranchTargets head.insts = [MF.nextBlock + 2] ∧
      blockBranchTargets tail.insts = [MF.nextBlock] := by
    rcases hP with ⟨Width, PtrIsCap, rfl, hops, hW⟩ | ⟨rfl, hops, hm⟩ | ⟨PtrIsCap, rfl, hops⟩
    · obtain ⟨r', hr⟩ := @expandAtomicCmpXchg_total LV MF Pre.length pre.length MBB P Width
        PtrIsCap hB hI hops hW
      exact ⟨r', hr, expandAtomicCmpXchg_cfg hB hI hr⟩
    · obtain ⟨r', hr⟩ := @expandAtomicCmpXchg_masked_total LV MF Pre.length pre.length MBB
        P hB hI hops hm
      exact ⟨r', hr, expandAtomicCmpXchg_cfg hB hI hr⟩
    · obtain ⟨r', hr⟩ := @expandAtomicCmpXchgCap_total LV MF Pre.length pre.length MBB P
        PtrIsCap hB hI hops
      exact ⟨r', hr, expandAtomicCmpXchgCap_cfg hB hI hr⟩
  obtain ⟨⟨MF', k', b⟩, hr, host, head, tail, done, hBl, hnb, h2, hid0, hid1, hid2, hid3, hhi,
    hdi, hs0, hs1, hs2, hs3, hn1, hn2, -, -⟩ := hcfg
  simp only [Prod.mk.injEq] at h2
  obtain ⟨rfl, rfl⟩ := h2
  simp only [hT, hD] at hBl
  have hno : ∀ l : List MachineInstr, NoPseudo l → P ∉ l := by
    intro l hl hmem
    have := hl P hmem
    rw [hpseudo] at this
    cases this
  refine ⟨host, head, tail, done, MF', hr, hBl, hnb, hid0, hid1, hid2, hid3,
    hhi.trans hpre, by rw [hs0, hid1], by rw [hs1, hid2, hid3], by rw [hs2, hid3, hid1],
    hdi.trans hpost, hs3, hn1, hn2, hno _ hn1, hno _ hn2, ?_⟩
  intro h1 h2 B hBm
  rw [hBl] at hBm
  simp only [List.mem_append, List.mem_cons] at hBm h1 h2
  rcases hBm with h | rfl | rfl | rfl | rfl | h
  · exact h1 B (Or.inl h)
  · rw [hhi, hpre]; exact fun hm => h2 (Or.inl hm)
  · exact hno _ hn1
  · exact hno _ hn2
  · rw [hdi, hpost]; exact fun hm => h2 (Or.inr hm)
  · exact h1 B (Or.inr h)

/-- Witness of C23: the capability compare-and-swap `cmpXchgCapPseudo` in the
one-block function `cmpXchgCapFunction`. -/
theorem expandAtomicCmpXchg_blocks_witness :
    (cmpXchgCapFunction.Blocks = [] ++ cmpXchgCapBlock :: [] ∧
      cmpXchgCapBlock.insts =
        [⟨.generic 1, [], 0⟩] ++ cmpXchgCapPseudo :: [⟨.generic 2, [], 0⟩] ∧
      cmpXchgCapPseudo.opcode.isPseudo = true ∧
      atomicOperandsOk 5 cmpXchgCapPseudo.operands = true) ∧
    ∃ (host head tail done : MachineBasicBlock) (MF' : MachineFunction),
      expandAtomicCmpXchgCap (fun _ _ => []) cmpXchgCapFunction 0 1 false =
        .ok (MF', 1, true) ∧
      MF'.Blocks = [] ++ host :: head :: tail :: done :: [] ∧
      MF'.nextBlock = cmpXchgCapFunction.nextBlock + 3 ∧
      host.id = cmpXchgCapBlock.id ∧ head.id = cmpXchgCapFunction.nextBlock ∧
      tail.id = cmpXchgCapFunction.nextBlock + 1 ∧
      done.id = cmpXchgCapFunction.nextBlock + 2 ∧
      host.insts = [⟨.generic 1, [], 0⟩] ∧ host.succs = [head.id] ∧
      head.succs = [tail.id, done.id] ∧ tail.succs = [done.id, head.id] ∧
      done.insts = [⟨.generic 2, [], 0⟩] ∧ done.succs = cmpXchgCapBlock.succs ∧
      NoPseudo head.insts ∧ NoPseudo tail.insts ∧
      cmpXchgCapPseudo ∉ head.insts ∧ cmpXchgCapPseudo ∉ tail.insts ∧
      ((∀ B ∈ ([] : List MachineBasicBlock) ++ [], cmpXchgCapPseudo ∉ B.insts) →
        cmpXchgCapPseudo ∉ [⟨.generic 1, [], 0⟩] ++ [⟨.generic 2, [], 0⟩] →
        ∀ B ∈ MF'.Blocks, cmpXchgCapPseudo ∉ B.insts) :=
  ⟨⟨rfl, rfl, rfl, rfl⟩,
    expandAtomicCmpXchg_blocks (fun _ _ => []) cmpXchgCapFunction [] [] cmpXchgCapBlock
      [⟨.generic 1, [], 0⟩] [⟨.generic 2, [], 0⟩] cmpXchgCapPseudo _ rfl rfl rfl
      (Or.inr (Or.inr ⟨false, rfl, rfl⟩))⟩

/-! ## Theorems: the masked compare-and-swap in execution -/

/-- The masked merge leaves the bits outside the mask as they were. -/
theorem maskedMerge_outside (w old new mask i : Nat) (hi : i < w)
    (hm : mask.testBit i = false) :
    ((old &&& bvNot w mask) ||| (new &&& mask)).testBit i = old.testBit i := by
  simp only [bvNot, Nat.testBit_xor, Nat.testBit_and, Nat.testBit_or,
    Nat.testBit_two_pow_sub_one, hi, hm, decide_True]
  cases old.testBit i <;> cases new.testBit i <;> rfl

/-- The tail block of the integer expansions with a status register other than
`X0`, as an equation. -/
theorem execBlock_tail_eq (xlen status : Nat) (SC : RISCV) (hS : SC.isSC)
    (S A src : Register) (head DL : Nat) (s : MachineState) (hS0 : S ≠ X0) :
    execBlock xlen status [⟨SC, [.Reg S, .Reg A, .Reg src], DL⟩,
      ⟨RISCV.BNE, [.Reg S, .Reg X0, .MBB head .MO_None], DL⟩] s [] =
      some ⟨s.storeConditional S (s.read A) (s.read src) status,
        [(s.read A, s.read src)], if status = 0 then none else some head⟩ := by
  rw [execBlock_SC xlen status SC hS, execBlock_BNE, execBlock_nil]
  have hr : (s.storeConditional S (s.read A) (s.read src) status).read S = status := by
    unfold MachineState.storeConditional
    exact read_write_same _ _ _ hS0
  rw [hr, read_X0]
  by_cases hst : status = 0
  · simp [hst]
  · simp [hst]

/-- C24 as stated fails when the result register is `X0`: for the masked
compare-and-swap `maskedCmpXchgPseudoResultX0`, whose result, scratch, address,
expected, new-value and mask registers `X0`, `X 11`, `X 12`, `X 13`, `X 15`,
`X 14` are pairwise distinct, in a state where the loaded word is 1, the mask
255 and the expected value 1, so that the masked word equals the expected
value, the head block compares 0 with the expected value and its branch to the
done block is taken: the tail block and its store-conditional are not
reached. -/
theorem expandAtomicCmpXchg_masked_resultX0_counterexample :
    ∃ (host head tail done : MachineBasicBlock) (MF' : MachineFunction) (s1 : MachineState),
      expandAtomicCmpXchg (fun _ _ => []) maskedCmpXchgResultX0Function 0 1 true 32 false =
        .ok (MF', 1, true) ∧
      MF'.Blocks = [host, head, tail, done] ∧
      maskedCmpXchgPseudoResultX0.operands =
        [.Reg X0, .Reg (.X 11), .Reg (.X 12), .Reg (.X 13), .Reg (.X 15), .Reg (.X 14),
          .Imm 7] ∧
      [X0, .X 11, .X 12, .X 13, .X 15, .X 14].Pairwise (fun a b => a ≠ b) ∧
      onesState.mem (onesState.read (.X 12)) &&& onesState.read (.X 14) =
        onesState.read (.X 13) ∧
      execBlock 64 0 head.insts onesState [] = some ⟨s1, [], some done.id⟩ :=
  ⟨_, _, _, _, _, _, rfl, rfl, rfl, by decide, rfl, rfl⟩

/-- C24, amended: for the masked compare-and-swap expansion with pairwise
distinct result, scratch, address, expected, new-value and mask registers, of
which neither the result nor the scratch register is `X0`, in every state in
which the loaded word old has `xlen` bits, the mask register holds m and the
new-value register holds n: when `old & m` equals the expected value the head
block ends without its branch taken, control falls through into the tail block,
and the store-conditional of the tail block offers to the address
`(old & ~m) | (n & m)`, whose bits outside the mask, among the low `xlen` bits,
are those of old; when
`old & m` differs from the expected value the head block branches to the done
block. -/
theorem expandAtomicCmpXchg_masked_value (LV : LiveInsOracle) (MF : MachineFunction)
    (Pre Post : List MachineBasicBlock) (MBB : MachineBasicBlock)
    (pre post : List MachineInstr) (P : MachineInstr)
    (xlen status : Nat) (D S A C N M : Register) (o : Int) (rest : List MachineOperand)
    (LR SC : RISCV)
    (hBlocks : MF.Blocks = Pre ++ MBB :: Post)
    (hinsts : MBB.insts = pre ++ P :: post)
    (hops : P.operands = .Reg D :: .Reg S :: .Reg A :: .Reg C :: .Reg N :: .Reg M ::
      .Imm o :: rest)
    (hLR : getLRForRMW false (AtomicOrdering.ofImm o) 32 = .ok LR)
    (hSC : getSCForRMW false (AtomicOrdering.ofImm o) 32 = .ok SC)
    (hdist : [D, S, A, C, N, M].Pairwise (fun a b => a ≠ b))
    (hD0 : D ≠ X0) (hS0 : S ≠ X0) :
    ∃ (host head tail done : MachineBasicBlock) (MF' : MachineFunction),
      expandAtomicCmpXchg LV MF Pre.length pre.length true 32 false =
        .ok (MF', pre.length, true) ∧
      MF'.Blocks = Pre ++ host :: head :: tail :: done :: Post ∧
      ∀ s : MachineState, s.mem (s.read A) < 2 ^ xlen →
        (s.mem (s.read A) &&& s.read M = s.read C →
          ∃ s1, execBlock xlen status head.insts s [] = some ⟨s1, [], none⟩ ∧
            ∃ s2 t2 v, execBlock xlen status tail.insts s1 [] =
                some ⟨s2, [(s.read A, v)], t2⟩ ∧
              v = (s.mem (s.read A) &&& bvNot xlen (s.read M)) |||
                (s.read N &&& s.read M) ∧
              (∀ i, i < xlen → (s.read M).testBit i = false →
                v.testBit i = (s.mem (s.read A)).testBit i) ∧
              (status = 0 → t2 = none) ∧ (status ≠ 0 → t2 = some head.id)) ∧
        (s.mem (s.read A) &&& s.read M ≠ s.read C →
          ∃ s1, execBlock xlen status head.insts s [] = some ⟨s1, [], some done.id⟩) := by
  have hL := getLRForRMW_isLR hLR
  have hSc := getSCForRMW_isSC hSC
  simp only [List.pairwise_cons, List.mem_cons, List.mem_singleton, List.not_mem_nil,
    forall_eq_or_imp, forall_eq, or_false, IsEmpty.forall_iff, implies_true,
    List.Pairwise.nil, and_true, ne_eq] at hdist
  obtain ⟨⟨hDS, hDA, hDC, hDN, hDM⟩, ⟨hSA, hSC', hSN, hSM⟩, -, -, -⟩ := hdist
  obtain ⟨host, head, tail, done, MF', hr, hBl, hhid, -, hdid, -, -, hhead, htl⟩ :=
    expandAtomicCmpXchg_masked_shape LV MF Pre Post MBB pre post P D S A C N M o rest LR SC
      hBlocks hinsts hops hLR hSC hDS hDM hSM
  have rS : ∀ (s : MachineState) v, (s.write S v).read S = v :=
    fun s v => read_write_same s S v hS0
  have rD : ∀ (s : MachineState) v, (s.write D v).read D = v :=
    fun s v => read_write_same s D v hD0
  have oDS : ∀ (s : MachineState) v, (s.write S v).read D = s.read D :=
    fun s v => read_write_other s S D v hDS
  have oMS : ∀ (s : MachineState) v, (s.write S v).read M = s.read M :=
    fun s v => read_write_other s S M v (Ne.symm hSM)
  have oMD : ∀ (s : MachineState) v, (s.write D v).read M = s.read M :=
    fun s v => read_write_other s D M v (Ne.symm hDM)
  have oCS : ∀ (s : MachineState) v, (s.write S v).read C = s.read C :=
    fun s v => read_write_other s S C v (Ne.symm hSC')
  have oCD : ∀ (s : MachineState) v, (s.write D v).read C = s.read C :=
    fun s v => read_write_other s D C v (Ne.symm hDC)
  have oNS : ∀ (s : MachineState) v, (s.write S v).read N = s.read N :=
    fun s v => read_write_other s S N v (Ne.symm hSN)
  have oND : ∀ (s : MachineState) v, (s.write D v).read N = s.read N :=
    fun s v => read_write_other s D N v (Ne.symm hDN)
  have oAS : ∀ (s : MachineState) v, (s.write S v).read A = s.read A :=
    fun s v => read_write_other s S A v (Ne.symm hSA)
  have oAD : ∀ (s : MachineState) v, (s.write D v).read A = s.read A :=
    fun s v => read_write_other s D A v (Ne.symm hDA)
  refine ⟨host, head, tail, done, MF', hr, hBl, fun s hold => ⟨fun heq => ?_, fun hne => ?_⟩⟩
  · rw [hhead, htl, hhid, execBlock_LR xlen status LR hL, execBlock_AND, execBlock_BNE]
    simp only [rS, rD, oDS, oMS, oMD, oCS, oCD]
    rw [if_neg (by simpa using heq), execBlock_nil]
    refine ⟨_, rfl, ?_⟩
    rw [execBlock_XOR, execBlock_AND, execBlock_XOR,
      execBlock_tail_eq xlen status SC hSc S A S MF.nextBlock P.DL _ hS0]
    simp only [rS, rD, oDS, oMS, oMD, oNS, oND, oAS, oAD]
    refine ⟨_, _, _, rfl, maskedMerge_eq xlen _ _ _ hold, fun i hi hm => ?_,
      fun h => if_pos h, fun h => if_neg h⟩
    rw [maskedMerge_eq xlen _ _ _ hold]
    exact maskedMerge_outside xlen _ _ _ i hi hm
  · rw [hhead, hdid, execBlock_LR xlen status LR hL, execBlock_AND, execBlock_BNE]
    simp only [rS, rD, oDS, oMS, oMD, oCS, oCD]
    rw [if_pos hne]
    exact ⟨_, rfl⟩

/-- Witness of C24, amended: the masked compare-and-swap `maskedCmpXchgPseudo`
in the one-block function `maskedCmpXchgFunction`, on 64 bits. -/
theorem expandAtomicCmpXchg_masked_value_witness :
    (maskedCmpXchgFunction.Blocks = [] ++ maskedCmpXchgBlock :: [] ∧
      maskedCmpXchgBlock.insts =
        [⟨.generic 1, [], 0⟩] ++ maskedCmpXchgPseudo :: [⟨.generic 2, [], 0⟩] ∧
      maskedCmpXchgPseudo.operands = .Reg (.X 10) :: .Reg (.X 11) :: .Reg (.X 12) ::
        .Reg (.X 13) :: .Reg (.X 15) :: .Reg (.X 14) :: .Imm 7 :: [] ∧
      getLRForRMW false (AtomicOrdering.ofImm 7) 32 = .ok .LR_W_AQ_RL ∧
      getSCForRMW false (AtomicOrdering.ofImm 7) 32 = .ok .SC_W_AQ_RL ∧
      [Register.X 10, .X 11, .X 12, .X 13, .X 15, .X 14].Pairwise (fun a b => a ≠ b) ∧
      Register.X 10 ≠ X0 ∧ Register.X 11 ≠ X0) ∧
    ∃ (host head tail done : MachineBasicBlock) (MF' : MachineFunction),
      expandAtomicCmpXchg (fun _ _ => []) maskedCmpXchgFunction 0 1 true 32 false =
        .ok (MF', 1, true) ∧
      MF'.Blocks = [] ++ host :: head :: tail :: done :: [] ∧
      ∀ s : MachineState, s.mem (s.read (.X 12)) < 2 ^ 64 →
        (s.mem (s.read (.X 12)) &&& s.read (.X 14) = s.read (.X 13) →
          ∃ s1, execBlock 64 0 head.insts s [] = some ⟨s1, [], none⟩ ∧
            ∃ s2 t2 v, execBlock 64 0 tail.insts s1 [] =
                some ⟨s2, [(s.read (.X 12), v)], t2⟩ ∧
              v = (s.mem (s.read (.X 12)) &&& bvNot 64 (s.read (.X 14))) |||
                (s.read (.X 15) &&& s.read (.X 14)) ∧
              (∀ i, i < 64 → (s.read (.X 14)).testBit i = false →
                v.testBit i = (s.mem (s.read (.X 12))).testBit i) ∧
              ((0 : Nat) = 0 → t2 = none) ∧ ((0 : Nat) ≠ 0 → t2 = some head.id)) ∧
        (s.mem (s.read (.X 12)) &&& s.read (.X 14) ≠ s.read (.X 13) →
          ∃ s1, execBlock 64 0 head.insts s [] = some ⟨s1, [], some done.id⟩) :=
  ⟨⟨rfl, rfl, rfl, rfl, rfl, by decide, by decide, by decide⟩,
    expandAtomicCmpXchg_masked_value (fun _ _ => []) maskedCmpXchgFunction [] []
      maskedCmpXchgBlock [⟨.generic 1, [], 0⟩] [⟨.generic 2, [], 0⟩] maskedCmpXchgPseudo
      64 0 (.X 10) (.X 11) (.X 12) (.X 13) (.X 15) (.X 14) 7 [] .LR_W_AQ_RL .SC_W_AQ_RL
      rfl rfl rfl rfl rfl (by decide) (by decide) (by decide)⟩

/-! ## Theorems: the head block of the masked Min/Max expansion -/

/-- C25: in the masked Min/Max expansion, with result register D (operand 0),
scratch registers S1 and S2 (operands 1 and 2), address register A (operand 3),
incoming value register V (operand 4) and mask register M (operand 5), the head
block holds, in order, the load-reserved of A into D, AND S2 = D and M, the copy
ADDI S1 = D + 0, then for Max and Min the shift-left SLL of S2 by the
shift-amount register (operand 6) and the arithmetic shift-right SRA of S2 by
the same register, and last the comparison branch of the rule between S2 and V;
for UMax and UMin no shift stands between the copy and the branch. -/
theorem expandAtomicMinMaxOp_masked_head (LV : LiveInsOracle) (MF : MachineFunction)
    (Pre Post : List MachineBasicBlock) (MBB : MachineBasicBlock)
    (pre post : List MachineInstr) (P : MachineInstr) (BinOp : BinOp)
    (hBlocks : MF.Blocks = Pre ++ MBB :: Post)
    (hinsts : MBB.insts = pre ++ P :: post)
    (hm : maskedRegsOk P.operands 5 = true)
    (hP : (BinOp ∈ [.Max, .Min] ∧ atomicOperandsOk 7 P.operands = true) ∨
      (BinOp ∈ [.UMax, .UMin] ∧ atomicOperandsOk 6 P.operands = true)) :
    ∃ (host head ifb tail done : MachineBasicBlock) (MF' : MachineFunction)
      (LR : RISCV) (D S1 S2 A V M : Register) (br : MachineInstr),
      expandAtomicMinMaxOp LV MF Pre.length pre.length BinOp true 32 false =
        .ok (MF', pre.length, true) ∧
      MF'.Blocks = Pre ++ host :: head :: ifb :: tail :: done :: Post ∧
      P.operands[0]? = some (.Reg D) ∧ P.operands[1]? = some (.Reg S1) ∧
      P.operands[2]? = some (.Reg S2) ∧ P.operands[3]? = some (.Reg A) ∧
      P.operands[4]? = some (.Reg V) ∧ P.operands[5]? = some (.Reg M) ∧
      LR.isLR ∧ minMaxBranchRule BinOp S2 V tail.id P.DL = some br ∧
      (BinOp ∈ [.Max, .Min] → ∃ Sh, P.operands[6]? = some (.Reg Sh) ∧
        head.insts = [⟨LR, [.Reg D, .Reg A], P.DL⟩,
          ⟨RISCV.AND, [.Reg S2, .Reg D, .Reg M], P.DL⟩,
          ⟨RISCV.ADDI, [.Reg S1, .Reg D, .Imm 0], P.DL⟩,
          ⟨RISCV.SLL, [.Reg S2, .Reg S2, .Reg Sh], P.DL⟩,
          ⟨RISCV.SRA, [.Reg S2, .Reg S2, .Reg Sh], P.DL⟩, br]) ∧
      (BinOp ∈ [.UMax, .UMin] →
        head.insts = [⟨LR, [.Reg D, .Reg A], P.DL⟩,
          ⟨RISCV.AND, [.Reg S2, .Reg D, .Reg M], P.DL⟩,
          ⟨RISCV.ADDI, [.Reg S1, .Reg D, .Imm 0], P.DL⟩, br]) := by
  obtain ⟨d, s1, m, hd, hs1, hm5, hds, hdm, hsm⟩ := maskedRegsOk_spec hm
  rcases hP with ⟨hop, hops⟩ | ⟨hop, hops⟩
  · obtain ⟨D, S1, S2, A, V, M, Sh, o, rest, hops, hleg⟩ := atomicOperandsOk_seven hops
    rw [hops] at hd hs1 hm5
    simp only [List.getElem?_cons_succ, List.getElem?_cons_zero, Option.some.injEq,
      MachineOperand.Reg.injEq] at hd hs1 hm5
    subst hd hs1 hm5
    obtain ⟨LR, hLR⟩ := getLRForRMW32_ok false _ hleg
    obtain ⟨SC, hSC⟩ := getSCForRMW32_ok false _ hleg
    have hL := getLRForRMW32_isLR hLR
    obtain ⟨host, head, ifb, tail, done, MF', br, hr, hBl, -, -, htail, -, -, -, hbr,
      hhead, -, -⟩ := expandAtomicMinMaxOp_signed_shape LV MF Pre Post MBB pre post P
        BinOp D S1 S2 A V M Sh o rest LR SC hBlocks hinsts hops hLR hSC hds hdm hsm hop
    refine ⟨host, head, ifb, tail, done, MF', LR, D, S1, S2, A, V, M, br, hr, hBl,
      by rw [hops]; rfl, by rw [hops]; rfl, by rw [hops]; rfl, by rw [hops]; rfl,
      by rw [hops]; rfl, by rw [hops]; rfl, hL, by rw [htail]; exact hbr,
      fun _ => ⟨Sh, by rw [hops]; rfl, hhead⟩, fun hu => ?_⟩
    simp only [List.mem_cons, List.mem_singleton, List.not_mem_nil, or_false] at hop hu
    rcases hop with rfl | rfl <;> rcases hu with hu | hu <;> cases hu
  · obtain ⟨D, S1, S2, A, V, M, o, rest, hops, hleg⟩ := atomicOperandsOk_six hops
    rw [hops] at hd hs1 hm5
    simp only [List.getElem?_cons_succ, List.getElem?_cons_zero, Option.some.injEq,
      MachineOperand.Reg.injEq] at hd hs1 hm5
    subst hd hs1 hm5
    obtain ⟨LR, hLR⟩ := getLRForRMW32_ok false _ hleg
    obtain ⟨SC, hSC⟩ := getSCForRMW32_ok false _ hleg
    have hL := getLRForRMW32_isLR hLR
    obtain ⟨host, head, ifb, tail, done, MF', br, hr, hBl, -, -, htail, -, -, -, hbr,
      hhead, -, -⟩ := expandAtomicMinMaxOp_unsigned_shape LV MF Pre Post MBB pre post P
        BinOp D S1 S2 A V M o rest LR SC hBlocks hinsts hops hLR hSC hds hdm hsm hop
    refine ⟨host, head, ifb, tail, done, MF', LR, D, S1, S2, A, V, M, br, hr, hBl,
      by rw [hops]; rfl, by rw [hops]; rfl, by rw [hops]; rfl, by rw [hops]; rfl,
      by rw [hops]; rfl, by rw [hops]; rfl, hL, by rw [htail]; exact hbr,
      fun hs => ?_, fun _ => hhead⟩
    simp only [List.mem_cons, List.mem_singleton, List.not_mem_nil, or_false] at hop hs
    rcases hop with rfl | rfl <;> rcases hs with hs | hs <;> cases hs

/-- Witness of C25: the masked signed maximum `maskedMaxPseudo` in the one-block
function `maskedMaxFunction`. -/
theorem expandAtomicMinMaxOp_masked_head_witness :
    (maskedMaxFunction.Blocks = [] ++ maskedMaxBlock :: [] ∧
      maskedMaxBlock.insts =
        [⟨.generic 1, [], 0⟩] ++ maskedMaxPseudo :: [⟨.generic 2, [], 0⟩] ∧
      maskedRegsOk maskedMaxPseudo.operands 5 = true ∧
      atomicOperandsOk 7 maskedMaxPseudo.operands = true) ∧
    ∃ (host head ifb tail done : MachineBasicBlock) (MF' : MachineFunction)
      (LR : RISCV) (D S1 S2 A V M : Register) (br : MachineInstr),
      expandAtomicMinMaxOp (fun _ _ => []) maskedMaxFunction 0 1 .Max true 32 false =
        .ok (MF', 1, true) ∧
      MF'.Blocks = [] ++ host :: head :: ifb :: tail :: done :: [] ∧
      maskedMaxPseudo.operands[0]? = some (.Reg D) ∧
      maskedMaxPseudo.operands[1]? = some (.Reg S1) ∧
      maskedMaxPseudo.operands[2]? = some (.Reg S2) ∧
      maskedMaxPseudo.operands[3]? = some (.Reg A) ∧
      maskedMaxPseudo.operands[4]? = some (.Reg V) ∧
      maskedMaxPseudo.operands[5]? = some (.Reg M) ∧
      LR.isLR ∧ minMaxBranchRule .Max S2 V tail.id maskedMaxPseudo.DL = some br ∧
      (BinOp.Max ∈ [BinOp.Max, BinOp.Min] → ∃ Sh,
        maskedMaxPseudo.operands[6]? = some (.Reg Sh) ∧
        head.insts = [⟨LR, [.Reg D, .Reg A], maskedMaxPseudo.DL⟩,
          ⟨RISCV.AND, [.Reg S2, .Reg D, .Reg M], maskedMaxPseudo.DL⟩,
          ⟨RISCV.ADDI, [.Reg S1, .Reg D, .Imm 0], maskedMaxPseudo.DL⟩,
          ⟨RISCV.SLL, [.Reg S2, .Reg S2, .Reg Sh], maskedMaxPseudo.DL⟩,
          ⟨RISCV.SRA, [.Reg S2, .Reg S2, .Reg Sh], maskedMaxPseudo.DL⟩, br]) ∧
      (BinOp.Max ∈ [BinOp.UMax, BinOp.UMin] →
        head.insts = [⟨LR, [.Reg D, .Reg A], maskedMaxPseudo.DL⟩,
          ⟨RISCV.AND, [.Reg S2, .Reg D, .Reg M], maskedMaxPseudo.DL⟩,
          ⟨RISCV.ADDI, [.Reg S1, .Reg D, .Imm 0], maskedMaxPseudo.DL⟩, br]) :=
  ⟨⟨rfl, rfl, rfl, rfl⟩,
    expandAtomicMinMaxOp_masked_head (fun _ _ => []) maskedMaxFunction [] [] maskedMaxBlock
      [⟨.generic 1, [], 0⟩] [⟨.generic 2, [], 0⟩] maskedMaxPseudo .Max rfl rfl rfl
      (Or.inl ⟨by simp, rfl⟩)⟩

/-! ## Theorems: the emitted address pair -/

/-- The blocks of the integer address-pair expansion. -/
theorem expandAuipcInstPair_shape (LV : LiveInsOracle) (MF : MachineFunction)
    (Pre Post : List MachineBasicBlock) (MBB : MachineBasicBlock)
    (pre post : List MachineInstr) (P : MachineInstr)
    (FlagsHi : TargetFlag) (SecondOpcode : RISCV)
    (DestReg : Register) (Symbol : MachineOperand) (rest : List MachineOperand)
    (hBlocks : MF.Blocks = Pre ++ MBB :: Post)
    (hinsts : MBB.insts = pre ++ P :: post)
    (hd : Symbol.isDisp = true)
    (hops : P.operands = .Reg DestReg :: Symbol :: rest) :
    ∃ (host new : MachineBasicBlock) (MF' : MachineFunction) (hi : MachineOperand),
      expandAuipcInstPair LV MF Pre.length pre.length FlagsHi SecondOpcode =
        .ok (MF', pre.length, true) ∧
      addDisp Symbol 0 FlagsHi = .ok hi ∧
      MF'.Blocks = Pre ++ host :: new :: Post ∧
      host.id = MBB.id ∧ new.id = MF.nextBlock ∧
      host.insts = pre ∧ host.succs = [new.id] ∧
      new.insts = ⟨RISCV.AUIPC, [.Reg DestReg, hi], P.DL⟩ ::
        ⟨SecondOpcode, [.Reg DestReg, .Reg DestReg, .MBB new.id .MO_PCREL_LO], P.DL⟩ ::
        post ∧
      new.succs = MBB.succs := by
  have hB : MF.Blocks[Pre.length]? = some MBB := by
    rw [hBlocks]; exact getElem?_append_cons_self _ _ _
  have hI : MBB.insts[pre.length]? = some P := by
    rw [hinsts]; exact getElem?_append_cons_self _ _ _
  have hk := length_take_of_getElem? hI
  have hpre : MBB.insts.take pre.length = pre := by
    rw [hinsts]; simp
  have hpost : MBB.insts.drop (pre.length + 1) = post := by
    rw [hinsts]; simp
  obtain ⟨hi, hhi⟩ := addDisp_ok hd 0 FlagsHi
  have hg0 : P.getReg 0 = .ok DestReg := getReg_of (by rw [hops]; simp)
  have hg1 : P.getOperand 1 = .ok Symbol := getOperand_of (by rw [hops]; simp)
  obtain ⟨r, hr⟩ := @expandAuipcInstPair_total LV MF Pre.length pre.length MBB P FlagsHi
    SecondOpcode DestReg Symbol rest hB hI hops hd
  have hr' := hr
  simp only [expandAuipcInstPair, hB, hI, hg0, hg1, hhi, Option.elim, bind, Except.bind,
    pure, Except.pure, MachineFunction.CreateMachineBasicBlock,
    MachineBasicBlock.addSuccessor, MachineBasicBlock.splice,
    MachineBasicBlock.transferSuccessors, MachineBasicBlock.erase,
    MachineBasicBlock.setLabelMustBeEmitted, BuildMI, List.nil_append,
    eraseIdx_take_succ hI, hk, hpre, Except.ok.injEq] at hr'
  subst hr'
  refine ⟨_, _, _, hi, hr, hhi, insert_two_blocks MF _ Pre Post MBB _ _ hBlocks, rfl,
    rfl, rfl, rfl, ?_, rfl⟩
  show _ :: _ :: MBB.insts.drop (pre.length + 1) = _
  rw [hpost]
  rfl

/-- The blocks of the capability address-pair expansion. -/
theorem expandAuipccInstPair_shape (LV : LiveInsOracle) (MF : MachineFunction)
    (Pre Post : List MachineBasicBlock) (MBB : MachineBasicBlock)
    (pre post : List MachineInstr) (P : MachineInstr)
    (FlagsHi : TargetFlag) (SecondOpcode : RISCV)
    (DestReg TmpReg : Register) (Symbol : MachineOperand)
    (hBlocks : MF.Blocks = Pre ++ MBB :: Post)
    (hinsts : MBB.insts = pre ++ P :: post)
    (hd : Symbol.isDisp = true)
    (hops : (P.operands = [.Reg DestReg, Symbol] ∧ TmpReg = DestReg) ∨
      (∃ rest, P.operands = .Reg DestReg :: .Reg TmpReg :: Symbol :: rest)) :
    ∃ (host new : MachineBasicBlock) (MF' : MachineFunction) (hi : MachineOperand),
      expandAuipccInstPair LV MF Pre.length pre.length FlagsHi SecondOpcode =
        .ok (MF', pre.length, true) ∧
      addDisp Symbol 0 FlagsHi = .ok hi ∧
      MF'.Blocks = Pre ++ host :: new :: Post ∧
      host.id = MBB.id ∧ new.id = MF.nextBlock ∧
      host.insts = pre ∧ host.succs = [new.id] ∧
      new.insts = ⟨RISCV.AUIPCC, [.Reg TmpReg, hi], P.DL⟩ ::
        ⟨SecondOpcode, [.Reg DestReg, .Reg TmpReg, .MBB new.id .MO_PCREL_LO], P.DL⟩ ::
        post ∧
      new.succs = MBB.succs := by
  have hB : MF.Blocks[Pre.length]? = some MBB := by
    rw [hBlocks]; exact getElem?_append_cons_self _ _ _
  have hI : MBB.insts[pre.length]? = some P := by
    rw [hinsts]; exact getElem?_append_cons_self _ _ _
  have hk := length_take_of_getElem? hI
  have hpre : MBB.insts.take pre.length = pre := by
    rw [hinsts]; simp
  have hpost : MBB.insts.drop (pre.length + 1) = post := by
    rw [hinsts]; simp
  obtain ⟨hi, hhi⟩ := addDisp_ok hd 0 FlagsHi
  have hg : P.getReg 0 = .ok DestReg ∧
      P.getReg (if decide (P.getNumOperands > 2) then 1 else 0) = .ok TmpReg ∧
      P.getOperand (if decide (P.getNumOperands > 2) then 2 else 1) = .ok Symbol := by
    rcases hops with ⟨hops, rfl⟩ | ⟨rest, hops⟩
    · simp [MachineInstr.getReg, MachineInstr.getOperand, MachineInstr.getNumOperands,
        hops]
    · simp [MachineInstr.getReg, MachineInstr.getOperand, MachineInstr.getNumOperands,
        hops]
  obtain ⟨hg0, hg1, hg2⟩ := hg
  have hops' : (∃ r0 d, P.operands = [.Reg r0, d] ∧ d.isDisp = true) ∨
      (∃ r0 r1 d rest, P.operands = .Reg r0 :: .Reg r1 :: d :: rest ∧
        d.isDisp = true) := by
    rcases hops with ⟨hops, -⟩ | ⟨rest, hops⟩
    · exact Or.inl ⟨_, _, hops, hd⟩
    · exact Or.inr ⟨_, _, _, _, hops, hd⟩
  obtain ⟨r, hr⟩ := @expandAuipccInstPair_total LV MF Pre.length pre.length MBB P FlagsHi
    SecondOpcode hB hI hops'
  have hr' := hr
  simp only [expandAuipccInstPair, hB, hI, hg0, hg1, hg2, hhi, Option.elim, bind,
    Except.bind, pure, Except.pure, MachineFunction.CreateMachineBasicBlock,
    MachineBasicBlock.addSuccessor, MachineBasicBlock.splice,
    MachineBasicBlock.transferSuccessors, MachineBasicBlock.erase,
    MachineBasicBlock.setLabelMustBeEmitted, BuildMI, List.nil_append,
    eraseIdx_take_succ hI, hk, hpre, Except.ok.injEq] at hr'
  subst hr'
  refine ⟨_, _, _, hi, hr, hhi, insert_two_blocks MF _ Pre Post MBB _ _ hBlocks, rfl,
    rfl, rfl, rfl, ?_, rfl⟩
  show _ :: _ :: MBB.insts.drop (pre.length + 1) = _
  rw [hpost]
  rfl

theorem emitsAddressPair_auipc (LV : LiveInsOracle) (MF : MachineFunction)
    (Pre Post : List MachineBasicBlock) (MBB : MachineBasicBlock)
    (pre post : List MachineInstr) (P : MachineInstr)
    (FlagsHi : TargetFlag) (SecondOpcode : RISCV)
    (DestReg : Register) (Symbol : MachineOperand) (rest : List MachineOperand)
    (hBlocks : MF.Blocks = Pre ++ MBB :: Post)
    (hinsts : MBB.insts = pre ++ P :: post)
    (hd : Symbol.isDisp = true)
    (hops : P.operands = .Reg DestReg :: Symbol :: rest) :
    EmitsAddressPair (expandAuipcInstPair LV MF Pre.length pre.length FlagsHi SecondOpcode)
      Pre Post post P.DL Symbol DestReg DestReg .AUIPC FlagsHi SecondOpcode := by
  obtain ⟨host, new, MF', hi, hr, hhi, hBl, -, -, hh, -, hn, -⟩ :=
    expandAuipcInstPair_shape LV MF Pre Post MBB pre post P FlagsHi SecondOpcode DestReg
      Symbol rest hBlocks hinsts hd hops
  exact ⟨host, new, MF', hi, by rw [hh]; exact hr, hBl, hhi, hn⟩

theorem emitsAddressPair_auipcc (LV : LiveInsOracle) (MF : MachineFunction)
    (Pre Post : List MachineBasicBlock) (MBB : MachineBasicBlock)
    (pre post : List MachineInstr) (P : MachineInstr)
    (FlagsHi : TargetFlag) (SecondOpcode : RISCV)
    (DestReg TmpReg : Register) (Symbol : MachineOperand)
    (hBlocks : MF.Blocks = Pre ++ MBB :: Post)
    (hinsts : MBB.insts = pre ++ P :: post)
    (hd : Symbol.isDisp = true)
    (hops : (P.operands = [.Reg DestReg, Symbol] ∧ TmpReg = DestReg) ∨
      (∃ rest, P.operands = .Reg DestReg :: .Reg TmpReg :: Symbol :: rest)) :
    EmitsAddressPair
      (expandAuipccInstPair LV MF Pre.length pre.length FlagsHi SecondOpcode)
      Pre Post post P.DL Symbol DestReg TmpReg .AUIPCC FlagsHi SecondOpcode := by
  obtain ⟨host, new, MF', hi, hr, hhi, hBl, -, -, hh, -, hn, -⟩ :=
    expandAuipccInstPair_shape LV MF Pre Post MBB pre post P FlagsHi SecondOpcode DestReg
      TmpReg Symbol hBlocks hinsts hd hops
  exact ⟨host, new, MF', hi, by rw [hh]; exact hr, hBl, hhi, hn⟩

/-- C26: for a host block that holds pre, an address pseudo operation P and
post, each address-pair expander returns the function in which the new block
after the host block starts with the high-part operation and the second
operation below, followed by post. Integer kinds, on P with result register and
symbol: local address AUIPC with MO_PCREL_HI then ADDI; global address AUIPC
with MO_GOT_HI then LD (64-bit target) or LW when position-independent, else
AUIPC with MO_PCREL_HI then ADDI; TLS initial-exec AUIPC with MO_TLS_GOT_HI
then LD (64-bit) or LW; TLS general-dynamic AUIPC with MO_TLS_GD_HI then ADDI.
Capability kinds, on P with result register, optional temporary register and
symbol: capability global AUIPCC with MO_CAPTAB_PCREL_HI then CLC_128 (64-bit)
or CLC_64; capability TLS initial-exec AUIPCC with MO_TLS_IE_CAPTAB_PCREL_HI
then CLD (64-bit) or CLW; capability TLS general-dynamic AUIPCC with
MO_TLS_GD_CAPTAB_PCREL_HI then CIncOffsetImm. -/
theorem addressPair_selection (LV : LiveInsOracle) (MF : MachineFunction)
    (Pre Post : List MachineBasicBlock) (MBB : MachineBasicBlock)
    (pre post : List MachineInstr) (P : MachineInstr)
    (DestReg TmpReg : Register) (Symbol : MachineOperand)
    (hBlocks : MF.Blocks = Pre ++ MBB :: Post)
    (hinsts : MBB.insts = pre ++ P :: post)
    (hd : Symbol.isDisp = true) :
    ((∃ rest, P.operands = .Reg DestReg :: Symbol :: rest) →
      EmitsAddressPair (expandLoadLocalAddress LV MF Pre.length pre.length)
        Pre Post post P.DL Symbol DestReg DestReg .AUIPC .MO_PCREL_HI .ADDI ∧
      EmitsAddressPair (expandLoadAddress LV MF Pre.length pre.length)
        Pre Post post P.DL Symbol DestReg DestReg .AUIPC
        (if MF.isPositionIndependent then .MO_GOT_HI else .MO_PCREL_HI)
        (if MF.isPositionIndependent then (if MF.is64Bit then .LD else .LW) else .ADDI) ∧
      EmitsAddressPair (expandLoadTLSIEAddress LV MF Pre.length pre.length)
        Pre Post post P.DL Symbol DestReg DestReg .AUIPC .MO_TLS_GOT_HI
        (if MF.is64Bit then .LD else .LW) ∧
      EmitsAddressPair (expandLoadTLSGDAddress LV MF Pre.length pre.length)
        Pre Post post P.DL Symbol DestReg DestReg .AUIPC .MO_TLS_GD_HI .ADDI) ∧
    ((P.operands = [.Reg DestReg, Symbol] ∧ TmpReg = DestReg) ∨
      (∃ rest, P.operands = .Reg DestReg :: .Reg TmpReg :: Symbol :: rest) →
      EmitsAddressPair (expandCapLoadGlobalCap LV MF Pre.length pre.length)
        Pre Post post P.DL Symbol DestReg TmpReg .AUIPCC .MO_CAPTAB_PCREL_HI
        (if MF.is64Bit then .CLC_128 else .CLC_64) ∧
      EmitsAddressPair (expandCapLoadTLSIEAddress LV MF Pre.length pre.length)
        Pre Post post P.DL Symbol DestReg TmpReg .AUIPCC .MO_TLS_IE_CAPTAB_PCREL_HI
        (if MF.is64Bit then .CLD else .CLW) ∧
      EmitsAddressPair (expandCapLoadTLSGDCap LV MF Pre.length pre.length)
        Pre Post post P.DL Symbol DestReg TmpReg .AUIPCC .MO_TLS_GD_CAPTAB_PCREL_HI
        .CIncOffsetImm) := by
  constructor
  · rintro ⟨rest, hops⟩
    have key := fun F O => emitsAddressPair_auipc LV MF Pre Post MBB pre post P F O DestReg
      Symbol rest hBlocks hinsts hd hops
    refine ⟨key _ _, ?_, key _ _, key _ _⟩
    unfold expandLoadAddress
    split_ifs <;> exact key _ _
  · intro hops
    have key := fun F O => emitsAddressPair_auipcc LV MF Pre Post MBB pre post P F O DestReg
      TmpReg Symbol hBlocks hinsts hd hops
    exact ⟨key _ _, key _ _, key _ _⟩

/-- Witness of C26: the local-address pseudo operation `llaPseudo` in the
one-block function `addressFunction`, a 64-bit target that is not
position-independent. -/
theorem addressPair_selection_witness :
    (addressFunction.Blocks = [] ++ addressBlock :: [] ∧
      addressBlock.insts = [⟨.generic 1, [], 0⟩] ++ llaPseudo :: [⟨.generic 2, [], 0⟩] ∧
      (MachineOperand.Sym .GlobalAddress 5 0 .MO_None).isDisp = true ∧
      llaPseudo.operands = [.Reg (.X 10), .Sym .GlobalAddress 5 0 .MO_None]) ∧
    EmitsAddressPair (expandLoadAddress (fun _ _ => []) addressFunction 0 1)
      [] [] [⟨.generic 2, [], 0⟩] 0 (.Sym .GlobalAddress 5 0 .MO_None) (.X 10) (.X 10)
      .AUIPC .MO_PCREL_HI .ADDI ∧
    EmitsAddressPair (expandCapLoadGlobalCap (fun _ _ => []) addressFunction 0 1)
      [] [] [⟨.generic 2, [], 0⟩] 0 (.Sym .GlobalAddress 5 0 .MO_None) (.X 10) (.X 10)
      .AUIPCC .MO_CAPTAB_PCREL_HI .CLC_128 :=
  ⟨⟨rfl, rfl, rfl, rfl⟩,
    ((addressPair_selection (fun _ _ => []) addressFunction [] [] addressBlock
      [⟨.generic 1, [], 0⟩] [⟨.generic 2, [], 0⟩] llaPseudo (.X 10) (.X 10)
      (.Sym .GlobalAddress 5 0 .MO_None) rfl rfl rfl).1 ⟨[], rfl⟩).2.1,
    ((addressPair_selection (fun _ _ => []) addressFunction [] [] addressBlock
      [⟨.generic 1, [], 0⟩] [⟨.generic 2, [], 0⟩] llaPseudo (.X 10) (.X 10)
      (.Sym .GlobalAddress 5 0 .MO_None) rfl rfl rfl).2 (Or.inl ⟨rfl, rfl⟩)).1⟩

/-! ## Theorems: the pass replaces the pseudo operations in place -/

theorem concatBlocks_append (a b : List MachineBasicBlock) :
    concatBlocks (a ++ b) = concatBlocks a ++ concatBlocks b := by
  induction a with
  | nil => rfl
  | cons x a ih => simp [concatBlocks, ih]

theorem noPseudo_concatBlocks {Bs : List MachineBasicBlock}
    (h : ∀ B ∈ Bs, NoPseudo B.insts) : NoPseudo (concatBlocks Bs) := by
  induction Bs with
  | nil => simp [concatBlocks, NoPseudo]
  | cons B Bs ih =>
    intro MI hMI
    simp only [concatBlocks, List.mem_append] at hMI
    rcases hMI with h1 | h1
    · exact h B (List.mem_cons_self _ _) MI h1
    · exact ih (fun X hX => h X (List.mem_cons_of_mem _ hX)) MI h1

theorem blocks_eq_of_getElem? {Bs : List MachineBasicBlock} {I : Nat}
    {B : MachineBasicBlock} (h : Bs[I]? = some B) :
    Bs = Bs.take I ++ B :: Bs.drop (I + 1) := by
  rw [← drop_eq_cons_of_getElem? h, List.take_append_drop]

theorem insts_eq_of_getElem? {l : List MachineInstr} {k : Nat}
    {MI : MachineInstr} (h : l[k]? = some MI) :
    l = l.take k ++ MI :: l.drop (k + 1) := by
  have hlt := (List.getElem?_eq_some_iff.1 h).1
  have hget := (List.getElem?_eq_some_iff.1 h).2
  rw [← hget, ← List.drop_eq_getElem_cons hlt, List.take_append_drop]

/-- One expansion replaces one pseudo operation of the concatenation. -/
theorem expanded_concat {MF : MachineFunction} {I k : Nat}
    {r : MachineFunction × Nat × Bool} (h : Expanded MF I k r) :
    ∃ A MI B em, concatBlocks MF.Blocks = A ++ MI :: B ∧ MI.opcode.isPseudo = true ∧
      NoPseudo em ∧ concatBlocks r.1.Blocks = A ++ em ++ B := by
  obtain ⟨MBB, MI, Host, Mids, Last, conc, hB, hI, hp, hBl, hH, hM, hL, hc, -, -, -⟩ := h
  refine ⟨concatBlocks (MF.Blocks.take I) ++ MBB.insts.take k, MI,
    MBB.insts.drop (k + 1) ++ concatBlocks (MF.Blocks.drop (I + 1)),
    concatBlocks Mids ++ conc, ?_, hp, ?_, ?_⟩
  · conv_lhs => rw [blocks_eq_of_getElem? hB]
    rw [concatBlocks_append]
    simp only [concatBlocks]
    conv_lhs => rw [insts_eq_of_getElem? hI]
    simp only [List.append_assoc, List.cons_append]
  · intro X hX
    rcases List.mem_append.1 hX with h1 | h1
    · exact noPseudo_concatBlocks hM X h1
    · exact hc X h1
  · rw [hBl]
    simp only [concatBlocks_append, concatBlocks, hH, hL, List.append_assoc, List.append_nil,
      List.cons_append, List.nil_append]

/-- The call `expandMI` makes for each pseudo opcode, with the arguments it
passes: the arguments depend on the opcode alone, and those of the
read-modify-write, Min/Max and compare-and-swap expanders are never both masked
and capability-mode, are of width 32 when masked, are capability-mode when of
width 8 or 16, and hold one of the operators the expander handles. -/
theorem expandMI_dispatch (o : RISCV) (hp : o.isPseudo = true) :
    (∃ (BinOp : BinOp) (IsMasked : Bool) (Width : Int) (PtrIsCap : Bool),
      (IsMasked && PtrIsCap) = false ∧ (IsMasked = true → Width = 32) ∧
      (Width = 8 ∨ Width = 16 → PtrIsCap = true) ∧
      (Width = 8 ∨ Width = 16 ∨ Width = 32 ∨ Width = 64) ∧
      (IsMasked = true → BinOp ∈ [.Xchg, .Add, .Sub, .Nand]) ∧
      BinOp ∈ [.Xchg, .Add, .Sub, .And, .Or, .Xor, .Nand] ∧
      ∀ (LV : LiveInsOracle) (MF : MachineFunction) (I k n : Nat) (MBB : MachineBasicBlock)
        (ops : List MachineOperand) (DL : Nat),
        MF.Blocks[I]? = some MBB → MBB.insts[k]? = some ⟨.target o, ops, DL⟩ →
        expandMI LV MF I k n = expandAtomicBinOp LV MF I k BinOp IsMasked Width PtrIsCap) ∨
    (∃ (BinOp : BinOp) (IsMasked : Bool) (Width : Int) (PtrIsCap : Bool),
      (IsMasked && PtrIsCap) = false ∧ (IsMasked = true → Width = 32) ∧
      (Width = 8 ∨ Width = 16 → PtrIsCap = true) ∧
      (Width = 8 ∨ Width = 16 ∨ Width = 32 ∨ Width = 64) ∧
      BinOp ∈ [.Max, .Min, .UMax, .UMin] ∧
      ∀ (LV : LiveInsOracle) (MF : MachineFunction) (I k n : Nat) (MBB : MachineBasicBlock)
        (ops : List MachineOperand) (DL : Nat),
        MF.Blocks[I]? = some MBB → MBB.insts[k]? = some ⟨.target o, ops, DL⟩ →
        expandMI LV MF I k n =
          expandAtomicMinMaxOp LV MF I k BinOp IsMasked Width PtrIsCap) ∨
    (∃ (IsMasked : Bool) (Width : Int) (PtrIsCap : Bool),
      (IsMasked && PtrIsCap) = false ∧ (IsMasked = true → Width = 32) ∧
      (Width = 8 ∨ Width = 16 → PtrIsCap = true) ∧
      (Width = 8 ∨ Width = 16 ∨ Width = 32 ∨ Width = 64) ∧
      ∀ (LV : LiveInsOracle) (MF : MachineFunction) (I k n : Nat) (MBB : MachineBasicBlock)
        (ops : List MachineOperand) (DL : Nat),
        MF.Blocks[I]? = some MBB → MBB.insts[k]? = some ⟨.target o, ops, DL⟩ →
        expandMI LV MF I k n = expandAtomicCmpXchg LV MF I k IsMasked Width PtrIsCap) ∨
    (∃ (PtrIsCap : Bool),
      ∀ (LV : LiveInsOracle) (MF : MachineFunction) (I k n : Nat) (MBB : MachineBasicBlock)
        (ops : List MachineOperand) (DL : Nat),
        MF.Blocks[I]? = some MBB → MBB.insts[k]? = some ⟨.target o, ops, DL⟩ →
        expandMI LV MF I k n = expandAtomicCmpXchgCap LV MF I k PtrIsCap) ∨
    (∀ (LV : LiveInsOracle) (MF : MachineFunction) (I k n : Nat) (MBB : MachineBasicBlock)
        (ops : List MachineOperand) (DL : Nat),
        MF.Blocks[I]? = some MBB → MBB.insts[k]? = some ⟨.target o, ops, DL⟩ →
        ∃ FlagsHi SecondOpcode, SecondOpcode.isBranch = false ∧
          expandMI LV MF I k n = expandAuipcInstPair LV MF I k FlagsHi SecondOpcode) ∨
    (∀ (LV : LiveInsOracle) (MF : MachineFunction) (I k n : Nat) (MBB : MachineBasicBlock)
        (ops : List MachineOperand) (DL : Nat),
        MF.Blocks[I]? = some MBB → MBB.insts[k]? = some ⟨.target o, ops, DL⟩ →
        ∃ FlagsHi SecondOpcode, SecondOpcode.isBranch = false ∧
          expandMI LV MF I k n = expandAuipccInstPair LV MF I k FlagsHi SecondOpcode) := by
  cases o
  case PseudoAtomicLoadNand32 =>
    refine Or.inl ⟨.Nand, false, 32, false, by decide, by decide, by decide, by decide, by decide,
      by decide, ?_⟩
    intro LV MF I k n MBB ops DL hB hI
    have key : ∀ x, expandMI LV MF I k n = x → expandAtomicBinOp LV MF I k .Nand false 32 false = x := by
      intro x h
      unfold expandMI at h
      rw [hB] at h
      change (MBB.insts[k]?.elim (Except.error Fatal.BadOperand) Except.ok >>= _) = _ at h
      rw [hI] at h
      exact h
    exact (key _ rfl).symm
  case PseudoAtomicLoadNand64 =>
    refine Or.inl ⟨.Nand, false, 64, false, by decide, by decide, by decide, by decide, by decide,
      by decide, ?_⟩
    intro LV MF I k n MBB ops DL hB hI
    have key : ∀ x, expandMI LV MF I k n = x → expandAtomicBinOp LV MF I k .Nand false 64 false = x := by
      intro x h
      unfold expandMI at h
      rw [hB] at h
      change (MBB.insts[k]?.elim (Except.error Fatal.BadOperand) Except.ok >>= _) = _ at h
      rw [hI] at h
      exact h
    exact (key _ rfl).symm
  case PseudoMaskedAtomicSwap32 =>
    refine Or.inl ⟨.Xchg, true, 32, false, by decide, by decide, by decide, by decide, by decide,
      by decide, ?_⟩
    intro LV MF I k n MBB ops DL hB hI
    have key : ∀ x, expandMI LV MF I k n = x → expandAtomicBinOp LV MF I k .Xchg true 32 false = x := by
      intro x h
      unfold expandMI at h
      rw [hB] at h
      change (MBB.insts[k]?.elim (Except.error Fatal.BadOperand) Except.ok >>= _) = _ at h
      rw [hI] at h
      exact h
    exact (key _ rfl).symm
  case PseudoMaskedAtomicLoadAdd32 =>
    refine Or.inl ⟨.Add, true, 32, false, by decide, by decide, by decide, by decide, by decide,
      by decide, ?_⟩
    intro LV MF I k n MBB ops DL hB hI
    have key : ∀ x, expandMI LV MF I k n = x → expandAtomicBinOp LV MF I k .Add true 32 false = x := by
      intro x h
      unfold expandMI at h
      rw [hB] at h
      change (MBB.insts[k]?.elim (Except.error Fatal.BadOperand) Except.ok >>= _) = _ at h
      rw [hI] at h
      exact h
    exact (key _ rfl).symm
  case PseudoMaskedAtomicLoadSub32 =>
    refine Or.inl ⟨.Sub, true, 32, false, by decide, by decide, by decide, by decide, by decide,
      by decide, ?_⟩
    intro LV MF I k n MBB ops DL hB hI
    have key : ∀ x, expandMI LV MF I k n = x → expandAtomicBinOp LV MF I k .Sub true 32 false = x := by
      intro x h
      unfold expandMI at h
      rw [hB] at h
      change (MBB.insts[k]?.elim (Except.error Fatal.BadOperand) Except.ok >>= _) = _ at h
      rw [hI] at h
      exact h
    exact (key _ rfl).symm
  case PseudoMaskedAtomicLoadNand32 =>
    refine Or.inl ⟨.Nand, true, 32, false, by decide, by decide, by decide, by decide, by decide,
      by decide, ?_⟩
    intro LV MF I k n MBB ops DL hB hI
    have key : ∀ x, expandMI LV MF I k n = x → expandAtomicBinOp LV MF I k .Nand true 32 false = x := by
      intro x h
      unfold expandMI at h
      rw [hB] at h
      change (MBB.insts[k]?.elim (Except.error Fatal.BadOperand) Except.ok >>= _) = _ at h
      rw [hI] at h
      exact h
    exact (key _ rfl).symm
  case PseudoMaskedAtomicLoadMax32 =>
    refine Or.inr (Or.inl ⟨.Max, true, 32, false, by decide, by decide, by decide, by decide,
      by decide, ?_⟩)
    intro LV MF I k n MBB ops DL hB hI
    have key : ∀ x, expandMI LV MF I k n = x → expandAtomicMinMaxOp LV MF I k .Max true 32 false = x := by
      intro x h
      unfold expandMI at h
      rw [hB] at h
      change (MBB.insts[k]?.elim (Except.error Fatal.BadOperand) Except.ok >>= _) = _ at h
      rw [hI] at h
      exact h
    exact (key _ rfl).symm
  case PseudoMaskedAtomicLoadMin32 =>
    refine Or.inr (Or.inl ⟨.Min, true, 32, false, by decide, by decide, by decide, by decide,
      by decide, ?_⟩)
    intro LV MF I k n MBB ops DL hB hI
    have key : ∀ x, expandMI LV MF I k n = x → expandAtomicMinMaxOp LV MF I k .Min true 32 false = x := by
      intro x h
      unfold expandMI at h
      rw [hB] at h
      change (MBB.insts[k]?.elim (Except.error Fatal.BadOperand) Except.ok >>= _) = _ at h
      rw [hI] at h
      exact h
    exact (key _ rfl).symm
  case PseudoMaskedAtomicLoadUMax32 =>
    refine Or.inr (Or.inl ⟨.UMax, true, 32, false, by decide, by decide, by decide, by decide,
      by decide, ?_⟩)
    intro LV MF I k n MBB ops DL hB hI
    have key : ∀ x, expandMI LV MF I k n = x → expandAtomicMinMaxOp LV MF I k .UMax true 32 false = x := by
      intro x h
      unfold expandMI at h
      rw [hB] at h
      change (MBB.insts[k]?.elim (Except.error Fatal.BadOperand) Except.ok >>= _) = _ at h
      rw [hI] at h
      exact h
    exact (key _ rfl).symm
  case PseudoMaskedAtomicLoadUMin32 =>
    refine Or.inr (Or.inl ⟨.UMin, true, 32, false, by decide, by decide, by decide, by decide,
      by decide, ?_⟩)
    intro LV MF I k n MBB ops DL hB hI
    have key : ∀ x, expandMI LV MF I k n = x → expandAtomicMinMaxOp LV MF I k .UMin true 32 false = x := by
      intro x h
      unfold expandMI at h
      rw [hB] at h
      change (MBB.insts[k]?.elim (Except.error Fatal.BadOperand) Except.ok >>= _) = _ at h
      rw [hI] at h
      exact h
    exact (key _ rfl).symm
  case PseudoCmpXchg32 =>
    refine Or.inr (Or.inr (Or.inl ⟨false, 32, false, by decide, by decide, by decide, by decide,
      ?_⟩))
    intro LV MF I k n MBB ops DL hB hI
    have key : ∀ x, expandMI LV MF I k n = x → expandAtomicCmpXchg LV MF I k false 32 false = x := by
      intro x h
      unfold expandMI at h
      rw [hB] at h
      change (MBB.insts[k]?.elim (Except.error Fatal.BadOperand) Except.ok >>= _) = _ at h
      rw [hI] at h
      exact h
    exact (key _ rfl).symm
  case PseudoCmpXchg64 =>
    refine Or.inr (Or.inr (Or.inl ⟨false, 64, false, by decide, by decide, by decide, by decide,
      ?_⟩))
    intro LV MF I k n MBB ops DL hB hI
    have key : ∀ x, expandMI LV MF I k n = x → expandAtomicCmpXchg LV MF I k false 64 false = x := by
      intro x h
      unfold expandMI at h
      rw [hB] at h
      change (MBB.insts[k]?.elim (Except.error Fatal.BadOperand) Except.ok >>= _) = _ at h
      rw [hI] at h
      exact h
    exact (key _ rfl).symm
  case PseudoMaskedCmpXchg32 =>
    refine Or.inr (Or.inr (Or.inl ⟨true, 32, false, by decide, by decide, by decide, by decide,
      ?_⟩))
    intro LV MF I k n MBB ops DL hB hI
    have key : ∀ x, expandMI LV MF I k n = x → expandAtomicCmpXchg LV MF I k true 32 false = x := by
      intro x h
      unfold expandMI at h
      rw [hB] at h
      change (MBB.insts[k]?.elim (Except.error Fatal.BadOperand) Except.ok >>= _) = _ at h
      rw [hI] at h
      exact h
    exact (key _ rfl).symm
  case PseudoLLA =>
    refine Or.inr (Or.inr (Or.inr (Or.inr (Or.inl ?_))))
    intro LV MF I k n MBB ops DL hB hI
    have key : ∀ x, expandMI LV MF I k n = x → expandLoadLocalAddress LV MF I k = x := by
      intro x h
      unfold expandMI at h
      rw [hB] at h
      change (MBB.insts[k]?.elim (Except.error Fatal.BadOperand) Except.ok >>= _) = _ at h
      rw [hI] at h
      exact h
    refine ⟨_, _, ?_, (key _ rfl).symm⟩
    rfl
  case PseudoLA =>
    refine Or.inr (Or.inr (Or.inr (Or.inr (Or.inl ?_))))
    intro LV MF I k n MBB ops DL hB hI
    have key : ∀ x, expandMI LV MF I k n = x → expandLoadAddress LV MF I k = x := by
      intro x h
      unfold expandMI at h
      rw [hB] at h
      change (MBB.insts[k]?.elim (Except.error Fatal.BadOperand) Except.ok >>= _) = _ at h
      rw [hI] at h
      exact h
    rw [← key _ rfl]
    unfold expandLoadAddress
    split_ifs <;> refine ⟨_, _, ?_, rfl⟩ <;> rfl
  case PseudoLA_TLS_IE =>
    refine Or.inr (Or.inr (Or.inr (Or.inr (Or.inl ?_))))
    intro LV MF I k n MBB ops DL hB hI
    have key : ∀ x, expandMI LV MF I k n = x → expandLoadTLSIEAddress LV MF I k = x := by
      intro x h
      unfold expandMI at h
      rw [hB] at h
      change (MBB.insts[k]?.elim (Except.error Fatal.BadOperand) Except.ok >>= _) = _ at h
      rw [hI] at h
      exact h
    refine ⟨_, _, ?_, (key _ rfl).symm⟩
    split_ifs <;> rfl
  case PseudoLA_TLS_GD =>
    refine Or.inr (Or.inr (Or.inr (Or.inr (Or.inl ?_))))
    intro LV MF I k n MBB ops DL hB hI
    have key : ∀ x, expandMI LV MF I k n = x → expandLoadTLSGDAddress LV MF I k = x := by
      intro x h
      unfold expandMI at h
      rw [hB] at h
      change (MBB.insts[k]?.elim (Except.error Fatal.BadOperand) Except.ok >>= _) = _ at h
      rw [hI] at h
      exact h
    refine ⟨_, _, ?_, (key _ rfl).symm⟩
    rfl
  case PseudoCLGC =>
    refine Or.inr (Or.inr (Or.inr (Or.inr (Or.inr ?_))))
    intro LV MF I k n MBB ops DL hB hI
    have key : ∀ x, expandMI LV MF I k n = x → expandCapLoadGlobalCap LV MF I k = x := by
      intro x h
      unfold expandMI at h
      rw [hB] at h
      change (MBB.insts[k]?.elim (Except.error Fatal.BadOperand) Except.ok >>= _) = _ at h
      rw [hI] at h
      exact h
    refine ⟨_, _, ?_, (key _ rfl).symm⟩
    split_ifs <;> rfl
  case PseudoCLA_TLS_IE =>
    refine Or.inr (Or.inr (Or.inr (Or.inr (Or.inr ?_))))
    intro LV MF I k n MBB ops DL hB hI
    have key : ∀ x, expandMI LV MF I k n = x → expandCapLoadTLSIEAddress LV MF I k = x := by
      intro x h
      unfold expandMI at h
      rw [hB] at h
      change (MBB.insts[k]?.elim (Except.error Fatal.BadOperand) Except.ok >>= _) = _ at h
      rw [hI] at h
      exact h
    refine ⟨_, _, ?_, (key _ rfl).symm⟩
    split_ifs <;> rfl
  case PseudoCLC_TLS_GD =>
    refine Or.inr (Or.inr (Or.inr (Or.inr (Or.inr ?_))))
    intro LV MF I k n MBB ops DL hB hI
    have key : ∀ x, expandMI LV MF I k n = x → expandCapLoadTLSGDCap LV MF I k = x := by
      intro x h
      unfold expandMI at h
      rw [hB] at h
      change (MBB.insts[k]?.elim (Except.error Fatal.BadOperand) Except.ok >>= _) = _ at h
      rw [hI] at h
      exact h
    refine ⟨_, _, ?_, (key _ rfl).symm⟩
    rfl
  case PseudoCmpXchgCap =>
    refine Or.inr (Or.inr (Or.inr (Or.inl ⟨false, ?_⟩)))
    intro LV MF I k n MBB ops DL hB hI
    have key : ∀ x, expandMI LV MF I k n = x → expandAtomicCmpXchgCap LV MF I k false = x := by
      intro x h
      unfold expandMI at h
      rw [hB] at h
      change (MBB.insts[k]?.elim (Except.error Fatal.BadOperand) Except.ok >>= _) = _ at h
      rw [hI] at h
      exact h
    exact (key _ rfl).symm
  case PseudoCheriAtomicSwap8 =>
    refine Or.inl ⟨.Xchg, false, 8, true, by decide, by decide, by decide, by decide, by decide,
      by decide, ?_⟩
    intro LV MF I k n MBB ops DL hB hI
    have key : ∀ x, expandMI LV MF I k n = x → expandAtomicBinOp LV MF I k .Xchg false 8 true = x := by
      intro x h
      unfold expandMI at h
      rw [hB] at h
      change (MBB.insts[k]?.elim (Except.error Fatal.BadOperand) Except.ok >>= _) = _ at h
      rw [hI] at h
      exact h
    exact (key _ rfl).symm
  case PseudoCheriAtomicSwap16 =>
    refine Or.inl ⟨.Xchg, false, 16, true, by decide, by decide, by decide, by decide, by decide,
      by decide, ?_⟩
    intro LV MF I k n MBB ops DL hB hI
    have key : ∀ x, expandMI LV MF I k n = x → expandAtomicBinOp LV MF I k .Xchg false 16 true = x := by
      intro x h
      unfold expandMI at h
      rw [hB] at h
      change (MBB.insts[k]?.elim (Except.error Fatal.BadOperand) Except.ok >>= _) = _ at h
      rw [hI] at h
      exact h
    exact (key _ rfl).symm
  case PseudoCheriAtomicLoadAdd8 =>
    refine Or.inl ⟨.Add, false, 8, true, by decide, by decide, by decide, by decide, by decide,
      by decide, ?_⟩
    intro LV MF I k n MBB ops DL hB hI
    have key : ∀ x, expandMI LV MF I k n = x → expandAtomicBinOp LV MF I k .Add false 8 true = x := by
      intro x h
      unfold expandMI at h
      rw [hB] at h
      change (MBB.insts[k]?.elim (Except.error Fatal.BadOperand) Except.ok >>= _) = _ at h
      rw [hI] at h
      exact h
    exact (key _ rfl).symm
  case PseudoCheriAtomicLoadAdd16 =>
    refine Or.inl ⟨.Add, false, 16, true, by decide, by decide, by decide, by decide, by decide,
      by decide, ?_⟩
    intro LV MF I k n MBB ops DL hB hI
    have key : ∀ x, expandMI LV MF I k n = x → expandAtomicBinOp LV MF I k .Add false 16 true = x := by
      intro x h
      unfold expandMI at h
      rw [hB] at h
      change (MBB.insts[k]?.elim (Except.error Fatal.BadOperand) Except.ok >>= _) = _ at h
      rw [hI] at h
      exact h
    exact (key _ rfl).symm
  case PseudoCheriAtomicLoadAnd8 =>
    refine Or.inl ⟨.And, false, 8, true, by decide, by decide, by decide, by decide, by decide,
      by decide, ?_⟩
    intro LV MF I k n MBB ops DL hB hI
    have key : ∀ x, expandMI LV MF I k n = x → expandAtomicBinOp LV MF I k .And false 8 true = x := by
      intro x h
      unfold expandMI at h
      rw [hB] at h
      change (MBB.insts[k]?.elim (Except.error Fatal.BadOperand) Except.ok >>= _) = _ at h
      rw [hI] at h
      exact h
    exact (key _ rfl).symm
  case PseudoCheriAtomicLoadAnd16 =>
    refine Or.inl ⟨.And, false, 16, true, by decide, by decide, by decide, by decide, by decide,
      by decide, ?_⟩
    intro LV MF I k n MBB ops DL hB hI
    have key : ∀ x, expandMI LV MF I k n = x → expandAtomicBinOp LV MF I k .And false 16 true = x := by
      intro x h
      unfold expandMI at h
      rw [hB] at h
      change (MBB.insts[k]?.elim (Except.error Fatal.BadOperand) Except.ok >>= _) = _ at h
      rw [hI] at h
      exact h
    exact (key _ rfl).symm
  case PseudoCheriAtomicLoadOr8 =>
    refine Or.inl ⟨.Or, false, 8, true, by decide, by decide, by decide, by decide, by decide,
      by decide, ?_⟩
    intro LV MF I k n MBB ops DL hB hI
    have key : ∀ x, expandMI LV MF I k n = x → expandAtomicBinOp LV MF I k .Or false 8 true = x := by
      intro x h
      unfold expandMI at h
      rw [hB] at h
      change (MBB.insts[k]?.elim (Except.error Fatal.BadOperand) Except.ok >>= _) = _ at h
      rw [hI] at h
      exact h
    exact (key _ rfl).symm
  case PseudoCheriAtomicLoadOr16 =>
    refine Or.inl ⟨.Or, false, 16, true, by decide, by decide, by decide, by decide, by decide,
      by decide, ?_⟩
    intro LV MF I k n MBB ops DL hB hI
    have key : ∀ x, expandMI LV MF I k n = x → expandAtomicBinOp LV MF I k .Or false 16 true = x := by
      intro x h
      unfold expandMI at h
      rw [hB] at h
      change (MBB.insts[k]?.elim (Except.error Fatal.BadOperand) Except.ok >>= _) = _ at h
      rw [hI] at h
      exact h
    exact (key _ rfl).symm
  case PseudoCheriAtomicLoadXor8 =>
    refine Or.inl ⟨.Xor, false, 8, true, by decide, by decide, by decide, by decide, by decide,
      by decide, ?_⟩
    intro LV MF I k n MBB ops DL hB hI
    have key : ∀ x, expandMI LV MF I k n = x → expandAtomicBinOp LV MF I k .Xor false 8 true = x := by
      intro x h
      unfold expandMI at h
      rw [hB] at h
      change (MBB.insts[k]?.elim (Except.error Fatal.BadOperand) Except.ok >>= _) = _ at h
      rw [hI] at h
      exact h
    exact (key _ rfl).symm
  case PseudoCheriAtomicLoadXor16 =>
    refine Or.inl ⟨.Xor, false, 16, true, by decide, by decide, by decide, by decide, by decide,
      by decide, ?_⟩
    intro LV MF I k n MBB ops DL hB hI
    have key : ∀ x, expandMI LV MF I k n = x → expandAtomicBinOp LV MF I k .Xor false 16 true = x := by
      intro x h
      unfold expandMI at h
      rw [hB] at h
      change (MBB.insts[k]?.elim (Except.error Fatal.BadOperand) Except.ok >>= _) = _ at h
      rw [hI] at h
      exact h
    exact (key _ rfl).symm
  case PseudoCheriAtomicLoadNand8 =>
    refine Or.inl ⟨.Nand, false, 8, true, by decide, by decide, by decide, by decide, by decide,
      by decide, ?_⟩
    intro LV MF I k n MBB ops DL hB hI
    have key : ∀ x, expandMI LV MF I k n = x → expandAtomicBinOp LV MF I k .Nand false 8 true = x := by
      intro x h
      unfold expandMI at h
      rw [hB] at h
      change (MBB.insts[k]?.elim (Except.error Fatal.BadOperand) Except.ok >>= _) = _ at h
      rw [hI] at h
      exact h
    exact (key _ rfl).symm
  case PseudoCheriAtomicLoadNand16 =>
    refine Or.inl ⟨.Nand, false, 16, true, by decide, by decide, by decide, by decide, by decide,
      by decide, ?_⟩
    intro LV MF I k n MBB ops DL hB hI
    have key : ∀ x, expandMI LV MF I k n = x → expandAtomicBinOp LV MF I k .Nand false 16 true = x := by
      intro x h
      unfold expandMI at h
      rw [hB] at h
      change (MBB.insts[k]?.elim (Except.error Fatal.BadOperand) Except.ok >>= _) = _ at h
      rw [hI] at h
      exact h
    exact (key _ rfl).symm
  case PseudoCheriAtomicLoadSub8 =>
    refine Or.inl ⟨.Sub, false, 8, true, by decide, by decide, by decide, by decide, by decide,
      by decide, ?_⟩
    intro LV MF I k n MBB ops DL hB hI
    have key : ∀ x, expandMI LV MF I k n = x → expandAtomicBinOp LV MF I k .Sub false 8 true = x := by
      intro x h
      unfold expandMI at h
      rw [hB] at h
      change (MBB.insts[k]?.elim (Except.error Fatal.BadOperand) Except.ok >>= _) = _ at h
      rw [hI] at h
      exact h
    exact (key _ rfl).symm
  case PseudoCheriAtomicLoadSub16 =>
    refine Or.inl ⟨.Sub, false, 16, true, by decide, by decide, by decide, by decide, by decide,
      by decide, ?_⟩
    intro LV MF I k n MBB ops DL hB hI
    have key : ∀ x, expandMI LV MF I k n = x → expandAtomicBinOp LV MF I k .Sub false 16 true = x := by
      intro x h
      unfold expandMI at h
      rw [hB] at h
      change (MBB.insts[k]?.elim (Except.error Fatal.BadOperand) Except.ok >>= _) = _ at h
      rw [hI] at h
      exact h
    exact (key _ rfl).symm
  case PseudoCheriAtomicLoadNand32 =>
    refine Or.inl ⟨.Nand, false, 32, true, by decide, by decide, by decide, by decide, by decide,
      by decide, ?_⟩
    intro LV MF I k n MBB ops DL hB hI
    have key : ∀ x, expandMI LV MF I k n = x → expandAtomicBinOp LV MF I k .Nand false 32 true = x := by
      intro x h
      unfold expandMI at h
      rw [hB] at h
      change (MBB.insts[k]?.elim (Except.error Fatal.BadOperand) Except.ok >>= _) = _ at h
      rw [hI] at h
      exact h
    exact (key _ rfl).symm
  case PseudoCheriAtomicLoadNand64 =>
    refine Or.inl ⟨.Nand, false, 64, true, by decide, by decide, by decide, by decide, by decide,
      by decide, ?_⟩
    intro LV MF I k n MBB ops DL hB hI
    have key : ∀ x, expandMI LV MF I k n = x → expandAtomicBinOp LV MF I k .Nand false 64 true = x := by
      intro x h
      unfold expandMI at h
      rw [hB] at h
      change (MBB.insts[k]?.elim (Except.error Fatal.BadOperand) Except.ok >>= _) = _ at h
      rw [hI] at h
      exact h
    exact (key _ rfl).symm
  case PseudoCheriAtomicLoadMax8 =>
    refine Or.inr (Or.inl ⟨.Max, false, 8, true, by decide, by decide, by decide, by decide,
      by decide, ?_⟩)
    intro LV MF I k n MBB ops DL hB hI
    have key : ∀ x, expandMI LV MF I k n = x → expandAtomicMinMaxOp LV MF I k .Max false 8 true = x := by
      intro x h
      unfold expandMI at h
      rw [hB] at h
      change (MBB.insts[k]?.elim (Except.error Fatal.BadOperand) Except.ok >>= _) = _ at h
      rw [hI] at h
      exact h
    exact (key _ rfl).symm
  case PseudoCheriAtomicLoadMax16 =>
    refine Or.inr (Or.inl ⟨.Max, false, 16, true, by decide, by decide, by decide, by decide,
      by decide, ?_⟩)
    intro LV MF I k n MBB ops DL hB hI
    have key : ∀ x, expandMI LV MF I k n = x → expandAtomicMinMaxOp LV MF I k .Max false 16 true = x := by
      intro x h
      unfold expandMI at h
      rw [hB] at h
      change (MBB.insts[k]?.elim (Except.error Fatal.BadOperand) Except.ok >>= _) = _ at h
      rw [hI] at h
      exact h
    exact (key _ rfl).symm
  case PseudoCheriAtomicLoadMin8 =>
    refine Or.inr (Or.inl ⟨.Min, false, 8, true, by decide, by decide, by decide, by decide,
      by decide, ?_⟩)
    intro LV MF I k n MBB ops DL hB hI
    have key : ∀ x, expandMI LV MF I k n = x → expandAtomicMinMaxOp LV MF I k .Min false 8 true = x := by
      intro x h
      unfold expandMI at h
      rw [hB] at h
      change (MBB.insts[k]?.elim (Except.error Fatal.BadOperand) Except.ok >>= _) = _ at h
      rw [hI] at h
      exact h
    exact (key _ rfl).symm
  case PseudoCheriAtomicLoadMin16 =>
    refine Or.inr (Or.inl ⟨.Min, false, 16, true, by decide, by decide, by decide, by decide,
      by decide, ?_⟩)
    intro LV MF I k n MBB ops DL hB hI
    have key : ∀ x, expandMI LV MF I k n = x → expandAtomicMinMaxOp LV MF I k .Min false 16 true = x := by
      intro x h
      unfold expandMI at h
      rw [hB] at h
      change (MBB.insts[k]?.elim (Except.error Fatal.BadOperand) Except.ok >>= _) = _ at h
      rw [hI] at h
      exact h
    exact (key _ rfl).symm
  case PseudoCheriAtomicLoadUMax8 =>
    refine Or.inr (Or.inl ⟨.UMax, false, 8, true, by decide, by decide, by decide, by decide,
      by decide, ?_⟩)
    intro LV MF I k n MBB ops DL hB hI
    have key : ∀ x, expandMI LV MF I k n = x → expandAtomicMinMaxOp LV MF I k .UMax false 8 true = x := by
      intro x h
      unfold expandMI at h
      rw [hB] at h
      change (MBB.insts[k]?.elim (Except.error Fatal.BadOperand) Except.ok >>= _) = _ at h
      rw [hI] at h
      exact h
    exact (key _ rfl).symm
  case PseudoCheriAtomicLoadUMax16 =>
    refine Or.inr (Or.inl ⟨.UMax, false, 16, true, by decide, by decide, by decide, by decide,
      by decide, ?_⟩)
    intro LV MF I k n MBB ops DL hB hI
    have key : ∀ x, expandMI LV MF I k n = x → expandAtomicMinMaxOp LV MF I k .UMax false 16 true = x := by
      intro x h
      unfold expandMI at h
      rw [hB] at h
      change (MBB.insts[k]?.elim (Except.error Fatal.BadOperand) Except.ok >>= _) = _ at h
      rw [hI] at h
      exact h
    exact (key _ rfl).symm
  case PseudoCheriAtomicLoadUMin8 =>
    refine Or.inr (Or.inl ⟨.UMin, false, 8, true, by decide, by decide, by decide, by decide,
      by decide, ?_⟩)
    intro LV MF I k n MBB ops DL hB hI
    have key : ∀ x, expandMI LV MF I k n = x → expandAtomicMinMaxOp LV MF I k .UMin false 8 true = x := by
      intro x h
      unfold expandMI at h
      rw [hB] at h
      change (MBB.insts[k]?.elim (Except.error Fatal.BadOperand) Except.ok >>= _) = _ at h
      rw [hI] at h
      exact h
    exact (key _ rfl).symm
  case PseudoCheriAtomicLoadUMin16 =>
    refine Or.inr (Or.inl ⟨.UMin, false, 16, true, by decide, by decide, by decide, by decide,
      by decide, ?_⟩)
    intro LV MF I k n MBB ops DL hB hI
    have key : ∀ x, expandMI LV MF I k n = x → expandAtomicMinMaxOp LV MF I k .UMin false 16 true = x := by
      intro x h
      unfold expandMI at h
      rw [hB] at h
      change (MBB.insts[k]?.elim (Except.error Fatal.BadOperand) Except.ok >>= _) = _ at h
      rw [hI] at h
      exact h
    exact (key _ rfl).symm
  case PseudoCheriCmpXchg8 =>
    refine Or.inr (Or.inr (Or.inl ⟨false, 8, true, by decide, by decide, by decide, by decide,
      ?_⟩))
    intro LV MF I k n MBB ops DL hB hI
    have key : ∀ x, expandMI LV MF I k n = x → expandAtomicCmpXchg LV MF I k false 8 true = x := by
      intro x h
      unfold expandMI at h
      rw [hB] at h
      change (MBB.insts[k]?.elim (Except.error Fatal.BadOperand) Except.ok >>= _) = _ at h
      rw [hI] at h
      exact h
    exact (key _ rfl).symm
  case PseudoCheriCmpXchg16 =>
    refine Or.inr (Or.inr (Or.inl ⟨false, 16, true, by decide, by decide, by decide, by decide,
      ?_⟩))
    intro LV MF I k n MBB ops DL hB hI
    have key : ∀ x, expandMI LV MF I k n = x → expandAtomicCmpXchg LV MF I k false 16 true = x := by
      intro x h
      unfold expandMI at h
      rw [hB] at h
      change (MBB.insts[k]?.elim (Except.error Fatal.BadOperand) Except.ok >>= _) = _ at h
      rw [hI] at h
      exact h
    exact (key _ rfl).symm
  case PseudoCheriCmpXchg32 =>
    refine Or.inr (Or.inr (Or.inl ⟨false, 32, true, by decide, by decide, by decide, by decide,
      ?_⟩))
    intro LV MF I k n MBB ops DL hB hI
    have key : ∀ x, expandMI LV MF I k n = x → expandAtomicCmpXchg LV MF I k false 32 true = x := by
      intro x h
      unfold expandMI at h
      rw [hB] at h
      change (MBB.insts[k]?.elim (Except.error Fatal.BadOperand) Except.ok >>= _) = _ at h
      rw [hI] at h
      exact h
    exact (key _ rfl).symm
  case PseudoCheriCmpXchg64 =>
    refine Or.inr (Or.inr (Or.inl ⟨false, 64, true, by decide, by decide, by decide, by decide,
      ?_⟩))
    intro LV MF I k n MBB ops DL hB hI
    have key : ∀ x, expandMI LV MF I k n = x → expandAtomicCmpXchg LV MF I k false 64 true = x := by
      intro x h
      unfold expandMI at h
      rw [hB] at h
      change (MBB.insts[k]?.elim (Except.error Fatal.BadOperand) Except.ok >>= _) = _ at h
      rw [hI] at h
      exact h
    exact (key _ rfl).symm
  case PseudoCheriCmpXchgCap =>
    refine Or.inr (Or.inr (Or.inr (Or.inl ⟨true, ?_⟩)))
    intro LV MF I k n MBB ops DL hB hI
    have key : ∀ x, expandMI LV MF I k n = x → expandAtomicCmpXchgCap LV MF I k true = x := by
      intro x h
      unfold expandMI at h
      rw [hB] at h
      change (MBB.insts[k]?.elim (Except.error Fatal.BadOperand) Except.ok >>= _) = _ at h
      rw [hI] at h
      exact h
    exact (key _ rfl).symm
  all_goals exact Bool.noConfusion hp

/-- C28: for every pseudo opcode, `expandMI` calls one expander with arguments
that depend on the opcode alone. The arguments (operator, masked, width,
capability mode) passed to the read-modify-write, Min/Max and compare-and-swap
expanders are never both masked and capability-mode, have width 32 when masked,
are capability-mode when the width is 8 or 16, and have a width among 8, 16, 32
and 64; a read-modify-write operator is one of swap, add, sub, and, or, xor and
nand, one of swap, add, sub and nand when masked, and a Min/Max operator is one
of Max, Min, UMax and UMin. Consequently `expandMI` returns a result, without a
failed assertion or a fatal branch in the expanders or the opcode tables, on
every operation of that opcode whose operands are as the opcode prescribes:
registers, symbol and ordering immediate in their positions, the ordering any
of the five legal ones, and for the masked forms result, scratch and mask
registers that differ, which `insertMaskedMerge` asserts. -/
theorem expandMI_arguments (o : RISCV) (hp : o.isPseudo = true) :
    ((∃ (BinOp : BinOp) (IsMasked : Bool) (Width : Int) (PtrIsCap : Bool),
      (IsMasked && PtrIsCap) = false ∧ (IsMasked = true → Width = 32) ∧
      (Width = 8 ∨ Width = 16 → PtrIsCap = true) ∧
      (Width = 8 ∨ Width = 16 ∨ Width = 32 ∨ Width = 64) ∧
      (IsMasked = true → BinOp ∈ [.Xchg, .Add, .Sub, .Nand]) ∧
      BinOp ∈ [.Xchg, .Add, .Sub, .And, .Or, .Xor, .Nand] ∧
      ∀ (LV : LiveInsOracle) (MF : MachineFunction) (I k n : Nat) (MBB : MachineBasicBlock)
        (ops : List MachineOperand) (DL : Nat),
        MF.Blocks[I]? = some MBB → MBB.insts[k]? = some ⟨.target o, ops, DL⟩ →
        expandMI LV MF I k n = expandAtomicBinOp LV MF I k BinOp IsMasked Width PtrIsCap) ∨
    (∃ (BinOp : BinOp) (IsMasked : Bool) (Width : Int) (PtrIsCap : Bool),
      (IsMasked && PtrIsCap) = false ∧ (IsMasked = true → Width = 32) ∧
      (Width = 8 ∨ Width = 16 → PtrIsCap = true) ∧
      (Width = 8 ∨ Width = 16 ∨ Width = 32 ∨ Width = 64) ∧
      BinOp ∈ [.Max, .Min, .UMax, .UMin] ∧
      ∀ (LV : LiveInsOracle) (MF : MachineFunction) (I k n : Nat) (MBB : MachineBasicBlock)
        (ops : List MachineOperand) (DL : Nat),
        MF.Blocks[I]? = some MBB → MBB.insts[k]? = some ⟨.target o, ops, DL⟩ →
        expandMI LV MF I k n =
          expandAtomicMinMaxOp LV MF I k BinOp IsMasked Width PtrIsCap) ∨
    (∃ (IsMasked : Bool) (Width : Int) (PtrIsCap : Bool),
      (IsMasked && PtrIsCap) = false ∧ (IsMasked = true → Width = 32) ∧
      (Width = 8 ∨ Width = 16 → PtrIsCap = true) ∧
      (Width = 8 ∨ Width = 16 ∨ Width = 32 ∨ Width = 64) ∧
      ∀ (LV : LiveInsOracle) (MF : MachineFunction) (I k n : Nat) (MBB : MachineBasicBlock)
        (ops : List MachineOperand) (DL : Nat),
        MF.Blocks[I]? = some MBB → MBB.insts[k]? = some ⟨.target o, ops, DL⟩ →
        expandMI LV MF I k n = expandAtomicCmpXchg LV MF I k IsMasked Width PtrIsCap) ∨
    (∃ (PtrIsCap : Bool),
      ∀ (LV : LiveInsOracle) (MF : MachineFunction) (I k n : Nat) (MBB : MachineBasicBlock)
        (ops : List MachineOperand) (DL : Nat),
        MF.Blocks[I]? = some MBB → MBB.insts[k]? = some ⟨.target o, ops, DL⟩ →
        expandMI LV MF I k n = expandAtomicCmpXchgCap LV MF I k PtrIsCap) ∨
    (∀ (LV : LiveInsOracle) (MF : MachineFunction) (I k n : Nat) (MBB : MachineBasicBlock)
        (ops : List MachineOperand) (DL : Nat),
        MF.Blocks[I]? = some MBB → MBB.insts[k]? = some ⟨.target o, ops, DL⟩ →
        ∃ FlagsHi SecondOpcode, SecondOpcode.isBranch = false ∧
          expandMI LV MF I k n = expandAuipcInstPair LV MF I k FlagsHi SecondOpcode) ∨
    (∀ (LV : LiveInsOracle) (MF : MachineFunction) (I k n : Nat) (MBB : MachineBasicBlock)
        (ops : List MachineOperand) (DL : Nat),
        MF.Blocks[I]? = some MBB → MBB.insts[k]? = some ⟨.target o, ops, DL⟩ →
        ∃ FlagsHi SecondOpcode, SecondOpcode.isBranch = false ∧
          expandMI LV MF I k n = expandAuipccInstPair LV MF I k FlagsHi SecondOpcode)) ∧
    ∀ (LV : LiveInsOracle) (MF : MachineFunction) (I k n : Nat) (MBB : MachineBasicBlock)
      (ops : List MachineOperand) (DL : Nat),
      MF.Blocks[I]? = some MBB → MBB.insts[k]? = some ⟨.target o, ops, DL⟩ →
      MachineInstr.wellFormed ⟨.target o, ops, DL⟩ = true →
      ∃ r, expandMI LV MF I k n = .ok r :=
  ⟨expandMI_dispatch o hp, fun _ _ _ _ n _ _ _ hB hI hwf => expandMI_total n hB hI hwf⟩

/-- Witness of C28: the masked compare-and-swap opcode, and the operation
`maskedCmpXchgPseudo` of the one-block function `maskedCmpXchgFunction`. -/
theorem expandMI_arguments_witness :
    RISCV.PseudoMaskedCmpXchg32.isPseudo = true ∧
    ∃ r, expandMI (fun _ _ => []) maskedCmpXchgFunction 0 1 2 = .ok r :=
  ⟨rfl, (expandMI_arguments .PseudoMaskedCmpXchg32 rfl).2 (fun _ _ => [])
    maskedCmpXchgFunction 0 1 2 maskedCmpXchgBlock _ _ rfl rfl rfl⟩

/-! ## Theorems: branches and successor lists after an expansion -/

theorem getElem?_append_two {α : Type} (a b : List α) (x y : α) :
    (a ++ x :: y :: b)[a.length + 1]? = some y := by
  have := getElem?_append_cons_self (a ++ [x]) b y
  simpa using this

/-- C30: for every register state and every choice of registers that passes the
three assertions of `insertMaskedMerge` (old-value register different from the
scratch register and from the mask register, scratch register different from
the mask register), with the scratch and destination registers not `X0` and the
old value a value of `xlen` bits, the three emitted operations run to a state
in which the destination register holds `(old & ~mask) | (new & mask)`, where
`old`, `new` and `mask` are the contents of the old-value, new-value and mask
registers beforehand, and in which every register other than the scratch and
the destination register, and the memory, are as before. The new-value,
scratch and destination registers may coincide. -/
theorem insertMaskedMerge_registers (xlen DL : Nat) (MBB : MachineBasicBlock)
    (DestReg OldValReg NewValReg MaskReg ScratchReg : Register) (s : MachineState)
    (hold : s.read OldValReg < 2 ^ xlen)
    (h1 : OldValReg ≠ ScratchReg) (h2 : OldValReg ≠ MaskReg) (h3 : ScratchReg ≠ MaskReg)
    (hS0 : ScratchReg ≠ X0) (hD0 : DestReg ≠ X0) :
    ∃ i1 i2 i3 s',
      insertMaskedMerge DL MBB DestReg OldValReg NewValReg MaskReg ScratchReg =
        .ok { MBB with insts := MBB.insts ++ [i1, i2, i3] } ∧
      execInsts xlen [i1, i2, i3] s = some s' ∧
      s'.read DestReg =
        (s.read OldValReg &&& bvNot xlen (s.read MaskReg)) |||
          (s.read NewValReg &&& s.read MaskReg) ∧
      (∀ r, r ≠ ScratchReg → r ≠ DestReg → s'.read r = s.read r) ∧
      s'.mem = s.mem := by
  refine ⟨_, _, _, _, insertMaskedMerge_eq DL MBB _ _ _ _ _ h1 h2 h3, rfl, ?_, ?_, rfl⟩
  · rw [← maskedMerge_eq xlen _ _ _ hold]
    rw [read_write_same _ _ _ hD0, read_write_same _ _ _ hS0, read_write_same _ _ _ hS0,
      read_write_other _ _ _ _ h1, read_write_other _ _ _ _ h1,
      read_write_other _ _ _ _ (Ne.symm h3)]
  · intro r hrS hrD
    rw [read_write_other _ _ _ _ hrD, read_write_other _ _ _ _ hrS,
      read_write_other _ _ _ _ hrS]

/-- Witness of C30: the aliasing of the masked read-modify-write expansion, in
which `X 14` is the new-value, the scratch and the destination register; the old
value 171 is in `X 10` and the mask 15 in `X 15`, on 64 bits. -/
theorem insertMaskedMerge_registers_witness :
    onesState.read (.X 10) < 2 ^ 64 ∧ Register.X 10 ≠ Register.X 14 ∧
    Register.X 10 ≠ Register.X 15 ∧ Register.X 14 ≠ Register.X 15 ∧
    Register.X 14 ≠ X0 ∧
    ∃ i1 i2 i3 s',
      insertMaskedMerge 0 emptyBlock (.X 14) (.X 10) (.X 14) (.X 15) (.X 14) =
        .ok { emptyBlock with insts := emptyBlock.insts ++ [i1, i2, i3] } ∧
      execInsts 64 [i1, i2, i3] onesState = some s' ∧
      s'.read (.X 14) =
        (onesState.read (.X 10) &&& bvNot 64 (onesState.read (.X 15))) |||
          (onesState.read (.X 14) &&& onesState.read (.X 15)) ∧
      (∀ r, r ≠ Register.X 14 → r ≠ Register.X 14 → s'.read r = onesState.read r) ∧
      s'.mem = onesState.mem :=
  ⟨by decide, by decide, by decide, by decide, by decide,
    insertMaskedMerge_registers 64 0 emptyBlock (.X 14) (.X 10) (.X 14) (.X 15) (.X 14)
      onesState (by decide) (by decide) (by decide) (by decide) (by decide) (by decide)⟩

/-! ## Theorems: the registers a block writes -/

theorem isBranch_of_atomicInfo {o : RISCV} (h : o.atomicInfo ≠ none) :
    o.isBranch = false := by
  cases o <;> first | rfl | exact absurd rfl h

theorem lastVisit_append_same {σ : Type} (p : Nat) (s : σ) :
    ∀ tr : List (Nat × σ), lastVisit p (tr ++ [(p, s)]) = some s
  | [] => by simp [lastVisit]
  | (q, x) :: rest => by
    have ih := lastVisit_append_same p s rest
    show (match lastVisit p (rest ++ [(p, s)]) with
      | some x => some x
      | none => if q = p then some x else none) = some s
    rw [ih]

theorem lastVisit_append_other {σ : Type} (p q : Nat) (s : σ) (h : q ≠ p) :
    ∀ tr : List (Nat × σ), lastVisit p (tr ++ [(q, s)]) = lastVisit p tr
  | [] => by simp [lastVisit, h]
  | (a, x) :: rest => by
    have ih := lastVisit_append_other p q s h rest
    show (match lastVisit p (rest ++ [(q, s)]) with
      | some x => some x
      | none => if a = p then some x else none) = lastVisit p ((a, x) :: rest)
    rw [ih]
    rfl

/-- Along the control flow from the head block of a region of blocks to its
exit: when the head block leaves in `readD` what `loaded` gives of its entry
state, the other blocks of the region keep `readD`, and the branches of the
region stay in the region, `readD` at the exit is `loaded` of the entry state
of the last execution of the head block. -/
theorem runBlocks_result {σ V : Type}
    (exec : Nat → List MachineInstr → σ → Option (σ × Option Nat))
    (Blocks : List MachineBasicBlock) (hp ep : Nat) (status : Nat → Nat)
    (readD loaded : σ → V) (hhe : hp < ep)
    (Hhead : ∀ B st s s1 t, Blocks[hp]? = some B → exec st B.insts s = some (s1, t) →
      readD s1 = loaded s)
    (Hother : ∀ p B st s s1 t, hp < p → p < ep → Blocks[p]? = some B →
      exec st B.insts s = some (s1, t) → readD s1 = readD s)
    (Hclosed : ∀ p B st s s1 t, hp ≤ p → p < ep → Blocks[p]? = some B →
      exec st B.insts s = some (s1, some t) →
      ∃ q, blockIndex Blocks t = some q ∧ hp ≤ q ∧ q ≤ ep) :
    ∀ (fuel p : Nat) (s : σ) (tr : List (Nat × σ)) (sE : σ) (trE : List (Nat × σ)),
      hp ≤ p → p ≤ ep →
      (p ≠ hp → ∃ sh, lastVisit hp tr = some sh ∧ readD s = loaded sh) →
      runBlocks exec Blocks ep status fuel p s tr = some (sE, trE) →
      ∃ sh, lastVisit hp trE = some sh ∧ readD sE = loaded sh := by
  intro fuel
  induction fuel with
  | zero =>
    intro p s tr sE trE h1 h2 hinv h
    unfold runBlocks at h
    split at h
    · rename_i hpe
      simp only [Option.some.injEq, Prod.mk.injEq] at h
      obtain ⟨rfl, rfl⟩ := h
      exact hinv (by omega)
    · cases h
  | succ fuel ih =>
    intro p s tr sE trE h1 h2 hinv h
    unfold runBlocks at h
    split at h
    · rename_i hpe
      simp only [Option.some.injEq, Prod.mk.injEq] at h
      obtain ⟨rfl, rfl⟩ := h
      exact hinv (by omega)
    · rename_i hpe
      have hlt : p < ep := by omega
      split at h
      · cases h
      · rename_i B hB
        have hnext : ∀ s1 t, exec (status tr.length) B.insts s = some (s1, t) →
            ∀ q, hp ≤ q → q ≤ ep →
            (q ≠ hp → ∃ sh, lastVisit hp (tr ++ [(p, s)]) = some sh ∧
              readD s1 = loaded sh) := by
          intro s1 t hE q _ _ _
          by_cases hph : p = hp
          · subst hph
            exact ⟨s, lastVisit_append_same _ _ _, Hhead B _ s s1 t hB hE⟩
          · obtain ⟨sh, hsh, hrd⟩ := hinv hph
            refine ⟨sh, ?_, ?_⟩
            · rw [lastVisit_append_other _ _ _ hph]
              exact hsh
            · rw [Hother p B _ s s1 t (by omega) hlt hB hE]
              exact hrd
        split at h
        · cases h
        · rename_i s1 hE
          exact ih (p + 1) s1 _ sE trE (by omega) (by omega)
            (hnext s1 none hE (p + 1) (by omega) (by omega)) h
        · rename_i s1 t hE
          obtain ⟨q, hq, hq1, hq2⟩ := Hclosed p B _ s s1 t h1 hlt hB hE
          rw [hq] at h
          exact ih q s1 _ sE trE hq1 hq2 (hnext s1 (some t) hE q hq1 hq2) h

theorem defReg_of_target (o : RISCV) (rd : Register) (rest : List MachineOperand) (DL : Nat)
    (h : o.isBranch = false) :
    MachineInstr.defReg ⟨.target o, .Reg rd :: rest, DL⟩ = some rd := by
  simp [MachineInstr.defReg, h]

theorem defReg_of_isStoreConditional {MI : MachineInstr} {rd : Register}
    {rest : List MachineOperand} (h : MI.isStoreConditional = true)
    (hops : MI.operands = .Reg rd :: rest) : MI.defReg = some rd := by
  obtain ⟨op, ops, DL⟩ := MI
  cases op with
  | generic n => simp [MachineInstr.isStoreConditional] at h
  | target o =>
    simp only at hops
    subst hops
    apply defReg_of_target
    apply isBranch_of_atomicInfo
    intro h0
    simp [MachineInstr.isStoreConditional, h0] at h

theorem defReg_of_isLoadReserved {MI : MachineInstr} {rd : Register}
    {rest : List MachineOperand} (h : MI.isLoadReserved = true)
    (hops : MI.operands = .Reg rd :: rest) : MI.defReg = some rd := by
  obtain ⟨op, ops, DL⟩ := MI
  cases op with
  | generic n => simp [MachineInstr.isLoadReserved] at h
  | target o =>
    simp only at hops
    subst hops
    apply defReg_of_target
    apply isBranch_of_atomicInfo
    intro h0
    simp [MachineInstr.isLoadReserved, h0] at h

theorem read_storeConditional_other (s : MachineState) (rd q : Register)
    (addr v status : Nat) (h : q ≠ rd) :
    (s.storeConditional rd addr v status).read q = s.read q := by
  unfold MachineState.storeConditional
  rw [read_write_other _ _ _ _ h]
  split <;> rfl

/-- An operation changes no register but the one it writes. -/
theorem execInst_frame (xlen : Nat) (MI : MachineInstr) (s s1 : MachineState)
    (q : Register) (hq : MI.defReg ≠ some q) (h : execInst xlen MI s = some s1) :
    s1.read q = s.read q := by
  unfold execInst at h
  split at h
  · rename_i hLR
    split at h
    · rename_i rd rs1 hops
      have hd := defReg_of_isLoadReserved hLR hops
      simp only [Option.some.injEq] at h
      subst h
      exact read_write_other _ _ _ _ (fun e => hq (by rw [hd, e]))
    · cases h
  · obtain ⟨op, ops, DL⟩ := MI
    simp only at h
    split at h
    all_goals first
      | (simp only [Option.some.injEq] at h
         subst h
         exact read_write_other _ _ _ _
           (fun e => hq (by rw [e]; exact defReg_of_target _ _ _ _ rfl)))
      | cases h

/-- A block changes no register but those its operations write. -/
theorem execBlock_frame (xlen status : Nat) (q : Register) :
    ∀ (insts : List MachineInstr) (s : MachineState) (off : List (Nat × Nat))
      (out : BlockOutcome),
      (∀ MI ∈ insts, MI.defReg ≠ some q) →
      execBlock xlen status insts s off = some out → out.state.read q = s.read q
  | [], s, off, out, _, h => by
    simp only [execBlock, Option.some.injEq] at h
    subst h
    rfl
  | MI :: rest, s, off, out, hq, h => by
    have hMI := hq MI (List.mem_cons_self _ _)
    have hrest : ∀ M ∈ rest, M.defReg ≠ some q :=
      fun M hM => hq M (List.mem_cons_of_mem _ hM)
    unfold execBlock at h
    split at h
    · rename_i hSC
      split at h
      · rename_i rd rs1 rs2 hops
        have hd := defReg_of_isStoreConditional hSC hops
        rw [execBlock_frame xlen status q rest _ _ out hrest h]
        exact read_storeConditional_other _ _ _ _ _ _ (fun e => hMI (by rw [hd, e]))
      · cases h
    · split at h
      · simp only [Option.some.injEq] at h
        subst h
        rfl
      · exact execBlock_frame xlen status q rest _ _ out hrest h
      · split at h
        · rename_i s1 hE
          rw [execBlock_frame xlen status q rest _ _ out hrest h]
          exact execInst_frame xlen MI s s1 q hMI hE
        · cases h

theorem branchOutcome_target (xlen : Nat) (MI : MachineInstr) (s : MachineState)
    (b : Bool) (t : Nat) (h : branchOutcome xlen MI s = some (b, t)) :
    t ∈ MI.branchTargets := by
  obtain ⟨op, ops, DL⟩ := MI
  unfold branchOutcome at h
  simp only at h
  split at h
  all_goals first
    | (simp only [Option.some.injEq, Prod.mk.injEq] at h
       obtain ⟨-, rfl⟩ := h
       simp [MachineInstr.branchTargets, RISCV.isBranch])
    | cases h

/-- The block a taken branch of a block leads to is a branch target of the
block. -/
theorem execBlock_target (xlen status : Nat) :
    ∀ (insts : List MachineInstr) (s : MachineState) (off : List (Nat × Nat))
      (out : BlockOutcome) (t : Nat),
      execBlock xlen status insts s off = some out → out.target = some t →
      t ∈ blockBranchTargets insts
  | [], s, off, out, t, h, ht => by
    simp only [execBlock, Option.some.injEq] at h
    subst h
    cases ht
  | MI :: rest, s, off, out, t, h, ht => by
    have hrest : ∀ s1 off1, execBlock xlen status rest s1 off1 = some out →
        t ∈ blockBranchTargets (MI :: rest) := by
      intro s1 off1 h1
      have := execBlock_target xlen status rest s1 off1 out t h1 ht
      simp only [blockBranchTargets, List.mem_append]
      exact Or.inr this
    unfold execBlock at h
    split at h
    · split at h
      · exact hrest _ _ h
      · cases h
    · split at h
      · rename_i t1 hb
        simp only [Option.some.injEq] at h
        subst h
        simp only [Option.some.injEq] at ht
        subst ht
        simp only [blockBranchTargets, List.mem_append]
        exact Or.inl (branchOutcome_target xlen MI s _ _ hb)
      · exact hrest _ _ h
      · split at h
        · exact hrest _ _ h
        · cases h

theorem readCap_writeCap_number (s : CapMachineState) (r : Register) (c : Capability)
    (d : Nat) (h : r.number ≠ some d) : (s.writeCap r c).readCap (.C d) = s.readCap (.C d) := by
  cases r with
  | NoRegister => rfl
  | X n =>
    have hn : d ≠ n := fun e => h (by rw [e]; rfl)
    simp [CapMachineState.readCap, CapMachineState.writeCap, hn]
  | C n =>
    have hn : d ≠ n := fun e => h (by rw [e]; rfl)
    simp [CapMachineState.readCap, CapMachineState.writeCap, hn]

theorem defReg_of_isCapLoadReserved {MI : MachineInstr} {rd : Register}
    {rest : List MachineOperand} (h : MI.isCapLoadReserved = true)
    (hops : MI.operands = .Reg rd :: rest) : MI.defReg = some rd := by
  obtain ⟨op, ops, DL⟩ := MI
  cases op with
  | generic n => simp [MachineInstr.isCapLoadReserved] at h
  | target o =>
    simp only at hops
    subst hops
    apply defReg_of_target
    apply isBranch_of_atomicInfo
    intro h0
    simp [MachineInstr.isCapLoadReserved, h0] at h

theorem defReg_of_isCapStoreConditional {MI : MachineInstr} {rd : Register}
    {rest : List MachineOperand} (h : MI.isCapStoreConditional = true)
    (hops : MI.operands = .Reg rd :: rest) : MI.defReg = some rd := by
  obtain ⟨op, ops, DL⟩ := MI
  cases op with
  | generic n => simp [MachineInstr.isCapStoreConditional] at h
  | target o =>
    simp only at hops
    subst hops
    apply defReg_of_target
    apply isBranch_of_atomicInfo
    intro h0
    simp [MachineInstr.isCapStoreConditional, h0] at h

/-- A block of the capability compare-and-swap changes no capability register
but those whose number is the number of a register its operations write. -/
theorem execCapBlock_frame (status d : Nat) :
    ∀ (insts : List MachineInstr) (s : CapMachineState) (off : List (Nat × Capability))
      (out : CapBlockOutcome),
      (∀ MI ∈ insts, ∀ r, MI.defReg = some r → r.number ≠ some d) →
      execCapBlock status insts s off = some out →
      out.state.readCap (.C d) = s.readCap (.C d)
  | [], s, off, out, _, h => by
    simp only [execCapBlock, Option.some.injEq] at h
    subst h
    rfl
  | MI :: rest, s, off, out, hq, h => by
    have hMI := hq MI (List.mem_cons_self _ _)
    have hrest : ∀ M ∈ rest, ∀ r, M.defReg = some r → r.number ≠ some d :=
      fun M hM => hq M (List.mem_cons_of_mem _ hM)
    unfold execCapBlock at h
    split at h
    · rename_i hLR
      split at h
      · rename_i rd rs1 hops
        have hd := defReg_of_isCapLoadReserved hLR hops
        rw [execCapBlock_frame status d rest _ _ out hrest h]
        exact readCap_writeCap_number _ _ _ _ (hMI rd hd)
      · cases h
    · split at h
      · rename_i hSC
        split at h
        · rename_i rd rs1 rs2 hops
          have hd := defReg_of_isCapStoreConditional hSC hops
          rw [execCapBlock_frame status d rest _ _ out hrest h,
            readCap_writeCap_number _ _ _ _ (hMI rd hd)]
          split <;> rfl
        · cases h
      · split at h
        · split at h
          · simp only [Option.some.injEq] at h
            subst h
            rfl
          · exact execCapBlock_frame status d rest _ _ out hrest h
        · cases h

/-- The block a taken branch of a block of the capability compare-and-swap
leads to is a branch target of the block. -/
theorem execCapBlock_target (status : Nat) :
    ∀ (insts : List MachineInstr) (s : CapMachineState) (off : List (Nat × Capability))
      (out : CapBlockOutcome) (t : Nat),
      execCapBlock status insts s off = some out → out.target = some t →
      t ∈ blockBranchTargets insts
  | [], s, off, out, t, h, ht => by
    simp only [execCapBlock, Option.some.injEq] at h
    subst h
    cases ht
  | MI :: rest, s, off, out, t, h, ht => by
    have hrest : ∀ s1 off1, execCapBlock status rest s1 off1 = some out →
        t ∈ blockBranchTargets (MI :: rest) := by
      intro s1 off1 h1
      have := execCapBlock_target status rest s1 off1 out t h1 ht
      simp only [blockBranchTargets, List.mem_append]
      exact Or.inr this
    unfold execCapBlock at h
    split at h
    · split at h
      · exact hrest _ _ h
      · cases h
    · split at h
      · split at h
        · exact hrest _ _ h
        · cases h
      · obtain ⟨op, ops, DL⟩ := MI
        simp only at h
        split at h
        · split at h
          · simp only [Option.some.injEq] at h
            subst h
            simp only [Option.some.injEq] at ht
            subst ht
            simp [blockBranchTargets, MachineInstr.branchTargets, RISCV.isBranch]
          · exact hrest _ _ h
        · cases h

/-- The head block of an atomic loop, under the capability semantics: at its
end the result register holds the capability its load-reserved read. -/
theorem execCapBlock_head (status : Nat) (L : RISCV) (d : Nat) (hd : d ≠ 0) (A : Register)
    (DL : Nat) (rest : List MachineInstr) (s : CapMachineState)
    (off : List (Nat × Capability)) (out : CapBlockOutcome)
    (hrest : ∀ MI ∈ rest, ∀ r, MI.defReg = some r → r.number ≠ some d)
    (h : execCapBlock status (⟨L, [.Reg (.C d), .Reg A], DL⟩ :: rest) s off = some out) :
    out.state.readCap (.C d) = s.mem (s.readCap A).address := by
  unfold execCapBlock at h
  split at h
  · simp only at h
    rw [execCapBlock_frame status d rest _ _ out hrest h]
    exact readCap_C_writeCap_same _ _ _ hd
  · split at h
    · simp at h
    · simp at h

/-- The head block of an atomic loop, under the integer semantics: at its end
the result register holds the value its load-reserved read. -/
theorem execBlock_head (xlen status : Nat) (L : RISCV) (hL : L.isLR) (D A : Register)
    (hD : D ≠ X0) (DL : Nat) (rest : List MachineInstr) (s : MachineState)
    (off : List (Nat × Nat)) (out : BlockOutcome)
    (hrest : ∀ MI ∈ rest, MI.defReg ≠ some D)
    (h : execBlock xlen status (⟨L, [.Reg D, .Reg A], DL⟩ :: rest) s off = some out) :
    out.state.read D = s.mem (s.read A) := by
  rw [execBlock_LR xlen status L hL] at h
  rw [execBlock_frame xlen status D rest _ _ out hrest h]
  exact read_write_same _ _ _ hD

/-! ## Theorems: control flow through the blocks of an atomic expansion -/

theorem blockIndex_ids : ∀ (R Post : List MachineBasicBlock) (m j : Nat),
    (∀ i B, R[i]? = some B → B.id = m + i) → j < R.length →
    blockIndex (R ++ Post) (m + j) = some j
  | [], _, _, _, _, hj => absurd hj (by simp)
  | B :: R, Post, m, 0, hids, _ => by
    have := hids 0 B (by simp)
    simp [blockIndex, this]
  | B :: R, Post, m, j + 1, hids, hj => by
    have hB := hids 0 B (by simp)
    have ih := blockIndex_ids R Post (m + 1) j
      (fun i B1 h => by
        have := hids (i + 1) B1 (by simpa using h)
        omega)
      (by simpa using hj)
    have e : m + (j + 1) = m + 1 + j := by omega
    rw [List.cons_append, blockIndex, if_neg (by omega), e, ih]
    rfl

theorem blockIndex_fresh : ∀ (Pre rest : List MachineBasicBlock) (t : Nat),
    (∀ B ∈ Pre, B.id ≠ t) →
    blockIndex (Pre ++ rest) t = (blockIndex rest t).map (fun q => Pre.length + q)
  | [], rest, t, _ => by simp
  | B :: Pre, rest, t, h => by
    have hB := h B (List.mem_cons_self _ _)
    have ih := blockIndex_fresh Pre rest t (fun B1 h1 => h B1 (List.mem_cons_of_mem _ h1))
    rw [List.cons_append, blockIndex, if_neg hB, ih, Option.map_map]
    congr 1
    funext q
    simp only [Function.comp, List.length_cons]
    omega

theorem ids_of_range {R : List MachineBasicBlock} {nb n : Nat}
    (h : R.map (fun B => B.id) = List.range' nb n) :
    ∀ i B, R[i]? = some B → B.id = nb + i := by
  intro i B hi
  have h1 : (R.map (fun B => B.id))[i]? = some B.id := by
    rw [List.getElem?_map, hi]
    rfl
  have hlen : R.length = n := by simpa using congrArg List.length h
  have hi1 : i < R.length := (List.getElem?_eq_some_iff.1 hi).1
  rw [h, List.getElem?_range' _ _ (by omega)] at h1
  simp only [Option.some.injEq] at h1
  omega

/-- The positions of the blocks of an atomic loop in the block list, when the
blocks before the loop have identities below those of the loop. -/
theorem atomicLoop_positions {Blocks Pre Post : List MachineBasicBlock} {nb : Nat}
    {D A : Register} {scratch : List MachineOperand} {host head : MachineBasicBlock}
    {body : List MachineBasicBlock} {done : MachineBasicBlock}
    (h : AtomicLoop Blocks Pre Post nb D A scratch host head body done)
    (hfresh : ∀ B ∈ Pre, B.id < nb) (hhost : host.id < nb) :
    Blocks[Pre.length + 1]? = some head ∧
    (∀ p B, Pre.length + 1 < p → p < Pre.length + body.length + 2 →
      Blocks[p]? = some B → B ∈ body) ∧
    (∀ t, nb ≤ t → t ≤ nb + body.length + 1 →
      ∃ q, blockIndex Blocks t = some q ∧ Pre.length + 1 ≤ q ∧
        q ≤ Pre.length + body.length + 2) := by
  refine ⟨?_, ?_, ?_⟩
  · rw [h.hblocks]
    exact getElem?_append_two _ _ _ _
  · intro p B h1 h2 hp
    rw [h.hblocks] at hp
    have e : Pre ++ host :: head :: (body ++ done :: Post) =
        (Pre ++ [host, head]) ++ (body ++ done :: Post) := by simp
    rw [e, List.getElem?_append_right (by simp; omega),
      List.getElem?_append_left (by simp; omega)] at hp
    exact mem_of_getElem?_eq_some hp
  · intro t h1 h2
    have e : Blocks = (Pre ++ [host]) ++ ((head :: (body ++ [done])) ++ Post) := by
      rw [h.hblocks]
      simp
    have hf : ∀ B ∈ Pre ++ [host], B.id ≠ t := by
      intro B hB
      simp only [List.mem_append, List.mem_singleton] at hB
      rcases hB with hB | rfl
      · have := hfresh B hB
        omega
      · omega
    have hi := blockIndex_ids (head :: (body ++ [done])) Post nb (t - nb)
      (ids_of_range h.hids) (by simp; omega)
    rw [show nb + (t - nb) = t by omega] at hi
    refine ⟨Pre.length + 1 + (t - nb), ?_, by omega, by omega⟩
    rw [e, blockIndex_fresh _ _ _ hf, hi]
    simp

theorem writesOnly_ne {insts : List MachineInstr} {scratch : List MachineOperand}
    {D : Register} (h : WritesOnly insts scratch) (hD : MachineOperand.Reg D ∉ scratch) :
    ∀ MI ∈ insts, MI.defReg ≠ some D := by
  intro MI hMI e
  rcases h MI hMI with h1 | ⟨S, h1, h2⟩
  · rw [h1] at e
    cases e
  · rw [h1] at e
    simp only [Option.some.injEq] at e
    subst e
    exact hD h2

theorem writesOnly_number {insts : List MachineInstr} {scratch : List MachineOperand}
    {d : Nat} (h : WritesOnly insts scratch)
    (hd : ∀ S, MachineOperand.Reg S ∈ scratch → S.number ≠ some d) :
    ∀ MI ∈ insts, ∀ r, MI.defReg = some r → r.number ≠ some d := by
  intro MI hMI r e
  rcases h MI hMI with h1 | ⟨S, h1, h2⟩
  · rw [h1] at e
    cases e
  · rw [h1] at e
    simp only [Option.some.injEq] at e
    subst e
    exact hd _ h2

theorem mem_concatBlocks {B : MachineBasicBlock} {Bs : List MachineBasicBlock}
    {MI : MachineInstr} (hB : B ∈ Bs) (hMI : MI ∈ B.insts) : MI ∈ concatBlocks Bs := by
  induction Bs with
  | nil => cases hB
  | cons C rest ih =>
    simp only [concatBlocks, List.mem_append]
    rcases List.mem_cons.1 hB with rfl | h
    · exact Or.inl hMI
    · exact Or.inr (ih h)

theorem execBlockStep_eq_some {xlen status : Nat} {insts : List MachineInstr}
    {s s1 : MachineState} {t : Option Nat}
    (h : execBlockStep xlen status insts s = some (s1, t)) :
    ∃ out, execBlock xlen status insts s [] = some out ∧ out.state = s1 ∧ out.target = t := by
  unfold execBlockStep at h
  cases hE : execBlock xlen status insts s [] with
  | none => rw [hE] at h; cases h
  | some out =>
    rw [hE] at h
    simp only [Option.map_some', Option.some.injEq, Prod.mk.injEq] at h
    exact ⟨out, rfl, h.1, h.2⟩

theorem execCapBlockStep_eq_some {status : Nat} {insts : List MachineInstr}
    {s s1 : CapMachineState} {t : Option Nat}
    (h : execCapBlockStep status insts s = some (s1, t)) :
    ∃ out, execCapBlock status insts s [] = some out ∧ out.state = s1 ∧ out.target = t := by
  unfold execCapBlockStep at h
  cases hE : execCapBlock status insts s [] with
  | none => rw [hE] at h; cases h
  | some out =>
    rw [hE] at h
    simp only [Option.map_some', Option.some.injEq, Prod.mk.injEq] at h
    exact ⟨out, rfl, h.1, h.2⟩

/-- Under the integer semantics, when control goes from the head block of an
atomic loop to its done block, the result register, which is not `X0` and not
a scratch operand, holds at the done block the value the load-reserved of the
last execution of the head block read. -/
theorem atomicLoop_run {Blocks Pre Post : List MachineBasicBlock} {nb : Nat}
    {D A : Register} {scratch : List MachineOperand} {host head : MachineBasicBlock}
    {body : List MachineBasicBlock} {done : MachineBasicBlock}
    (h : AtomicLoop Blocks Pre Post nb D A scratch host head body done)
    (hfresh : ∀ B ∈ Pre, B.id < nb) (hhost : host.id < nb)
    (hDS : MachineOperand.Reg D ∉ scratch) (hD : D ≠ X0)
    (xlen : Nat) (status : Nat → Nat) (fuel : Nat) (s sE : MachineState)
    (tr : List (Nat × MachineState))
    (hrun : runBlocks (execBlockStep xlen) Blocks (Pre.length + body.length + 2) status
      fuel (Pre.length + 1) s [] = some (sE, tr)) :
    ∃ sh, lastVisit (Pre.length + 1) tr = some sh ∧ sE.read D = sh.mem (sh.read A) := by
  obtain ⟨hhead, hbody, hidx⟩ := atomicLoop_positions h hfresh hhost
  obtain ⟨L, DL, rest, hins, hL, hW⟩ := h.hhead
  have hne := writesOnly_ne hW hDS
  refine runBlocks_result (execBlockStep xlen) Blocks (Pre.length + 1)
    (Pre.length + body.length + 2) status (fun s => s.read D) (fun s => s.mem (s.read A))
    (by omega) ?_ ?_ ?_ fuel (Pre.length + 1) s [] sE tr (Nat.le_refl _) (by omega)
    (fun e => absurd rfl e) hrun
  · intro B st s0 s1 t hB hE
    rw [hhead] at hB
    simp only [Option.some.injEq] at hB
    subst hB
    obtain ⟨out, hout, rfl, -⟩ := execBlockStep_eq_some hE
    rw [hins] at hout
    exact execBlock_head xlen st L hL D A hD DL rest s0 [] out
      (fun MI hMI => hne MI (List.mem_append_left _ hMI)) hout
  · intro p B st s0 s1 t h1 h2 hB hE
    have hmem := hbody p B h1 h2 hB
    obtain ⟨out, hout, rfl, -⟩ := execBlockStep_eq_some hE
    exact execBlock_frame xlen st D B.insts s0 [] out
      (fun MI hMI => hne MI (List.mem_append_right _ (mem_concatBlocks hmem hMI))) hout
  · intro p B st s0 s1 t h1 h2 hB hE
    obtain ⟨out, hout, -, ht⟩ := execBlockStep_eq_some hE
    have hmem : B ∈ head :: body := by
      by_cases hp : p = Pre.length + 1
      · subst hp
        rw [hhead] at hB
        simp only [Option.some.injEq] at hB
        subst hB
        exact List.mem_cons_self _ _
      · exact List.mem_cons_of_mem _ (hbody p B (by omega) h2 hB)
    have htt := h.htargets B hmem t (execBlock_target xlen st B.insts s0 [] out t hout ht)
    exact hidx t htt.1 htt.2

/-- Under the capability semantics, when control goes from the head block of an
atomic loop to its done block, the result register, a capability register
other than the null register whose number is not the number of a scratch
operand, holds at the done block the capability the load-reserved of the last
execution of the head block read. -/
theorem atomicLoop_runCap {Blocks Pre Post : List MachineBasicBlock} {nb : Nat}
    {d : Nat} {A : Register} {scratch : List MachineOperand} {host head : MachineBasicBlock}
    {body : List MachineBasicBlock} {done : MachineBasicBlock}
    (h : AtomicLoop Blocks Pre Post nb (.C d) A scratch host head body done)
    (hfresh : ∀ B ∈ Pre, B.id < nb) (hhost : host.id < nb)
    (hDS : ∀ S, MachineOperand.Reg S ∈ scratch → S.number ≠ some d) (hd : d ≠ 0)
    (status : Nat → Nat) (fuel : Nat) (s sE : CapMachineState)
    (tr : List (Nat × CapMachineState))
    (hrun : runBlocks execCapBlockStep Blocks (Pre.length + body.length + 2) status
      fuel (Pre.length + 1) s [] = some (sE, tr)) :
    ∃ sh, lastVisit (Pre.length + 1) tr = some sh ∧
      sE.readCap (.C d) = sh.mem (sh.readCap A).address := by
  obtain ⟨hhead, hbody, hidx⟩ := atomicLoop_positions h hfresh hhost
  obtain ⟨L, DL, rest, hins, hL, hW⟩ := h.hhead
  have hne := writesOnly_number hW hDS
  refine runBlocks_result execCapBlockStep Blocks (Pre.length + 1)
    (Pre.length + body.length + 2) status (fun s => s.readCap (.C d))
    (fun s => s.mem (s.readCap A).address)
    (by omega) ?_ ?_ ?_ fuel (Pre.length + 1) s [] sE tr (Nat.le_refl _) (by omega)
    (fun e => absurd rfl e) hrun
  · intro B st s0 s1 t hB hE
    rw [hhead] at hB
    simp only [Option.some.injEq] at hB
    subst hB
    obtain ⟨out, hout, rfl, -⟩ := execCapBlockStep_eq_some hE
    rw [hins] at hout
    exact execCapBlock_head st L d hd A DL rest s0 [] out
      (fun MI hMI => hne MI (List.mem_append_left _ hMI)) hout
  · intro p B st s0 s1 t h1 h2 hB hE
    have hmem := hbody p B h1 h2 hB
    obtain ⟨out, hout, rfl, -⟩ := execCapBlockStep_eq_some hE
    exact execCapBlock_frame st d B.insts s0 [] out
      (fun MI hMI => hne MI (List.mem_append_right _ (mem_concatBlocks hmem hMI))) hout
  · intro p B st s0 s1 t h1 h2 hB hE
    obtain ⟨out, hout, -, ht⟩ := execCapBlockStep_eq_some hE
    have hmem : B ∈ head :: body := by
      by_cases hp : p = Pre.length + 1
      · subst hp
        rw [hhead] at hB
        simp only [Option.some.injEq] at hB
        subst hB
        exact List.mem_cons_self _ _
      · exact List.mem_cons_of_mem _ (hbody p B (by omega) h2 hB)
    have htt := h.htargets B hmem t (execCapBlock_target st B.insts s0 [] out t hout ht)
    exact hidx t htt.1 htt.2

/-! ## Theorems: the registers the atomic expansions write -/

theorem getReg_inv {MI : MachineInstr} {i : Nat} {r : Register}
    (h : MI.getReg i = .ok r) : MI.operands[i]? = some (.Reg r) := by
  unfold MachineInstr.getReg at h
  split at h
  · rename_i r1 h1
    simp only [Except.ok.injEq] at h
    rw [h1, h]
  · cases h

theorem mem_scratch_one {ops : List MachineOperand} {x : MachineOperand}
    (h : ops[1]? = some x) : x ∈ (ops.drop 1).take 1 := by
  match ops, h with
  | _ :: y :: rest, h =>
    simp only [List.getElem?_cons_succ, List.getElem?_cons_zero, Option.some.injEq] at h
    subst h
    simp

theorem mem_scratch_two {ops : List MachineOperand} {x : MachineOperand}
    (h : ops[1]? = some x ∨ ops[2]? = some x) : x ∈ (ops.drop 1).take 2 := by
  match ops, h with
  | [], h => simp at h
  | [_], h => simp at h
  | [_, y], h =>
    simp only [List.getElem?_cons_succ, List.getElem?_cons_zero, Option.some.injEq,
      List.getElem?_nil, reduceCtorEq, or_false] at h
    subst h
    simp
  | _ :: y :: z :: rest, h =>
    simp only [List.getElem?_cons_succ, List.getElem?_cons_zero, Option.some.injEq] at h
    rcases h with rfl | rfl <;> simp

theorem writesOnly_nil (scratch : List MachineOperand) : WritesOnly [] scratch :=
  fun _ h => absurd h (List.not_mem_nil _)

theorem writesOnly_branch (o : RISCV) (ops : List MachineOperand) (DL : Nat)
    (rest : List MachineInstr) (scratch : List MachineOperand) (ho : o.isBranch = true)
    (h : WritesOnly rest scratch) : WritesOnly (⟨o, ops, DL⟩ :: rest) scratch := by
  intro MI hMI
  rcases List.mem_cons.1 hMI with rfl | h1
  · left
    cases ops with
    | nil => rfl
    | cons x xs => cases x <;> simp [MachineInstr.defReg, ho]
  · exact h MI h1

theorem writesOnly_write (o : RISCV) (S : Register) (ops : List MachineOperand) (DL : Nat)
    (rest : List MachineInstr) (scratch : List MachineOperand) (ho : o.isBranch = false)
    (hS : MachineOperand.Reg S ∈ scratch)
    (h : WritesOnly rest scratch) : WritesOnly (⟨o, .Reg S :: ops, DL⟩ :: rest) scratch := by
  intro MI hMI
  rcases List.mem_cons.1 hMI with rfl | h1
  · exact Or.inr ⟨S, defReg_of_target _ _ _ _ ho, hS⟩
  · exact h MI h1

theorem expandAtomicCmpXchgCap_loop {LV : LiveInsOracle} {MF : MachineFunction}
    {I k : Nat} {PtrIsCap : Bool}
    {MBB : MachineBasicBlock} {MI : MachineInstr} {r : MachineFunction × Nat × Bool}
    (hB : MF.Blocks[I]? = some MBB) (hI : MBB.insts[k]? = some MI)
    (h : expandAtomicCmpXchgCap LV MF I k PtrIsCap = .ok r) :
    ∃ (host head tail done : MachineBasicBlock) (D A : Register),
      AtomicLoop r.1.Blocks (MF.Blocks.take I) (MF.Blocks.drop (I + 1)) MF.nextBlock D A
        ((MI.operands.drop 1).take 1) host head [tail] done ∧
      host.id = MBB.id ∧ MI.operands[0]? = some (.Reg D) := by
  have hk := length_take_of_getElem? hI
  simp only [expandAtomicCmpXchgCap, hB, hI, hk, Option.elim, bind_eq_ok, Except.ok.injEq,
    exists_eq_left', pure, Except.pure,
    MachineFunction.CreateMachineBasicBlock, MachineBasicBlock.addSuccessor,
    MachineBasicBlock.splice, MachineBasicBlock.transferSuccessors,
    MachineBasicBlock.erase, List.nil_append, List.length_nil, eraseIdx_zero_drop] at h
  obtain ⟨D, hD, S, hS, A, -, C, -, N, -, o, -, LR, hLR, SC, hSC, rfl⟩ := h
  have hL := getLRForRMWCap_isLR hLR
  have hSb := isBranch_of_isSC (getSCForRMWCap_isSC hSC)
  have hSm := mem_scratch_one (getReg_inv hS)
  refine ⟨_, _, _, _, D, A, ⟨insert_blocks _ _ _, rfl, ⟨LR, _, _, rfl, hL, ?_⟩, ?_⟩, rfl,
    getReg_inv hD⟩
  · simp only [concatBlocks, computeAndAddLiveIns, BuildMI, List.append_eq, List.nil_append,
      List.cons_append, List.append_nil, List.append_assoc]
    repeat' first
      | exact writesOnly_nil _
      | refine writesOnly_branch _ _ _ _ _ rfl ?_
      | refine writesOnly_write _ _ _ _ _ _ hSb hSm ?_
  · intro B hB t ht
    simp only [List.mem_cons, List.mem_singleton, List.not_mem_nil, or_false] at hB
    rcases hB with rfl | rfl <;>
      simp [computeAndAddLiveIns, BuildMI, blockBranchTargets, MachineInstr.branchTargets,
        isBranch_of_isLR hL, hSb, RISCV.isBranch] at ht <;>
      subst ht <;> simp only [List.length_cons, List.length_nil] <;> omega

theorem expandAtomicCmpXchg_loop {LV : LiveInsOracle} {MF : MachineFunction}
    {I k : Nat} {IsMasked : Bool} {Width : Int} {PtrIsCap : Bool}
    {MBB : MachineBasicBlock} {MI : MachineInstr} {r : MachineFunction × Nat × Bool}
    (hB : MF.Blocks[I]? = some MBB) (hI : MBB.insts[k]? = some MI)
    (h : expandAtomicCmpXchg LV MF I k IsMasked Width PtrIsCap = .ok r) :
    ∃ (host head tail done : MachineBasicBlock) (D A : Register),
      AtomicLoop r.1.Blocks (MF.Blocks.take I) (MF.Blocks.drop (I + 1)) MF.nextBlock D A
        ((MI.operands.drop 1).take 1) host head [tail] done ∧
      host.id = MBB.id ∧ MI.operands[0]? = some (.Reg D) := by
  have hk := length_take_of_getElem? hI
  cases IsMasked <;>
    simp only [expandAtomicCmpXchg, hB, hI, hk, Option.elim, bind_eq_ok, Except.ok.injEq,
      exists_eq_left', exists_assert, pure, Except.pure,
      MachineFunction.CreateMachineBasicBlock, MachineBasicBlock.addSuccessor,
      MachineBasicBlock.splice, MachineBasicBlock.transferSuccessors,
      MachineBasicBlock.erase, List.nil_append, List.length_nil, eraseIdx_zero_drop,
      false_and, and_false, exists_false, reduceCtorEq, if_true, if_false,
      Bool.false_eq_true, Bool.not_false, Bool.not_true] at h
  · obtain ⟨D, hD, S, hS, A, -, C, -, N, -, o, -, LR, hLR, SC, hSC, rfl⟩ := h
    have hL := getLRForRMW_isLR hLR
    have hSb := isBranch_of_isSC (getSCForRMW_isSC hSC)
    have hSm := mem_scratch_one (getReg_inv hS)
    refine ⟨_, _, _, _, D, A, ⟨insert_blocks _ _ _, rfl, ⟨LR, _, _, rfl, hL, ?_⟩, ?_⟩, rfl,
      getReg_inv hD⟩
    · simp only [concatBlocks, computeAndAddLiveIns, BuildMI, List.append_eq,
        List.nil_append, List.cons_append, List.append_nil, List.append_assoc]
      repeat' first
        | exact writesOnly_nil _
        | refine writesOnly_branch _ _ _ _ _ rfl ?_
        | refine writesOnly_write _ _ _ _ _ _ hSb hSm ?_
    · intro B hB t ht
      simp only [List.mem_cons, List.mem_singleton, List.not_mem_nil, or_false] at hB
      rcases hB with rfl | rfl <;>
        simp [computeAndAddLiveIns, BuildMI, blockBranchTargets, MachineInstr.branchTargets,
          isBranch_of_isLR hL, hSb, RISCV.isBranch] at ht <;>
        subst ht <;> simp only [List.length_cons, List.length_nil] <;> omega
  · obtain ⟨D, hD, S, hS, A, -, C, -, N, -, o, -, -, M, -, LR, hLR, T, hT, SC, hSC, rfl⟩ := h
    have hL := getLRForRMW_isLR hLR
    have hSb := isBranch_of_isSC (getSCForRMW_isSC hSC)
    have hSm := mem_scratch_one (getReg_inv hS)
    have hT1 := insertMaskedMerge_ok hT
    subst hT1
    refine ⟨_, _, _, _, D, A, ⟨insert_blocks _ _ _, rfl, ⟨LR, _, _, rfl, hL, ?_⟩, ?_⟩, rfl,
      getReg_inv hD⟩
    · simp only [concatBlocks, computeAndAddLiveIns, BuildMI, List.append_eq,
        List.nil_append, List.cons_append, List.append_nil, List.append_assoc]
      repeat' first
        | exact writesOnly_nil _
        | refine writesOnly_branch _ _ _ _ _ rfl ?_
        | refine writesOnly_write _ _ _ _ _ _ rfl hSm ?_
        | refine writesOnly_write _ _ _ _ _ _ hSb hSm ?_
    · intro B hB t ht
      simp only [List.mem_cons, List.mem_singleton, List.not_mem_nil, or_false] at hB
      rcases hB with rfl | rfl <;>
        simp [computeAndAddLiveIns, BuildMI, blockBranchTargets, MachineInstr.branchTargets,
          isBranch_of_isLR hL, hSb, RISCV.isBranch] at ht <;>
        subst ht <;> simp only [List.length_cons, List.length_nil] <;> omega

theorem doAtomicBinOpExpansion_writes {MI : MachineInstr} {DL : Nat}
    {MF : MachineFunction} {MBB L : MachineBasicBlock} {BinOp : BinOp} {Width : Int}
    {PtrIsCap : Bool}
    (h : doAtomicBinOpExpansion MI DL (rmwLoopBlock MF MBB) BinOp Width PtrIsCap = .ok L) :
    ∃ (D A : Register) (LR : RISCV) (rest : List MachineInstr),
      MI.operands[0]? = some (.Reg D) ∧ L.insts = ⟨LR, [.Reg D, .Reg A], DL⟩ :: rest ∧
      LR.isLR ∧ WritesOnly rest ((MI.operands.drop 1).take 1) := by
  cases BinOp <;>
    simp only [doAtomicBinOpExpansion, bind_eq_ok, Except.ok.injEq, exists_eq_left',
      false_and, and_false, exists_false, reduceCtorEq] at h
  all_goals
    obtain ⟨D, hD, S, hS, A, -, I, -, o, -, LR, hLR, SC, hSC, rfl⟩ := h
    have hL := getLRForRMW_isLR hLR
    have hSb := isBranch_of_isSC (getSCForRMW_isSC hSC)
    have hSm := mem_scratch_one (getReg_inv hS)
    refine ⟨D, A, LR, _, getReg_inv hD, rfl, hL, ?_⟩
    simp only [rmwLoopBlock, BuildMI, List.append_eq, List.nil_append, List.cons_append,
      List.append_nil, List.append_assoc]
    repeat' first
      | exact writesOnly_nil _
      | refine writesOnly_branch _ _ _ _ _ rfl ?_
      | refine writesOnly_write _ _ _ _ _ _ rfl hSm ?_
      | refine writesOnly_write _ _ _ _ _ _ hSb hSm ?_

theorem doMaskedAtomicBinOpExpansion_writes {MI : MachineInstr} {DL : Nat}
    {MF : MachineFunction} {MBB L : MachineBasicBlock} {BinOp : BinOp} {Width : Int}
    (h : doMaskedAtomicBinOpExpansion MI DL (rmwLoopBlock MF MBB) BinOp Width = .ok L) :
    ∃ (D A : Register) (LR : RISCV) (rest : List MachineInstr),
      MI.operands[0]? = some (.Reg D) ∧ L.insts = ⟨LR, [.Reg D, .Reg A], DL⟩ :: rest ∧
      LR.isLR ∧ WritesOnly rest ((MI.operands.drop 1).take 1) := by
  cases BinOp <;>
    simp only [doMaskedAtomicBinOpExpansion, bind_eq_ok, Except.ok.injEq, exists_eq_left',
      false_and, exists_false, reduceCtorEq, exists_assert, and_false] at h
  all_goals
    obtain ⟨-, D, hD, S, hS, A, -, I, -, M, -, o, -, LR, hLR, L1, hL1, SC, hSC, rfl⟩ := h
    have hL := getLRForRMW32_isLR hLR
    have hSb := isBranch_of_isSC (getSCForRMW32_isSC hSC)
    have hSm := mem_scratch_one (getReg_inv hS)
    have hL2 := insertMaskedMerge_ok hL1
    subst hL2
    refine ⟨D, A, LR, _, getReg_inv hD, rfl, hL, ?_⟩
    simp only [rmwLoopBlock, BuildMI, List.append_eq, List.nil_append, List.cons_append,
      List.append_nil, List.append_assoc]
    repeat' first
      | exact writesOnly_nil _
      | refine writesOnly_branch _ _ _ _ _ rfl ?_
      | refine writesOnly_write _ _ _ _ _ _ rfl hSm ?_
      | refine writesOnly_write _ _ _ _ _ _ hSb hSm ?_

theorem expandAtomicBinOp_loop {LV : LiveInsOracle} {MF : MachineFunction} {I k : Nat}
    {BinOp : BinOp} {IsMasked : Bool} {Width : Int} {PtrIsCap : Bool}
    {MBB : MachineBasicBlock} {MI : MachineInstr} {r : MachineFunction × Nat × Bool}
    (hB : MF.Blocks[I]? = some MBB) (hI : MBB.insts[k]? = some MI)
    (h : expandAtomicBinOp LV MF I k BinOp IsMasked Width PtrIsCap = .ok r) :
    ∃ (host head done : MachineBasicBlock) (D A : Register),
      AtomicLoop r.1.Blocks (MF.Blocks.take I) (MF.Blocks.drop (I + 1)) MF.nextBlock D A
        ((MI.operands.drop 1).take 1) host head [] done ∧
      host.id = MBB.id ∧ MI.operands[0]? = some (.Reg D) := by
  by_cases hMC : (IsMasked && PtrIsCap) = false
  · rw [expandAtomicBinOp_eq LV MF I k BinOp IsMasked Width PtrIsCap MBB MI hB hI hMC] at h
    split at h
    · cases h
    · rename_i L hL
      simp only [Except.ok.injEq] at h
      subst h
      have hA : Appends (rmwLoopBlock MF MBB) L := by
        cases IsMasked
        · exact doAtomicBinOpExpansion_appends hL
        · exact doMaskedAtomicBinOpExpansion_appends hL
      have hT : blockBranchTargets L.insts = [MF.nextBlock] := by
        cases IsMasked
        · exact doAtomicBinOpExpansion_targets hL rfl
        · exact doMaskedAtomicBinOpExpansion_targets hL rfl
      have hW : ∃ (D A : Register) (LR : RISCV) (rest : List MachineInstr),
          MI.operands[0]? = some (.Reg D) ∧
          L.insts = ⟨LR, [.Reg D, .Reg A], MI.DL⟩ :: rest ∧
          LR.isLR ∧ WritesOnly rest ((MI.operands.drop 1).take 1) := by
        cases IsMasked
        · exact doAtomicBinOpExpansion_writes hL
        · exact doMaskedAtomicBinOpExpansion_writes hL
      obtain ⟨D, A, LR, rest, hD, hins, hLR, hWr⟩ := hW
      have hid : L.id = MF.nextBlock := hA.id
      refine ⟨_, _, _, D, A, ⟨insert_blocks _ _ _, ?_, ⟨LR, _, rest, hins, hLR, ?_⟩, ?_⟩, rfl,
        hD⟩
      · show [L.id, MF.nextBlock + 1] = [MF.nextBlock, MF.nextBlock + 1]
        rw [hid]
      · simpa [concatBlocks] using hWr
      · intro B hB t ht
        simp only [List.mem_cons, List.mem_singleton, List.not_mem_nil, or_false] at hB
        subst hB
        have ht1 : t ∈ blockBranchTargets L.insts := ht
        rw [hT] at ht1
        simp only [List.mem_singleton] at ht1
        subst ht1
        simp only [List.length_nil]
        omega
  · exfalso
    simp only [Bool.not_eq_false] at hMC
    simp [expandAtomicBinOp, hMC, assert, bind, Except.bind] at h

set_option maxHeartbeats 2000000 in
theorem expandAtomicMinMaxOp_loop {LV : LiveInsOracle} {MF : MachineFunction}
    {I k : Nat} {BinOp : BinOp} {IsMasked : Bool} {Width : Int} {PtrIsCap : Bool}
    {MBB : MachineBasicBlock} {MI : MachineInstr} {r : MachineFunction × Nat × Bool}
    (hB : MF.Blocks[I]? = some MBB) (hI : MBB.insts[k]? = some MI)
    (h : expandAtomicMinMaxOp LV MF I k BinOp IsMasked Width PtrIsCap = .ok r) :
    ∃ (host head ifb tail done : MachineBasicBlock) (D A : Register),
      AtomicLoop r.1.Blocks (MF.Blocks.take I) (MF.Blocks.drop (I + 1)) MF.nextBlock D A
        ((MI.operands.drop 1).take (bif IsMasked then 2 else 1)) host head [ifb, tail] done ∧
      host.id = MBB.id ∧ MI.operands[0]? = some (.Reg D) := by
  have hk := length_take_of_getElem? hI
  cases IsMasked <;> cases BinOp <;>
    simp only [expandAtomicMinMaxOp, hB, hI, hk, Option.elim, bind_eq_ok, Except.ok.injEq,
      exists_eq_left', exists_assert, pure, Except.pure,
      MachineFunction.CreateMachineBasicBlock, MachineBasicBlock.addSuccessor,
      MachineBasicBlock.splice, MachineBasicBlock.transferSuccessors,
      MachineBasicBlock.erase, List.nil_append, List.length_nil, eraseIdx_zero_drop,
      false_and, and_false, exists_false, reduceCtorEq, if_true, if_false,
      Bool.false_eq_true] at h
  all_goals
    first
    | obtain ⟨D, hD, S, hS, A, -, In, -, o, -, LR, hLR, SC, hSC, rfl⟩ := h
      have hL := getLRForRMW_isLR hLR
      have hSb := isBranch_of_isSC (getSCForRMW_isSC hSC)
      have hSm : MachineOperand.Reg S ∈
          (MI.operands.drop 1).take (bif false then 2 else 1) :=
        mem_scratch_one (getReg_inv hS)
      refine ⟨_, _, _, _, _, D, A, ⟨insert_blocks _ _ _, rfl, ⟨LR, _, _, rfl, hL, ?_⟩, ?_⟩,
        rfl, getReg_inv hD⟩
      · simp only [concatBlocks, computeAndAddLiveIns, BuildMI, List.append_eq,
          List.nil_append, List.cons_append, List.append_nil, List.append_assoc]
        repeat' first
          | exact writesOnly_nil _
          | refine writesOnly_branch _ _ _ _ _ rfl ?_
          | refine writesOnly_write _ _ _ _ _ _ rfl hSm ?_
          | refine writesOnly_write _ _ _ _ _ _ hSb hSm ?_
      · intro B hB t ht
        simp only [List.mem_cons, List.mem_singleton, List.not_mem_nil, or_false] at hB
        rcases hB with rfl | rfl | rfl <;>
          simp [computeAndAddLiveIns, BuildMI, blockBranchTargets,
            MachineInstr.branchTargets, isBranch_of_isLR hL, hSb, RISCV.isBranch] at ht <;>
          subst ht <;> simp only [List.length_cons, List.length_nil] <;> omega
    | obtain ⟨-, -, D, hD, S1, hS1, S2, hS2, A, -, In, -, M, -, o, -, LR, hLR, Sh, -, Bd, hBd,
        SC, hSC, rfl⟩ := h
      have hL := getLRForRMW32_isLR hLR
      have hSb := isBranch_of_isSC (getSCForRMW32_isSC hSC)
      have hS1m : MachineOperand.Reg S1 ∈
          (MI.operands.drop 1).take (bif true then 2 else 1) :=
        mem_scratch_two (Or.inl (getReg_inv hS1))
      have hS2m : MachineOperand.Reg S2 ∈
          (MI.operands.drop 1).take (bif true then 2 else 1) :=
        mem_scratch_two (Or.inr (getReg_inv hS2))
      have hBd1 := insertMaskedMerge_ok hBd
      subst hBd1
      refine ⟨_, _, _, _, _, D, A, ⟨insert_blocks _ _ _, rfl, ⟨LR, _, _, rfl, hL, ?_⟩, ?_⟩,
        rfl, getReg_inv hD⟩
      · simp only [concatBlocks, computeAndAddLiveIns, BuildMI, insertSext, List.append_eq,
          List.nil_append, List.cons_append, List.append_nil, List.append_assoc]
        repeat' first
          | exact writesOnly_nil _
          | refine writesOnly_branch _ _ _ _ _ rfl ?_
          | refine writesOnly_write _ _ _ _ _ _ rfl hS1m ?_
          | refine writesOnly_write _ _ _ _ _ _ rfl hS2m ?_
          | refine writesOnly_write _ _ _ _ _ _ hSb hS1m ?_
      · intro B hB t ht
        simp only [List.mem_cons, List.mem_singleton, List.not_mem_nil, or_false] at hB
        rcases hB with rfl | rfl | rfl <;>
          simp [computeAndAddLiveIns, BuildMI, insertSext, blockBranchTargets,
            MachineInstr.branchTargets, isBranch_of_isLR hL, hSb, RISCV.isBranch] at ht <;>
          subst ht <;> simp only [List.length_cons, List.length_nil] <;> omega
    | obtain ⟨-, -, D, hD, S1, hS1, S2, hS2, A, -, In, -, M, -, o, -, LR, hLR, Bd, hBd,
        SC, hSC, rfl⟩ := h
      have hL := getLRForRMW32_isLR hLR
      have hSb := isBranch_of_isSC (getSCForRMW32_isSC hSC)
      have hS1m : MachineOperand.Reg S1 ∈
          (MI.operands.drop 1).take (bif true then 2 else 1) :=
        mem_scratch_two (Or.inl (getReg_inv hS1))
      have hS2m : MachineOperand.Reg S2 ∈
          (MI.operands.drop 1).take (bif true then 2 else 1) :=
        mem_scratch_two (Or.inr (getReg_inv hS2))
      have hBd1 := insertMaskedMerge_ok hBd
      subst hBd1
      refine ⟨_, _, _, _, _, D, A, ⟨insert_blocks _ _ _, rfl, ⟨LR, _, _, rfl, hL, ?_⟩, ?_⟩,
        rfl, getReg_inv hD⟩
      · simp only [concatBlocks, computeAndAddLiveIns, BuildMI, List.append_eq,
          List.nil_append, List.cons_append, List.append_nil, List.append_assoc]
        repeat' first
          | exact writesOnly_nil _
          | refine writesOnly_branch _ _ _ _ _ rfl ?_
          | refine writesOnly_write _ _ _ _ _ _ rfl hS1m ?_
          | refine writesOnly_write _ _ _ _ _ _ rfl hS2m ?_
          | refine writesOnly_write _ _ _ _ _ _ hSb hS1m ?_
      · intro B hB t ht
        simp only [List.mem_cons, List.mem_singleton, List.not_mem_nil, or_false] at hB
        rcases hB with rfl | rfl | rfl <;>
          simp [computeAndAddLiveIns, BuildMI, blockBranchTargets,
            MachineInstr.branchTargets, isBranch_of_isLR hL, hSb, RISCV.isBranch] at ht <;>
          subst ht <;> simp only [List.length_cons, List.length_nil] <;> omega

/-- The call `expandMI` makes for each atomic pseudo opcode, and the operands
`scratchRegs` gives for it: operands 1 and 2 for the masked Min/Max forms,
operand 1 for every other form. -/
theorem expandMI_atomic (o : RISCV) (ha : o.isAtomicPseudo = true) :
    (∃ (BinOp : BinOp) (IsMasked : Bool) (Width : Int) (PtrIsCap : Bool),
      (∀ (ops : List MachineOperand) (DL : Nat),
        MachineInstr.scratchRegs ⟨.target o, ops, DL⟩ = (ops.drop 1).take 1) ∧
      ∀ (LV : LiveInsOracle) (MF : MachineFunction) (I k n : Nat) (MBB : MachineBasicBlock)
        (ops : List MachineOperand) (DL : Nat),
        MF.Blocks[I]? = some MBB → MBB.insts[k]? = some ⟨.target o, ops, DL⟩ →
        expandMI LV MF I k n = expandAtomicBinOp LV MF I k BinOp IsMasked Width PtrIsCap) ∨
    (∃ (BinOp : BinOp) (IsMasked : Bool) (Width : Int) (PtrIsCap : Bool),
      (∀ (ops : List MachineOperand) (DL : Nat),
        MachineInstr.scratchRegs ⟨.target o, ops, DL⟩ =
          (ops.drop 1).take (bif IsMasked then 2 else 1)) ∧
      ∀ (LV : LiveInsOracle) (MF : MachineFunction) (I k n : Nat) (MBB : MachineBasicBlock)
        (ops : List MachineOperand) (DL : Nat),
        MF.Blocks[I]? = some MBB → MBB.insts[k]? = some ⟨.target o, ops, DL⟩ →
        expandMI LV MF I k n =
          expandAtomicMinMaxOp LV MF I k BinOp IsMasked Width PtrIsCap) ∨
    (∃ (IsMasked : Bool) (Width : Int) (PtrIsCap : Bool),
      (∀ (ops : List MachineOperand) (DL : Nat),
        MachineInstr.scratchRegs ⟨.target o, ops, DL⟩ = (ops.drop 1).take 1) ∧
      ∀ (LV : LiveInsOracle) (MF : MachineFunction) (I k n : Nat) (MBB : MachineBasicBlock)
        (ops : List MachineOperand) (DL : Nat),
        MF.Blocks[I]? = some MBB → MBB.insts[k]? = some ⟨.target o, ops, DL⟩ →
        expandMI LV MF I k n = expandAtomicCmpXchg LV MF I k IsMasked Width PtrIsCap) ∨
    (∃ (PtrIsCap : Bool),
      (∀ (ops : List MachineOperand) (DL : Nat),
        MachineInstr.scratchRegs ⟨.target o, ops, DL⟩ = (ops.drop 1).take 1) ∧
      ∀ (LV : LiveInsOracle) (MF : MachineFunction) (I k n : Nat) (MBB : MachineBasicBlock)
        (ops : List MachineOperand) (DL : Nat),
        MF.Blocks[I]? = some MBB → MBB.insts[k]? = some ⟨.target o, ops, DL⟩ →
        expandMI LV MF I k n = expandAtomicCmpXchgCap LV MF I k PtrIsCap) := by
  cases o
  case PseudoAtomicLoadNand32 =>
    refine Or.inl ⟨.Nand, false, 32, false, fun _ _ => rfl, ?_⟩
    intro LV MF I k n MBB ops DL hB hI
    have key : ∀ x, expandMI LV MF I k n = x →
        expandAtomicBinOp LV MF I k .Nand false 32 false = x := by
      intro x h
      unfold expandMI at h
      rw [hB] at h
      change (MBB.insts[k]?.elim (Except.error Fatal.BadOperand) Except.ok >>= _) = _ at h
      rw [hI] at h
      exact h
    exact (key _ rfl).symm
  case PseudoAtomicLoadNand64 =>
    refine Or.inl ⟨.Nand, false, 64, false, fun _ _ => rfl, ?_⟩
    intro LV MF I k n MBB ops DL hB hI
    have key : ∀ x, expandMI LV MF I k n = x →
        expandAtomicBinOp LV MF I k .Nand false 64 false = x := by
      intro x h
      unfold expandMI at h
      rw [hB] at h
      change (MBB.insts[k]?.elim (Except.error Fatal.BadOperand) Except.ok >>= _) = _ at h
      rw [hI] at h
      exact h
    exact (key _ rfl).symm
  case PseudoMaskedAtomicSwap32 =>
    refine Or.inl ⟨.Xchg, true, 32, false, fun _ _ => rfl, ?_⟩
    intro LV MF I k n MBB ops DL hB hI
    have key : ∀ x, expandMI LV MF I k n = x →
        expandAtomicBinOp LV MF I k .Xchg true 32 false = x := by
      intro x h
      unfold expandMI at h
      rw [hB] at h
      change (MBB.insts[k]?.elim (Except.error Fatal.BadOperand) Except.ok >>= _) = _ at h
      rw [hI] at h
      exact h
    exact (key _ rfl).symm
  case PseudoMaskedAtomicLoadAdd32 =>
    refine Or.inl ⟨.Add, true, 32, false, fun _ _ => rfl, ?_⟩
    intro LV MF I k n MBB ops DL hB hI
    have key : ∀ x, expandMI LV MF I k n = x →
        expandAtomicBinOp LV MF I k .Add true 32 false = x := by
      intro x h
      unfold expandMI at h
      rw [hB] at h
      change (MBB.insts[k]?.elim (Except.error Fatal.BadOperand) Except.ok >>= _) = _ at h
      rw [hI] at h
      exact h
    exact (key _ rfl).symm
  case PseudoMaskedAtomicLoadSub32 =>
    refine Or.inl ⟨.Sub, true, 32, false, fun _ _ => rfl, ?_⟩
    intro LV MF I k n MBB ops DL hB hI
    have key : ∀ x, expandMI LV MF I k n = x →
        expandAtomicBinOp LV MF I k .Sub true 32 false = x := by
      intro x h
      unfold expandMI at h
      rw [hB] at h
      change (MBB.insts[k]?.elim (Except.error Fatal.BadOperand) Except.ok >>= _) = _ at h
      rw [hI] at h
      exact h
    exact (key _ rfl).symm
  case PseudoMaskedAtomicLoadNand32 =>
    refine Or.inl ⟨.Nand, true, 32, false, fun _ _ => rfl, ?_⟩
    intro LV MF I k n MBB ops DL hB hI
    have key : ∀ x, expandMI LV MF I k n = x →
        expandAtomicBinOp LV MF I k .Nand true 32 false = x := by
      intro x h
      unfold expandMI at h
      rw [hB] at h
      change (MBB.insts[k]?.elim (Except.error Fatal.BadOperand) Except.ok >>= _) = _ at h
      rw [hI] at h
      exact h
    exact (key _ rfl).symm
  case PseudoMaskedAtomicLoadMax32 =>
    refine Or.inr (Or.inl ⟨.Max, true, 32, false, fun _ _ => rfl, ?_⟩)
    intro LV MF I k n MBB ops DL hB hI
    have key : ∀ x, expandMI LV MF I k n = x →
        expandAtomicMinMaxOp LV MF I k .Max true 32 false = x := by
      intro x h
      unfold expandMI at h
      rw [hB] at h
      change (MBB.insts[k]?.elim (Except.error Fatal.BadOperand) Except.ok >>= _) = _ at h
      rw [hI] at h
      exact h
    exact (key _ rfl).symm
  case PseudoMaskedAtomicLoadMin32 =>
    refine Or.inr (Or.inl ⟨.Min, true, 32, false, fun _ _ => rfl, ?_⟩)
    intro LV MF I k n MBB ops DL hB hI
    have key : ∀ x, expandMI LV MF I k n = x →
        expandAtomicMinMaxOp LV MF I k .Min true 32 false = x := by
      intro x h
      unfold expandMI at h
      rw [hB] at h
      change (MBB.insts[k]?.elim (Except.error Fatal.BadOperand) Except.ok >>= _) = _ at h
      rw [hI] at h
      exact h
    exact (key _ rfl).symm
  case PseudoMaskedAtomicLoadUMax32 =>
    refine Or.inr (Or.inl ⟨.UMax, true, 32, false, fun _ _ => rfl, ?_⟩)
    intro LV MF I k n MBB ops DL hB hI
    have key : ∀ x, expandMI LV MF I k n = x →
        expandAtomicMinMaxOp LV MF I k .UMax true 32 false = x := by
      intro x h
      unfold expandMI at h
      rw [hB] at h
      change (MBB.insts[k]?.elim (Except.error Fatal.BadOperand) Except.ok >>= _) = _ at h
      rw [hI] at h
      exact h
    exact (key _ rfl).symm
  case PseudoMaskedAtomicLoadUMin32 =>
    refine Or.inr (Or.inl ⟨.UMin, true, 32, false, fun _ _ => rfl, ?_⟩)
    intro LV MF I k n MBB ops DL hB hI
    have key : ∀ x, expandMI LV MF I k n = x →
        expandAtomicMinMaxOp LV MF I k .UMin true 32 false = x := by
      intro x h
      unfold expandMI at h
      rw [hB] at h
      change (MBB.insts[k]?.elim (Except.error Fatal.BadOperand) Except.ok >>= _) = _ at h
      rw [hI] at h
      exact h
    exact (key _ rfl).symm
  case PseudoCmpXchg32 =>
    refine Or.inr (Or.inr (Or.inl ⟨false, 32, false, fun _ _ => rfl, ?_⟩))
    intro LV MF I k n MBB ops DL hB hI
    have key : ∀ x, expandMI LV MF I k n = x →
        expandAtomicCmpXchg LV MF I k false 32 false = x := by
      intro x h
      unfold expandMI at h
      rw [hB] at h
      change (MBB.insts[k]?.elim (Except.error Fatal.BadOperand) Except.ok >>= _) = _ at h
      rw [hI] at h
      exact h
    exact (key _ rfl).symm
  case PseudoCmpXchg64 =>
    refine Or.inr (Or.inr (Or.inl ⟨false, 64, false, fun _ _ => rfl, ?_⟩))
    intro LV MF I k n MBB ops DL hB hI
    have key : ∀ x, expandMI LV MF I k n = x →
        expandAtomicCmpXchg LV MF I k false 64 false = x := by
      intro x h
      unfold expandMI at h
      rw [hB] at h
      change (MBB.insts[k]?.elim (Except.error Fatal.BadOperand) Except.ok >>= _) = _ at h
      rw [hI] at h
      exact h
    exact (key _ rfl).symm
  case PseudoMaskedCmpXchg32 =>
    refine Or.inr (Or.inr (Or.inl ⟨true, 32, false, fun _ _ => rfl, ?_⟩))
    intro LV MF I k n MBB ops DL hB hI
    have key : ∀ x, expandMI LV MF I k n = x →
        expandAtomicCmpXchg LV MF I k true 32 false = x := by
      intro x h
      unfold expandMI at h
      rw [hB] at h
      change (MBB.insts[k]?.elim (Except.error Fatal.BadOperand) Except.ok >>= _) = _ at h
      rw [hI] at h
      exact h
    exact (key _ rfl).symm
  case PseudoCmpXchgCap =>
    refine Or.inr (Or.inr (Or.inr ⟨false, fun _ _ => rfl, ?_⟩))
    intro LV MF I k n MBB ops DL hB hI
    have key : ∀ x, expandMI LV MF I k n = x →
        expandAtomicCmpXchgCap LV MF I k false = x := by
      intro x h
      unfold expandMI at h
      rw [hB] at h
      change (MBB.insts[k]?.elim (Except.error Fatal.BadOperand) Except.ok >>= _) = _ at h
      rw [hI] at h
      exact h
    exact (key _ rfl).symm
  case PseudoCheriAtomicSwap8 =>
    refine Or.inl ⟨.Xchg, false, 8, true, fun _ _ => rfl, ?_⟩
    intro LV MF I k n MBB ops DL hB hI
    have key : ∀ x, expandMI LV MF I k n = x →
        expandAtomicBinOp LV MF I k .Xchg false 8 true = x := by
      intro x h
      unfold expandMI at h
      rw [hB] at h
      change (MBB.insts[k]?.elim (Except.error Fatal.BadOperand) Except.ok >>= _) = _ at h
      rw [hI] at h
      exact h
    exact (key _ rfl).symm
  case PseudoCheriAtomicSwap16 =>
    refine Or.inl ⟨.Xchg, false, 16, true, fun _ _ => rfl, ?_⟩
    intro LV MF I k n MBB ops DL hB hI
    have key : ∀ x, expandMI LV MF I k n = x →
        expandAtomicBinOp LV MF I k .Xchg false 16 true = x := by
      intro x h
      unfold expandMI at h
      rw [hB] at h
      change (MBB.insts[k]?.elim (Except.error Fatal.BadOperand) Except.ok >>= _) = _ at h
      rw [hI] at h
      exact h
    exact (key _ rfl).symm
  case PseudoCheriAtomicLoadAdd8 =>
    refine Or.inl ⟨.Add, false, 8, true, fun _ _ => rfl, ?_⟩
    intro LV MF I k n MBB ops DL hB hI
    have key : ∀ x, expandMI LV MF I k n = x →
        expandAtomicBinOp LV MF I k .Add false 8 true = x := by
      intro x h
      unfold expandMI at h
      rw [hB] at h
      change (MBB.insts[k]?.elim (Except.error Fatal.BadOperand) Except.ok >>= _) = _ at h
      rw [hI] at h
      exact h
    exact (key _ rfl).symm
  case PseudoCheriAtomicLoadAdd16 =>
    refine Or.inl ⟨.Add, false, 16, true, fun _ _ => rfl, ?_⟩
    intro LV MF I k n MBB ops DL hB hI
    have key : ∀ x, expandMI LV MF I k n = x →
        expandAtomicBinOp LV MF I k .Add false 16 true = x := by
      intro x h
      unfold expandMI at h
      rw [hB] at h
      change (MBB.insts[k]?.elim (Except.error Fatal.BadOperand) Except.ok >>= _) = _ at h
      rw [hI] at h
      exact h
    exact (key _ rfl).symm
  case PseudoCheriAtomicLoadAnd8 =>
    refine Or.inl ⟨.And, false, 8, true, fun _ _ => rfl, ?_⟩
    intro LV MF I k n MBB ops DL hB hI
    have key : ∀ x, expandMI LV MF I k n = x →
        expandAtomicBinOp LV MF I k .And false 8 true = x := by
      intro x h
      unfold expandMI at h
      rw [hB] at h
      change (MBB.insts[k]?.elim (Except.error Fatal.BadOperand) Except.ok >>= _) = _ at h
      rw [hI] at h
      exact h
    exact (key _ rfl).symm
  case PseudoCheriAtomicLoadAnd16 =>
    refine Or.inl ⟨.And, false, 16, true, fun _ _ => rfl, ?_⟩
    intro LV MF I k n MBB ops DL hB hI
    have key : ∀ x, expandMI LV MF I k n = x →
        expandAtomicBinOp LV MF I k .And false 16 true = x := by
      intro x h
      unfold expandMI at h
      rw [hB] at h
      change (MBB.insts[k]?.elim (Except.error Fatal.BadOperand) Except.ok >>= _) = _ at h
      rw [hI] at h
      exact h
    exact (key _ rfl).symm
  case PseudoCheriAtomicLoadOr8 =>
    refine Or.inl ⟨.Or, false, 8, true, fun _ _ => rfl, ?_⟩
    intro LV MF I k n MBB ops DL hB hI
    have key : ∀ x, expandMI LV MF I k n = x →
        expandAtomicBinOp LV MF I k .Or false 8 true = x := by
      intro x h
      unfold expandMI at h
      rw [hB] at h
      change (MBB.insts[k]?.elim (Except.error Fatal.BadOperand) Except.ok >>= _) = _ at h
      rw [hI] at h
      exact h
    exact (key _ rfl).symm
  case PseudoCheriAtomicLoadOr16 =>
    refine Or.inl ⟨.Or, false, 16, true, fun _ _ => rfl, ?_⟩
    intro LV MF I k n MBB ops DL hB hI
    have key : ∀ x, expandMI LV MF I k n = x →
        expandAtomicBinOp LV MF I k .Or false 16 true = x := by
      intro x h
      unfold expandMI at h
      rw [hB] at h
      change (MBB.insts[k]?.elim (Except.error Fatal.BadOperand) Except.ok >>= _) = _ at h
      rw [hI] at h
      exact h
    exact (key _ rfl).symm
  case PseudoCheriAtomicLoadXor8 =>
    refine Or.inl ⟨.Xor, false, 8, true, fun _ _ => rfl, ?_⟩
    intro LV MF I k n MBB ops DL hB hI
    have key : ∀ x, expandMI LV MF I k n = x →
        expandAtomicBinOp LV MF I k .Xor false 8 true = x := by
      intro x h
      unfold expandMI at h
      rw [hB] at h
      change (MBB.insts[k]?.elim (Except.error Fatal.BadOperand) Except.ok >>= _) = _ at h
      rw [hI] at h
      exact h
    exact (key _ rfl).symm
  case PseudoCheriAtomicLoadXor16 =>
    refine Or.inl ⟨.Xor, false, 16, true, fun _ _ => rfl, ?_⟩
    intro LV MF I k n MBB ops DL hB hI
    have key : ∀ x, expandMI LV MF I k n = x →
        expandAtomicBinOp LV MF I k .Xor false 16 true = x := by
      intro x h
      unfold expandMI at h
      rw [hB] at h
      change (MBB.insts[k]?.elim (Except.error Fatal.BadOperand) Except.ok >>= _) = _ at h
      rw [hI] at h
      exact h
    exact (key _ rfl).symm
  case PseudoCheriAtomicLoadNand8 =>
    refine Or.inl ⟨.Nand, false, 8, true, fun _ _ => rfl, ?_⟩
    intro LV MF I k n MBB ops DL hB hI
    have key : ∀ x, expandMI LV MF I k n = x →
        expandAtomicBinOp LV MF I k .Nand false 8 true = x := by
      intro x h
      unfold expandMI at h
      rw [hB] at h
      change (MBB.insts[k]?.elim (Except.error Fatal.BadOperand) Except.ok >>= _) = _ at h
      rw [hI] at h
      exact h
    exact (key _ rfl).symm
  case PseudoCheriAtomicLoadNand16 =>
    refine Or.inl ⟨.Nand, false, 16, true, fun _ _ => rfl, ?_⟩
    intro LV MF I k n MBB ops DL hB hI
    have key : ∀ x, expandMI LV MF I k n = x →
        expandAtomicBinOp LV MF I k .Nand false 16 true = x := by
      intro x h
      unfold expandMI at h
      rw [hB] at h
      change (MBB.insts[k]?.elim (Except.error Fatal.BadOperand) Except.ok >>= _) = _ at h
      rw [hI] at h
      exact h
    exact (key _ rfl).symm
  case PseudoCheriAtomicLoadSub8 =>
    refine Or.inl ⟨.Sub, false, 8, true, fun _ _ => rfl, ?_⟩
    intro LV MF I k n MBB ops DL hB hI
    have key : ∀ x, expandMI LV MF I k n = x →
        expandAtomicBinOp LV MF I k .Sub false 8 true = x := by
      intro x h
      unfold expandMI at h
      rw [hB] at h
      change (MBB.insts[k]?.elim (Except.error Fatal.BadOperand) Except.ok >>= _) = _ at h
      rw [hI] at h
      exact h
    exact (key _ rfl).symm
  case PseudoCheriAtomicLoadSub16 =>
    refine Or.inl ⟨.Sub, false, 16, true, fun _ _ => rfl, ?_⟩
    intro LV MF I k n MBB ops DL hB hI
    have key : ∀ x, expandMI LV MF I k n = x →
        expandAtomicBinOp LV MF I k .Sub false 16 true = x := by
      intro x h
      unfold expandMI at h
      rw [hB] at h
      change (MBB.insts[k]?.elim (Except.error Fatal.BadOperand) Except.ok >>= _) = _ at h
      rw [hI] at h
      exact h
    exact (key _ rfl).symm
  case PseudoCheriAtomicLoadNand32 =>
    refine Or.inl ⟨.Nand, false, 32, true, fun _ _ => rfl, ?_⟩
    intro LV MF I k n MBB ops DL hB hI
    have key : ∀ x, expandMI LV MF I k n = x →
        expandAtomicBinOp LV MF I k .Nand false 32 true = x := by
      intro x h
      unfold expandMI at h
      rw [hB] at h
      change (MBB.insts[k]?.elim (Except.error Fatal.BadOperand) Except.ok >>= _) = _ at h
      rw [hI] at h
      exact h
    exact (key _ rfl).symm
  case PseudoCheriAtomicLoadNand64 =>
    refine Or.inl ⟨.Nand, false, 64, true, fun _ _ => rfl, ?_⟩
    intro LV MF I k n MBB ops DL hB hI
    have key : ∀ x, expandMI LV MF I k n = x →
        expandAtomicBinOp LV MF I k .Nand false 64 true = x := by
      intro x h
      unfold expandMI at h
      rw [hB] at h
      change (MBB.insts[k]?.elim (Except.error Fatal.BadOperand) Except.ok >>= _) = _ at h
      rw [hI] at h
      exact h
    exact (key _ rfl).symm
  case PseudoCheriAtomicLoadMax8 =>
    refine Or.inr (Or.inl ⟨.Max, false, 8, true, fun _ _ => rfl, ?_⟩)
    intro LV MF I k n MBB ops DL hB hI
    have key : ∀ x, expandMI LV MF I k n = x →
        expandAtomicMinMaxOp LV MF I k .Max false 8 true = x := by
      intro x h
      unfold expandMI at h
      rw [hB] at h
      change (MBB.insts[k]?.elim (Except.error Fatal.BadOperand) Except.ok >>= _) = _ at h
      rw [hI] at h
      exact h
    exact (key _ rfl).symm
  case PseudoCheriAtomicLoadMax16 =>
    refine Or.inr (Or.inl ⟨.Max, false, 16, true, fun _ _ => rfl, ?_⟩)
    intro LV MF I k n MBB ops DL hB hI
    have key : ∀ x, expandMI LV MF I k n = x →
        expandAtomicMinMaxOp LV MF I k .Max false 16 true = x := by
      intro x h
      unfold expandMI at h
      rw [hB] at h
      change (MBB.insts[k]?.elim (Except.error Fatal.BadOperand) Except.ok >>= _) = _ at h
      rw [hI] at h
      exact h
    exact (key _ rfl).symm
  case PseudoCheriAtomicLoadMin8 =>
    refine Or.inr (Or.inl ⟨.Min, false, 8, true, fun _ _ => rfl, ?_⟩)
    intro LV MF I k n MBB ops DL hB hI
    have key : ∀ x, expandMI LV MF I k n = x →
        expandAtomicMinMaxOp LV MF I k .Min false 8 true = x := by
      intro x h
      unfold expandMI at h
      rw [hB] at h
      change (MBB.insts[k]?.elim (Except.error Fatal.BadOperand) Except.ok >>= _) = _ at h
      rw [hI] at h
      exact h
    exact (key _ rfl).symm
  case PseudoCheriAtomicLoadMin16 =>
    refine Or.inr (Or.inl ⟨.Min, false, 16, true, fun _ _ => rfl, ?_⟩)
    intro LV MF I k n MBB ops DL hB hI
    have key : ∀ x, expandMI LV MF I k n = x →
        expandAtomicMinMaxOp LV MF I k .Min false 16 true = x := by
      intro x h
      unfold expandMI at h
      rw [hB] at h
      change (MBB.insts[k]?.elim (Except.error Fatal.BadOperand) Except.ok >>= _) = _ at h
      rw [hI] at h
      exact h
    exact (key _ rfl).symm
  case PseudoCheriAtomicLoadUMax8 =>
    refine Or.inr (Or.inl ⟨.UMax, false, 8, true, fun _ _ => rfl, ?_⟩)
    intro LV MF I k n MBB ops DL hB hI
    have key : ∀ x, expandMI LV MF I k n = x →
        expandAtomicMinMaxOp LV MF I k .UMax false 8 true = x := by
      intro x h
      unfold expandMI at h
      rw [hB] at h
      change (MBB.insts[k]?.elim (Except.error Fatal.BadOperand) Except.ok >>= _) = _ at h
      rw [hI] at h
      exact h
    exact (key _ rfl).symm
  case PseudoCheriAtomicLoadUMax16 =>
    refine Or.inr (Or.inl ⟨.UMax, false, 16, true, fun _ _ => rfl, ?_⟩)
    intro LV MF I k n MBB ops DL hB hI
    have key : ∀ x, expandMI LV MF I k n = x →
        expandAtomicMinMaxOp LV MF I k .UMax false 16 true = x := by
      intro x h
      unfold expandMI at h
      rw [hB] at h
      change (MBB.insts[k]?.elim (Except.error Fatal.BadOperand) Except.ok >>= _) = _ at h
      rw [hI] at h
      exact h
    exact (key _ rfl).symm
  case PseudoCheriAtomicLoadUMin8 =>
    refine Or.inr (Or.inl ⟨.UMin, false, 8, true, fun _ _ => rfl, ?_⟩)
    intro LV MF I k n MBB ops DL hB hI
    have key : ∀ x, expandMI LV MF I k n = x →
        expandAtomicMinMaxOp LV MF I k .UMin false 8 true = x := by
      intro x h
      unfold expandMI at h
      rw [hB] at h
      change (MBB.insts[k]?.elim (Except.error Fatal.BadOperand) Except.ok >>= _) = _ at h
      rw [hI] at h
      exact h
    exact (key _ rfl).symm
  case PseudoCheriAtomicLoadUMin16 =>
    refine Or.inr (Or.inl ⟨.UMin, false, 16, true, fun _ _ => rfl, ?_⟩)
    intro LV MF I k n MBB ops DL hB hI
    have key : ∀ x, expandMI LV MF I k n = x →
        expandAtomicMinMaxOp LV MF I k .UMin false 16 true = x := by
      intro x h
      unfold expandMI at h
      rw [hB] at h
      change (MBB.insts[k]?.elim (Except.error Fatal.BadOperand) Except.ok >>= _) = _ at h
      rw [hI] at h
      exact h
    exact (key _ rfl).symm
  case PseudoCheriCmpXchg8 =>
    refine Or.inr (Or.inr (Or.inl ⟨false, 8, true, fun _ _ => rfl, ?_⟩))
    intro LV MF I k n MBB ops DL hB hI
    have key : ∀ x, expandMI LV MF I k n = x →
        expandAtomicCmpXchg LV MF I k false 8 true = x := by
      intro x h
      unfold expandMI at h
      rw [hB] at h
      change (MBB.insts[k]?.elim (Except.error Fatal.BadOperand) Except.ok >>= _) = _ at h
      rw [hI] at h
      exact h
    exact (key _ rfl).symm
  case PseudoCheriCmpXchg16 =>
    refine Or.inr (Or.inr (Or.inl ⟨false, 16, true, fun _ _ => rfl, ?_⟩))
    intro LV MF I k n MBB ops DL hB hI
    have key : ∀ x, expandMI LV MF I k n = x →
        expandAtomicCmpXchg LV MF I k false 16 true = x := by
      intro x h
      unfold expandMI at h
      rw [hB] at h
      change (MBB.insts[k]?.elim (Except.error Fatal.BadOperand) Except.ok >>= _) = _ at h
      rw [hI] at h
      exact h
    exact (key _ rfl).symm
  case PseudoCheriCmpXchg32 =>
    refine Or.inr (Or.inr (Or.inl ⟨false, 32, true, fun _ _ => rfl, ?_⟩))
    intro LV MF I k n MBB ops DL hB hI
    have key : ∀ x, expandMI LV MF I k n = x →
        expandAtomicCmpXchg LV MF I k false 32 true = x := by
      intro x h
      unfold expandMI at h
      rw [hB] at h
      change (MBB.insts[k]?.elim (Except.error Fatal.BadOperand) Except.ok >>= _) = _ at h
      rw [hI] at h
      exact h
    exact (key _ rfl).symm
  case PseudoCheriCmpXchg64 =>
    refine Or.inr (Or.inr (Or.inl ⟨false, 64, true, fun _ _ => rfl, ?_⟩))
    intro LV MF I k n MBB ops DL hB hI
    have key : ∀ x, expandMI LV MF I k n = x →
        expandAtomicCmpXchg LV MF I k false 64 true = x := by
      intro x h
      unfold expandMI at h
      rw [hB] at h
      change (MBB.insts[k]?.elim (Except.error Fatal.BadOperand) Except.ok >>= _) = _ at h
      rw [hI] at h
      exact h
    exact (key _ rfl).symm
  case PseudoCheriCmpXchgCap =>
    refine Or.inr (Or.inr (Or.inr ⟨true, fun _ _ => rfl, ?_⟩))
    intro LV MF I k n MBB ops DL hB hI
    have key : ∀ x, expandMI LV MF I k n = x →
        expandAtomicCmpXchgCap LV MF I k true = x := by
      intro x h
      unfold expandMI at h
      rw [hB] at h
      change (MBB.insts[k]?.elim (Except.error Fatal.BadOperand) Except.ok >>= _) = _ at h
      rw [hI] at h
      exact h
    exact (key _ rfl).symm
  all_goals exact absurd ha (by decide)

/-! ## Theorems: the result register of an atomic expansion -/

/-- The blocks `expandMI` leaves for an atomic pseudo operation form an atomic
loop whose scratch operands are those of the pseudo operation. -/
theorem expandMI_atomicLoop {LV : LiveInsOracle} {MF : MachineFunction} {I k n : Nat}
    {MBB : MachineBasicBlock} {o : RISCV} {ops : List MachineOperand} {DL : Nat}
    {D : Register} {r : MachineFunction × Nat × Bool}
    (hB : MF.Blocks[I]? = some MBB) (hI : MBB.insts[k]? = some ⟨.target o, ops, DL⟩)
    (hat : o.isAtomicPseudo = true) (h0 : ops[0]? = some (.Reg D))
    (hr : expandMI LV MF I k n = .ok r) :
    ∃ (host head : MachineBasicBlock) (body : List MachineBasicBlock)
      (done : MachineBasicBlock) (A : Register),
      AtomicLoop r.1.Blocks (MF.Blocks.take I) (MF.Blocks.drop (I + 1)) MF.nextBlock D A
        (MachineInstr.scratchRegs ⟨.target o, ops, DL⟩) host head body done ∧
      host.id = MBB.id := by
  rcases expandMI_atomic o hat with ⟨BinOp, IsMasked, Width, PtrIsCap, hsc, heq⟩ |
    ⟨BinOp, IsMasked, Width, PtrIsCap, hsc, heq⟩ | ⟨IsMasked, Width, PtrIsCap, hsc, heq⟩ |
    ⟨PtrIsCap, hsc, heq⟩
  · rw [heq LV MF I k n MBB ops DL hB hI] at hr
    obtain ⟨host, head, done, D1, A, hloop, hid, hD1⟩ := expandAtomicBinOp_loop hB hI hr
    have e : D1 = D := by
      have := hD1.symm.trans h0
      simpa using this
    subst e
    rw [hsc]
    exact ⟨host, head, [], done, A, hloop, hid⟩
  · rw [heq LV MF I k n MBB ops DL hB hI] at hr
    obtain ⟨host, head, ifb, tail, done, D1, A, hloop, hid, hD1⟩ :=
      expandAtomicMinMaxOp_loop hB hI hr
    have e : D1 = D := by
      have := hD1.symm.trans h0
      simpa using this
    subst e
    rw [hsc]
    exact ⟨host, head, [ifb, tail], done, A, hloop, hid⟩
  · rw [heq LV MF I k n MBB ops DL hB hI] at hr
    obtain ⟨host, head, tail, done, D1, A, hloop, hid, hD1⟩ :=
      expandAtomicCmpXchg_loop hB hI hr
    have e : D1 = D := by
      have := hD1.symm.trans h0
      simpa using this
    subst e
    rw [hsc]
    exact ⟨host, head, [tail], done, A, hloop, hid⟩
  · rw [heq LV MF I k n MBB ops DL hB hI] at hr
    obtain ⟨host, head, tail, done, D1, A, hloop, hid, hD1⟩ :=
      expandAtomicCmpXchgCap_loop hB hI hr
    have e : D1 = D := by
      have := hD1.symm.trans h0
      simpa using this
    subst e
    rw [hsc]
    exact ⟨host, head, [tail], done, A, hloop, hid⟩

/-- C31 (amended): for every atomic pseudo operation (read-modify-write, Min/Max
and compare-and-swap, masked and unmasked, and the capability compare-and-swap)
that is well formed, stands in a block of a function whose block identities are
below `nextBlock`, and whose result register `D` (operand 0) is none of its
scratch operands, `expandMI` returns a function whose blocks are `Pre`, the
host block, the head block of the loop, the further blocks `body` of the loop,
the done block and `Post`; the head block starts with a load-reserved that
writes `D` from the address in `A`, and no other operation of the head block
or of `body` writes `D`. When moreover `D` is not `X0`, then under the integer
semantics, whenever control that entered the head block reaches the done block,
`D` holds there the value the load-reserved read in the last execution of the
head block. Under the capability semantics the same holds for the whole
capability when `D` is a capability register other than the null register
whose number is not the number of a scratch operand. -/
theorem expandMI_resultRegister (LV : LiveInsOracle) (MF : MachineFunction)
    (Pre Post : List MachineBasicBlock) (MBB : MachineBasicBlock)
    (pre post : List MachineInstr) (P : MachineInstr) (n : Nat) (o : RISCV) (D : Register)
    (hBlocks : MF.Blocks = Pre ++ MBB :: Post) (hinsts : MBB.insts = pre ++ P :: post)
    (hop : P.opcode = .target o) (hat : o.isAtomicPseudo = true)
    (hwf : P.wellFormed = true)
    (hfresh : ∀ B ∈ MF.Blocks, B.id < MF.nextBlock)
    (h0 : P.operands[0]? = some (.Reg D))
    (hDS : MachineOperand.Reg D ∉ P.scratchRegs) :
    ∃ (r : MachineFunction × Nat × Bool) (host head : MachineBasicBlock)
      (body : List MachineBasicBlock) (done : MachineBasicBlock) (A : Register)
      (L : RISCV) (DL : Nat) (rest : List MachineInstr),
      expandMI LV MF Pre.length pre.length n = .ok r ∧
      r.1.Blocks = Pre ++ host :: head :: (body ++ done :: Post) ∧
      head.insts = ⟨L, [.Reg D, .Reg A], DL⟩ :: rest ∧ L.isLR ∧
      (∀ MI ∈ rest ++ concatBlocks body, MI.defReg ≠ some D) ∧
      (D ≠ X0 → ∀ (xlen : Nat) (status : Nat → Nat) (fuel : Nat) (s sE : MachineState)
        (tr : List (Nat × MachineState)),
        runBlocks (execBlockStep xlen) r.1.Blocks (Pre.length + body.length + 2) status
          fuel (Pre.length + 1) s [] = some (sE, tr) →
        ∃ sh, lastVisit (Pre.length + 1) tr = some sh ∧
          sE.read D = sh.mem (sh.read A)) ∧
      (∀ d, D = .C d → d ≠ 0 →
        (∀ S, MachineOperand.Reg S ∈ P.scratchRegs → S.number ≠ some d) →
        ∀ (status : Nat → Nat) (fuel : Nat) (s sE : CapMachineState)
          (tr : List (Nat × CapMachineState)),
        runBlocks execCapBlockStep r.1.Blocks (Pre.length + body.length + 2) status
          fuel (Pre.length + 1) s [] = some (sE, tr) →
        ∃ sh, lastVisit (Pre.length + 1) tr = some sh ∧
          sE.readCap (.C d) = sh.mem (sh.readCap A).address) := by
  have hB : MF.Blocks[Pre.length]? = some MBB := by
    rw [hBlocks]; exact getElem?_append_cons_self _ _ _
  have hI : MBB.insts[pre.length]? = some P := by
    rw [hinsts]; exact getElem?_append_cons_self _ _ _
  obtain ⟨r, hr⟩ := @expandMI_total LV MF Pre.length pre.length n MBB P hB hI hwf
  have htake : MF.Blocks.take Pre.length = Pre := by rw [hBlocks]; simp
  have hdrop : MF.Blocks.drop (Pre.length + 1) = Post := by rw [hBlocks]; simp
  have hPre : ∀ B ∈ Pre, B.id < MF.nextBlock :=
    fun B hB => hfresh B (by rw [hBlocks]; exact List.mem_append_left _ hB)
  have hMBB : MBB.id < MF.nextBlock :=
    hfresh MBB (by rw [hBlocks]; exact List.mem_append_right _ (List.mem_cons_self _ _))
  obtain ⟨op, ops, DL0⟩ := P
  simp only at hop
  subst hop
  obtain ⟨host, head, body, done, A, hloop, hid⟩ := expandMI_atomicLoop hB hI hat h0 hr
  rw [htake, hdrop] at hloop
  have hhost : host.id < MF.nextBlock := by rw [hid]; exact hMBB
  obtain ⟨L, DL1, rest, hins, hL, hW⟩ := hloop.hhead
  refine ⟨r, host, head, body, done, A, L, DL1, rest, hr, hloop.hblocks, hins, hL,
    writesOnly_ne hW hDS, ?_, ?_⟩
  · intro hD xlen status fuel s sE tr hrun
    exact atomicLoop_run hloop hPre hhost hDS hD xlen status fuel s sE tr hrun
  · intro d hd hd0 hnum status fuel s sE tr hrun
    subst hd
    exact atomicLoop_runCap hloop hPre hhost hnum hd0 status fuel s sE tr hrun

/-- Witness of C31: the capability compare-and-swap `cmpXchgCapPseudo` in the
function `cmpXchgCapFunction`, with result register `C 10` and scratch
register `X 11`. -/
theorem expandMI_resultRegister_witness :
    cmpXchgCapFunction.Blocks = [] ++ cmpXchgCapBlock :: [] ∧
    cmpXchgCapBlock.insts = [⟨.generic 1, [], 0⟩] ++ cmpXchgCapPseudo :: [⟨.generic 2, [], 0⟩] ∧
    cmpXchgCapPseudo.opcode = .target .PseudoCmpXchgCap ∧
    RISCV.PseudoCmpXchgCap.isAtomicPseudo = true ∧
    cmpXchgCapPseudo.wellFormed = true ∧
    (∀ B ∈ cmpXchgCapFunction.Blocks, B.id < cmpXchgCapFunction.nextBlock) ∧
    cmpXchgCapPseudo.operands[0]? = some (.Reg (.C 10)) ∧
    MachineOperand.Reg (.C 10) ∉ cmpXchgCapPseudo.scratchRegs ∧
    ∃ (r : MachineFunction × Nat × Bool) (host head : MachineBasicBlock)
      (body : List MachineBasicBlock) (done : MachineBasicBlock) (A : Register)
      (L : RISCV) (DL : Nat) (rest : List MachineInstr),
      expandMI (fun _ _ => []) cmpXchgCapFunction 0 1 2 = .ok r ∧
      r.1.Blocks = [] ++ host :: head :: (body ++ done :: []) ∧
      head.insts = ⟨L, [.Reg (.C 10), .Reg A], DL⟩ :: rest ∧ L.isLR ∧
      (∀ MI ∈ rest ++ concatBlocks body, MI.defReg ≠ some (.C 10)) ∧
      (Register.C 10 ≠ X0 → ∀ (xlen : Nat) (status : Nat → Nat) (fuel : Nat)
        (s sE : MachineState) (tr : List (Nat × MachineState)),
        runBlocks (execBlockStep xlen) r.1.Blocks (0 + body.length + 2) status
          fuel (0 + 1) s [] = some (sE, tr) →
        ∃ sh, lastVisit (0 + 1) tr = some sh ∧
          sE.read (.C 10) = sh.mem (sh.read A)) ∧
      (∀ d, Register.C 10 = .C d → d ≠ 0 →
        (∀ S, MachineOperand.Reg S ∈ cmpXchgCapPseudo.scratchRegs → S.number ≠ some d) →
        ∀ (status : Nat → Nat) (fuel : Nat) (s sE : CapMachineState)
          (tr : List (Nat × CapMachineState)),
        runBlocks execCapBlockStep r.1.Blocks (0 + body.length + 2) status
          fuel (0 + 1) s [] = some (sE, tr) →
        ∃ sh, lastVisit (0 + 1) tr = some sh ∧
          sE.readCap (.C d) = sh.mem (sh.readCap A).address) :=
  ⟨rfl, rfl, rfl, rfl, rfl, by decide, rfl, by decide,
   expandMI_resultRegister (fun _ _ => []) cmpXchgCapFunction [] [] cmpXchgCapBlock
    [⟨.generic 1, [], 0⟩] [⟨.generic 2, [], 0⟩] cmpXchgCapPseudo 2 .PseudoCmpXchgCap (.C 10)
    rfl rfl rfl rfl rfl (by decide) rfl (by decide)⟩

/-- C31 as stated fails when the result register is `X0`: the pseudo operation
`nandPseudoResultX0` has the result register `X0`, distinct from its scratch
register `X 11`; in the state `onesState`, with a store-conditional that
succeeds, control goes from the loop block to the done block, where `X0` reads
0, while the load-reserved of that execution of the loop block read 1. The
pseudo operation is well formed and the block identities of the function are
below `nextBlock`. -/
theorem expandMI_resultX0_counterexample :
    nandPseudoResultX0.wellFormed = true ∧
    (∀ B ∈ nandResultX0Function.Blocks, B.id < nandResultX0Function.nextBlock) ∧
    nandPseudoResultX0.operands[0]? = some (.Reg X0) ∧
    MachineOperand.Reg X0 ∉ nandPseudoResultX0.scratchRegs ∧
    ∃ (r : MachineFunction × Nat × Bool) (host head done : MachineBasicBlock) (L : RISCV)
      (rest : List MachineInstr) (sE sh : MachineState) (tr : List (Nat × MachineState)),
      expandMI (fun _ _ => []) nandResultX0Function 0 1 2 = .ok r ∧
      r.1.Blocks = [host, head, done] ∧
      head.insts = ⟨L, [.Reg X0, .Reg (.X 12)], 0⟩ :: rest ∧ L.isLR ∧
      runBlocks (execBlockStep 64) r.1.Blocks 2 (fun _ => 0) 1 1 onesState [] =
        some (sE, tr) ∧
      lastVisit 1 tr = some sh ∧ sh.mem (sh.read (.X 12)) = 1 ∧ sE.read X0 = 0 :=
  ⟨rfl, by decide, rfl, by decide, _, _, _, _, _, _, _, _, _, rfl, rfl, rfl, ⟨rfl, rfl⟩, rfl,
    rfl, rfl, rfl⟩

/-! ## Theorems: termination of the pass -/

theorem countPseudoBlocks_concat (Bs : List MachineBasicBlock) :
    countPseudoBlocks Bs = countPseudo (concatBlocks Bs) := by
  induction Bs with
  | nil => rfl
  | cons B Bs ih => rw [countPseudoBlocks_cons, ih, concatBlocks, countPseudo_append]

/-- An expansion takes exactly one pseudo operation out of the function and adds
between two and five blocks to it. -/
theorem expanded_count {MF : MachineFunction} {I k : Nat}
    {r : MachineFunction × Nat × Bool} (h : Expanded MF I k r) :
    countPseudoBlocks r.1.Blocks + 1 = countPseudoBlocks MF.Blocks ∧
      MF.Blocks.length < r.1.Blocks.length ∧ r.1.Blocks.length ≤ MF.Blocks.length + 4 := by
  obtain ⟨A, MI, B, em, h1, hp, hem, h2⟩ := expanded_concat h
  obtain ⟨MBB, MI', Host, Mids, Last, conc, hB, -, -, hBl, -, -, -, -, hlen, -, -⟩ := h
  have hIlt := (List.getElem?_eq_some_iff.1 hB).1
  have hlen2 : r.1.Blocks.length = MF.Blocks.length + Mids.length + 1 := by
    rw [hBl]
    simp only [List.length_append, List.length_cons, List.length_nil, List.length_take,
      List.length_drop]
    omega
  refine ⟨?_, by omega, by omega⟩
  rw [countPseudoBlocks_concat, countPseudoBlocks_concat, h1, h2, countPseudo_append,
    countPseudo_append, countPseudo_append, countPseudo_noPseudo hem]
  have hone : countPseudo (MI :: B) = 1 + countPseudo B := by
    have : MI :: B = [MI] ++ B := rfl
    rw [this, countPseudo_append]
    simp [countPseudo, hp]
  rw [hone]
  omega

/-- The block loop gives the same result with any greater fuel. -/
theorem runOnMachineFunctionLoop_fuel (LV : LiveInsOracle) :
    ∀ (fuel : Nat) (MF : MachineFunction) (I : Nat) (M : Bool)
      (r : MachineFunction × Bool),
      runOnMachineFunctionLoop LV fuel MF I M = .ok r →
      ∀ more, fuel ≤ more → runOnMachineFunctionLoop LV more MF I M = .ok r := by
  intro fuel
  induction fuel with
  | zero =>
    intro MF I M r h more _
    unfold runOnMachineFunctionLoop at h
    split at h
    · cases h
    · rename_i hI
      cases more <;> unfold runOnMachineFunctionLoop <;> rw [if_neg hI] <;> exact h
  | succ fuel ih =>
    intro MF I M r h more hm
    obtain ⟨m, rfl⟩ : ∃ m, more = m + 1 := ⟨more - 1, by omega⟩
    unfold runOnMachineFunctionLoop at h ⊢
    split at h
    · rename_i hI
      rw [if_pos hI]
      split at h
      · cases h
      · rename_i MF1 M1 hE
        exact ih MF1 (I + 1) _ r h m (by omega)
    · rename_i hI
      rw [if_neg hI]
      exact h

/-- C32: on every well-formed function runOnMachineFunction returns a result,
and the block loop returns that same result with any greater number of turns
allowed: the turns the loop makes are bounded by the number of blocks plus four
times the number of pseudo operations of the function. For every block of a
well-formed function, expandMBB returns with one turn of its loop allowed per
operation of the block. Every expansion of a pseudo operation returns a
function that holds exactly one pseudo operation less, is again well formed,
and has at least one and at most four blocks more, which the block loop visits
in their turn. -/
theorem runOnMachineFunction_terminates (LV : LiveInsOracle) (MF : MachineFunction)
    (hwf : MF.wellFormed) :
    (∃ r, runOnMachineFunction LV MF = .ok r ∧
      ∀ fuel, MF.Blocks.length + 4 * countPseudoBlocks MF.Blocks ≤ fuel →
        runOnMachineFunctionLoop LV fuel MF 0 false = .ok r) ∧
    (∀ I MBB, MF.Blocks[I]? = some MBB →
      (∃ r, expandMBB LV MF I = .ok r) ∧
      ∀ k MI n, MBB.insts[k]? = some MI → MI.opcode.isPseudo = true →
        ∃ r, expandMI LV MF I k n = .ok r ∧
          countPseudoBlocks r.1.Blocks + 1 = countPseudoBlocks MF.Blocks ∧
          MF.Blocks.length < r.1.Blocks.length ∧
          r.1.Blocks.length ≤ MF.Blocks.length + 4 ∧ r.1.wellFormed) := by
  constructor
  · obtain ⟨r, h⟩ := @runOnMachineFunction_total LV _ hwf
    exact ⟨r, h, fun fuel hf => runOnMachineFunctionLoop_fuel LV _ MF 0 false r h fuel hf⟩
  · intro I MBB hB
    have hMBB : MBB ∈ MF.Blocks := mem_of_getElem?_eq_some hB
    refine ⟨expandMBB_total hB (hwf MBB hMBB), fun k MI n hI hp => ?_⟩
    have hMI : MI ∈ MBB.insts := mem_of_getElem?_eq_some hI
    obtain ⟨r, hr⟩ := @expandMI_total LV MF I k n MBB MI hB hI (hwf MBB hMBB MI hMI)
    rcases expandMI_cases hB hI hr with ⟨hnp, -⟩ | ⟨-, hX⟩
    · rw [hp] at hnp
      cases hnp
    · obtain ⟨h1, h2, h3⟩ := expanded_count hX
      exact ⟨r, hr, h1, h2, h3, Expanded.wellFormed hwf hX⟩

/-- Witness of C32: the function `twoPseudoFunction`, with two pseudo operations
in one block. -/
theorem runOnMachineFunction_terminates_witness :
    twoPseudoFunction.wellFormed ∧
    ∃ r, runOnMachineFunction (fun _ _ => []) twoPseudoFunction = .ok r ∧
      ∀ fuel, twoPseudoFunction.Blocks.length +
          4 * countPseudoBlocks twoPseudoFunction.Blocks ≤ fuel →
        runOnMachineFunctionLoop (fun _ _ => []) fuel twoPseudoFunction 0 false = .ok r :=
  ⟨by unfold MachineFunction.wellFormed; decide,
   (runOnMachineFunction_terminates (fun _ _ => []) twoPseudoFunction
    (by unfold MachineFunction.wellFormed; decide)).1⟩

/-! ## Theorems: the registers of the emitted address pair -/

/-- C33: for a host block that holds pre, an address pseudo operation P whose
operand 0 is the result register, and post. In expandAuipccInstPair, when P has
more than two operands, operand 1 being the intermediate register and operand 2
the symbol, the new block starts with the AUIPCC that writes the intermediate
register from the symbol, and the second operation that writes the result
register and reads the intermediate register; when P has no more than two
operands, operand 1 being the symbol, the AUIPCC writes the result register from
the symbol and the second operation writes and reads the result register. In
expandAuipcInstPair, operand 1 being the symbol, the AUIPC writes the result
register from the symbol and the second operation writes and reads the result
register. -/
theorem expandAuipccInstPair_registers (LV : LiveInsOracle) (MF : MachineFunction)
    (Pre Post : List MachineBasicBlock) (MBB : MachineBasicBlock)
    (pre post : List MachineInstr) (P : MachineInstr)
    (FlagsHi : TargetFlag) (SecondOpcode : RISCV) (DestReg : Register)
    (hBlocks : MF.Blocks = Pre ++ MBB :: Post)
    (hinsts : MBB.insts = pre ++ P :: post)
    (h0 : P.operands[0]? = some (.Reg DestReg)) :
    (∀ (TmpReg : Register) (Symbol : MachineOperand), P.getNumOperands > 2 →
      P.operands[1]? = some (.Reg TmpReg) → P.operands[2]? = some Symbol →
      Symbol.isDisp = true →
      EmitsAddressPair
        (expandAuipccInstPair LV MF Pre.length pre.length FlagsHi SecondOpcode)
        Pre Post post P.DL Symbol DestReg TmpReg .AUIPCC FlagsHi SecondOpcode) ∧
    (∀ (Symbol : MachineOperand), ¬ P.getNumOperands > 2 →
      P.operands[1]? = some Symbol → Symbol.isDisp = true →
      EmitsAddressPair
        (expandAuipccInstPair LV MF Pre.length pre.length FlagsHi SecondOpcode)
        Pre Post post P.DL Symbol DestReg DestReg .AUIPCC FlagsHi SecondOpcode) ∧
    (∀ (Symbol : MachineOperand), P.operands[1]? = some Symbol → Symbol.isDisp = true →
      EmitsAddressPair
        (expandAuipcInstPair LV MF Pre.length pre.length FlagsHi SecondOpcode)
        Pre Post post P.DL Symbol DestReg DestReg .AUIPC FlagsHi SecondOpcode) := by
  refine ⟨fun TmpReg Symbol hn h1 h2 hd => ?_, fun Symbol hn h1 hd => ?_,
    fun Symbol h1 hd => ?_⟩
  · have hops : ∃ rest, P.operands = .Reg DestReg :: .Reg TmpReg :: Symbol :: rest := by
      match hP : P.operands, h0, h1, h2 with
      | a :: b :: c :: rest, h0, h1, h2 =>
        simp only [List.getElem?_cons_zero, List.getElem?_cons_succ,
          Option.some.injEq] at h0 h1 h2
        subst h0 h1 h2
        exact ⟨rest, rfl⟩
    exact emitsAddressPair_auipcc LV MF Pre Post MBB pre post P FlagsHi SecondOpcode
      DestReg TmpReg Symbol hBlocks hinsts hd (Or.inr hops)
  · have hops : P.operands = [.Reg DestReg, Symbol] := by
      match hP : P.operands, h0, h1, hn with
      | [a, b], h0, h1, _ =>
        simp only [List.getElem?_cons_zero, List.getElem?_cons_succ,
          Option.some.injEq] at h0 h1
        subst h0 h1
        rfl
      | a :: b :: c :: rest, _, _, hn =>
        exfalso
        apply hn
        simp [MachineInstr.getNumOperands, hP]
    exact emitsAddressPair_auipcc LV MF Pre Post MBB pre post P FlagsHi SecondOpcode
      DestReg DestReg Symbol hBlocks hinsts hd (Or.inl ⟨hops, rfl⟩)
  · have hops : ∃ rest, P.operands = .Reg DestReg :: Symbol :: rest := by
      match hP : P.operands, h0, h1 with
      | a :: b :: rest, h0, h1 =>
        simp only [List.getElem?_cons_zero, List.getElem?_cons_succ,
          Option.some.injEq] at h0 h1
        subst h0 h1
        exact ⟨rest, rfl⟩
    obtain ⟨rest, hops⟩ := hops
    exact emitsAddressPair_auipc LV MF Pre Post MBB pre post P FlagsHi SecondOpcode
      DestReg Symbol rest hBlocks hinsts hd hops

/-- Witness of C33: the capability global-address pseudo operation
`clgcPseudo`, with three operands, in the one-block function `clgcFunction`. -/
theorem expandAuipccInstPair_registers_witness :
    (clgcFunction.Blocks = [] ++ clgcBlock :: [] ∧
      clgcBlock.insts = [⟨.generic 1, [], 0⟩] ++ clgcPseudo :: [⟨.generic 2, [], 0⟩] ∧
      clgcPseudo.operands[0]? = some (.Reg (.C 10)) ∧
      clgcPseudo.getNumOperands > 2 ∧
      clgcPseudo.operands[1]? = some (.Reg (.C 11)) ∧
      clgcPseudo.operands[2]? = some (.Sym .GlobalAddress 5 0 .MO_None) ∧
      (MachineOperand.Sym .GlobalAddress 5 0 .MO_None).isDisp = true) ∧
    EmitsAddressPair
      (expandAuipccInstPair (fun _ _ => []) clgcFunction 0 1 .MO_CAPTAB_PCREL_HI .CLC_128)
      [] [] [⟨.generic 2, [], 0⟩] 0 (.Sym .GlobalAddress 5 0 .MO_None) (.C 10) (.C 11)
      .AUIPCC .MO_CAPTAB_PCREL_HI .CLC_128 :=
  ⟨⟨rfl, rfl, rfl, by decide, rfl, rfl, rfl⟩,
    (expandAuipccInstPair_registers (fun _ _ => []) clgcFunction [] [] clgcBlock
      [⟨.generic 1, [], 0⟩] [⟨.generic 2, [], 0⟩] clgcPseudo .MO_CAPTAB_PCREL_HI .CLC_128
      (.C 10) rfl rfl rfl).1 (.C 11) (.Sym .GlobalAddress 5 0 .MO_None) (by decide) rfl rfl
      rfl⟩

end RISCVExpandPseudo
